import Mathlib

/-! WarehouseOS: CPU, memory and disk scheduling engines.

A shallow embedding of the algorithm engine of WarehouseOS
(`cpu_scheduler.h`, `memory_manager.h`, `disk_scheduler.h`, `utilities.h`)
and of the block generator of `data_generator.h`.

Conventions of the embedding.

* A C++ `int` is an `Int`.  The code is embedded at two levels.  The
  definitions without a suffix compute on unbounded integers: they are exact
  as long as no intermediate value leaves the range of a 32-bit `int`, and
  they serve the statements about the order of service and the choice of
  tasks, blocks and cylinders.  The definitions with the suffix `32` reduce
  the result of every arithmetic operation to `[-2^31, 2^31)` with `wrapInt`;
  the statements about the value of a computed time or seek total are made
  on them.  The two levels agree while nothing overflows (`fcfsLoop32_eq`,
  `sjfLoop32_eq`, `tickBody32_eq`, `npLoop32_eq`, `runSCAN32_reduce`, ...).
  The sentinel `INT_MAX` has the value `2^31 - 1`.
* A `std::vector` is a `List`; an index that the code initialises to `-1`
  ("nothing found") is an `Option Nat`.
* `std::sort` with the comparator `a.arrival_time < b.arrival_time` is not
  stable: every permutation of its input in non-decreasing order of
  `arrival_time` is a possible outcome (`SortedByArrival`).  `sortByArrival`
  is the outcome that keeps the input order among equal arrival times; the
  `32` versions of the methods that sort take the outcome as an argument.
* A `while` loop is iterated with an explicit iteration budget and returns
  `none` when the budget is used up before the loop condition fails.
* An expression without a value, `completed.back()` on an empty vector, is
  `none`.
* Console output and CSV writing are left out.
-/

/-- The sentinel `INT_MAX` of `<climits>` for a 32-bit `int`. -/
def INT_MAX : Int := 2147483647

/-- Record `Process` of `utilities.h`. -/
structure Process where
  id : Int
  arrival_time : Int
  burst_time : Int
  priority : Int
  completion_time : Int
  waiting_time : Int
  turnaround_time : Int
deriving DecidableEq

/-- Record `MemoryBlock` of `utilities.h`. -/
structure MemoryBlock where
  block_id : Int
  size : Int
  is_allocated : Bool
  process_id : Int
deriving DecidableEq

/-- Record `DiskRequest` of `utilities.h`. -/
structure DiskRequest where
  request_id : Int
  cylinder : Int
  arrival_time : Int
deriving DecidableEq

/-- The four input fields of a task: id, arrival, burst, priority. -/
def Process.input (p : Process) : Int × Int × Int × Int :=
  (p.id, p.arrival_time, p.burst_time, p.priority)

/-- The relations `turnaround = completion - arrival` and
`waiting = turnaround - burst` between the output fields of a task. -/
def Process.MetricsOK (p : Process) : Prop :=
  p.turnaround_time = p.completion_time - p.arrival_time ∧
    p.waiting_time = p.turnaround_time - p.burst_time

instance (p : Process) : Decidable p.MetricsOK := by
  unfold Process.MetricsOK; infer_instance

/-- Generic `while (cond) body`: at most `fuel` iterations, `none` when the
condition still holds after the budget is spent. -/
def whileLoop {σ : Type} (cond : σ → Bool) (body : σ → σ) : Nat → σ → Option σ
  | 0, _ => none
  | fuel + 1, s => if cond s then whileLoop cond body fuel (body s) else some s

namespace CPUScheduler

/-- The call `std::sort(completed.begin(), completed.end(), by arrival_time)`,
for the outcome that keeps the input order among tasks of equal arrival time.
`std::sort` is not stable; all its possible outcomes are described by
`SortedByArrival`. -/
def sortByArrival (ps : List Process) : List Process :=
  ps.insertionSort (fun a b => a.arrival_time ≤ b.arrival_time)

/-- Result of one algorithm run: the vector `completed` and `total_time`. -/
structure Result where
  completed : List Process
  total_time : Int
deriving DecidableEq

/-- Body of the `for (auto& p : completed)` loop of `runFCFS` (lines 27-33)
on unbounded integers, iterated over the vector from cursor `current_time`;
returns the updated tasks and the final cursor.  `fcfsLoop32` is the loop in
32-bit arithmetic. -/
def fcfsLoop : Int → List Process → List Process × Int
  | current_time, [] => ([], current_time)
  | current_time, p :: ps =>
    let current_time := if current_time < p.arrival_time then p.arrival_time else current_time
    let p := { p with completion_time := current_time + p.burst_time }
    let p := { p with waiting_time := current_time - p.arrival_time }
    let p := { p with turnaround_time := p.completion_time - p.arrival_time }
    let r := fcfsLoop p.completion_time ps
    (p :: r.1, r.2)

/-- Method `CPUScheduler::runFCFS` on unbounded integers, for the outcome
`sortByArrival` of the sort. -/
def runFCFS (processes : List Process) : Result :=
  let r := fcfsLoop 0 (sortByArrival processes)
  { completed := r.1, total_time := r.2 }

/-- Inner loop of `runSJF` (lines 47-52).  `remaining` is the element at
position `i`, the list holds positions `i+1 ..`; `std::swap(*remaining, *it)`
exchanges the held element with the scanned one.  (The first pass of the
source loop has `it == remaining` and compares an element with itself, which
never swaps.) -/
def sjfScan (current_time : Int) : Process → List Process → Process × List Process
  | remaining, [] => (remaining, [])
  | remaining, it :: rest =>
    if it.arrival_time ≤ current_time ∧ it.burst_time < remaining.burst_time then
      let r := sjfScan current_time it rest
      (r.1, remaining :: r.2)
    else
      let r := sjfScan current_time remaining rest
      (r.1, it :: r.2)

/-- Outer loop of `runSJF` (lines 45-60) on unbounded integers; the first
argument counts the iterations left (`completed.size() - i`), the list is
`completed[i ..]`.  `sjfLoop32` is the loop in 32-bit arithmetic. -/
def sjfLoop : Nat → Int → List Process → List Process × Int
  | 0, current_time, l => (l, current_time)
  | _ + 1, current_time, [] => ([], current_time)
  | n + 1, current_time, remaining :: rest =>
    let s := sjfScan current_time remaining rest
    let p := s.1
    let current_time := if current_time < p.arrival_time then p.arrival_time else current_time
    let p := { p with completion_time := current_time + p.burst_time }
    let p := { p with waiting_time := current_time - p.arrival_time }
    let p := { p with turnaround_time := p.completion_time - p.arrival_time }
    let r := sjfLoop n p.completion_time s.2
    (p :: r.1, r.2)

/-- Method `CPUScheduler::runSJF` on unbounded integers. -/
def runSJF (processes : List Process) : Result :=
  let r := sjfLoop processes.length 0 processes
  { completed := r.1, total_time := r.2 }

/-- State of the tick-by-tick simulations `runSRJF` and
`runPreemptivePriority`: the vector `completed`, the vector `remaining_time`
and the locals `current_time` and `processed`. -/
structure SimState where
  completed : List Process
  remaining_time : List Int
  current_time : Int
  processed : Int
deriving DecidableEq

/-- Applies `f` to the element at index `i` (an in-place update of
`v[i]`); out of range leaves the vector as it is. -/
def modifyAt {α : Type} (l : List α) (i : Nat) (f : α → α) : List α :=
  match l[i]? with
  | some x => l.set i (f x)
  | none => l

/-- The three assignments made when a task finishes at `current_time`
(lines 109-111, 166-168, 212-214 and 279-281): completion, waiting and
turnaround time. -/
def recordCompletion (current_time : Int) (p : Process) : Process :=
  let p := { p with completion_time := current_time }
  let p := { p with waiting_time := current_time - p.burst_time - p.arrival_time }
  { p with turnaround_time := p.completion_time - p.arrival_time }

/-- Selection scan of `runSRJF` (lines 84-90) from index `i` on, with the
current values of `next_process` and `min_remaining`. -/
def srjfScan (current_time : Int) :
    List Process → List Int → Nat → Option Nat → Int → Option Nat
  | p :: ps, r :: rs, i, next_process, min_remaining =>
    if p.arrival_time ≤ current_time ∧ r > 0 ∧ r < min_remaining then
      srjfScan current_time ps rs (i + 1) (some i) r
    else
      srjfScan current_time ps rs (i + 1) next_process min_remaining
  | _, _, _, next_process, _ => next_process

/-- Selection of `runSRJF`: `next_process` after the scan (lines 81-90). -/
def srjfSelect (s : SimState) : Option Nat :=
  srjfScan s.current_time s.completed s.remaining_time 0 none INT_MAX

/-- Selection scan of `runPreemptivePriority` (lines 187-193) from index `i`
on, with the current values of `next_process` and `highest_priority`. -/
def priorityScan (current_time : Int) :
    List Process → List Int → Nat → Option Nat → Int → Option Nat
  | p :: ps, r :: rs, i, next_process, highest_priority =>
    if p.arrival_time ≤ current_time ∧ r > 0 ∧ p.priority > highest_priority then
      priorityScan current_time ps rs (i + 1) (some i) p.priority
    else
      priorityScan current_time ps rs (i + 1) next_process highest_priority
  | _, _, _, next_process, _ => next_process

/-- Selection of `runPreemptivePriority`: `next_process` after the scan
(lines 184-193). -/
def prioritySelect (s : SimState) : Option Nat :=
  priorityScan s.current_time s.completed s.remaining_time 0 none (-1)

/-- Scan for the next arrival (lines 94-98 and 197-201), with the current
value of `next_arrival`. -/
def nextArrival : List Process → List Int → Int → Int
  | p :: ps, r :: rs, next_arrival =>
    if r > 0 ∧ p.arrival_time < next_arrival then nextArrival ps rs p.arrival_time
    else nextArrival ps rs next_arrival
  | _, _, next_arrival => next_arrival

/-- One iteration of the `while` loop of `runSRJF` (lines 81-113) and of
`runPreemptivePriority` (lines 184-216); the two bodies differ only in the
selection scan, passed as `select`. -/
def tickBody (select : SimState → Option Nat) (s : SimState) : SimState :=
  match select s with
  | none =>
    let next_arrival := nextArrival s.completed s.remaining_time INT_MAX
    if next_arrival ≠ INT_MAX then { s with current_time := next_arrival } else s
  | some next_process =>
    let r := s.remaining_time.getD next_process 0 - 1
    let s := { s with remaining_time := s.remaining_time.set next_process r,
                      current_time := s.current_time + 1 }
    if r = 0 then
      { s with completed := modifyAt s.completed next_process (recordCompletion s.current_time),
               processed := s.processed + 1 }
    else s

/-- Loop condition `processed < (int)completed.size()`. -/
def tickCond (s : SimState) : Bool :=
  decide (s.processed < (s.completed.length : Int))

/-- State at loop entry: `remaining_time[i] = completed[i].burst_time`,
`current_time = 0`, `processed = 0`. -/
def tickInit (completed : List Process) : SimState :=
  { completed := completed, remaining_time := completed.map (fun p => p.burst_time),
    current_time := 0, processed := 0 }

/-- Method `CPUScheduler::runSRJF`, with an iteration budget for its `while`
loop. -/
def runSRJF (fuel : Nat) (processes : List Process) : Option Result :=
  (whileLoop tickCond (tickBody srjfSelect) fuel (tickInit (sortByArrival processes))).map
    (fun s => { completed := s.completed, total_time := s.current_time })

/-- State of `runNonPreemptivePriority`: `completed`, `executed` and
`current_time`. -/
structure NPState where
  completed : List Process
  executed : List Bool
  current_time : Int
deriving DecidableEq

/-- Selection scan of `runNonPreemptivePriority` (lines 146-152). -/
def npScan (current_time : Int) :
    List Process → List Bool → Nat → Option Nat → Int → Option Nat
  | p :: ps, e :: es, j, next_process, highest_priority =>
    if !e ∧ p.arrival_time ≤ current_time ∧ p.priority > highest_priority then
      npScan current_time ps es (j + 1) (some j) p.priority
    else
      npScan current_time ps es (j + 1) next_process highest_priority
  | _, _, _, next_process, _ => next_process

/-- Fallback scan of `runNonPreemptivePriority` (lines 155-161): the first
index `j` with `!executed[j]`, together with `completed[j].arrival_time`. -/
def npFirstUnexecuted : List Process → List Bool → Nat → Option (Nat × Int)
  | p :: ps, e :: es, j =>
    if !e then some (j, p.arrival_time) else npFirstUnexecuted ps es (j + 1)
  | _, _, _ => none

/-- One iteration of the `for` loop of `runNonPreemptivePriority`
(lines 143-170). -/
def npBody (s : NPState) : NPState :=
  let sel : Option Nat × Int :=
    match npScan s.current_time s.completed s.executed 0 none (-1) with
    | some j => (some j, s.current_time)
    | none =>
      match npFirstUnexecuted s.completed s.executed 0 with
      | some (j, arrival) => (some j, arrival)
      | none => (none, s.current_time)
  match sel.1 with
  | none => { s with current_time := sel.2 }
  | some next_process =>
    match s.completed[next_process]? with
    | none => { s with current_time := sel.2 }
    | some p =>
      let current_time := sel.2 + p.burst_time
      { completed := s.completed.set next_process (recordCompletion current_time p),
        executed := s.executed.set next_process true,
        current_time := current_time }

/-- Method `CPUScheduler::runNonPreemptivePriority`: `completed.size()`
iterations of the loop body; returns the vector `completed`. -/
def runNonPreemptivePriority (completed : List Process) : List Process :=
  (npBody^[completed.length]
    { completed := completed, executed := completed.map (fun _ => false),
      current_time := 0 }).completed

/-- Method `CPUScheduler::runPreemptivePriority`, with an iteration budget
for its `while` loop; returns the vector `completed`. -/
def runPreemptivePriority (fuel : Nat) (completed : List Process) : Option (List Process) :=
  (whileLoop tickCond (tickBody prioritySelect) fuel (tickInit completed)).map
    (fun s => s.completed)

/-- The expression `completed.back().completion_time` (line 132).  On an
empty vector `back()` has no element to return (the call is undefined and the
program crashes): `none`. -/
def backCompletion (completed : List Process) : Option Int :=
  completed.getLast?.map (fun p => p.completion_time)

/-- Method `CPUScheduler::runPriorityScheduling`; `none` when the iteration
budget of the preemptive loop is used up, and when `completed` is empty at
line 132. -/
def runPriorityScheduling (fuel : Nat) (preemptive : Bool) (processes : List Process) :
    Option Result :=
  let completed : Option (List Process) :=
    if !preemptive then some (runNonPreemptivePriority processes)
    else runPreemptivePriority fuel processes
  completed.bind (fun c =>
    (backCompletion c).map (fun t => { completed := c, total_time := t }))

/-- State of `runRoundRobin`: `completed`, `remaining_time`, the FIFO
`ready_queue` (front first), the set `in_queue`, `current_time` and
`processed`. -/
structure RRState where
  completed : List Process
  remaining_time : List Int
  ready_queue : List Nat
  in_queue : List Nat
  current_time : Int
  processed : Int
deriving DecidableEq

/-- Initial seeding of the ready queue (lines 239-244), from index `i` on. -/
def rrSeed (current_time : Int) : List Process → Nat → List Nat × List Nat → List Nat × List Nat
  | [], _, q => q
  | p :: ps, i, q =>
    if p.arrival_time ≤ current_time then rrSeed current_time ps (i + 1) (q.1 ++ [i], q.2.insert i)
    else rrSeed current_time ps (i + 1) q

/-- Idle scan of `runRoundRobin` (lines 248-255): the first index `i` with
`remaining_time[i] > 0` and `arrival_time > current_time`, with that arrival
time. -/
def rrIdleFind (current_time : Int) : List Process → List Int → Nat → Option (Nat × Int)
  | p :: ps, r :: rs, i =>
    if r > 0 ∧ p.arrival_time > current_time then some (i, p.arrival_time)
    else rrIdleFind current_time ps rs (i + 1)
  | _, _, _ => none

/-- Scan for newly arrived tasks (lines 267-273), from index `i` on; the pair
is (`ready_queue`, `in_queue`). -/
def rrArrivals (current_time : Int) :
    List Process → List Int → Nat → List Nat × List Nat → List Nat × List Nat
  | p :: ps, r :: rs, i, q =>
    if r > 0 ∧ p.arrival_time ≤ current_time ∧ i ∉ q.2 then
      rrArrivals current_time ps rs (i + 1) (q.1 ++ [i], q.2.insert i)
    else rrArrivals current_time ps rs (i + 1) q
  | _, _, _, q => q

/-- One iteration of the `while` loop of `runRoundRobin` (lines 247-283). -/
def rrBody (time_quantum : Int) (s : RRState) : RRState :=
  match s.ready_queue with
  | [] =>
    match rrIdleFind s.current_time s.completed s.remaining_time 0 with
    | some (i, arrival) =>
      { s with current_time := arrival, ready_queue := [i], in_queue := s.in_queue.insert i }
    | none => s
  | process_idx :: rest =>
    let in_queue := s.in_queue.erase process_idx
    let execution_time := min time_quantum (s.remaining_time.getD process_idx 0)
    let current_time := s.current_time + execution_time
    let remaining_time :=
      s.remaining_time.set process_idx (s.remaining_time.getD process_idx 0 - execution_time)
    let q := rrArrivals current_time s.completed remaining_time 0 (rest, in_queue)
    if remaining_time.getD process_idx 0 > 0 then
      { completed := s.completed, remaining_time := remaining_time,
        ready_queue := q.1 ++ [process_idx], in_queue := q.2.insert process_idx,
        current_time := current_time, processed := s.processed }
    else
      { completed := modifyAt s.completed process_idx (recordCompletion current_time),
        remaining_time := remaining_time, ready_queue := q.1, in_queue := q.2,
        current_time := current_time, processed := s.processed + 1 }

/-- Loop condition `processed < (int)completed.size()` of `runRoundRobin`. -/
def rrCond (s : RRState) : Bool :=
  decide (s.processed < (s.completed.length : Int))

/-- State of `runRoundRobin` at loop entry (lines 225-244). -/
def rrInit (processes : List Process) : RRState :=
  let completed := sortByArrival processes
  let q := rrSeed 0 completed 0 ([], [])
  { completed := completed, remaining_time := completed.map (fun p => p.burst_time),
    ready_queue := q.1, in_queue := q.2, current_time := 0, processed := 0 }

/-- The `while` loop of `runRoundRobin` run from loop entry, with an
iteration budget; the state when the loop ends. -/
def rrRun (fuel : Nat) (time_quantum : Int) (processes : List Process) : Option RRState :=
  whileLoop rrCond (rrBody time_quantum) fuel (rrInit processes)

/-- Method `CPUScheduler::runRoundRobin`; the time quantum read from the
console is the argument `time_quantum`. -/
def runRoundRobin (fuel : Nat) (time_quantum : Int) (processes : List Process) :
    Option Result :=
  (rrRun fuel time_quantum processes).map
    (fun s => { completed := s.completed, total_time := s.current_time })

end CPUScheduler

/-- Class `DiskScheduler` of `disk_scheduler.h`: its data members. -/
structure DiskScheduler where
  requests : List DiskRequest
  head_position : Int
  disk_size : Int
  head_sequence : List Int
  total_seek_time : Int
deriving DecidableEq

namespace DiskScheduler

/-- Constructor `DiskScheduler(reqs, head_pos, size)`. -/
def new (reqs : List DiskRequest) (head_pos size : Int) : DiskScheduler :=
  { requests := reqs, head_position := head_pos, disk_size := size,
    head_sequence := [], total_seek_time := 0 }

/-- The three statements that move the head to `cyl`, on unbounded integers:
`total_seek_time += abs(cyl - head_position); head_position = cyl;
head_sequence.push_back(head_position)`.  `seekTo32` is the move in 32-bit
arithmetic. -/
def seekTo (d : DiskScheduler) (cyl : Int) : DiskScheduler :=
  { d with total_seek_time := d.total_seek_time + |cyl - d.head_position|,
           head_position := cyl,
           head_sequence := d.head_sequence ++ [cyl] }

/-- Common prologue of the four algorithms: `head_sequence.clear();
total_seek_time = 0; head_sequence.push_back(head_position)`. -/
def start (d : DiskScheduler) : DiskScheduler :=
  { d with head_sequence := [d.head_position], total_seek_time := 0 }

/-- The call `std::sort(requests.begin(), requests.end(), by arrival_time)`,
for the outcome that keeps the input order among requests of equal arrival
time.  `std::sort` is not stable; all its possible outcomes are described by
`SortedByArrival`. -/
def sortByArrival (rs : List DiskRequest) : List DiskRequest :=
  rs.insertionSort (fun a b => a.arrival_time ≤ b.arrival_time)

/-- Method `DiskScheduler::runFCFS` on unbounded integers, for the outcome
`sortByArrival` of the sort. -/
def runFCFS (d : DiskScheduler) : DiskScheduler :=
  let d := d.start
  let d := { d with requests := sortByArrival d.requests }
  d.requests.foldl (fun d req => d.seekTo req.cylinder) d

/-- The sorted vector `cylinders` of `runSCAN` and `runCSCAN`
(lines 83-87 and 134-138). -/
def sortedCylinders (d : DiskScheduler) : List Int :=
  (d.requests.map (fun req => req.cylinder)).insertionSort (fun a b => a ≤ b)

/-- A sweep loop: visits, in the order of `cyls`, every cylinder that
satisfies `keep cyl head_position` for the head position at that moment. -/
def sweep (keep : Int → Int → Bool) (cyls : List Int) (d : DiskScheduler) : DiskScheduler :=
  cyls.foldl (fun d cyl => if keep cyl d.head_position then d.seekTo cyl else d) d

/-- Method `DiskScheduler::runSCAN`; the direction read from the console is
the argument `move_up`. -/
def runSCAN (move_up : Bool) (d : DiskScheduler) : DiskScheduler :=
  let d := d.start
  let cylinders := d.sortedCylinders
  if move_up then
    let d := sweep (fun cyl head => decide (cyl ≥ head)) cylinders d
    sweep (fun cyl head => decide (cyl < head)) cylinders.reverse d
  else
    let d := sweep (fun cyl head => decide (cyl ≤ head)) cylinders.reverse d
    sweep (fun cyl head => decide (cyl > head)) cylinders d

/-- Method `DiskScheduler::runCSCAN` on unbounded integers; the direction
read from the console is the argument `move_up`.  `runCSCAN32` is the method
in 32-bit arithmetic. -/
def runCSCAN (move_up : Bool) (d : DiskScheduler) : DiskScheduler :=
  let d := d.start
  let cylinders := d.sortedCylinders
  if move_up then
    let d := sweep (fun cyl head => decide (cyl ≥ head)) cylinders d
    let d := { d with total_seek_time := d.total_seek_time + |d.disk_size - d.head_position| }
    let d := { d with total_seek_time := d.total_seek_time + d.disk_size }
    let d := { d with head_position := 0 }
    let d := { d with head_sequence := d.head_sequence ++ [d.head_position] }
    sweep (fun cyl head => decide (cyl < head)) cylinders d
  else
    let d := sweep (fun cyl head => decide (cyl ≤ head)) cylinders.reverse d
    let d := { d with total_seek_time := d.total_seek_time + d.head_position }
    let d := { d with head_position := d.disk_size }
    let d := { d with head_sequence := d.head_sequence ++ [d.head_position] }
    let d := { d with total_seek_time := d.total_seek_time + d.disk_size }
    sweep (fun cyl head => decide (cyl > head)) cylinders.reverse d

end DiskScheduler

namespace MemoryManager

/-- The test `!block.is_allocated && block.size >= process.burst_time`. -/
def fits (block : MemoryBlock) (process : Process) : Bool :=
  !block.is_allocated && decide (block.size ≥ process.burst_time)

/-- The two assignments `is_allocated = true; process_id = process.id` on
`blocks[i]`. -/
def assign (blocks : List MemoryBlock) (i : Nat) (process : Process) : List MemoryBlock :=
  match blocks[i]? with
  | some b => blocks.set i { b with is_allocated := true, process_id := process.id }
  | none => blocks

/-- Inner loop of `allocateFirstFit` (lines 47-54) from index `i` on: the
index of the block at which the loop assigns and breaks. -/
def firstFitScan (process : Process) : List MemoryBlock → Nat → Option Nat
  | [], _ => none
  | block :: rest, i => if fits block process then some i else firstFitScan process rest (i + 1)

/-- Block chosen by `allocateFirstFit` for one task. -/
def firstFitSelect (blocks : List MemoryBlock) (process : Process) : Option Nat :=
  firstFitScan process blocks 0

/-- Inner loop of `allocateBestFit` (lines 63-71) from index `i` on, with the
current values of `best_block` and `min_wasted_space`. -/
def bestFitScan (process : Process) : List MemoryBlock → Nat → Option Nat → Int → Option Nat
  | [], _, best_block, _ => best_block
  | block :: rest, i, best_block, min_wasted_space =>
    if fits block process then
      let wasted := block.size - process.burst_time
      if wasted < min_wasted_space then bestFitScan process rest (i + 1) (some i) wasted
      else bestFitScan process rest (i + 1) best_block min_wasted_space
    else bestFitScan process rest (i + 1) best_block min_wasted_space

/-- Block chosen by `allocateBestFit` for one task (lines 60-71). -/
def bestFitSelect (blocks : List MemoryBlock) (process : Process) : Option Nat :=
  bestFitScan process blocks 0 none INT_MAX

/-- Body of a `for (process : processes)` allocation pass: assign the
selected block, if any. -/
def allocateWith (select : List MemoryBlock → Process → Option Nat)
    (blocks : List MemoryBlock) (process : Process) : List MemoryBlock :=
  match select blocks process with
  | some i => assign blocks i process
  | none => blocks

/-- Method `MemoryManager::allocateFirstFit`: the vector `blocks` after the
pass over `processes`. -/
def allocateFirstFit (blocks : List MemoryBlock) (processes : List Process) : List MemoryBlock :=
  processes.foldl (allocateWith firstFitSelect) blocks

/-- Method `MemoryManager::allocateBestFit`: the vector `blocks` after the
pass over `processes`. -/
def allocateBestFit (blocks : List MemoryBlock) (processes : List Process) : List MemoryBlock :=
  processes.foldl (allocateWith bestFitSelect) blocks

/-- Lookup of `displayAllocation` (lines 127-137): the first block whose
`process_id` is the task's id. -/
def assignedBlock (blocks : List MemoryBlock) (process : Process) : Option MemoryBlock :=
  blocks.find? (fun block => block.process_id == process.id)

end MemoryManager

/-- A storage block with the given id and size, unallocated, as the workload
generator builds it. -/
def mkBlock (block_id size : Int) : MemoryBlock :=
  { block_id := block_id, size := size, is_allocated := false, process_id := -1 }

/-- A task with the given id, arrival, burst and priority and zeroed outputs,
as the workload generator builds it. -/
def mkProcess (id arrival burst priority : Int) : Process :=
  { id := id, arrival_time := arrival, burst_time := burst, priority := priority,
    completion_time := 0, waiting_time := 0, turnaround_time := 0 }

/-- Sum of the absolute differences between consecutive elements of a head
sequence. -/
def seekSum : List Int → Int
  | a :: b :: rest => |b - a| + seekSum (b :: rest)
  | _ => 0

/-- Value of the cursor `current_time` of `runFCFS` (and of `runSJF`) when its
loop reaches index `i` of the result `completed`: `start` at index 0,
afterwards the completion time of the task at index `i - 1`. -/
def fcfsCursor (start : Int) (completed : List Process) : Nat → Int
  | 0 => start
  | k + 1 => (completed[k]?.map (fun p => p.completion_time)).getD 0

/-- `t` is the maximum completion time over the tasks of `completed`. -/
def IsMaxCompletion (completed : List Process) (t : Int) : Prop :=
  (∀ c ∈ completed, c.completion_time ≤ t) ∧ ∃ c ∈ completed, c.completion_time = t

/-- Total remaining service time, the sum of the vector `remaining_time`
(negative entries count as 0). -/
def remainingTotal (remaining_time : List Int) : Nat :=
  (remaining_time.map Int.toNat).sum

/-- Loop invariant of the tick-by-tick simulations started on the vector
`c0`: the input fields of `completed` are those of `c0`, every remaining time
lies in `[0, INT_MAX)`, a task whose remaining time is 0 has its three output
fields in the relations `MetricsOK`, and `processed` counts the tasks whose
remaining time is 0. -/
structure TickInv (c0 : List Process) (s : CPUScheduler.SimState) : Prop where
  inputs : s.completed.map Process.input = c0.map Process.input
  len : s.remaining_time.length = c0.length
  range : ∀ (i : Nat) (r : Int), s.remaining_time[i]? = some r → 0 ≤ r ∧ r < INT_MAX
  done : ∀ (i : Nat) (p : Process),
    s.completed[i]? = some p → s.remaining_time[i]? = some 0 → p.MetricsOK
  count : s.processed = (s.remaining_time.count 0 : Nat)

/-- What the simulation loop needs from a selection scan: a selected index
holds an arrived task with positive remaining time, and the scan selects
something whenever some arrived task has remaining time in `(0, INT_MAX)` and
a priority accepted by `G`. -/
def SelectOK (G : Int → Prop) (select : CPUScheduler.SimState → Option Nat) : Prop :=
  (∀ (s : CPUScheduler.SimState) (k : Nat), select s = some k →
      ∃ (p : Process) (r : Int), s.completed[k]? = some p ∧ s.remaining_time[k]? = some r ∧
        0 < r ∧ p.arrival_time ≤ s.current_time) ∧
    ∀ (s : CPUScheduler.SimState) (i : Nat) (p : Process) (r : Int),
      s.completed[i]? = some p → s.remaining_time[i]? = some r →
      p.arrival_time ≤ s.current_time → 0 < r → r < INT_MAX → G p.priority → select s ≠ none

/-- Termination measure of the simulation loop: twice the total remaining
service time, plus one when the next iteration is an idle jump. -/
def tickMeasure (select : CPUScheduler.SimState → Option Nat) (s : CPUScheduler.SimState) : Nat :=
  2 * remainingTotal s.remaining_time + (if select s = none then 1 else 0)

/-- Loop invariant of `runNonPreemptivePriority` started on the vector `c0`,
after `k` iterations: the input fields of `completed` are those of `c0`,
exactly `k` tasks are marked executed, and every executed task has its three
output fields in the relations `MetricsOK`. -/
structure NPInv (c0 : List Process) (k : Nat) (s : CPUScheduler.NPState) : Prop where
  inputs : s.completed.map Process.input = c0.map Process.input
  len : s.executed.length = c0.length
  done : ∀ (i : Nat) (p : Process),
    s.completed[i]? = some p → s.executed[i]? = some true → p.MetricsOK
  count : s.executed.count true = k

namespace MemoryManager

/-- Inner loop of `allocateWorstFit` (lines 99-106) from index `i` on, with
the current values of `worst_block` and `max_size`. -/
def worstFitScan (process : Process) : List MemoryBlock → Nat → Option Nat → Int → Option Nat
  | [], _, worst_block, _ => worst_block
  | block :: rest, i, worst_block, max_size =>
    if fits block process then
      if block.size > max_size then worstFitScan process rest (i + 1) (some i) block.size
      else worstFitScan process rest (i + 1) worst_block max_size
    else worstFitScan process rest (i + 1) worst_block max_size

/-- Block chosen by `allocateWorstFit` for one task (lines 96-106). -/
def worstFitSelect (blocks : List MemoryBlock) (process : Process) : Option Nat :=
  worstFitScan process blocks 0 none (-1)

/-- Method `MemoryManager::allocateWorstFit`: the vector `blocks` after the
pass over `processes`. -/
def allocateWorstFit (blocks : List MemoryBlock) (processes : List Process) : List MemoryBlock :=
  processes.foldl (allocateWith worstFitSelect) blocks

/-- Inner loop of `allocateNextFit` (lines 82-90): `steps` iterations are
left, `i` is the loop counter; returns the index at which the loop assigns and
breaks. -/
def nextFitScan (process : Process) (blocks : List MemoryBlock) (next_fit_index : Nat) :
    Nat → Nat → Option Nat
  | 0, _ => none
  | steps + 1, i =>
    let index := (next_fit_index + i) % blocks.length
    match blocks[index]? with
    | some block =>
      if fits block process then some index
      else nextFitScan process blocks next_fit_index steps (i + 1)
    | none => nextFitScan process blocks next_fit_index steps (i + 1)

/-- Block chosen by `allocateNextFit` for one task with the cursor at
`next_fit_index`. -/
def nextFitSelect (blocks : List MemoryBlock) (next_fit_index : Nat) (process : Process) :
    Option Nat :=
  nextFitScan process blocks next_fit_index blocks.length 0

/-- Body of the task loop of `allocateNextFit` (lines 81-91) on the pair
(`blocks`, `next_fit_index`). -/
def nextFitStep (s : List MemoryBlock × Nat) (process : Process) : List MemoryBlock × Nat :=
  match nextFitSelect s.1 s.2 process with
  | some index => (assign s.1 index process, (index + 1) % s.1.length)
  | none => s

/-- Method `MemoryManager::allocateNextFit`: the vector `blocks` and the
member `next_fit_index` after the pass over `processes`. -/
def allocateNextFit (blocks : List MemoryBlock) (next_fit_index : Nat)
    (processes : List Process) : List MemoryBlock × Nat :=
  processes.foldl nextFitStep (blocks, next_fit_index)

end MemoryManager

/-- The block vector `b1` arises from `b0` without an undersized allocation
to the tasks `procs`: same length, same sizes, and every block either is as in
`b0` or is allocated and carries the id of a task of `procs` whose
`burst_time` is at most the block's size. -/
def NoUndersized (procs : List Process) (b0 b1 : List MemoryBlock) : Prop :=
  b1.length = b0.length ∧
    ∀ (k : Nat) (x0 x1 : MemoryBlock), b0[k]? = some x0 → b1[k]? = some x1 →
      x1.size = x0.size ∧
        (x1 = x0 ∨
          (x1.is_allocated = true ∧ ∃ p ∈ procs, x1.process_id = p.id ∧ p.burst_time ≤ x1.size))

/-- Loop invariant of `runRoundRobin` started on the arrival-sorted vector
`c0`: the input fields of `completed` are those of `c0`, no remaining time is
negative, every member of the set `in_queue` is in the ready queue, when the
ready queue is empty every unfinished task has not yet arrived, and
`processed` is at least the number of tasks whose remaining time is 0. -/
structure RRInv (c0 : List Process) (s : CPUScheduler.RRState) : Prop where
  inputs : s.completed.map Process.input = c0.map Process.input
  len : s.remaining_time.length = c0.length
  nonneg : ∀ r ∈ s.remaining_time, 0 ≤ r
  inq_sub : ∀ i ∈ s.in_queue, i ∈ s.ready_queue
  inq_nodup : s.in_queue.Nodup
  arrived : s.ready_queue = [] →
    ∀ (i : Nat) (p : Process) (r : Int), s.completed[i]? = some p →
      s.remaining_time[i]? = some r → 0 < r → s.current_time < p.arrival_time
  count : ((s.remaining_time.count 0 : Nat) : Int) ≤ s.processed

/-- Termination measure of the loop of `runRoundRobin`: twice the total
remaining service time, plus twice the number of completions still to be
counted, plus one when the ready queue is empty. -/
def rrMeasure (s : CPUScheduler.RRState) : Nat :=
  2 * remainingTotal s.remaining_time
    + 2 * ((s.completed.length : Int) - s.processed).toNat
    + (if s.ready_queue = [] then 1 else 0)

namespace CPUScheduler

/-- State of the loop of `runSRJF` after `n` iterations of its body. -/
def srjfLoopState (processes : List Process) (n : Nat) : SimState :=
  (tickBody srjfSelect)^[n] (tickInit (sortByArrival processes))

/-- State of the loop of `runPreemptivePriority` after `n` iterations of its
body. -/
def priorityLoopState (processes : List Process) (n : Nat) : SimState :=
  (tickBody prioritySelect)^[n] (tickInit processes)

/-- State of the loop of `runRoundRobin` after `n` iterations of its body. -/
def rrLoopState (time_quantum : Int) (processes : List Process) (n : Nat) : RRState :=
  (rrBody time_quantum)^[n] (rrInit processes)

end CPUScheduler

/-- The block vector `b1` keeps the blocks of `b0`: same length, every block
keeps its `block_id` and `size`, and a block that is allocated in `b0` is the
same block (still allocated, same `process_id`) in `b1`. -/
def BlocksKept (b0 b1 : List MemoryBlock) : Prop :=
  b1.length = b0.length ∧
    ∀ (k : Nat) (x0 x1 : MemoryBlock), b0[k]? = some x0 → b1[k]? = some x1 →
      x1.block_id = x0.block_id ∧ x1.size = x0.size ∧ (x0.is_allocated = true → x1 = x0)

namespace DiskScheduler

/-- Inner loop of `runSSTF` (lines 52-60) from index `j` on, over the
remaining requests and their `visited` flags, with the current values of
`nearest` and `min_distance`. -/
def sstfScan (head_position : Int) :
    List DiskRequest → List Bool → Nat → Option Nat → Int → Option Nat × Int
  | req :: rs, v :: vs, j, nearest, min_distance =>
    if !v then
      let distance := |req.cylinder - head_position|
      if distance < min_distance then sstfScan head_position rs vs (j + 1) (some j) distance
      else sstfScan head_position rs vs (j + 1) nearest min_distance
    else sstfScan head_position rs vs (j + 1) nearest min_distance
  | _, _, _, nearest, min_distance => (nearest, min_distance)

/-- State of the outer loop of `runSSTF`: the scheduler and the local vector
`visited`. -/
structure SSTFState where
  d : DiskScheduler
  visited : List Bool
deriving DecidableEq

/-- Body of the outer loop of `runSSTF` (lines 49-67). -/
def sstfBody (s : SSTFState) : SSTFState :=
  match sstfScan s.d.head_position s.d.requests s.visited 0 none INT_MAX with
  | (some nearest, min_distance) =>
    match s.d.requests[nearest]? with
    | some req =>
      let d := s.d
      let d := { d with total_seek_time := d.total_seek_time + min_distance }
      let d := { d with head_position := req.cylinder }
      let d := { d with head_sequence := d.head_sequence ++ [d.head_position] }
      { d := d, visited := s.visited.set nearest true }
    | none => s
  | (none, _) => s

/-- State of `runSSTF` after `i` iterations of its outer loop. -/
def sstfState (d : DiskScheduler) (i : Nat) : SSTFState :=
  sstfBody^[i] { d := d.start, visited := List.replicate d.requests.length false }

/-- Method `DiskScheduler::runSSTF`: the outer loop runs `requests.size()`
times. -/
def runSSTF (d : DiskScheduler) : DiskScheduler :=
  (sstfState d d.requests.length).d

/-- The value printed as "Avg Seek Time" by `displayResults` (line 196):
`requests.empty() ? 0 : total_seek_time / (double)requests.size()`, the
`double` quotient taken as an exact rational. -/
def avgSeekTime (d : DiskScheduler) : ℚ :=
  if d.requests.isEmpty then 0 else (d.total_seek_time : ℚ) / (d.requests.length : ℚ)

end DiskScheduler

/-- Cylinders of the requests whose `visited` flag is set, in index order. -/
def visitedCyls : List DiskRequest → List Bool → List Int
  | r :: rs, v :: vs => if v then r.cylinder :: visitedCyls rs vs else visitedCyls rs vs
  | _, _ => []

/-- The seek total of a scheduler is the sum of the absolute differences of
its head sequence, and the sequence ends at the current head position. -/
def SeekOK (d : DiskScheduler) : Prop :=
  d.total_seek_time = seekSum d.head_sequence ∧ d.head_sequence.getLast? = some d.head_position

/-- The head sequence of `d` starts at `h0` and ends at the head position
stored in `d`. -/
def HeadCarried (h0 : Int) (d : DiskScheduler) : Prop :=
  d.head_sequence.head? = some h0 ∧ d.head_sequence.getLast? = some d.head_position

namespace WarehouseDataGenerator

/-- State of the loop of `generateMemoryBlocks`: the vector `memory_blocks`,
the locals `current_offset` and `block_id`, and the number of values drawn so
far from `block_size_dist`. -/
structure GenState where
  memory_blocks : List MemoryBlock
  current_offset : Int
  block_id : Int
  drawn : Nat
deriving DecidableEq

/-- Body of the `while` loop of `generateMemoryBlocks` (lines 97-103); the
value number `n` drawn from the generator is `block_size_dist n`. -/
def genBody (warehouse_size : Int) (block_size_dist : Nat → Int) (s : GenState) : GenState :=
  let block : MemoryBlock :=
    { block_id := s.block_id,
      size := min (block_size_dist s.drawn) (warehouse_size - s.current_offset),
      is_allocated := false,
      process_id := -1 }
  { memory_blocks := s.memory_blocks ++ [block],
    current_offset := s.current_offset + block.size,
    block_id := s.block_id + 1,
    drawn := s.drawn + 1 }

/-- Loop condition `current_offset < warehouse_size`. -/
def genCond (warehouse_size : Int) (s : GenState) : Bool :=
  decide (s.current_offset < warehouse_size)

/-- Method `WarehouseDataGenerator::generateMemoryBlocks`, with an iteration
budget for its `while` loop; returns the vector `memory_blocks`. -/
def generateMemoryBlocks (fuel : Nat) (warehouse_size : Int) (block_size_dist : Nat → Int) :
    Option (List MemoryBlock) :=
  (whileLoop (genCond warehouse_size) (genBody warehouse_size block_size_dist) fuel
    { memory_blocks := [], current_offset := 0, block_id := 1, drawn := 0 }).map
    (fun s => s.memory_blocks)

/-- Loop invariant of `generateMemoryBlocks`: the offset is the sum of the
sizes and does not exceed the capacity, the block at index `i` has id `i + 1`,
and every block has a positive size and is unallocated. -/
def GenInv (warehouse_size : Int) (s : GenState) : Prop :=
  s.current_offset ≤ warehouse_size ∧
    (s.memory_blocks.map (fun b => b.size)).sum = s.current_offset ∧
    s.block_id = (s.memory_blocks.length : Int) + 1 ∧
    (∀ (i : Nat) (b : MemoryBlock), s.memory_blocks[i]? = some b → b.block_id = (i : Int) + 1) ∧
    ∀ b ∈ s.memory_blocks, 0 < b.size ∧ b.is_allocated = false ∧ b.process_id = -1

end WarehouseDataGenerator

/-- Loop invariant of the tick-by-tick simulations about service and arrival:
no remaining time exceeds the burst time, a task that has been served for
`burst_time - r` ticks has `arrival_time + (burst_time - r) <= current_time`,
and a finished task has a non-negative waiting time. -/
def WaitInv (s : CPUScheduler.SimState) : Prop :=
  ∀ (i : Nat) (p : Process) (r : Int), s.completed[i]? = some p → s.remaining_time[i]? = some r →
    r ≤ p.burst_time ∧
      (r < p.burst_time → p.arrival_time + (p.burst_time - r) ≤ s.current_time) ∧
      (r = 0 → 0 ≤ p.waiting_time)

/-- The value of a C++ `int` expression whose mathematical result is `x`: the
representative of `x` modulo `2^32` in the 32-bit two's complement range
`[-2^31, 2^31)`.  (Signed overflow and `std::abs(INT_MIN)` are undefined in
C++; this is what the arithmetic instructions of the machine compute.) -/
def wrapInt (x : Int) : Int :=
  (x + 2147483648) % 4294967296 - 2147483648

/-- The relations `turnaround_time == completion_time - arrival_time` and
`waiting_time == turnaround_time - burst_time` as C++ evaluates them on `int`
operands. -/
def Process.MetricsOK32 (p : Process) : Prop :=
  p.turnaround_time = wrapInt (p.completion_time - p.arrival_time) ∧
    p.waiting_time = wrapInt (p.turnaround_time - p.burst_time)

instance (p : Process) : Decidable p.MetricsOK32 := by
  unfold Process.MetricsOK32; infer_instance

namespace CPUScheduler

/-- What the call `std::sort(completed.begin(), completed.end(), by
arrival_time)` can leave in the vector when it starts from `input`: a
permutation of `input` in non-decreasing order of `arrival_time`.  `std::sort`
is not stable, so the order among tasks of equal arrival time is not
determined by the input; `sortByArrival` is one of the possible outcomes. -/
def SortedByArrival (input completed : List Process) : Prop :=
  completed.Perm input ∧ completed.Sorted (fun a b => a.arrival_time ≤ b.arrival_time)

/-- Body of the `for (auto& p : completed)` loop of `runFCFS` (lines 27-33)
in 32-bit `int` arithmetic, iterated over the vector from cursor
`current_time`; returns the updated tasks and the final cursor. -/
def fcfsLoop32 : Int → List Process → List Process × Int
  | current_time, [] => ([], current_time)
  | current_time, p :: ps =>
    let current_time := if current_time < p.arrival_time then p.arrival_time else current_time
    let p := { p with completion_time := wrapInt (current_time + p.burst_time) }
    let p := { p with waiting_time := wrapInt (current_time - p.arrival_time) }
    let p := { p with turnaround_time := wrapInt (p.completion_time - p.arrival_time) }
    let r := fcfsLoop32 p.completion_time ps
    (p :: r.1, r.2)

/-- Method `CPUScheduler::runFCFS` in 32-bit `int` arithmetic, from line 26
on: `completed` is the vector as the call of `std::sort` (lines 23-24) left
it. -/
def runFCFS32 (completed : List Process) : Result :=
  let r := fcfsLoop32 0 completed
  { completed := r.1, total_time := r.2 }

/-- Outer loop of `runSJF` (lines 45-60) in 32-bit `int` arithmetic; the
first argument counts the iterations left (`completed.size() - i`), the list
is `completed[i ..]`. -/
def sjfLoop32 : Nat → Int → List Process → List Process × Int
  | 0, current_time, l => (l, current_time)
  | _ + 1, current_time, [] => ([], current_time)
  | n + 1, current_time, remaining :: rest =>
    let s := sjfScan current_time remaining rest
    let p := s.1
    let current_time := if current_time < p.arrival_time then p.arrival_time else current_time
    let p := { p with completion_time := wrapInt (current_time + p.burst_time) }
    let p := { p with waiting_time := wrapInt (current_time - p.arrival_time) }
    let p := { p with turnaround_time := wrapInt (p.completion_time - p.arrival_time) }
    let r := sjfLoop32 n p.completion_time s.2
    (p :: r.1, r.2)

/-- Method `CPUScheduler::runSJF` in 32-bit `int` arithmetic. -/
def runSJF32 (processes : List Process) : Result :=
  let r := sjfLoop32 processes.length 0 processes
  { completed := r.1, total_time := r.2 }

/-- The three assignments made when a task finishes at `current_time`
(lines 109-111, 166-168 and 212-214) in 32-bit `int` arithmetic. -/
def recordCompletion32 (current_time : Int) (p : Process) : Process :=
  let p := { p with completion_time := current_time }
  let p := { p with waiting_time := wrapInt (wrapInt (current_time - p.burst_time) - p.arrival_time) }
  { p with turnaround_time := wrapInt (p.completion_time - p.arrival_time) }

/-- One iteration of the `while` loop of `runSRJF` (lines 81-113) and of
`runPreemptivePriority` (lines 184-216) in 32-bit `int` arithmetic; the two
bodies differ only in the selection scan, passed as `select`. -/
def tickBody32 (select : SimState → Option Nat) (s : SimState) : SimState :=
  match select s with
  | none =>
    let next_arrival := nextArrival s.completed s.remaining_time INT_MAX
    if next_arrival ≠ INT_MAX then { s with current_time := next_arrival } else s
  | some next_process =>
    let r := wrapInt (s.remaining_time.getD next_process 0 - 1)
    let s := { s with remaining_time := s.remaining_time.set next_process r,
                      current_time := wrapInt (s.current_time + 1) }
    if r = 0 then
      { s with completed := modifyAt s.completed next_process (recordCompletion32 s.current_time),
               processed := wrapInt (s.processed + 1) }
    else s

/-- Loop condition `processed < (int)completed.size()` with the conversion of
the size to a 32-bit `int`. -/
def tickCond32 (s : SimState) : Bool :=
  decide (s.processed < wrapInt (s.completed.length : Int))

/-- Method `CPUScheduler::runSRJF` in 32-bit `int` arithmetic, from line 72
on, with an iteration budget for its `while` loop: `completed` is the vector
as the call of `std::sort` (lines 69-70) left it. -/
def runSRJF32 (fuel : Nat) (completed : List Process) : Option Result :=
  (whileLoop tickCond32 (tickBody32 srjfSelect) fuel (tickInit completed)).map
    (fun s => { completed := s.completed, total_time := s.current_time })

/-- One iteration of the `for` loop of `runNonPreemptivePriority`
(lines 143-170) in 32-bit `int` arithmetic. -/
def npBody32 (s : NPState) : NPState :=
  let sel : Option Nat × Int :=
    match npScan s.current_time s.completed s.executed 0 none (-1) with
    | some j => (some j, s.current_time)
    | none =>
      match npFirstUnexecuted s.completed s.executed 0 with
      | some (j, arrival) => (some j, arrival)
      | none => (none, s.current_time)
  match sel.1 with
  | none => { s with current_time := sel.2 }
  | some next_process =>
    match s.completed[next_process]? with
    | none => { s with current_time := sel.2 }
    | some p =>
      let current_time := wrapInt (sel.2 + p.burst_time)
      { completed := s.completed.set next_process (recordCompletion32 current_time p),
        executed := s.executed.set next_process true,
        current_time := current_time }

/-- Method `CPUScheduler::runNonPreemptivePriority` in 32-bit `int`
arithmetic: `completed.size()` iterations of the loop body; returns the vector
`completed`. -/
def runNonPreemptivePriority32 (completed : List Process) : List Process :=
  (npBody32^[completed.length]
    { completed := completed, executed := completed.map (fun _ => false),
      current_time := 0 }).completed

/-- Method `CPUScheduler::runPreemptivePriority` in 32-bit `int` arithmetic,
with an iteration budget for its `while` loop; returns the vector
`completed`. -/
def runPreemptivePriority32 (fuel : Nat) (completed : List Process) : Option (List Process) :=
  (whileLoop tickCond32 (tickBody32 prioritySelect) fuel (tickInit completed)).map
    (fun s => s.completed)

/-- Method `CPUScheduler::runPriorityScheduling` in 32-bit `int` arithmetic;
`none` when the iteration budget of the preemptive loop is used up, and when
`completed` is empty at line 132. -/
def runPriorityScheduling32 (fuel : Nat) (preemptive : Bool) (processes : List Process) :
    Option Result :=
  let completed : Option (List Process) :=
    if !preemptive then some (runNonPreemptivePriority32 processes)
    else runPreemptivePriority32 fuel processes
  completed.bind (fun c =>
    (backCompletion c).map (fun t => { completed := c, total_time := t }))

end CPUScheduler

namespace DiskScheduler

/-- What the call `std::sort(requests.begin(), requests.end(), by
arrival_time)` can leave in the vector when it starts from `input`: a
permutation of `input` in non-decreasing order of `arrival_time`.  `std::sort`
is not stable, so the order among requests of equal arrival time is not
determined by the input; `sortByArrival` is one of the possible outcomes. -/
def SortedByArrival (input requests : List DiskRequest) : Prop :=
  requests.Perm input ∧ requests.Sorted (fun a b => a.arrival_time ≤ b.arrival_time)

/-- The three statements that move the head to `cyl`, in 32-bit `int`
arithmetic: `total_seek_time += abs(cyl - head_position); head_position = cyl;
head_sequence.push_back(head_position)`. -/
def seekTo32 (d : DiskScheduler) (cyl : Int) : DiskScheduler :=
  let seek := wrapInt |wrapInt (cyl - d.head_position)|
  { d with total_seek_time := wrapInt (d.total_seek_time + seek),
           head_position := cyl,
           head_sequence := d.head_sequence ++ [cyl] }

/-- Method `DiskScheduler::runFCFS` in 32-bit `int` arithmetic; `sorted` is
the vector `requests` as the call of `std::sort` (lines 26-27) leaves it. -/
def runFCFS32 (sorted : List DiskRequest) (d : DiskScheduler) : DiskScheduler :=
  let d := d.start
  let d := { d with requests := sorted }
  d.requests.foldl (fun d req => d.seekTo32 req.cylinder) d

/-- A sweep loop in 32-bit `int` arithmetic: visits, in the order of `cyls`,
every cylinder that satisfies `keep cyl head_position` for the head position
at that moment. -/
def sweep32 (keep : Int → Int → Bool) (cyls : List Int) (d : DiskScheduler) : DiskScheduler :=
  cyls.foldl (fun d cyl => if keep cyl d.head_position then d.seekTo32 cyl else d) d

/-- Method `DiskScheduler::runSCAN` in 32-bit `int` arithmetic; the direction
read from the console is the argument `move_up`. -/
def runSCAN32 (move_up : Bool) (d : DiskScheduler) : DiskScheduler :=
  let d := d.start
  let cylinders := d.sortedCylinders
  if move_up then
    let d := sweep32 (fun cyl head => decide (cyl ≥ head)) cylinders d
    sweep32 (fun cyl head => decide (cyl < head)) cylinders.reverse d
  else
    let d := sweep32 (fun cyl head => decide (cyl ≤ head)) cylinders.reverse d
    sweep32 (fun cyl head => decide (cyl > head)) cylinders d

/-- Method `DiskScheduler::runCSCAN` in 32-bit `int` arithmetic; the
direction read from the console is the argument `move_up`. -/
def runCSCAN32 (move_up : Bool) (d : DiskScheduler) : DiskScheduler :=
  let d := d.start
  let cylinders := d.sortedCylinders
  if move_up then
    let d := sweep32 (fun cyl head => decide (cyl ≥ head)) cylinders d
    let seek := wrapInt |wrapInt (d.disk_size - d.head_position)|
    let d := { d with total_seek_time := wrapInt (d.total_seek_time + seek) }
    let d := { d with total_seek_time := wrapInt (d.total_seek_time + d.disk_size) }
    let d := { d with head_position := 0 }
    let d := { d with head_sequence := d.head_sequence ++ [d.head_position] }
    sweep32 (fun cyl head => decide (cyl < head)) cylinders d
  else
    let d := sweep32 (fun cyl head => decide (cyl ≤ head)) cylinders.reverse d
    let d := { d with total_seek_time := wrapInt (d.total_seek_time + d.head_position) }
    let d := { d with head_position := d.disk_size }
    let d := { d with head_sequence := d.head_sequence ++ [d.head_position] }
    let d := { d with total_seek_time := wrapInt (d.total_seek_time + d.disk_size) }
    sweep32 (fun cyl head => decide (cyl > head)) cylinders.reverse d

/-- Inner loop of `runSSTF` (lines 52-60) in 32-bit `int` arithmetic, from
index `j` on, over the remaining requests and their `visited` flags, with the
current values of `nearest` and `min_distance`. -/
def sstfScan32 (head_position : Int) :
    List DiskRequest → List Bool → Nat → Option Nat → Int → Option Nat × Int
  | req :: rs, v :: vs, j, nearest, min_distance =>
    if !v then
      let distance := wrapInt |wrapInt (req.cylinder - head_position)|
      if distance < min_distance then sstfScan32 head_position rs vs (j + 1) (some j) distance
      else sstfScan32 head_position rs vs (j + 1) nearest min_distance
    else sstfScan32 head_position rs vs (j + 1) nearest min_distance
  | _, _, _, nearest, min_distance => (nearest, min_distance)

/-- Body of the outer loop of `runSSTF` (lines 49-67) in 32-bit `int`
arithmetic. -/
def sstfBody32 (s : SSTFState) : SSTFState :=
  match sstfScan32 s.d.head_position s.d.requests s.visited 0 none INT_MAX with
  | (some nearest, min_distance) =>
    match s.d.requests[nearest]? with
    | some req =>
      let d := s.d
      let d := { d with total_seek_time := wrapInt (d.total_seek_time + min_distance) }
      let d := { d with head_position := req.cylinder }
      let d := { d with head_sequence := d.head_sequence ++ [d.head_position] }
      { d := d, visited := s.visited.set nearest true }
    | none => s
  | (none, _) => s

/-- State of `runSSTF` in 32-bit `int` arithmetic after `i` iterations of its
outer loop. -/
def sstfState32 (d : DiskScheduler) (i : Nat) : SSTFState :=
  sstfBody32^[i] { d := d.start, visited := List.replicate d.requests.length false }

/-- Method `DiskScheduler::runSSTF` in 32-bit `int` arithmetic: the outer
loop runs `requests.size()` times. -/
def runSSTF32 (d : DiskScheduler) : DiskScheduler :=
  (sstfState32 d d.requests.length).d

/-- The scheduler `d` with its seek total reduced to a 32-bit `int`. -/
def reduce32 (d : DiskScheduler) : DiskScheduler :=
  { d with total_seek_time := wrapInt d.total_seek_time }

end DiskScheduler

/-- Clock bound of the tick-by-tick simulations for a workload whose total
burst time is `total`: the clock is not negative, the clock plus the remaining
service time fits in an `int`, and the remaining service time does not exceed
`total`. -/
def ClockInv (total : Nat) (s : CPUScheduler.SimState) : Prop :=
  0 ≤ s.current_time ∧
    s.current_time + (remainingTotal s.remaining_time : Int) ≤ INT_MAX ∧
    remainingTotal s.remaining_time ≤ total

/-- Total burst time of the tasks not yet executed by
`runNonPreemptivePriority` (a negative burst time counts as 0). -/
def pendingBurst : List Process → List Bool → Nat
  | p :: ps, e :: es => (if e then 0 else p.burst_time.toNat) + pendingBurst ps es
  | _, _ => 0

instance (input completed : List Process) :
    Decidable (CPUScheduler.SortedByArrival input completed) := by
  unfold CPUScheduler.SortedByArrival; infer_instance

instance (input requests : List DiskRequest) :
    Decidable (DiskScheduler.SortedByArrival input requests) := by
  unfold DiskScheduler.SortedByArrival; infer_instance

/-- The head sequence of a scheduler ends at its current head position, and
its seek total is the sum of the absolute differences of the sequence whenever
that sum fits a 32-bit `int`. -/
def SeekOK32 (d : DiskScheduler) : Prop :=
  d.head_sequence.getLast? = some d.head_position ∧
    (seekSum d.head_sequence ≤ INT_MAX → d.total_seek_time = seekSum d.head_sequence)

/-! ## Theorems -/

/-- C1, evaluated on the code: with time quantum 2 and the two tasks
(arrival 0, burst 3) and (arrival 0, burst 5) the loop of `runRoundRobin` ends
after four iterations with `processed = 2` while the second task still has
remaining time 3 and no completion recorded: the first task, queued twice, is
counted twice. -/
theorem CPUScheduler.rrRun_ends_with_unfinished_task :
    (CPUScheduler.rrRun 5 2 [mkProcess 1 0 3 1, mkProcess 2 0 5 1]).map
        (fun s => (s.remaining_time, s.processed, s.current_time,
          s.completed.map (fun p => p.completion_time)))
      = some ([0, 3], 2, 5, [5, 0]) := by
  decide

/-- C2, evaluated on the code: for the tasks (arrival 0, burst 5, priority 1)
and (arrival 0, burst 3, priority 2), in both modes, `runPriorityScheduling`
reports `total_time = 3`, the completion time of the last task of the vector,
while the completion times are 8 and 3 and the burst times sum to 8. -/
theorem CPUScheduler.runPriorityScheduling_total_time_is_back :
    ∀ preemptive : Bool,
      (CPUScheduler.runPriorityScheduling 10 preemptive
          [mkProcess 1 0 5 1, mkProcess 2 0 3 2]).map
        (fun r => (r.total_time, r.completed.map (fun p => p.completion_time),
          (r.completed.map (fun p => p.burst_time)).sum))
      = some (3, [8, 3], 8) := by
  decide

/-- C3, evaluated on the code: for requests at cylinders 50, 20, 80, head 40,
disk size 100 and direction up, the head sequence of `runCSCAN` is
40, 50, 80, 0, which does not contain cylinder 20; in direction down it is
40, 20, 100, which contains neither 50 nor 80. -/
theorem DiskScheduler.runCSCAN_skips_requests_behind_head :
    ((DiskScheduler.new [⟨1, 50, 0⟩, ⟨2, 20, 1⟩, ⟨3, 80, 2⟩] 40 100).runCSCAN true).head_sequence
        = [40, 50, 80, 0] ∧
      20 ∉ ((DiskScheduler.new [⟨1, 50, 0⟩, ⟨2, 20, 1⟩, ⟨3, 80, 2⟩] 40 100).runCSCAN
        true).head_sequence ∧
      ((DiskScheduler.new [⟨1, 50, 0⟩, ⟨2, 20, 1⟩, ⟨3, 80, 2⟩] 40 100).runCSCAN
        false).head_sequence = [40, 20, 100] := by
  decide

/-- C4, evaluated on the code: for requests at cylinders 50, 20, 80, head 40
and direction up, the head sequence of `runSCAN` is 40, 50, 80, 50, 20: it has
five elements for three requests and visits cylinder 50 twice. -/
theorem DiskScheduler.runSCAN_revisits_cylinder :
    ((DiskScheduler.new [⟨1, 50, 0⟩, ⟨2, 20, 1⟩, ⟨3, 80, 2⟩] 40 100).runSCAN true).head_sequence
        = [40, 50, 80, 50, 20] ∧
      ((DiskScheduler.new [⟨1, 50, 0⟩, ⟨2, 20, 1⟩, ⟨3, 80, 2⟩] 40 100).runSCAN
        true).head_sequence.length ≠ 3 + 1 := by
  decide

/-- C5, evaluated on the code: for requests at cylinders 50 and 80, head 40
and direction up (every request above the head, largest cylinder 80),
`runSCAN` reports total seek time 70, not 80 - 40 = 40: after reaching 80 the
head travels back to 50. -/
theorem DiskScheduler.runSCAN_total_counts_way_back :
    ((DiskScheduler.new [⟨1, 50, 0⟩, ⟨2, 80, 1⟩] 40 100).runSCAN true).total_seek_time = 70 ∧
      ((DiskScheduler.new [⟨1, 50, 0⟩, ⟨2, 80, 1⟩] 40 100).runSCAN true).head_sequence
        = [40, 50, 80, 50] := by
  decide

/-! ### Disk FCFS -/

theorem DiskScheduler.foldl_seekTo (cyls : List Int) (d : DiskScheduler) :
    (cyls.foldl DiskScheduler.seekTo d).head_sequence = d.head_sequence ++ cyls ∧
      (cyls.foldl DiskScheduler.seekTo d).total_seek_time
        = d.total_seek_time + seekSum (d.head_position :: cyls) := by
  induction cyls generalizing d with
  | nil => simp [seekSum]
  | cons c cs ih =>
    obtain ⟨h1, h2⟩ := ih (d.seekTo c)
    simp only [List.foldl_cons, h1, h2]
    constructor
    · simp [DiskScheduler.seekTo]
    · simp only [DiskScheduler.seekTo, seekSum]
      ring

/-! ### CPU FCFS -/

theorem CPUScheduler.fcfsLoop_getElem? (l : List Process) :
    ∀ (current_time : Int) (i : Nat) (p : Process), l[i]? = some p →
      ∃ c, (CPUScheduler.fcfsLoop current_time l).1[i]? = some c ∧ c.input = p.input ∧
        c.completion_time
          = max (fcfsCursor current_time (CPUScheduler.fcfsLoop current_time l).1 i)
              p.arrival_time + p.burst_time ∧
        c.waiting_time
          = max (fcfsCursor current_time (CPUScheduler.fcfsLoop current_time l).1 i)
              p.arrival_time - p.arrival_time := by
  induction l with
  | nil => intro ct i p h; simp at h
  | cons q qs ih =>
    intro ct i p h
    cases i with
    | zero =>
      simp only [List.getElem?_cons_zero, Option.some.injEq] at h
      subst h
      simp only [CPUScheduler.fcfsLoop, List.getElem?_cons_zero]
      refine ⟨_, rfl, rfl, ?_, ?_⟩ <;>
        · simp only [fcfsCursor, max_def]
          split_ifs <;> omega
    | succ k =>
      simp only [List.getElem?_cons_succ] at h
      obtain ⟨c, hc, hin, hcomp, hwait⟩ := ih
        ((if ct < q.arrival_time then q.arrival_time else ct) + q.burst_time) k p h
      refine ⟨c, by simpa only [CPUScheduler.fcfsLoop, List.getElem?_cons_succ] using hc, hin, ?_, ?_⟩
      · rw [hcomp]
        cases k <;> simp [fcfsCursor, CPUScheduler.fcfsLoop]
      · rw [hwait]
        cases k <;> simp [fcfsCursor, CPUScheduler.fcfsLoop]

theorem CPUScheduler.fcfsLoop_total (l : List Process) :
    ∀ current_time : Int, (CPUScheduler.fcfsLoop current_time l).2
      = ((CPUScheduler.fcfsLoop current_time l).1.getLast?.map
          (fun p => p.completion_time)).getD current_time := by
  induction l with
  | nil => intro ct; simp [CPUScheduler.fcfsLoop]
  | cons q qs ih =>
    intro ct
    simp only [CPUScheduler.fcfsLoop]
    rw [ih, List.getLast?_cons]
    cases (CPUScheduler.fcfsLoop ((if ct < q.arrival_time then q.arrival_time else ct)
      + q.burst_time) qs).1.getLast? <;> simp

/-! ### Best Fit against First Fit -/

theorem MemoryManager.firstFitScan_spec (process : Process) (l : List MemoryBlock) :
    ∀ (i k : Nat), MemoryManager.firstFitScan process l i = some k →
      ∃ j b, k = i + j ∧ l[j]? = some b ∧ MemoryManager.fits b process = true := by
  induction l with
  | nil => intro i k h; simp [MemoryManager.firstFitScan] at h
  | cons b bs ih =>
    intro i k h
    simp only [MemoryManager.firstFitScan] at h
    split_ifs at h with hb
    · simp only [Option.some.injEq] at h
      exact ⟨0, b, by omega, by simp, hb⟩
    · obtain ⟨j, b', hk, hj, hf⟩ := ih (i + 1) k h
      exact ⟨j + 1, b', by omega, by simpa using hj, hf⟩

theorem MemoryManager.bestFitScan_spec (process : Process) (l : List MemoryBlock) :
    ∀ (i : Nat) (best : Option Nat) (minw : Int) (k : Nat),
      MemoryManager.bestFitScan process l i best minw = some k →
        (best = some k ∧
            ∀ b ∈ l, MemoryManager.fits b process = true → minw ≤ b.size - process.burst_time) ∨
          ∃ j b, k = i + j ∧ l[j]? = some b ∧ MemoryManager.fits b process = true ∧
            b.size - process.burst_time < minw ∧
            ∀ b' ∈ l, MemoryManager.fits b' process = true →
              b.size - process.burst_time ≤ b'.size - process.burst_time := by
  induction l with
  | nil =>
    intro i best minw k h
    left
    simpa [MemoryManager.bestFitScan] using h
  | cons b bs ih =>
    intro i best minw k h
    simp only [MemoryManager.bestFitScan] at h
    split_ifs at h with hb hw
    · rcases ih (i + 1) (some i) (b.size - process.burst_time) k h with
        ⟨hk, hmin⟩ | ⟨j, b', hk, hj, hf, hlt, hmin⟩
      · right
        simp only [Option.some.injEq] at hk
        refine ⟨0, b, by omega, by simp, hb, hw, ?_⟩
        intro b' hb' hf'
        rcases List.mem_cons.mp hb' with rfl | hmem
        · exact le_refl _
        · exact hmin b' hmem hf'
      · right
        refine ⟨j + 1, b', by omega, by simpa using hj, hf, lt_trans hlt hw, ?_⟩
        intro b'' hb'' hf''
        rcases List.mem_cons.mp hb'' with rfl | hmem
        · exact le_of_lt hlt
        · exact hmin b'' hmem hf''
    · rcases ih (i + 1) best minw k h with ⟨hk, hmin⟩ | ⟨j, b', hk, hj, hf, hlt, hmin⟩
      · left
        refine ⟨hk, ?_⟩
        intro b' hb' hf'
        rcases List.mem_cons.mp hb' with rfl | hmem
        · exact not_lt.mp hw
        · exact hmin b' hmem hf'
      · right
        refine ⟨j + 1, b', by omega, by simpa using hj, hf, hlt, ?_⟩
        intro b'' hb'' hf''
        rcases List.mem_cons.mp hb'' with rfl | hmem
        · exact le_trans (le_of_lt hlt) (not_lt.mp hw)
        · exact hmin b'' hmem hf''
    · rcases ih (i + 1) best minw k h with ⟨hk, hmin⟩ | ⟨j, b', hk, hj, hf, hlt, hmin⟩
      · left
        refine ⟨hk, ?_⟩
        intro b' hb' hf'
        rcases List.mem_cons.mp hb' with rfl | hmem
        · exact absurd hf' hb
        · exact hmin b' hmem hf'
      · right
        refine ⟨j + 1, b', by omega, by simpa using hj, hf, hlt, ?_⟩
        intro b'' hb'' hf''
        rcases List.mem_cons.mp hb'' with rfl | hmem
        · exact absurd hf'' hb
        · exact hmin b'' hmem hf''

/-- C6 as stated fails: with blocks of sizes 10 and 5 (both unallocated) and
tasks of sizes 5 and 4, Best Fit gives the second task the block of size 10
(leftover 6) while First Fit gives it the block of size 5 (leftover 1); both
allocate the task. -/
theorem MemoryManager.bestFit_leftover_exceeds_firstFit :
    (MemoryManager.assignedBlock
        (MemoryManager.allocateBestFit [mkBlock 1 10, mkBlock 2 5]
          [mkProcess 1 0 5 1, mkProcess 2 0 4 1]) (mkProcess 2 0 4 1)).map
          (fun b => b.size - (mkProcess 2 0 4 1).burst_time) = some 6 ∧
      (MemoryManager.assignedBlock
        (MemoryManager.allocateFirstFit [mkBlock 1 10, mkBlock 2 5]
          [mkProcess 1 0 5 1, mkProcess 2 0 4 1]) (mkProcess 2 0 4 1)).map
          (fun b => b.size - (mkProcess 2 0 4 1).burst_time) = some 1 ∧
      ¬ ((6 : Int) ≤ 1) := by
  decide

/-- C6 as amended: from one and the same block state, if the scan of
`allocateFirstFit` selects block `i` for a task and the scan of
`allocateBestFit` selects block `j` for it, then the leftover
`size - burst_time` of block `j` is at most that of block `i`. -/
theorem MemoryManager.bestFit_le_firstFit_same_state (blocks : List MemoryBlock)
    (process : Process) (i j : Nat) (bi bj : MemoryBlock)
    (hF : MemoryManager.firstFitSelect blocks process = some i)
    (hB : MemoryManager.bestFitSelect blocks process = some j)
    (hi : blocks[i]? = some bi) (hj : blocks[j]? = some bj) :
    bj.size - process.burst_time ≤ bi.size - process.burst_time := by
  obtain ⟨i', b, hi', hb, hfit⟩ := MemoryManager.firstFitScan_spec process blocks 0 i hF
  have hbi : b = bi := by
    have : i' = i := by omega
    subst this
    rw [hb] at hi
    exact Option.some.inj hi
  subst hbi
  have hmem : b ∈ blocks := List.mem_iff_getElem?.mpr ⟨i', hb⟩
  rcases MemoryManager.bestFitScan_spec process blocks 0 none INT_MAX j hB with
    ⟨hk, -⟩ | ⟨j', b', hj', hb', -, -, hmin⟩
  · exact absurd hk (by simp)
  · have hbj : b' = bj := by
      have : j' = j := by omega
      subst this
      rw [hb'] at hj
      exact Option.some.inj hj
    subst hbj
    exact hmin b hmem hfit

/-- Witness for the amended C6: blocks of sizes 10 and 5, one task of size 4:
First Fit selects block 0 (leftover 6), Best Fit selects block 1
(leftover 1). -/
theorem MemoryManager.bestFit_le_firstFit_same_state_witness :
    MemoryManager.firstFitSelect [mkBlock 1 10, mkBlock 2 5] (mkProcess 1 0 4 1) = some 0 ∧
      MemoryManager.bestFitSelect [mkBlock 1 10, mkBlock 2 5] (mkProcess 1 0 4 1) = some 1 ∧
      (mkBlock 2 5).size - (mkProcess 1 0 4 1).burst_time
        ≤ (mkBlock 1 10).size - (mkProcess 1 0 4 1).burst_time :=
  ⟨by decide, by decide,
    MemoryManager.bestFit_le_firstFit_same_state [mkBlock 1 10, mkBlock 2 5] (mkProcess 1 0 4 1)
      0 1 (mkBlock 1 10) (mkBlock 2 5) (by decide) (by decide) (by decide) (by decide)⟩

/-! ### `total_time` of FCFS and SJF -/

theorem CPUScheduler.fcfsLoop_bounds (l : List Process) :
    ∀ current_time : Int, (∀ p ∈ l, 0 < p.burst_time) →
      current_time + (l.map (fun p => p.burst_time)).sum
          ≤ (CPUScheduler.fcfsLoop current_time l).2 ∧
        current_time ≤ (CPUScheduler.fcfsLoop current_time l).2 ∧
        (∀ c ∈ (CPUScheduler.fcfsLoop current_time l).1,
          c.completion_time ≤ (CPUScheduler.fcfsLoop current_time l).2) ∧
        (l ≠ [] → ∃ c ∈ (CPUScheduler.fcfsLoop current_time l).1,
          c.completion_time = (CPUScheduler.fcfsLoop current_time l).2) ∧
        (CPUScheduler.fcfsLoop current_time l).1.map Process.input = l.map Process.input := by
  induction l with
  | nil => intro ct _; simp [CPUScheduler.fcfsLoop]
  | cons q qs ih =>
    intro ct hpos
    have hq : 0 < q.burst_time := hpos q (List.mem_cons_self _ _)
    obtain ⟨h1, h2, h3, h4, h5⟩ :=
      ih ((if ct < q.arrival_time then q.arrival_time else ct) + q.burst_time)
        (fun p hp => hpos p (List.mem_cons_of_mem _ hp))
    have ht : ct ≤ (if ct < q.arrival_time then q.arrival_time else ct) := by
      split_ifs <;> omega
    simp only [CPUScheduler.fcfsLoop, List.map_cons, List.sum_cons, List.mem_cons,
      forall_eq_or_imp, h5]
    generalize (if ct < q.arrival_time then q.arrival_time else ct) = t at h1 h2 h3 h4 h5 ht ⊢
    refine ⟨?_, ?_, ⟨?_, h3⟩, ?_, ?_⟩
    · omega
    · omega
    · exact h2
    · intro _
      by_cases hqs : qs = []
      · subst hqs
        exact ⟨_, Or.inl rfl, by simp [CPUScheduler.fcfsLoop]⟩
      · obtain ⟨c, hc, hceq⟩ := h4 hqs
        exact ⟨c, Or.inr hc, hceq⟩
    · simp [Process.input]

theorem CPUScheduler.sjfScan_perm (current_time : Int) (rest : List Process) :
    ∀ remaining : Process,
      ((CPUScheduler.sjfScan current_time remaining rest).1 ::
        (CPUScheduler.sjfScan current_time remaining rest).2).Perm (remaining :: rest) := by
  induction rest with
  | nil => intro r; simp [CPUScheduler.sjfScan]
  | cons x xs ih =>
    intro r
    simp only [CPUScheduler.sjfScan]
    split_ifs
    · exact (List.Perm.swap _ _ _).trans ((ih x).cons r)
    · exact ((List.Perm.swap _ _ _).trans ((ih r).cons x)).trans (List.Perm.swap _ _ _)

theorem CPUScheduler.sjfLoop_nil (n : Nat) (current_time : Int) :
    CPUScheduler.sjfLoop n current_time [] = ([], current_time) := by
  cases n <;> rfl

theorem CPUScheduler.sjfLoop_bounds (n : Nat) :
    ∀ (l : List Process) (current_time : Int), l.length ≤ n → (∀ p ∈ l, 0 < p.burst_time) →
      current_time + (l.map (fun p => p.burst_time)).sum
          ≤ (CPUScheduler.sjfLoop n current_time l).2 ∧
        current_time ≤ (CPUScheduler.sjfLoop n current_time l).2 ∧
        (∀ c ∈ (CPUScheduler.sjfLoop n current_time l).1,
          c.completion_time ≤ (CPUScheduler.sjfLoop n current_time l).2) ∧
        (l ≠ [] → ∃ c ∈ (CPUScheduler.sjfLoop n current_time l).1,
          c.completion_time = (CPUScheduler.sjfLoop n current_time l).2) ∧
        ((CPUScheduler.sjfLoop n current_time l).1.map Process.input).Perm
          (l.map Process.input) := by
  induction n with
  | zero =>
    intro l ct hlen _
    have : l = [] := List.length_eq_zero.mp (by omega)
    subst this
    simp [CPUScheduler.sjfLoop]
  | succ n ih =>
    intro l ct hlen hpos
    cases l with
    | nil => simp [CPUScheduler.sjfLoop]
    | cons r rest =>
      have hperm := CPUScheduler.sjfScan_perm ct rest r
      set s := CPUScheduler.sjfScan ct r rest with hs
      have hs1 : 0 < s.1.burst_time := hpos s.1 (hperm.subset (List.mem_cons_self _ _))
      have hlen2 : s.2.length ≤ n := by
        have := hperm.length_eq
        simp only [List.length_cons] at this hlen
        omega
      have hsum : s.1.burst_time + (s.2.map (fun p => p.burst_time)).sum
          = r.burst_time + (rest.map (fun p => p.burst_time)).sum := by
        have := (hperm.map (fun p => p.burst_time)).sum_eq
        simpa using this
      obtain ⟨h1, h2, h3, h4, h5⟩ :=
        ih s.2 ((if ct < s.1.arrival_time then s.1.arrival_time else ct) + s.1.burst_time) hlen2
          (fun p hp => hpos p (hperm.subset (List.mem_cons_of_mem _ hp)))
      have ht : ct ≤ (if ct < s.1.arrival_time then s.1.arrival_time else ct) := by
        split_ifs <;> omega
      simp only [CPUScheduler.sjfLoop, ← hs, List.map_cons, List.sum_cons, List.mem_cons,
        forall_eq_or_imp]
      generalize (if ct < s.1.arrival_time then s.1.arrival_time else ct) = t
        at h1 h2 h3 h4 h5 ht ⊢
      refine ⟨?_, ?_, ⟨?_, h3⟩, ?_, ?_⟩
      · omega
      · omega
      · exact h2
      · intro _
        by_cases hqs : s.2 = []
        · rw [hqs]
          exact ⟨_, Or.inl rfl, by simp [CPUScheduler.sjfLoop_nil]⟩
        · obtain ⟨c, hc, hceq⟩ := h4 hqs
          exact ⟨c, Or.inr hc, hceq⟩
      · have hp2 := hperm.map Process.input
        simp only [List.map_cons] at hp2
        exact (List.Perm.cons _ h5).trans hp2

/-! ### Output fields after each CPU algorithm -/

theorem whileLoop_terminates {σ : Type} (cond : σ → Bool) (body : σ → σ) (Inv : σ → Prop)
    (μ : σ → Nat)
    (hstep : ∀ s, Inv s → cond s = true → Inv (body s) ∧ μ (body s) < μ s) :
    ∀ (fuel : Nat) (s : σ), Inv s → μ s < fuel →
      ∃ s', whileLoop cond body fuel s = some s' ∧ Inv s' ∧ cond s' = false := by
  intro fuel
  induction fuel with
  | zero => intro s _ h; omega
  | succ n ih =>
    intro s hinv hμ
    by_cases hc : cond s = true
    · obtain ⟨hi, hlt⟩ := hstep s hinv hc
      obtain ⟨s', hs', hinv', hc'⟩ := ih (body s) hi (by omega)
      exact ⟨s', by simp [whileLoop, hc, hs'], hinv', hc'⟩
    · exact ⟨s, by simp [whileLoop, hc], hinv, by simpa using hc⟩

theorem recordCompletion_metricsOK (current_time : Int) (p : Process) :
    (CPUScheduler.recordCompletion current_time p).MetricsOK := by
  simp [CPUScheduler.recordCompletion, Process.MetricsOK]
  ring

theorem recordCompletion_input (current_time : Int) (p : Process) :
    (CPUScheduler.recordCompletion current_time p).input = p.input := rfl

theorem CPUScheduler.fcfsLoop_metricsOK (l : List Process) :
    ∀ current_time : Int, ∀ c ∈ (CPUScheduler.fcfsLoop current_time l).1, c.MetricsOK := by
  induction l with
  | nil => intro ct c hc; simp [CPUScheduler.fcfsLoop] at hc
  | cons q qs ih =>
    intro ct c hc
    simp only [CPUScheduler.fcfsLoop, List.mem_cons] at hc
    rcases hc with rfl | hc
    · simp [Process.MetricsOK]
      ring
    · exact ih _ c hc

theorem CPUScheduler.sjfLoop_metricsOK (n : Nat) :
    ∀ (l : List Process) (current_time : Int), l.length ≤ n →
      ∀ c ∈ (CPUScheduler.sjfLoop n current_time l).1, c.MetricsOK := by
  induction n with
  | zero =>
    intro l ct hlen c hc
    have : l = [] := List.length_eq_zero.mp (by omega)
    subst this
    simp [CPUScheduler.sjfLoop] at hc
  | succ n ih =>
    intro l ct hlen c hc
    cases l with
    | nil => simp [CPUScheduler.sjfLoop] at hc
    | cons r rest =>
      have hperm := CPUScheduler.sjfScan_perm ct rest r
      have hlen2 : (CPUScheduler.sjfScan ct r rest).2.length ≤ n := by
        have := hperm.length_eq
        simp at this hlen
        omega
      simp only [CPUScheduler.sjfLoop, List.mem_cons] at hc
      rcases hc with rfl | hc
      · simp [Process.MetricsOK]
        ring
      · exact ih _ _ hlen2 c hc

theorem remainingTotal_set (rs : List Int) :
    ∀ (k : Nat) (r v : Int), rs[k]? = some r →
      remainingTotal (rs.set k v) + r.toNat = remainingTotal rs + v.toNat := by
  induction rs with
  | nil => intro k r v h; simp at h
  | cons x xs ih =>
    intro k r v h
    cases k with
    | zero =>
      simp only [List.getElem?_cons_zero, Option.some.injEq] at h
      subst h
      simp only [remainingTotal, List.set_cons_zero, List.map_cons, List.sum_cons]
      omega
    | succ k =>
      simp only [List.getElem?_cons_succ] at h
      have := ih k r v h
      simp only [remainingTotal, List.set_cons_succ, List.map_cons, List.sum_cons] at this ⊢
      omega

theorem CPUScheduler.srjfScan_some (current_time : Int) (ps : List Process) :
    ∀ (rs : List Int) (i : Nat) (next : Option Nat) (m : Int) (k : Nat),
      CPUScheduler.srjfScan current_time ps rs i next m = some k →
        next = some k ∨
          ∃ (j : Nat) (p : Process) (r : Int), k = i + j ∧ ps[j]? = some p ∧ rs[j]? = some r ∧
            0 < r ∧ p.arrival_time ≤ current_time := by
  induction ps with
  | nil => intro rs i next m k h; left; simpa [CPUScheduler.srjfScan] using h
  | cons p ps ih =>
    intro rs i next m k h
    cases rs with
    | nil => left; simpa [CPUScheduler.srjfScan] using h
    | cons r rs =>
      simp only [CPUScheduler.srjfScan] at h
      split_ifs at h with hc
      · rcases ih rs (i + 1) (some i) r k h with hk | ⟨j, p', r', hk, hp, hr, hpos, harr⟩
        · right
          simp only [Option.some.injEq] at hk
          exact ⟨0, p, r, by omega, by simp, by simp, hc.2.1, hc.1⟩
        · right
          exact ⟨j + 1, p', r', by omega, by simpa using hp, by simpa using hr, hpos, harr⟩
      · rcases ih rs (i + 1) next m k h with hk | ⟨j, p', r', hk, hp, hr, hpos, harr⟩
        · left; exact hk
        · right
          exact ⟨j + 1, p', r', by omega, by simpa using hp, by simpa using hr, hpos, harr⟩

theorem CPUScheduler.srjfScan_of_some (current_time : Int) (ps : List Process) :
    ∀ (rs : List Int) (i x : Nat) (m : Int),
      CPUScheduler.srjfScan current_time ps rs i (some x) m ≠ none := by
  induction ps with
  | nil => intro rs i x m; simp [CPUScheduler.srjfScan]
  | cons p ps ih =>
    intro rs i x m
    cases rs with
    | nil => simp [CPUScheduler.srjfScan]
    | cons r rs =>
      simp only [CPUScheduler.srjfScan]
      split_ifs
      · exact ih rs (i + 1) i r
      · exact ih rs (i + 1) x m

theorem CPUScheduler.srjfScan_ne_none (current_time : Int) (ps : List Process) :
    ∀ (rs : List Int) (i : Nat) (next : Option Nat) (m : Int) (j : Nat) (p : Process) (r : Int),
      ps[j]? = some p → rs[j]? = some r → p.arrival_time ≤ current_time → 0 < r → r < m →
        CPUScheduler.srjfScan current_time ps rs i next m ≠ none := by
  induction ps with
  | nil => intro rs i next m j p r hp; simp at hp
  | cons p0 ps ih =>
    intro rs i next m j p r hp hr harr hpos hlt
    cases rs with
    | nil => simp at hr
    | cons r0 rs =>
      simp only [CPUScheduler.srjfScan]
      split_ifs with hc
      · exact CPUScheduler.srjfScan_of_some current_time ps rs (i + 1) i r0
      · cases j with
        | zero =>
          simp only [List.getElem?_cons_zero, Option.some.injEq] at hp hr
          subst hp hr
          exact absurd ⟨harr, hpos, hlt⟩ hc
        | succ j =>
          simp only [List.getElem?_cons_succ] at hp hr
          exact ih rs (i + 1) next m j p r hp hr harr hpos hlt

theorem CPUScheduler.priorityScan_some (current_time : Int) (ps : List Process) :
    ∀ (rs : List Int) (i : Nat) (next : Option Nat) (m : Int) (k : Nat),
      CPUScheduler.priorityScan current_time ps rs i next m = some k →
        next = some k ∨
          ∃ (j : Nat) (p : Process) (r : Int), k = i + j ∧ ps[j]? = some p ∧ rs[j]? = some r ∧
            0 < r ∧ p.arrival_time ≤ current_time := by
  induction ps with
  | nil => intro rs i next m k h; left; simpa [CPUScheduler.priorityScan] using h
  | cons p ps ih =>
    intro rs i next m k h
    cases rs with
    | nil => left; simpa [CPUScheduler.priorityScan] using h
    | cons r rs =>
      simp only [CPUScheduler.priorityScan] at h
      split_ifs at h with hc
      · rcases ih rs (i + 1) (some i) p.priority k h with
          hk | ⟨j, p', r', hk, hp, hr, hpos, harr⟩
        · right
          simp only [Option.some.injEq] at hk
          exact ⟨0, p, r, by omega, by simp, by simp, hc.2.1, hc.1⟩
        · right
          exact ⟨j + 1, p', r', by omega, by simpa using hp, by simpa using hr, hpos, harr⟩
      · rcases ih rs (i + 1) next m k h with hk | ⟨j, p', r', hk, hp, hr, hpos, harr⟩
        · left; exact hk
        · right
          exact ⟨j + 1, p', r', by omega, by simpa using hp, by simpa using hr, hpos, harr⟩

theorem CPUScheduler.priorityScan_of_some (current_time : Int) (ps : List Process) :
    ∀ (rs : List Int) (i x : Nat) (m : Int),
      CPUScheduler.priorityScan current_time ps rs i (some x) m ≠ none := by
  induction ps with
  | nil => intro rs i x m; simp [CPUScheduler.priorityScan]
  | cons p ps ih =>
    intro rs i x m
    cases rs with
    | nil => simp [CPUScheduler.priorityScan]
    | cons r rs =>
      simp only [CPUScheduler.priorityScan]
      split_ifs
      · exact ih rs (i + 1) i p.priority
      · exact ih rs (i + 1) x m

theorem CPUScheduler.priorityScan_ne_none (current_time : Int) (ps : List Process) :
    ∀ (rs : List Int) (i : Nat) (next : Option Nat) (m : Int) (j : Nat) (p : Process) (r : Int),
      ps[j]? = some p → rs[j]? = some r → p.arrival_time ≤ current_time → 0 < r →
        m < p.priority → CPUScheduler.priorityScan current_time ps rs i next m ≠ none := by
  induction ps with
  | nil => intro rs i next m j p r hp; simp at hp
  | cons p0 ps ih =>
    intro rs i next m j p r hp hr harr hpos hlt
    cases rs with
    | nil => simp at hr
    | cons r0 rs =>
      simp only [CPUScheduler.priorityScan]
      split_ifs with hc
      · exact CPUScheduler.priorityScan_of_some current_time ps rs (i + 1) i p0.priority
      · cases j with
        | zero =>
          simp only [List.getElem?_cons_zero, Option.some.injEq] at hp hr
          subst hp hr
          exact absurd ⟨harr, hpos, hlt⟩ hc
        | succ j =>
          simp only [List.getElem?_cons_succ] at hp hr
          exact ih rs (i + 1) next m j p r hp hr harr hpos hlt

theorem CPUScheduler.srjfSelect_ok : SelectOK (fun _ => True) CPUScheduler.srjfSelect := by
  constructor
  · intro s k h
    rcases CPUScheduler.srjfScan_some _ _ _ _ _ _ _ h with hk | ⟨j, p, r, hk, hp, hr, hpos, harr⟩
    · exact absurd hk (by simp)
    · have : j = k := by omega
      subst this
      exact ⟨p, r, hp, hr, hpos, harr⟩
  · intro s i p r hp hr harr hpos hlt _
    exact CPUScheduler.srjfScan_ne_none _ _ _ _ _ _ i p r hp hr harr hpos hlt

theorem CPUScheduler.prioritySelect_ok :
    SelectOK (fun priority => -1 < priority) CPUScheduler.prioritySelect := by
  constructor
  · intro s k h
    rcases CPUScheduler.priorityScan_some _ _ _ _ _ _ _ h with
      hk | ⟨j, p, r, hk, hp, hr, hpos, harr⟩
    · exact absurd hk (by simp)
    · have : j = k := by omega
      subst this
      exact ⟨p, r, hp, hr, hpos, harr⟩
  · intro s i p r hp hr harr hpos _ hprio
    exact CPUScheduler.priorityScan_ne_none _ _ _ _ _ _ i p r hp hr harr hpos hprio

theorem CPUScheduler.nextArrival_spec (ps : List Process) :
    ∀ (rs : List Int) (acc : Int),
      CPUScheduler.nextArrival ps rs acc ≤ acc ∧
        (∀ (j : Nat) (p : Process) (r : Int), ps[j]? = some p → rs[j]? = some r → 0 < r →
          CPUScheduler.nextArrival ps rs acc ≤ p.arrival_time) ∧
        (CPUScheduler.nextArrival ps rs acc = acc ∨
          ∃ (j : Nat) (p : Process) (r : Int), ps[j]? = some p ∧ rs[j]? = some r ∧ 0 < r ∧
            p.arrival_time = CPUScheduler.nextArrival ps rs acc) := by
  induction ps with
  | nil =>
    intro rs acc
    refine ⟨by simp [CPUScheduler.nextArrival], ?_, Or.inl (by simp [CPUScheduler.nextArrival])⟩
    intro j p r hp; simp at hp
  | cons p0 ps ih =>
    intro rs acc
    cases rs with
    | nil =>
      refine ⟨by simp [CPUScheduler.nextArrival], ?_, Or.inl (by simp [CPUScheduler.nextArrival])⟩
      intro j p r _ hr; simp at hr
    | cons r0 rs =>
      simp only [CPUScheduler.nextArrival]
      split_ifs with hc
      · obtain ⟨h1, h2, h3⟩ := ih rs p0.arrival_time
        refine ⟨by omega, ?_, ?_⟩
        · intro j p r hp hr hpos
          cases j with
          | zero =>
            simp only [List.getElem?_cons_zero, Option.some.injEq] at hp
            subst hp
            exact h1
          | succ j =>
            simp only [List.getElem?_cons_succ] at hp hr
            exact h2 j p r hp hr hpos
        · right
          rcases h3 with h3 | ⟨j, p, r, hp, hr, hpos, harr⟩
          · exact ⟨0, p0, r0, by simp, by simp, hc.1, h3.symm⟩
          · exact ⟨j + 1, p, r, by simpa using hp, by simpa using hr, hpos, harr⟩
      · obtain ⟨h1, h2, h3⟩ := ih rs acc
        refine ⟨h1, ?_, ?_⟩
        · intro j p r hp hr hpos
          cases j with
          | zero =>
            simp only [List.getElem?_cons_zero, Option.some.injEq] at hp hr
            rw [← hp]
            have hr0 : 0 < r0 := by rw [hr]; exact hpos
            have : acc ≤ p0.arrival_time := by
              by_contra hlt
              exact hc ⟨hr0, by omega⟩
            omega
          | succ j =>
            simp only [List.getElem?_cons_succ] at hp hr
            exact h2 j p r hp hr hpos
        · rcases h3 with h3 | ⟨j, p, r, hp, hr, hpos, harr⟩
          · exact Or.inl h3
          · exact Or.inr ⟨j + 1, p, r, by simpa using hp, by simpa using hr, hpos, harr⟩

theorem set_eq_self_of_getElem? {α : Type} (l : List α) :
    ∀ (k : Nat) (a : α), l[k]? = some a → l.set k a = l := by
  induction l with
  | nil => intro k a h; simp at h
  | cons x xs ih =>
    intro k a h
    cases k with
    | zero =>
      simp only [List.getElem?_cons_zero, Option.some.injEq] at h
      simp [h]
    | succ k =>
      simp only [List.getElem?_cons_succ] at h
      simp [ih k a h]

theorem inputs_getElem? {l c0 : List Process}
    (h : l.map Process.input = c0.map Process.input) (i : Nat) (p : Process)
    (hp : l[i]? = some p) : ∃ p0, c0[i]? = some p0 ∧ p0 ∈ c0 ∧ p0.input = p.input := by
  have h2 : (l.map Process.input)[i]? = (c0.map Process.input)[i]? := by rw [h]
  simp only [List.getElem?_map, hp, Option.map_some'] at h2
  cases h0 : c0[i]? with
  | none => simp [h0] at h2
  | some p0 =>
    simp only [h0, Option.map_some', Option.some.injEq] at h2
    exact ⟨p0, rfl, List.mem_iff_getElem?.mpr ⟨i, h0⟩, h2.symm⟩

theorem Process.arrival_of_input {p q : Process} (h : p.input = q.input) :
    p.arrival_time = q.arrival_time ∧ p.burst_time = q.burst_time ∧ p.priority = q.priority := by
  simp only [Process.input, Prod.mk.injEq] at h
  exact ⟨h.2.1, h.2.2.1, h.2.2.2⟩

theorem TickInv.exists_unfinished {c0 : List Process} {s : CPUScheduler.SimState}
    (hinv : TickInv c0 s) (hc : CPUScheduler.tickCond s = true) :
    ∃ (i : Nat) (p : Process) (r : Int),
      s.completed[i]? = some p ∧ s.remaining_time[i]? = some r ∧ 0 < r := by
  have hlen : s.completed.length = c0.length := by
    have := congrArg List.length hinv.inputs
    simpa using this
  have hlt : s.remaining_time.count 0 < s.remaining_time.length := by
    have h1 : s.processed < (s.completed.length : Int) := by
      simpa [CPUScheduler.tickCond] using hc
    rw [hinv.count, hlen, ← hinv.len] at h1
    exact_mod_cast h1
  have hex : ∃ r ∈ s.remaining_time, r ≠ 0 := by
    by_contra hall
    push_neg at hall
    have := (List.count_eq_length (a := (0 : Int)) (l := s.remaining_time)).mpr
      (fun b hb => (hall b hb).symm)
    omega
  obtain ⟨r, hr, hne⟩ := hex
  obtain ⟨i, hi⟩ := List.mem_iff_getElem?.mp hr
  have hi_lt : i < s.completed.length := by
    have := (List.getElem?_eq_some.mp hi).1
    rw [hlen, ← hinv.len]
    exact this
  refine ⟨i, s.completed[i], r, List.getElem?_eq_getElem hi_lt, hi, ?_⟩
  have := (hinv.range i r hi).1
  omega

theorem CPUScheduler.tickBody_step (G : Int → Prop) (select : CPUScheduler.SimState → Option Nat)
    (hsel : SelectOK G select) (c0 : List Process)
    (hwf : ∀ p ∈ c0, p.arrival_time < INT_MAX ∧ G p.priority)
    (s : CPUScheduler.SimState) (hinv : TickInv c0 s) (hc : CPUScheduler.tickCond s = true) :
    TickInv c0 (CPUScheduler.tickBody select s) ∧
      tickMeasure select (CPUScheduler.tickBody select s) < tickMeasure select s := by
  cases hs : select s with
  | none =>
    obtain ⟨i, p, r, hp, hr, hpos⟩ := hinv.exists_unfinished hc
    obtain ⟨p0, -, hp0mem, hp0⟩ := inputs_getElem? hinv.inputs i p hp
    have harr : p.arrival_time < INT_MAX := by
      rw [← (Process.arrival_of_input hp0).1]
      exact (hwf p0 hp0mem).1
    obtain ⟨-, h2, h3⟩ := CPUScheduler.nextArrival_spec s.completed s.remaining_time INT_MAX
    have hle := h2 i p r hp hr hpos
    have hbody0 : CPUScheduler.tickBody select s
        = if CPUScheduler.nextArrival s.completed s.remaining_time INT_MAX ≠ INT_MAX then
            { s with current_time :=
                CPUScheduler.nextArrival s.completed s.remaining_time INT_MAX }
          else s := by
      simp only [CPUScheduler.tickBody, hs]
    generalize CPUScheduler.nextArrival s.completed s.remaining_time INT_MAX = na
      at h2 h3 hle hbody0
    have hne : na ≠ INT_MAX := by omega
    rcases h3 with h3 | ⟨j, q, rq, hq, hrq, hqpos, hqarr⟩
    · exact absurd h3 hne
    · obtain ⟨q0, -, hq0mem, hq0⟩ := inputs_getElem? hinv.inputs j q hq
      have hG : G q.priority := by
        rw [← (Process.arrival_of_input hq0).2.2]
        exact (hwf q0 hq0mem).2
      rw [hbody0, if_pos hne]
      refine ⟨⟨hinv.inputs, hinv.len, hinv.range, hinv.done, hinv.count⟩, ?_⟩
      have hsel2 := hsel.2 { s with current_time := na } j q rq hq hrq
        (le_of_eq hqarr) hqpos (hinv.range j rq hrq).2 hG
      simp only [tickMeasure, hs, if_neg hsel2]
      simp
  | some k =>
    obtain ⟨p, r, hp, hr, hpos, -⟩ := hsel.1 s k hs
    have hgetD : s.remaining_time.getD k 0 = r := by
      simp [List.getD_eq_getElem?_getD, hr]
    have hk_lt : k < s.remaining_time.length := (List.getElem?_eq_some.mp hr).1
    have hmod : CPUScheduler.modifyAt s.completed k
        (CPUScheduler.recordCompletion (s.current_time + 1))
          = s.completed.set k (CPUScheduler.recordCompletion (s.current_time + 1) p) := by
      simp only [CPUScheduler.modifyAt, hp]
    have hsum := remainingTotal_set s.remaining_time k r (r - 1) hr
    have hcount := List.count_set (r - 1) (0 : Int) s.remaining_time k hk_lt
    have hgk : s.remaining_time[k] = r := (List.getElem?_eq_some.mp hr).2
    have hrange : ∀ (i : Nat) (x : Int), (s.remaining_time.set k (r - 1))[i]? = some x →
        0 ≤ x ∧ x < INT_MAX := by
      intro i x hx
      rw [List.getElem?_set] at hx
      split_ifs at hx with h1
      · simp only [Option.some.injEq] at hx
        have := hinv.range k r hr
        omega
      · exact hinv.range i x hx
    have hmeasure : ∀ t : CPUScheduler.SimState,
        t.remaining_time = s.remaining_time.set k (r - 1) →
          tickMeasure select t < tickMeasure select s := by
      intro t ht
      simp only [tickMeasure, ht, hs]
      have h1 : (r - 1).toNat + 1 = r.toNat := by omega
      have h2 : (if select t = none then 1 else 0) ≤ 1 := by split_ifs <;> omega
      simp only [reduceCtorEq, if_false]
      omega
    by_cases hr1 : r - 1 = 0
    · have hbody : CPUScheduler.tickBody select s
          = { completed := s.completed.set k
                (CPUScheduler.recordCompletion (s.current_time + 1) p),
              remaining_time := s.remaining_time.set k (r - 1),
              current_time := s.current_time + 1,
              processed := s.processed + 1 } := by
        simp only [CPUScheduler.tickBody, hs, hgetD, hr1, if_true, hmod]
      rw [hbody]
      refine ⟨⟨?_, ?_, hrange, ?_, ?_⟩, hmeasure _ rfl⟩
      · simp only [List.map_set, recordCompletion_input]
        rw [← hinv.inputs]
        have hpk : (s.completed.map Process.input)[k]? = some p.input := by
          simp [List.getElem?_map, hp]
        exact set_eq_self_of_getElem? _ k _ hpk
      · simp [hinv.len]
      · intro i q hq hz
        simp only at hq hz
        rw [List.getElem?_set] at hq
        split_ifs at hq with h1 h2
        · simp only [Option.some.injEq] at hq
          rw [← hq]
          exact recordCompletion_metricsOK _ _
        · rw [List.getElem?_set_ne h1] at hz
          exact hinv.done i q hq hz
      · simp only
        rw [hcount, hinv.count, hgk]
        have hrne : ¬ (r = 0) := by omega
        simp [hrne, hr1]
    · have hbody : CPUScheduler.tickBody select s
          = { s with remaining_time := s.remaining_time.set k (r - 1),
                     current_time := s.current_time + 1 } := by
        simp only [CPUScheduler.tickBody, hs, hgetD, hr1, if_false]
      rw [hbody]
      refine ⟨⟨hinv.inputs, ?_, hrange, ?_, ?_⟩, hmeasure _ rfl⟩
      · simp [hinv.len]
      · intro i q hq hz
        simp only at hq hz
        by_cases hik : k = i
        · subst hik
          rw [List.getElem?_set_self hk_lt] at hz
          simp only [Option.some.injEq] at hz
          exact absurd hz hr1
        · rw [List.getElem?_set_ne hik] at hz
          exact hinv.done i q hq hz
      · simp only
        rw [hcount, hinv.count, hgk]
        have hrne : ¬ (r = 0) := by omega
        simp [hrne, hr1]

theorem TickInv.init (c0 : List Process)
    (hwf : ∀ p ∈ c0, 0 < p.burst_time ∧ p.burst_time < INT_MAX) :
    TickInv c0 (CPUScheduler.tickInit c0) := by
  have hmem : ∀ (i : Nat) (r : Int), (c0.map (fun p => p.burst_time))[i]? = some r →
      0 < r ∧ r < INT_MAX := by
    intro i r hr
    have hr2 : r ∈ c0.map (fun p => p.burst_time) := List.mem_iff_getElem?.mpr ⟨i, hr⟩
    obtain ⟨p, hp, rfl⟩ := List.mem_map.mp hr2
    exact hwf p hp
  refine ⟨rfl, by simp [CPUScheduler.tickInit], ?_, ?_, ?_⟩
  · intro i r hr
    have := hmem i r hr
    exact ⟨le_of_lt this.1, this.2⟩
  · intro i p _ hz
    have := (hmem i 0 hz).1
    omega
  · have h0 : (c0.map (fun p => p.burst_time)).count 0 = 0 := by
      rw [List.count_eq_zero]
      intro hmem0
      obtain ⟨i, hi⟩ := List.mem_iff_getElem?.mp hmem0
      have := (hmem i 0 hi).1
      omega
    simp [CPUScheduler.tickInit, h0]

theorem TickInv.all_metricsOK {c0 : List Process} {s : CPUScheduler.SimState}
    (hinv : TickInv c0 s) (hc : CPUScheduler.tickCond s = false) :
    ∀ p ∈ s.completed, p.MetricsOK := by
  have hlen : s.completed.length = c0.length := by
    have := congrArg List.length hinv.inputs
    simpa using this
  have hge : s.remaining_time.length ≤ s.remaining_time.count 0 := by
    have h1 : ¬ (s.processed < (s.completed.length : Int)) := by
      simpa [CPUScheduler.tickCond] using hc
    rw [hinv.count, hlen, ← hinv.len] at h1
    have h2 : ((s.remaining_time.length : Nat) : Int) ≤ ((s.remaining_time.count 0 : Nat) : Int) :=
      not_lt.mp h1
    exact_mod_cast h2
  have hall := (List.count_eq_length (a := (0 : Int)) (l := s.remaining_time)).mp
    (le_antisymm (List.count_le_length _ _) hge)
  intro p hp
  obtain ⟨i, hi⟩ := List.mem_iff_getElem?.mp hp
  have hi_lt : i < s.remaining_time.length := by
    have := (List.getElem?_eq_some.mp hi).1
    rw [hinv.len, ← hlen]
    exact this
  have hz : s.remaining_time[i]? = some 0 := by
    rw [List.getElem?_eq_getElem hi_lt]
    exact congrArg some (hall _ (List.getElem_mem hi_lt)).symm
  exact hinv.done i p hi hz

theorem CPUScheduler.tick_loop_terminates (G : Int → Prop)
    (select : CPUScheduler.SimState → Option Nat) (hsel : SelectOK G select)
    (c0 : List Process)
    (hwf : ∀ p ∈ c0, p.arrival_time < INT_MAX ∧ 0 < p.burst_time ∧ p.burst_time < INT_MAX ∧
      G p.priority)
    (fuel : Nat) (hfuel : 2 * remainingTotal (c0.map (fun p => p.burst_time)) + 1 < fuel) :
    ∃ s, whileLoop CPUScheduler.tickCond (CPUScheduler.tickBody select) fuel
          (CPUScheduler.tickInit c0) = some s ∧
      TickInv c0 s ∧ CPUScheduler.tickCond s = false := by
  apply whileLoop_terminates CPUScheduler.tickCond (CPUScheduler.tickBody select) (TickInv c0)
    (tickMeasure select)
  · intro s hinv hc
    exact CPUScheduler.tickBody_step G select hsel c0
      (fun p hp => ⟨(hwf p hp).1, (hwf p hp).2.2.2⟩) s hinv hc
  · exact TickInv.init c0 (fun p hp => ⟨(hwf p hp).2.1, (hwf p hp).2.2.1⟩)
  · have : tickMeasure select (CPUScheduler.tickInit c0)
        ≤ 2 * remainingTotal (c0.map (fun p => p.burst_time)) + 1 := by
      simp only [tickMeasure, CPUScheduler.tickInit]
      split_ifs <;> omega
    omega

theorem CPUScheduler.npScan_some (current_time : Int) (ps : List Process) :
    ∀ (es : List Bool) (j : Nat) (next : Option Nat) (h : Int) (k : Nat),
      CPUScheduler.npScan current_time ps es j next h = some k →
        next = some k ∨
          ∃ (i : Nat) (p : Process), k = j + i ∧ ps[i]? = some p ∧ es[i]? = some false := by
  induction ps with
  | nil => intro es j next h k hk; left; simpa [CPUScheduler.npScan] using hk
  | cons p ps ih =>
    intro es j next h k hk
    cases es with
    | nil => left; simpa [CPUScheduler.npScan] using hk
    | cons e es =>
      simp only [CPUScheduler.npScan] at hk
      split_ifs at hk with hc
      · rcases ih es (j + 1) (some j) p.priority k hk with hj | ⟨i, q, hki, hq, he⟩
        · right
          simp only [Option.some.injEq] at hj
          have he : e = false := by simpa using hc.1
          exact ⟨0, p, by omega, by simp, by simp [he]⟩
        · right
          exact ⟨i + 1, q, by omega, by simpa using hq, by simpa using he⟩
      · rcases ih es (j + 1) next h k hk with hj | ⟨i, q, hki, hq, he⟩
        · left; exact hj
        · right
          exact ⟨i + 1, q, by omega, by simpa using hq, by simpa using he⟩

theorem CPUScheduler.npFirstUnexecuted_some (ps : List Process) :
    ∀ (es : List Bool) (j k : Nat) (a : Int),
      CPUScheduler.npFirstUnexecuted ps es j = some (k, a) →
        ∃ (i : Nat) (p : Process), k = j + i ∧ ps[i]? = some p ∧ es[i]? = some false := by
  induction ps with
  | nil => intro es j k a hk; simp [CPUScheduler.npFirstUnexecuted] at hk
  | cons p ps ih =>
    intro es j k a hk
    cases es with
    | nil => simp [CPUScheduler.npFirstUnexecuted] at hk
    | cons e es =>
      simp only [CPUScheduler.npFirstUnexecuted] at hk
      split_ifs at hk with hc
      · simp only [Option.some.injEq, Prod.mk.injEq] at hk
        have he : e = false := by simpa using hc
        exact ⟨0, p, by omega, by simp, by simp [he]⟩
      · obtain ⟨i, q, hki, hq, he⟩ := ih es (j + 1) k a hk
        exact ⟨i + 1, q, by omega, by simpa using hq, by simpa using he⟩

theorem CPUScheduler.npFirstUnexecuted_ne_none (ps : List Process) :
    ∀ (es : List Bool) (j i : Nat) (p : Process), ps[i]? = some p → es[i]? = some false →
      CPUScheduler.npFirstUnexecuted ps es j ≠ none := by
  induction ps with
  | nil => intro es j i p hp; simp at hp
  | cons p0 ps ih =>
    intro es j i p hp he
    cases es with
    | nil => simp at he
    | cons e es =>
      simp only [CPUScheduler.npFirstUnexecuted]
      split_ifs with hc
      · simp
      · cases i with
        | zero =>
          simp only [List.getElem?_cons_zero, Option.some.injEq] at he
          simp [he] at hc
        | succ i =>
          simp only [List.getElem?_cons_succ] at hp he
          exact ih es (j + 1) i p hp he

theorem CPUScheduler.npBody_exec (s : CPUScheduler.NPState)
    (hlen : s.executed.length = s.completed.length)
    (hex : ∃ i : Nat, s.executed[i]? = some false) :
    ∃ (j : Nat) (p : Process) (t : Int),
      s.completed[j]? = some p ∧ s.executed[j]? = some false ∧
        CPUScheduler.npBody s
          = { completed := s.completed.set j (CPUScheduler.recordCompletion t p),
              executed := s.executed.set j true,
              current_time := t } := by
  cases hscan : CPUScheduler.npScan s.current_time s.completed s.executed 0 none (-1) with
  | some j =>
    rcases CPUScheduler.npScan_some _ _ _ _ _ _ _ hscan with hj | ⟨i, p, hji, hp, he⟩
    · exact absurd hj (by simp)
    · have : i = j := by omega
      subst this
      exact ⟨i, p, s.current_time + p.burst_time, hp, he,
        by simp only [CPUScheduler.npBody, hscan, hp]⟩
  | none =>
    obtain ⟨i, hi⟩ := hex
    have hi_lt : i < s.completed.length := by
      rw [← hlen]
      exact (List.getElem?_eq_some.mp hi).1
    cases hfu : CPUScheduler.npFirstUnexecuted s.completed s.executed 0 with
    | none =>
      exact absurd hfu (CPUScheduler.npFirstUnexecuted_ne_none _ _ 0 i _
        (List.getElem?_eq_getElem hi_lt) hi)
    | some ja =>
      obtain ⟨j, a⟩ := ja
      obtain ⟨i', p, hji, hp, he⟩ := CPUScheduler.npFirstUnexecuted_some _ _ _ _ _ hfu
      have : i' = j := by omega
      subst this
      exact ⟨i', p, a + p.burst_time, hp, he,
        by simp only [CPUScheduler.npBody, hscan, hfu, hp]⟩

theorem CPUScheduler.npBody_step (c0 : List Process) (k : Nat) (s : CPUScheduler.NPState)
    (hinv : NPInv c0 k s) (hk : k < c0.length) :
    NPInv c0 (k + 1) (CPUScheduler.npBody s) := by
  have hlen : s.completed.length = c0.length := by
    have := congrArg List.length hinv.inputs
    simpa using this
  have hex : ∃ i : Nat, s.executed[i]? = some false := by
    have hlt : s.executed.count true < s.executed.length := by
      rw [hinv.count, hinv.len]
      exact hk
    have hex2 : ∃ e ∈ s.executed, e ≠ true := by
      by_contra hall
      push_neg at hall
      have := (List.count_eq_length (a := true) (l := s.executed)).mpr
        (fun b hb => (hall b hb).symm)
      omega
    obtain ⟨e, he, hne⟩ := hex2
    obtain ⟨i, hi⟩ := List.mem_iff_getElem?.mp he
    have : e = false := by simpa using hne
    exact ⟨i, this ▸ hi⟩
  obtain ⟨j, p, t, hp, he, hbody⟩ :=
    CPUScheduler.npBody_exec s (by rw [hinv.len, hlen]) hex
  have hj_lt : j < s.executed.length := (List.getElem?_eq_some.mp he).1
  rw [hbody]
  refine ⟨?_, ?_, ?_, ?_⟩
  · simp only [List.map_set, recordCompletion_input]
    rw [← hinv.inputs]
    have hpk : (s.completed.map Process.input)[j]? = some p.input := by
      simp [List.getElem?_map, hp]
    exact set_eq_self_of_getElem? _ j _ hpk
  · simp [hinv.len]
  · intro i q hq hz
    simp only at hq hz
    rw [List.getElem?_set] at hq
    split_ifs at hq with h1
    · simp only [Option.some.injEq] at hq
      rw [← hq]
      exact recordCompletion_metricsOK _ _
    · rw [List.getElem?_set_ne h1] at hz
      exact hinv.done i q hq hz
  · simp only
    rw [List.count_set true true s.executed j hj_lt, hinv.count]
    have hgj : s.executed[j] = false := (List.getElem?_eq_some.mp he).2
    simp [hgj]

theorem CPUScheduler.npLoop_inv (c0 : List Process) (s0 : CPUScheduler.NPState)
    (h0 : NPInv c0 0 s0) :
    ∀ k : Nat, k ≤ c0.length → NPInv c0 k (CPUScheduler.npBody^[k] s0) := by
  intro k
  induction k with
  | zero => intro _; exact h0
  | succ k ih =>
    intro hk
    rw [Function.iterate_succ_apply']
    exact CPUScheduler.npBody_step c0 k _ (ih (by omega)) (by omega)

theorem CPUScheduler.runNonPreemptivePriority_metricsOK (c0 : List Process) :
    (∀ p ∈ CPUScheduler.runNonPreemptivePriority c0, p.MetricsOK) ∧
      (CPUScheduler.runNonPreemptivePriority c0).map Process.input = c0.map Process.input := by
  have h0 : NPInv c0 0
      { completed := c0, executed := c0.map (fun _ => false), current_time := 0 } := by
    refine ⟨rfl, by simp, ?_, ?_⟩
    · intro i p _ he
      simp only [List.getElem?_map] at he
      cases hc : c0[i]? <;> simp [hc] at he
    · simp only
      rw [List.count_eq_zero]
      simp
  have hinv := CPUScheduler.npLoop_inv c0 _ h0 c0.length (le_refl _)
  refine ⟨?_, hinv.inputs⟩
  have hlen : (CPUScheduler.npBody^[c0.length]
      { completed := c0, executed := c0.map (fun _ => false),
        current_time := 0 }).completed.length = c0.length := by
    have := congrArg List.length hinv.inputs
    simpa using this
  have hall := (List.count_eq_length (a := true) (l := _)).mp
    (hinv.count.trans hinv.len.symm)
  intro p hp
  obtain ⟨i, hi⟩ := List.mem_iff_getElem?.mp hp
  have hi_lt : i < (CPUScheduler.npBody^[c0.length]
      { completed := c0, executed := c0.map (fun _ => false),
        current_time := 0 }).executed.length := by
    have := (List.getElem?_eq_some.mp hi).1
    rw [hinv.len]
    simp only [CPUScheduler.runNonPreemptivePriority] at this
    omega
  refine hinv.done i p hi ?_
  rw [List.getElem?_eq_getElem hi_lt]
  exact congrArg some (hall _ (List.getElem_mem hi_lt)).symm

theorem remainingTotal_perm {l1 l2 : List Int} (h : l1.Perm l2) :
    remainingTotal l1 = remainingTotal l2 :=
  (h.map Int.toNat).sum_eq

/-! ### Selection rules of SJF and Priority, evaluated -/

/-- C11, evaluated on the code: for the input order (id 1, arrival 10,
burst 1), (id 2, arrival 0, burst 5), at the first decision point of `runSJF`
(`current_time = 0`) task 2 has arrived and task 1 has not, yet the scan keeps
task 1: it is scheduled first, the clock jumps to 10, and the completion times
are 11 and 16. -/
theorem CPUScheduler.runSJF_schedules_unarrived_task :
    (CPUScheduler.sjfScan 0 (mkProcess 1 10 1 1) [mkProcess 2 0 5 1]).1 = mkProcess 1 10 1 1 ∧
      (CPUScheduler.runSJF [mkProcess 1 10 1 1, mkProcess 2 0 5 1]).completed.map
          (fun p => (p.id, p.completion_time)) = [(1, 11), (2, 16)] := by
  decide

/-- C13, evaluated on the code: for the tasks (id 1, arrival 5, burst 2,
priority 1), (id 2, arrival 5, burst 2, priority 9), nothing has arrived at
time 0; `runNonPreemptivePriority` moves the clock to 5 and runs task 1, the
first unexecuted index, although task 2 has arrived by then with the higher
priority: completion times 7 and 9.  For the order (arrival 9), (arrival 5)
the clock is moved to 9, not to the earliest arrival 5. -/
theorem CPUScheduler.runNonPreemptivePriority_idle_takes_first_index :
    (CPUScheduler.runNonPreemptivePriority [mkProcess 1 5 2 1, mkProcess 2 5 2 9]).map
        (fun p => (p.id, p.completion_time)) = [(1, 7), (2, 9)] ∧
      (CPUScheduler.runNonPreemptivePriority [mkProcess 1 9 2 1, mkProcess 2 5 2 9]).map
        (fun p => (p.id, p.completion_time)) = [(1, 11), (2, 13)] := by
  decide

/-! ### Round Robin queue, evaluated -/

/-- C18, evaluated on the code: with time quantum 2 and the single task
(arrival 0, burst 3), after the first iteration of the loop of `runRoundRobin`
the ready queue is `[0, 0]`: index 0 occurs twice. -/
theorem CPUScheduler.rrBody_queues_task_twice :
    (CPUScheduler.rrBody 2 (CPUScheduler.rrInit [mkProcess 1 0 3 1])).ready_queue = [0, 0] ∧
      ¬ (CPUScheduler.rrBody 2 (CPUScheduler.rrInit [mkProcess 1 0 3 1])).ready_queue.Nodup := by
  decide

/-- C19, evaluated on the code: with time quantum 2 and the tasks
(id 1, arrival 0, burst 4), (id 2, arrival 1, burst 2), after the first slice
of task 1 (clock 2, task 2 newly arrived, task 1 with remaining time 2) the
ready queue is `[0, 1, 0]`: task 1 stands in front of task 2 and runs again
first, so it completes at 4 and task 2 at 6. -/
theorem CPUScheduler.rrBody_requeues_ahead_of_arrival :
    (CPUScheduler.rrBody 2
        (CPUScheduler.rrInit [mkProcess 1 0 4 1, mkProcess 2 1 2 1])).ready_queue = [0, 1, 0] ∧
      (CPUScheduler.runRoundRobin 10 2 [mkProcess 1 0 4 1, mkProcess 2 1 2 1]).map
        (fun r => r.completed.map (fun p => (p.id, p.completion_time)))
          = some [(1, 4), (2, 6)] := by
  decide

/-! ### SJF tie-break -/

theorem CPUScheduler.sjfScan_first_minimum (current_time : Int) (rest : List Process) :
    ∀ r : Process, ∃ k : Nat,
      (r :: rest)[k]? = some (CPUScheduler.sjfScan current_time r rest).1 ∧
        (k = 0 ∨ (CPUScheduler.sjfScan current_time r rest).1.arrival_time ≤ current_time) ∧
        (∀ (j : Nat) (x : Process), j < k → (r :: rest)[j]? = some x →
          (j = 0 ∨ x.arrival_time ≤ current_time) →
            (CPUScheduler.sjfScan current_time r rest).1.burst_time < x.burst_time) ∧
        (∀ (j : Nat) (x : Process), (r :: rest)[j]? = some x →
          (j = 0 ∨ x.arrival_time ≤ current_time) →
            (CPUScheduler.sjfScan current_time r rest).1.burst_time ≤ x.burst_time) := by
  induction rest with
  | nil =>
    intro r
    refine ⟨0, by simp [CPUScheduler.sjfScan], Or.inl rfl, ?_, ?_⟩
    · intro j x hj; omega
    · intro j x hx _
      cases j with
      | zero =>
        simp only [List.getElem?_cons_zero, Option.some.injEq] at hx
        simp [CPUScheduler.sjfScan, hx]
      | succ j => simp at hx
  | cons y ys ih =>
    intro r
    by_cases hc : y.arrival_time ≤ current_time ∧ y.burst_time < r.burst_time
    · obtain ⟨k, hk, harr, hlt, hle⟩ := ih y
      have hscan : (CPUScheduler.sjfScan current_time r (y :: ys)).1
          = (CPUScheduler.sjfScan current_time y ys).1 := by
        simp only [CPUScheduler.sjfScan, if_pos hc]
      rw [hscan]
      have hy := hle 0 y (by simp) (Or.inl rfl)
      refine ⟨k + 1, by simpa using hk, Or.inr ?_, ?_, ?_⟩
      · rcases harr with h0 | h1
        · subst h0
          simp only [List.getElem?_cons_zero, Option.some.injEq] at hk
          rw [← hk]
          exact hc.1
        · exact h1
      · intro j x hj hx hcand
        cases j with
        | zero =>
          simp only [List.getElem?_cons_zero, Option.some.injEq] at hx
          rw [← hx]
          omega
        | succ j =>
          simp only [List.getElem?_cons_succ] at hx
          refine hlt j x (by omega) hx ?_
          rcases hcand with h0 | h1
          · omega
          · exact Or.inr h1
      · intro j x hx hcand
        cases j with
        | zero =>
          simp only [List.getElem?_cons_zero, Option.some.injEq] at hx
          rw [← hx]
          omega
        | succ j =>
          simp only [List.getElem?_cons_succ] at hx
          refine hle j x hx ?_
          rcases hcand with h0 | h1
          · omega
          · exact Or.inr h1
    · obtain ⟨k, hk, harr, hlt, hle⟩ := ih r
      have hscan : (CPUScheduler.sjfScan current_time r (y :: ys)).1
          = (CPUScheduler.sjfScan current_time r ys).1 := by
        simp only [CPUScheduler.sjfScan, if_neg hc]
      rw [hscan]
      have hr := hle 0 r (by simp) (Or.inl rfl)
      have hy : y.arrival_time ≤ current_time →
          (CPUScheduler.sjfScan current_time r ys).1.burst_time ≤ y.burst_time := by
        intro h1
        have : ¬ (y.burst_time < r.burst_time) := fun h2 => hc ⟨h1, h2⟩
        omega
      cases k with
      | zero =>
        refine ⟨0, by simpa using hk, Or.inl rfl, ?_, ?_⟩
        · intro j x hj; omega
        · intro j x hx hcand
          match j, hx, hcand with
          | 0, hx, _ =>
            simp only [List.getElem?_cons_zero, Option.some.injEq] at hx
            rw [← hx]; exact hr
          | 1, hx, hcand =>
            simp only [List.getElem?_cons_succ, List.getElem?_cons_zero,
              Option.some.injEq] at hx
            subst hx
            rcases hcand with h0 | h1
            · omega
            · exact hy h1
          | j + 2, hx, hcand =>
            simp only [List.getElem?_cons_succ] at hx
            refine hle (j + 1) x (by simpa using hx) ?_
            rcases hcand with h0 | h1
            · omega
            · exact Or.inr h1
      | succ k =>
        have harr' : (CPUScheduler.sjfScan current_time r ys).1.arrival_time ≤ current_time := by
          rcases harr with h0 | h1
          · omega
          · exact h1
        have hstrict := hlt 0 r (by omega) (by simp) (Or.inl rfl)
        refine ⟨k + 2, by simpa using hk, Or.inr harr', ?_, ?_⟩
        · intro j x hj hx hcand
          match j, hj, hx, hcand with
          | 0, _, hx, _ =>
            simp only [List.getElem?_cons_zero, Option.some.injEq] at hx
            rw [← hx]; exact hstrict
          | 1, _, hx, hcand =>
            simp only [List.getElem?_cons_succ, List.getElem?_cons_zero,
              Option.some.injEq] at hx
            subst hx
            rcases hcand with h0 | h1
            · omega
            · have : ¬ (y.burst_time < r.burst_time) := fun h2 => hc ⟨h1, h2⟩
              omega
          | j + 2, hj, hx, hcand =>
            simp only [List.getElem?_cons_succ] at hx
            refine hlt (j + 1) x (by omega) (by simpa using hx) ?_
            rcases hcand with h0 | h1
            · omega
            · exact Or.inr h1
        · intro j x hx hcand
          match j, hx, hcand with
          | 0, hx, _ =>
            simp only [List.getElem?_cons_zero, Option.some.injEq] at hx
            rw [← hx]; exact hr
          | 1, hx, hcand =>
            simp only [List.getElem?_cons_succ, List.getElem?_cons_zero,
              Option.some.injEq] at hx
            subst hx
            rcases hcand with h0 | h1
            · omega
            · exact hy h1
          | j + 2, hx, hcand =>
            simp only [List.getElem?_cons_succ] at hx
            refine hle (j + 1) x (by simpa using hx) ?_
            rcases hcand with h0 | h1
            · omega
            · exact Or.inr h1

/-- C12 as stated fails: for the input (id 1, arrival 0, burst 4),
(id 2, arrival 0, burst 4), (id 3, arrival 0, burst 1) `runSJF` schedules task
3, then task 2, then task 1: the first decision point swaps task 1 to the end
of the vector, so of the two tasks that tie on burst 4 the one with the higher
original index runs first. -/
theorem CPUScheduler.runSJF_tie_not_by_input_index :
    (CPUScheduler.runSJF
        [mkProcess 1 0 4 1, mkProcess 2 0 4 1, mkProcess 3 0 1 1]).completed.map
      (fun p => (p.id, p.completion_time)) = [(3, 1), (2, 5), (1, 9)] := by
  decide

/-- C12 as amended: at a decision point of `runSJF` with clock `current_time`
and unscheduled part `r :: rest` of the working vector, where the task `r` at
the current position has arrived, the task scheduled is the first one in the
order of the working vector among the arrived tasks of minimal burst time: it
stands at some position `k`, has arrived, no arrived unscheduled task has a
smaller burst time, and every arrived task at a position before `k` has a
strictly larger one. -/
theorem CPUScheduler.sjf_tie_break_scan_order (n : Nat) (current_time : Int) (r : Process)
    (rest : List Process) (hr : r.arrival_time ≤ current_time) :
    ∃ (k : Nat) (h : Process), (r :: rest)[k]? = some h ∧
      ((CPUScheduler.sjfLoop (n + 1) current_time (r :: rest)).1.head?).map Process.input
        = some h.input ∧
      h.arrival_time ≤ current_time ∧
      ∀ (j : Nat) (x : Process), (r :: rest)[j]? = some x → x.arrival_time ≤ current_time →
        h.burst_time ≤ x.burst_time ∧ (j < k → h.burst_time < x.burst_time) := by
  obtain ⟨k, hk, harr, hlt, hle⟩ := CPUScheduler.sjfScan_first_minimum current_time rest r
  refine ⟨k, (CPUScheduler.sjfScan current_time r rest).1, hk, ?_, ?_, ?_⟩
  · simp [CPUScheduler.sjfLoop, Process.input]
  · rcases harr with h0 | h1
    · subst h0
      simp only [List.getElem?_cons_zero, Option.some.injEq] at hk
      rw [← hk]
      exact hr
    · exact h1
  · intro j x hx hxarr
    exact ⟨hle j x hx (Or.inr hxarr), fun hj => hlt j x hj hx (Or.inr hxarr)⟩

/-- Witness for the amended C12: clock 0 and the working vector
(arrival 0, burst 4), (arrival 0, burst 4), (arrival 0, burst 1). -/
theorem CPUScheduler.sjf_tie_break_scan_order_witness :
    (mkProcess 1 0 4 1).arrival_time ≤ 0 ∧
      ∃ (k : Nat) (h : Process),
        [mkProcess 1 0 4 1, mkProcess 2 0 4 1, mkProcess 3 0 1 1][k]? = some h ∧
        ((CPUScheduler.sjfLoop 3 0
          [mkProcess 1 0 4 1, mkProcess 2 0 4 1, mkProcess 3 0 1 1]).1.head?).map Process.input
            = some h.input ∧
        h.arrival_time ≤ 0 ∧
        ∀ (j : Nat) (x : Process),
          [mkProcess 1 0 4 1, mkProcess 2 0 4 1, mkProcess 3 0 1 1][j]? = some x →
          x.arrival_time ≤ 0 → h.burst_time ≤ x.burst_time ∧ (j < k → h.burst_time < x.burst_time) :=
  ⟨by decide,
    CPUScheduler.sjf_tie_break_scan_order 2 0 (mkProcess 1 0 4 1)
      [mkProcess 2 0 4 1, mkProcess 3 0 1 1] (by decide)⟩

/-! ### Selection scans of the priority and SRJF simulations -/

theorem CPUScheduler.srjfScan_spec (current_time : Int) (ps : List Process) :
    ∀ (rs : List Int) (i : Nat) (next : Option Nat) (m : Int),
      (CPUScheduler.srjfScan current_time ps rs i next m = next ∧
          ∀ (j : Nat) (p : Process) (r : Int), ps[j]? = some p → rs[j]? = some r →
            p.arrival_time ≤ current_time → 0 < r → m ≤ r) ∨
        ∃ (k : Nat) (pk : Process) (rk : Int),
          CPUScheduler.srjfScan current_time ps rs i next m = some (i + k) ∧
            ps[k]? = some pk ∧ rs[k]? = some rk ∧ pk.arrival_time ≤ current_time ∧ 0 < rk ∧
            rk < m ∧
            ∀ (j : Nat) (p : Process) (r : Int), ps[j]? = some p → rs[j]? = some r →
              p.arrival_time ≤ current_time → 0 < r →
                rk ≤ r ∧ (j < k → rk < r) := by
  induction ps with
  | nil =>
    intro rs i next m
    left
    exact ⟨by simp [CPUScheduler.srjfScan], fun j p r hp => by simp at hp⟩
  | cons p0 ps ih =>
    intro rs i next m
    cases rs with
    | nil =>
      left
      exact ⟨by simp [CPUScheduler.srjfScan], fun j p r _ hr => by simp at hr⟩
    | cons r0 rs =>
      by_cases hc : p0.arrival_time ≤ current_time ∧ r0 > 0 ∧ r0 < m
      · have hscan : CPUScheduler.srjfScan current_time (p0 :: ps) (r0 :: rs) i next m
            = CPUScheduler.srjfScan current_time ps rs (i + 1) (some i) r0 := by
          simp only [CPUScheduler.srjfScan, if_pos hc]
        rw [hscan]
        right
        rcases ih rs (i + 1) (some i) r0 with
          ⟨hres, hall⟩ | ⟨k, pk, rk, hres, hpk, hrk, harr, hpos, hgt, hall⟩
        · refine ⟨0, p0, r0, by simpa using hres, by simp, by simp, hc.1, hc.2.1, hc.2.2, ?_⟩
          intro j p r hp hr ha hr0
          cases j with
          | zero =>
            simp only [List.getElem?_cons_zero, Option.some.injEq] at hr
            subst hr
            exact ⟨le_refl _, fun h => absurd h (by omega)⟩
          | succ j =>
            simp only [List.getElem?_cons_succ] at hp hr
            exact ⟨hall j p r hp hr ha hr0, fun h => absurd h (by omega)⟩
        · refine ⟨k + 1, pk, rk, by rw [hres]; congr 1; omega, by simpa using hpk,
            by simpa using hrk, harr, hpos, by omega, ?_⟩
          intro j p r hp hr ha hr0
          cases j with
          | zero =>
            simp only [List.getElem?_cons_zero, Option.some.injEq] at hr
            subst hr
            exact ⟨by omega, fun _ => hgt⟩
          | succ j =>
            simp only [List.getElem?_cons_succ] at hp hr
            have := hall j p r hp hr ha hr0
            exact ⟨this.1, fun h => this.2 (by omega)⟩
      · have hscan : CPUScheduler.srjfScan current_time (p0 :: ps) (r0 :: rs) i next m
            = CPUScheduler.srjfScan current_time ps rs (i + 1) next m := by
          simp only [CPUScheduler.srjfScan, if_neg hc]
        rw [hscan]
        have h0 : p0.arrival_time ≤ current_time → 0 < r0 → m ≤ r0 := by
          intro h1 h2
          by_contra h3
          exact hc ⟨h1, h2, by omega⟩
        rcases ih rs (i + 1) next m with
          ⟨hres, hall⟩ | ⟨k, pk, rk, hres, hpk, hrk, harr, hpos, hgt, hall⟩
        · left
          refine ⟨hres, ?_⟩
          intro j p r hp hr ha hr0
          cases j with
          | zero =>
            simp only [List.getElem?_cons_zero, Option.some.injEq] at hp hr
            subst hp hr
            exact h0 ha hr0
          | succ j =>
            simp only [List.getElem?_cons_succ] at hp hr
            exact hall j p r hp hr ha hr0
        · right
          refine ⟨k + 1, pk, rk, by rw [hres]; congr 1; omega, by simpa using hpk,
            by simpa using hrk, harr, hpos, hgt, ?_⟩
          intro j p r hp hr ha hr0
          cases j with
          | zero =>
            simp only [List.getElem?_cons_zero, Option.some.injEq] at hp hr
            subst hp hr
            have := h0 ha hr0
            exact ⟨by omega, fun _ => by omega⟩
          | succ j =>
            simp only [List.getElem?_cons_succ] at hp hr
            have := hall j p r hp hr ha hr0
            exact ⟨this.1, fun h => this.2 (by omega)⟩

theorem CPUScheduler.npScan_spec (current_time : Int) (ps : List Process) :
    ∀ (rs : List Bool) (i : Nat) (next : Option Nat) (m : Int),
      (CPUScheduler.npScan current_time ps rs i next m = next ∧
          ∀ (j : Nat) (p : Process) (r : Bool), ps[j]? = some p → rs[j]? = some r →
            r = false → p.arrival_time ≤ current_time → p.priority ≤ m) ∨
        ∃ (k : Nat) (pk : Process) (rk : Bool),
          CPUScheduler.npScan current_time ps rs i next m = some (i + k) ∧
            ps[k]? = some pk ∧ rs[k]? = some rk ∧ rk = false ∧ pk.arrival_time ≤ current_time ∧
            m < pk.priority ∧
            ∀ (j : Nat) (p : Process) (r : Bool), ps[j]? = some p → rs[j]? = some r →
              r = false → p.arrival_time ≤ current_time →
                p.priority ≤ pk.priority ∧ (j < k → p.priority < pk.priority) := by
  induction ps with
  | nil =>
    intro rs i next m
    left
    exact ⟨by simp [CPUScheduler.npScan], fun j p r hp => by simp at hp⟩
  | cons p0 ps ih =>
    intro rs i next m
    cases rs with
    | nil =>
      left
      exact ⟨by simp [CPUScheduler.npScan], fun j p r _ hr => by simp at hr⟩
    | cons r0 rs =>
      by_cases hc : (!r0) = true ∧ p0.arrival_time ≤ current_time ∧ p0.priority > m
      · have hscan : CPUScheduler.npScan current_time (p0 :: ps) (r0 :: rs) i next m
            = CPUScheduler.npScan current_time ps rs (i + 1) (some i) p0.priority := by
          simp only [CPUScheduler.npScan, if_pos hc]
        rw [hscan]
        right
        rcases ih rs (i + 1) (some i) p0.priority with
          ⟨hres, hall⟩ | ⟨k, pk, rk, hres, hpk, hrk, hpos, harr, hgt, hall⟩
        · refine ⟨0, p0, r0, by simpa using hres, by simp, by simp, by simpa using hc.1, hc.2.1, hc.2.2, ?_⟩
          intro j p r hp hr hr0 ha
          cases j with
          | zero =>
            simp only [List.getElem?_cons_zero, Option.some.injEq] at hp
            subst hp
            exact ⟨le_refl _, fun h => absurd h (by omega)⟩
          | succ j =>
            simp only [List.getElem?_cons_succ] at hp hr
            exact ⟨hall j p r hp hr hr0 ha, fun h => absurd h (by omega)⟩
        · refine ⟨k + 1, pk, rk, by rw [hres]; congr 1; omega, by simpa using hpk,
            by simpa using hrk, hpos, harr, by omega, ?_⟩
          intro j p r hp hr hr0 ha
          cases j with
          | zero =>
            simp only [List.getElem?_cons_zero, Option.some.injEq] at hp
            subst hp
            exact ⟨by omega, fun _ => hgt⟩
          | succ j =>
            simp only [List.getElem?_cons_succ] at hp hr
            have := hall j p r hp hr hr0 ha
            exact ⟨this.1, fun h => this.2 (by omega)⟩
      · have hscan : CPUScheduler.npScan current_time (p0 :: ps) (r0 :: rs) i next m
            = CPUScheduler.npScan current_time ps rs (i + 1) next m := by
          simp only [CPUScheduler.npScan, if_neg hc]
        rw [hscan]
        have h0 : r0 = false → p0.arrival_time ≤ current_time → p0.priority ≤ m := by
          intro h1 h2
          by_contra h3
          exact hc ⟨by simp [h1], h2, by omega⟩
        rcases ih rs (i + 1) next m with
          ⟨hres, hall⟩ | ⟨k, pk, rk, hres, hpk, hrk, hpos, harr, hgt, hall⟩
        · left
          refine ⟨hres, ?_⟩
          intro j p r hp hr hr0 ha
          cases j with
          | zero =>
            simp only [List.getElem?_cons_zero, Option.some.injEq] at hp hr
            subst hp hr
            exact h0 hr0 ha
          | succ j =>
            simp only [List.getElem?_cons_succ] at hp hr
            exact hall j p r hp hr hr0 ha
        · right
          refine ⟨k + 1, pk, rk, by rw [hres]; congr 1; omega, by simpa using hpk,
            by simpa using hrk, hpos, harr, hgt, ?_⟩
          intro j p r hp hr hr0 ha
          cases j with
          | zero =>
            simp only [List.getElem?_cons_zero, Option.some.injEq] at hp hr
            subst hp hr
            have := h0 hr0 ha
            exact ⟨by omega, fun _ => by omega⟩
          | succ j =>
            simp only [List.getElem?_cons_succ] at hp hr
            have := hall j p r hp hr hr0 ha
            exact ⟨this.1, fun h => this.2 (by omega)⟩

theorem CPUScheduler.tickBody_serve (select : CPUScheduler.SimState → Option Nat)
    (s : CPUScheduler.SimState) (k : Nat) (rk : Int) (hs : select s = some k)
    (hr : s.remaining_time[k]? = some rk) :
    (CPUScheduler.tickBody select s).remaining_time = s.remaining_time.set k (rk - 1) ∧
      (CPUScheduler.tickBody select s).current_time = s.current_time + 1 := by
  have hgetD : s.remaining_time.getD k 0 = rk := by
    simp [List.getD_eq_getElem?_getD, hr]
  simp only [CPUScheduler.tickBody, hs, hgetD]
  split_ifs <;> exact ⟨rfl, rfl⟩

theorem CPUScheduler.tickBody_idle (select : CPUScheduler.SimState → Option Nat)
    (s : CPUScheduler.SimState) (hs : select s = none) :
    (CPUScheduler.tickBody select s).remaining_time = s.remaining_time ∧
      (CPUScheduler.tickBody select s).completed = s.completed ∧
      (CPUScheduler.tickBody select s).processed = s.processed := by
  simp only [CPUScheduler.tickBody, hs]
  split_ifs <;> exact ⟨rfl, rfl, rfl⟩

/-- The selection scan of `runSRJF` below its sentinel: at a tick at which
some task has arrived by `current_time` with a positive remaining time smaller
than `INT_MAX`, the scan chooses an arrived task `k` with positive remaining
time that is minimal among such tasks, with the lowest index among the tasks
of that remaining time, and the loop body serves task `k` for this tick. -/
theorem CPUScheduler.srjfSelect_shortest_below_sentinel (s : CPUScheduler.SimState) (i0 : Nat)
    (p0 : Process) (r0 : Int) (hp0 : s.completed[i0]? = some p0)
    (hr0 : s.remaining_time[i0]? = some r0) (ha0 : p0.arrival_time ≤ s.current_time)
    (hpos0 : 0 < r0) (hmax0 : r0 < INT_MAX) :
    ∃ (k : Nat) (pk : Process) (rk : Int),
      CPUScheduler.srjfSelect s = some k ∧
      s.completed[k]? = some pk ∧ s.remaining_time[k]? = some rk ∧
      pk.arrival_time ≤ s.current_time ∧ 0 < rk ∧
      (CPUScheduler.tickBody CPUScheduler.srjfSelect s).remaining_time
        = s.remaining_time.set k (rk - 1) ∧
      ∀ (j : Nat) (p : Process) (r : Int), s.completed[j]? = some p →
        s.remaining_time[j]? = some r → p.arrival_time ≤ s.current_time → 0 < r →
          rk ≤ r ∧ (j < k → rk < r) := by
  rcases CPUScheduler.srjfScan_spec s.current_time s.completed s.remaining_time 0 none
      INT_MAX with ⟨-, hall⟩ | ⟨k, pk, rk, hres, hpk, hrk, harr, hpos, -, hall⟩
  · have := hall i0 p0 r0 hp0 hr0 ha0 hpos0
    omega
  · rw [Nat.zero_add] at hres
    exact ⟨k, pk, rk, hres, hpk, hrk, harr, hpos,
      (CPUScheduler.tickBody_serve _ s k rk hres hrk).1, hall⟩

/-! ### Tick invariant -/

theorem MemoryManager.fits_iff (b : MemoryBlock) (p : Process) :
    MemoryManager.fits b p = true ↔ b.is_allocated = false ∧ p.burst_time ≤ b.size := by
  simp [MemoryManager.fits]

theorem MemoryManager.worstFitScan_spec (process : Process) (l : List MemoryBlock) :
    ∀ (i : Nat) (worst : Option Nat) (m : Int) (k : Nat),
      MemoryManager.worstFitScan process l i worst m = some k →
        worst = some k ∨
          ∃ (j : Nat) (b : MemoryBlock), k = i + j ∧ l[j]? = some b ∧
            MemoryManager.fits b process = true := by
  induction l with
  | nil => intro i worst m k h; left; simpa [MemoryManager.worstFitScan] using h
  | cons b bs ih =>
    intro i worst m k h
    simp only [MemoryManager.worstFitScan] at h
    split_ifs at h with hb hw
    · rcases ih (i + 1) (some i) b.size k h with hk | ⟨j, b', hk, hj, hf⟩
      · right
        simp only [Option.some.injEq] at hk
        exact ⟨0, b, by omega, by simp, hb⟩
      · right
        exact ⟨j + 1, b', by omega, by simpa using hj, hf⟩
    · rcases ih (i + 1) worst m k h with hk | ⟨j, b', hk, hj, hf⟩
      · left; exact hk
      · right
        exact ⟨j + 1, b', by omega, by simpa using hj, hf⟩
    · rcases ih (i + 1) worst m k h with hk | ⟨j, b', hk, hj, hf⟩
      · left; exact hk
      · right
        exact ⟨j + 1, b', by omega, by simpa using hj, hf⟩

theorem MemoryManager.nextFitScan_spec (process : Process) (blocks : List MemoryBlock)
    (next_fit_index : Nat) :
    ∀ (steps i k : Nat),
      MemoryManager.nextFitScan process blocks next_fit_index steps i = some k →
        ∃ b : MemoryBlock, blocks[k]? = some b ∧ MemoryManager.fits b process = true := by
  intro steps
  induction steps with
  | zero => intro i k h; simp [MemoryManager.nextFitScan] at h
  | succ n ih =>
    intro i k h
    simp only [MemoryManager.nextFitScan] at h
    cases hb : blocks[(next_fit_index + i) % blocks.length]? with
    | none =>
      simp only [hb] at h
      exact ih (i + 1) k h
    | some b =>
      simp only [hb] at h
      split_ifs at h with hf
      · simp only [Option.some.injEq] at h
        subst h
        exact ⟨b, hb, hf⟩
      · exact ih (i + 1) k h

theorem MemoryManager.firstFitSelect_fits (blocks : List MemoryBlock) (p : Process) (i : Nat)
    (h : MemoryManager.firstFitSelect blocks p = some i) :
    ∃ b : MemoryBlock, blocks[i]? = some b ∧ MemoryManager.fits b p = true := by
  obtain ⟨j, b, hj, hb, hf⟩ := MemoryManager.firstFitScan_spec p blocks 0 i h
  have : j = i := by omega
  subst this
  exact ⟨b, hb, hf⟩

theorem MemoryManager.bestFitSelect_fits (blocks : List MemoryBlock) (p : Process) (i : Nat)
    (h : MemoryManager.bestFitSelect blocks p = some i) :
    ∃ b : MemoryBlock, blocks[i]? = some b ∧ MemoryManager.fits b p = true := by
  rcases MemoryManager.bestFitScan_spec p blocks 0 none INT_MAX i h with
    ⟨hk, -⟩ | ⟨j, b, hj, hb, hf, -, -⟩
  · exact absurd hk (by simp)
  · have : j = i := by omega
    subst this
    exact ⟨b, hb, hf⟩

theorem MemoryManager.worstFitSelect_fits (blocks : List MemoryBlock) (p : Process) (i : Nat)
    (h : MemoryManager.worstFitSelect blocks p = some i) :
    ∃ b : MemoryBlock, blocks[i]? = some b ∧ MemoryManager.fits b p = true := by
  rcases MemoryManager.worstFitScan_spec p blocks 0 none (-1) i h with hk | ⟨j, b, hj, hb, hf⟩
  · exact absurd hk (by simp)
  · have : j = i := by omega
    subst this
    exact ⟨b, hb, hf⟩

theorem NoUndersized.refl (procs : List Process) (b0 : List MemoryBlock) :
    NoUndersized procs b0 b0 := by
  refine ⟨rfl, ?_⟩
  intro k x0 x1 h0 h1
  rw [h0] at h1
  have := Option.some.inj h1
  subst this
  exact ⟨rfl, Or.inl rfl⟩

theorem NoUndersized.assign (blocks : List MemoryBlock) (p : Process) (i : Nat)
    (b : MemoryBlock) (hb : blocks[i]? = some b) (hf : MemoryManager.fits b p = true) :
    NoUndersized [p] blocks (MemoryManager.assign blocks i p) := by
  have hsize : p.burst_time ≤ b.size := ((MemoryManager.fits_iff b p).mp hf).2
  simp only [MemoryManager.assign, hb]
  refine ⟨by simp, ?_⟩
  intro k x0 x1 h0 h1
  rw [List.getElem?_set] at h1
  split_ifs at h1 with hik
  · subst hik
    rw [hb] at h0
    have h00 := Option.some.inj h0
    subst h00
    simp only [Option.some.injEq] at h1
    subst h1
    exact ⟨rfl, Or.inr ⟨rfl, p, by simp, rfl, hsize⟩⟩
  · rw [h0] at h1
    have := Option.some.inj h1
    subst this
    exact ⟨rfl, Or.inl rfl⟩

theorem NoUndersized.cons (p : Process) (ps : List Process) (b0 b1 b2 : List MemoryBlock)
    (h1 : NoUndersized [p] b0 b1) (h2 : NoUndersized ps b1 b2) :
    NoUndersized (p :: ps) b0 b2 := by
  refine ⟨h2.1.trans h1.1, ?_⟩
  intro k x0 x2 hx0 hx2
  have hk : k < b1.length := by
    rw [h1.1]
    exact (List.getElem?_eq_some.mp hx0).1
  obtain ⟨hs1, hc1⟩ := h1.2 k x0 b1[k] hx0 (List.getElem?_eq_getElem hk)
  obtain ⟨hs2, hc2⟩ := h2.2 k b1[k] x2 (List.getElem?_eq_getElem hk) hx2
  refine ⟨hs2.trans hs1, ?_⟩
  rcases hc2 with h | ⟨ha, q, hq, hid, hsz⟩
  · rw [h]
    rcases hc1 with h' | ⟨ha, q, hq, hid, hsz⟩
    · exact Or.inl h'
    · refine Or.inr ⟨ha, q, ?_, hid, hsz⟩
      simp only [List.mem_singleton] at hq
      simp [hq]
  · exact Or.inr ⟨ha, q, List.mem_cons_of_mem _ hq, hid, hsz⟩

theorem NoUndersized.foldl {σ : Type} (proj : σ → List MemoryBlock) (step : σ → Process → σ)
    (hstep : ∀ (s : σ) (p : Process), NoUndersized [p] (proj s) (proj (step s p))) :
    ∀ (procs : List Process) (s : σ), NoUndersized procs (proj s) (proj (procs.foldl step s)) := by
  intro procs
  induction procs with
  | nil => intro s; exact NoUndersized.refl _ _
  | cons p ps ih =>
    intro s
    exact NoUndersized.cons p ps _ _ _ (hstep s p) (ih (step s p))

theorem NoUndersized.allocateWith (select : List MemoryBlock → Process → Option Nat)
    (hsel : ∀ (blocks : List MemoryBlock) (p : Process) (i : Nat), select blocks p = some i →
      ∃ b : MemoryBlock, blocks[i]? = some b ∧ MemoryManager.fits b p = true)
    (blocks : List MemoryBlock) (p : Process) :
    NoUndersized [p] blocks (MemoryManager.allocateWith select blocks p) := by
  cases h : select blocks p with
  | none =>
    simp only [MemoryManager.allocateWith, h]
    exact NoUndersized.refl _ _
  | some i =>
    obtain ⟨b, hb, hf⟩ := hsel blocks p i h
    simp only [MemoryManager.allocateWith, h]
    exact NoUndersized.assign blocks p i b hb hf

/-- C20: each of `allocateFirstFit`, `allocateBestFit`, `allocateNextFit` and
`allocateWorstFit` selects for a task only a block that is unallocated and has
`size >= burst_time`; and after a whole pass, for every block list and task
list (and every Next-Fit cursor), every block either is as before the pass or
is allocated to a task of the list whose `burst_time` is at most the block's
size. -/
theorem MemoryManager.no_undersized_allocation (blocks : List MemoryBlock)
    (next_fit_index : Nat) (processes : List Process) :
    (∀ (p : Process) (i : Nat),
        (MemoryManager.firstFitSelect blocks p = some i ∨
          MemoryManager.bestFitSelect blocks p = some i ∨
          MemoryManager.nextFitSelect blocks next_fit_index p = some i ∨
          MemoryManager.worstFitSelect blocks p = some i) →
        ∃ b : MemoryBlock, blocks[i]? = some b ∧ b.is_allocated = false ∧
          p.burst_time ≤ b.size) ∧
      NoUndersized processes blocks (MemoryManager.allocateFirstFit blocks processes) ∧
      NoUndersized processes blocks (MemoryManager.allocateBestFit blocks processes) ∧
      NoUndersized processes blocks
        (MemoryManager.allocateNextFit blocks next_fit_index processes).1 ∧
      NoUndersized processes blocks (MemoryManager.allocateWorstFit blocks processes) := by
  refine ⟨?_, ?_, ?_, ?_, ?_⟩
  · intro p i h
    have hfit : ∃ b : MemoryBlock, blocks[i]? = some b ∧ MemoryManager.fits b p = true := by
      rcases h with h | h | h | h
      · exact MemoryManager.firstFitSelect_fits blocks p i h
      · exact MemoryManager.bestFitSelect_fits blocks p i h
      · exact MemoryManager.nextFitScan_spec p blocks next_fit_index _ _ i h
      · exact MemoryManager.worstFitSelect_fits blocks p i h
    obtain ⟨b, hb, hf⟩ := hfit
    exact ⟨b, hb, (MemoryManager.fits_iff b p).mp hf⟩
  · exact NoUndersized.foldl id _
      (NoUndersized.allocateWith _ MemoryManager.firstFitSelect_fits) processes blocks
  · exact NoUndersized.foldl id _
      (NoUndersized.allocateWith _ MemoryManager.bestFitSelect_fits) processes blocks
  · refine NoUndersized.foldl (fun s : List MemoryBlock × Nat => s.1)
      MemoryManager.nextFitStep ?_ processes (blocks, next_fit_index)
    intro s p
    cases h : MemoryManager.nextFitSelect s.1 s.2 p with
    | none =>
      simp only [MemoryManager.nextFitStep, h]
      exact NoUndersized.refl _ _
    | some i =>
      obtain ⟨b, hb, hf⟩ := MemoryManager.nextFitScan_spec p s.1 s.2 _ _ i h
      simp only [MemoryManager.nextFitStep, h]
      exact NoUndersized.assign s.1 p i b hb hf
  · exact NoUndersized.foldl id _
      (NoUndersized.allocateWith _ MemoryManager.worstFitSelect_fits) processes blocks

/-- Witness for C20: blocks of sizes 10 and 5 and a task of size 7: First Fit
selects block 0, whose size 10 is at least 7. -/
theorem MemoryManager.no_undersized_allocation_witness :
    MemoryManager.firstFitSelect [mkBlock 1 10, mkBlock 2 5] (mkProcess 1 0 7 1) = some 0 ∧
      ∃ b : MemoryBlock, [mkBlock 1 10, mkBlock 2 5][0]? = some b ∧ b.is_allocated = false ∧
        (mkProcess 1 0 7 1).burst_time ≤ b.size :=
  ⟨by decide,
    (MemoryManager.no_undersized_allocation [mkBlock 1 10, mkBlock 2 5] 0 []).1
      (mkProcess 1 0 7 1) 0 (Or.inl (by decide))⟩

/-! ### Forward progress -/

theorem CPUScheduler.rrSeed_spec (current_time : Int) (ps : List Process) :
    ∀ (i0 : Nat) (q : List Nat × List Nat),
      (∀ j ∈ q.1, j ∈ (CPUScheduler.rrSeed current_time ps i0 q).1) ∧
        ((∀ j ∈ q.2, j ∈ q.1) →
          ∀ j ∈ (CPUScheduler.rrSeed current_time ps i0 q).2,
            j ∈ (CPUScheduler.rrSeed current_time ps i0 q).1) ∧
        (q.2.Nodup → (CPUScheduler.rrSeed current_time ps i0 q).2.Nodup) ∧
        (∀ (i : Nat) (p : Process), ps[i]? = some p → p.arrival_time ≤ current_time →
          (i0 + i) ∈ (CPUScheduler.rrSeed current_time ps i0 q).1) := by
  induction ps with
  | nil =>
    intro i0 q
    refine ⟨fun j hj => hj, fun h => h, fun h => h, ?_⟩
    intro i p hp; simp at hp
  | cons p0 ps ih =>
    intro i0 q
    by_cases hc : p0.arrival_time ≤ current_time
    · obtain ⟨ha, hb, hn, hd⟩ := ih (i0 + 1) (q.1 ++ [i0], q.2.insert i0)
      simp only [CPUScheduler.rrSeed, if_pos hc]
      refine ⟨fun j hj => ha j (by simp [hj]), ?_, ?_, ?_⟩
      · intro hsub
        apply hb
        intro j hj
        rcases List.mem_insert_iff.mp hj with h1 | h2
        · simp [h1]
        · simp [hsub j h2]
      · intro hnd
        exact hn (hnd.insert)
      · intro i p hp harr
        cases i with
        | zero => exact ha i0 (by simp)
        | succ i =>
          simp only [List.getElem?_cons_succ] at hp
          have := hd i p hp harr
          rwa [show i0 + (i + 1) = i0 + 1 + i by omega]
    · obtain ⟨ha, hb, hn, hd⟩ := ih (i0 + 1) q
      simp only [CPUScheduler.rrSeed, if_neg hc]
      refine ⟨ha, hb, hn, ?_⟩
      intro i p hp harr
      cases i with
      | zero =>
        simp only [List.getElem?_cons_zero, Option.some.injEq] at hp
        subst hp
        exact absurd harr hc
      | succ i =>
        simp only [List.getElem?_cons_succ] at hp
        have := hd i p hp harr
        rwa [show i0 + (i + 1) = i0 + 1 + i by omega]

theorem CPUScheduler.rrArrivals_spec (current_time : Int) (ps : List Process) :
    ∀ (rs : List Int) (i0 : Nat) (q : List Nat × List Nat),
      (∀ j ∈ q.1, j ∈ (CPUScheduler.rrArrivals current_time ps rs i0 q).1) ∧
        ((∀ j ∈ q.2, j ∈ q.1) →
          ∀ j ∈ (CPUScheduler.rrArrivals current_time ps rs i0 q).2,
            j ∈ (CPUScheduler.rrArrivals current_time ps rs i0 q).1) ∧
        (q.2.Nodup → (CPUScheduler.rrArrivals current_time ps rs i0 q).2.Nodup) ∧
        ((∀ j ∈ q.2, j ∈ q.1) →
          ∀ (i : Nat) (p : Process) (r : Int), ps[i]? = some p → rs[i]? = some r → 0 < r →
            p.arrival_time ≤ current_time →
              (i0 + i) ∈ (CPUScheduler.rrArrivals current_time ps rs i0 q).1) := by
  induction ps with
  | nil =>
    intro rs i0 q
    refine ⟨by simp [CPUScheduler.rrArrivals], by simp [CPUScheduler.rrArrivals],
      by simp [CPUScheduler.rrArrivals], ?_⟩
    intro _ i p r hp; simp at hp
  | cons p0 ps ih =>
    intro rs i0 q
    cases rs with
    | nil =>
      refine ⟨by simp [CPUScheduler.rrArrivals], by simp [CPUScheduler.rrArrivals],
        by simp [CPUScheduler.rrArrivals], ?_⟩
      intro _ i p r _ hr; simp at hr
    | cons r0 rs =>
      by_cases hc : r0 > 0 ∧ p0.arrival_time ≤ current_time ∧ i0 ∉ q.2
      · obtain ⟨ha, hb, hn, hd⟩ := ih rs (i0 + 1) (q.1 ++ [i0], q.2.insert i0)
        simp only [CPUScheduler.rrArrivals, if_pos hc]
        have hsub' : (∀ j ∈ q.2, j ∈ q.1) →
            ∀ j ∈ q.2.insert i0, j ∈ q.1 ++ [i0] := by
          intro hsub j hj
          rcases List.mem_insert_iff.mp hj with h1 | h2
          · simp [h1]
          · simp [hsub j h2]
        refine ⟨fun j hj => ha j (by simp [hj]), fun hsub => hb (hsub' hsub),
          fun hnd => hn (hnd.insert), ?_⟩
        intro hsub i p r hp hr hpos harr
        cases i with
        | zero => exact ha i0 (by simp)
        | succ i =>
          simp only [List.getElem?_cons_succ] at hp hr
          have := hd (hsub' hsub) i p r hp hr hpos harr
          rwa [show i0 + (i + 1) = i0 + 1 + i by omega]
      · obtain ⟨ha, hb, hn, hd⟩ := ih rs (i0 + 1) q
        simp only [CPUScheduler.rrArrivals, if_neg hc]
        refine ⟨ha, hb, hn, ?_⟩
        intro hsub i p r hp hr hpos harr
        cases i with
        | zero =>
          simp only [List.getElem?_cons_zero, Option.some.injEq] at hp hr
          subst hp hr
          have hin : i0 ∈ q.2 := by
            by_contra hnot
            exact hc ⟨hpos, harr, hnot⟩
          exact ha i0 (hsub i0 hin)
        | succ i =>
          simp only [List.getElem?_cons_succ] at hp hr
          have := hd hsub i p r hp hr hpos harr
          rwa [show i0 + (i + 1) = i0 + 1 + i by omega]

theorem CPUScheduler.rrIdleFind_some (current_time : Int) (ps : List Process) :
    ∀ (rs : List Int) (i0 k : Nat) (a : Int),
      CPUScheduler.rrIdleFind current_time ps rs i0 = some (k, a) →
        ∃ (i : Nat) (p : Process) (r : Int), k = i0 + i ∧ ps[i]? = some p ∧ rs[i]? = some r ∧
          0 < r ∧ current_time < p.arrival_time ∧ a = p.arrival_time := by
  induction ps with
  | nil => intro rs i0 k a h; simp [CPUScheduler.rrIdleFind] at h
  | cons p0 ps ih =>
    intro rs i0 k a h
    cases rs with
    | nil => simp [CPUScheduler.rrIdleFind] at h
    | cons r0 rs =>
      simp only [CPUScheduler.rrIdleFind] at h
      split_ifs at h with hc
      · simp only [Option.some.injEq, Prod.mk.injEq] at h
        exact ⟨0, p0, r0, by omega, by simp, by simp, hc.1, hc.2, h.2.symm⟩
      · obtain ⟨i, p, r, hk, hp, hr, hpos, harr, ha⟩ := ih rs (i0 + 1) k a h
        exact ⟨i + 1, p, r, by omega, by simpa using hp, by simpa using hr, hpos, harr, ha⟩

theorem CPUScheduler.rrIdleFind_ne_none (current_time : Int) (ps : List Process) :
    ∀ (rs : List Int) (i0 i : Nat) (p : Process) (r : Int), ps[i]? = some p →
      rs[i]? = some r → 0 < r → current_time < p.arrival_time →
        CPUScheduler.rrIdleFind current_time ps rs i0 ≠ none := by
  induction ps with
  | nil => intro rs i0 i p r hp; simp at hp
  | cons p0 ps ih =>
    intro rs i0 i p r hp hr hpos harr
    cases rs with
    | nil => simp at hr
    | cons r0 rs =>
      simp only [CPUScheduler.rrIdleFind]
      split_ifs with hc
      · simp
      · cases i with
        | zero =>
          simp only [List.getElem?_cons_zero, Option.some.injEq] at hp hr
          subst hp hr
          exact absurd ⟨hpos, harr⟩ hc
        | succ i =>
          simp only [List.getElem?_cons_succ] at hp hr
          exact ih rs (i0 + 1) i p r hp hr hpos harr

theorem CPUScheduler.modifyAt_length {α : Type} (l : List α) (i : Nat) (f : α → α) :
    (CPUScheduler.modifyAt l i f).length = l.length := by
  simp only [CPUScheduler.modifyAt]
  cases l[i]? <;> simp

theorem CPUScheduler.modifyAt_recordCompletion_inputs (l : List Process) (i : Nat) (t : Int) :
    (CPUScheduler.modifyAt l i (CPUScheduler.recordCompletion t)).map Process.input
      = l.map Process.input := by
  simp only [CPUScheduler.modifyAt]
  cases hp : l[i]? with
  | none => rfl
  | some p =>
    simp only [List.map_set, recordCompletion_input]
    have hpk : (l.map Process.input)[i]? = some p.input := by
      simp [List.getElem?_map, hp]
    exact set_eq_self_of_getElem? _ i _ hpk

theorem CPUScheduler.rr_slice_remaining (rem : List Int) (idx : Nat) (q : Int) (hq : 1 ≤ q)
    (hnn : ∀ r ∈ rem, 0 ≤ r) :
    (∀ r ∈ rem.set idx (rem.getD idx 0 - min q (rem.getD idx 0)), 0 ≤ r) ∧
      0 ≤ min q (rem.getD idx 0) ∧
      ((rem.set idx (rem.getD idx 0 - min q (rem.getD idx 0))).getD idx 0 > 0 →
        ((rem.set idx (rem.getD idx 0 - min q (rem.getD idx 0))).count 0 = rem.count 0 ∧
          remainingTotal (rem.set idx (rem.getD idx 0 - min q (rem.getD idx 0))) + 1
            ≤ remainingTotal rem)) ∧
      ((rem.set idx (rem.getD idx 0 - min q (rem.getD idx 0))).count 0 ≤ rem.count 0 + 1 ∧
        remainingTotal (rem.set idx (rem.getD idx 0 - min q (rem.getD idx 0)))
          ≤ remainingTotal rem) := by
  cases hidx : rem[idx]? with
  | none =>
    have hlen : rem.length ≤ idx := List.getElem?_eq_none_iff.mp hidx
    have hget : rem.getD idx 0 = 0 := by simp [List.getD_eq_getElem?_getD, hidx]
    have hset : ∀ v : Int, rem.set idx v = rem := fun v => List.set_eq_of_length_le hlen
    rw [hget, hset]
    refine ⟨hnn, by simp; omega, ?_, by omega, le_refl _⟩
    intro h
    rw [hget] at h
    omega
  | some r0 =>
    have hlt : idx < rem.length := (List.getElem?_eq_some.mp hidx).1
    have hgk : rem[idx] = r0 := (List.getElem?_eq_some.mp hidx).2
    have hget : rem.getD idx 0 = r0 := by simp [List.getD_eq_getElem?_getD, hidx]
    have hr0 : 0 ≤ r0 := hnn r0 (List.mem_iff_getElem?.mpr ⟨idx, hidx⟩)
    rw [hget]
    have hmin1 : 0 ≤ min q r0 := le_min (by omega) hr0
    have hmin2 : min q r0 ≤ r0 := min_le_right _ _
    have hmin3 : 0 < r0 → 1 ≤ min q r0 := fun h => le_min hq (by omega)
    have hget' : (rem.set idx (r0 - min q r0)).getD idx 0 = r0 - min q r0 := by
      simp [List.getD_eq_getElem?_getD, List.getElem?_set_self hlt]
    have hsum := remainingTotal_set rem idx r0 (r0 - min q r0) hidx
    have hcount := List.count_set (r0 - min q r0) (0 : Int) rem idx hlt
    rw [hgk] at hcount
    refine ⟨?_, hmin1, ?_, ?_, ?_⟩
    · intro r hr
      rcases List.mem_or_eq_of_mem_set hr with h1 | h2
      · exact hnn r h1
      · omega
    · intro h
      rw [hget'] at h
      have hpos : 0 < r0 := by omega
      have := hmin3 hpos
      constructor
      · rw [hcount]
        have h1 : ¬ (r0 = 0) := by omega
        have h2 : ¬ (r0 - min q r0 = 0) := by omega
        simp [h1, h2]
      · omega
    · rw [hcount]
      split_ifs <;> omega
    · omega

theorem RRInv.rr_exists_unfinished {c0 : List Process} {s : CPUScheduler.RRState}
    (hinv : RRInv c0 s) (hc : CPUScheduler.rrCond s = true) :
    ∃ (i : Nat) (p : Process) (r : Int),
      s.completed[i]? = some p ∧ s.remaining_time[i]? = some r ∧ 0 < r := by
  have hlen : s.completed.length = c0.length := by
    have := congrArg List.length hinv.inputs
    simpa using this
  have hlt : s.remaining_time.count 0 < s.remaining_time.length := by
    have h1 : s.processed < (s.completed.length : Int) := by
      simpa [CPUScheduler.rrCond] using hc
    have h2 := hinv.count
    rw [hlen, ← hinv.len] at h1
    omega
  have hex : ∃ r ∈ s.remaining_time, r ≠ 0 := by
    by_contra hall
    push_neg at hall
    have := (List.count_eq_length (a := (0 : Int)) (l := s.remaining_time)).mpr
      (fun b hb => (hall b hb).symm)
    omega
  obtain ⟨r, hr, hne⟩ := hex
  obtain ⟨i, hi⟩ := List.mem_iff_getElem?.mp hr
  have hi_lt : i < s.completed.length := by
    have := (List.getElem?_eq_some.mp hi).1
    rw [hlen, ← hinv.len]
    exact this
  refine ⟨i, s.completed[i], r, List.getElem?_eq_getElem hi_lt, hi, ?_⟩
  have := hinv.nonneg r hr
  omega

theorem CPUScheduler.rrBody_idle (time_quantum : Int) (c0 : List Process)
    (s : CPUScheduler.RRState) (hinv : RRInv c0 s) (hqueue : s.ready_queue = []) :
    RRInv c0 (CPUScheduler.rrBody time_quantum s) ∧
      (CPUScheduler.rrCond s = true →
        rrMeasure (CPUScheduler.rrBody time_quantum s) < rrMeasure s ∧
        ∃ (i : Nat) (p : Process) (r : Int),
          s.completed[i]? = some p ∧ s.remaining_time[i]? = some r ∧ 0 < r ∧
            s.current_time < p.arrival_time ∧
            (CPUScheduler.rrBody time_quantum s).current_time = p.arrival_time) := by
  cases hfind : CPUScheduler.rrIdleFind s.current_time s.completed s.remaining_time 0 with
  | none =>
    have hbody : CPUScheduler.rrBody time_quantum s = s := by
      simp only [CPUScheduler.rrBody, hqueue, hfind]
    rw [hbody]
    refine ⟨hinv, ?_⟩
    intro hc
    obtain ⟨i, p, r, hp, hr, hpos⟩ := hinv.rr_exists_unfinished hc
    exact absurd hfind (CPUScheduler.rrIdleFind_ne_none _ _ _ 0 i p r hp hr hpos
      (hinv.arrived hqueue i p r hp hr hpos))
  | some ia =>
    obtain ⟨k, a⟩ := ia
    obtain ⟨i, p, r, hk, hp, hr, hpos, harr, ha⟩ :=
      CPUScheduler.rrIdleFind_some _ _ _ _ _ _ hfind
    have hki : i = k := by omega
    subst hki
    have hbody : CPUScheduler.rrBody time_quantum s
        = { s with current_time := a, ready_queue := [i], in_queue := s.in_queue.insert i } := by
      simp only [CPUScheduler.rrBody, hqueue, hfind]
    rw [hbody]
    refine ⟨⟨hinv.inputs, hinv.len, hinv.nonneg, ?_, hinv.inq_nodup.insert, ?_, hinv.count⟩, ?_⟩
    · intro j hj
      rcases List.mem_insert_iff.mp hj with h1 | h2
      · simp [h1]
      · have := hinv.inq_sub j h2
        rw [hqueue] at this
        simp at this
    · intro h
      simp at h
    · intro _
      refine ⟨?_, i, p, r, hp, hr, hpos, harr, ha⟩
      simp [rrMeasure, hqueue]

theorem CPUScheduler.rrBody_slice (time_quantum : Int) (hq : 1 ≤ time_quantum)
    (c0 : List Process) (s : CPUScheduler.RRState) (hinv : RRInv c0 s) (idx : Nat)
    (rest : List Nat) (hqueue : s.ready_queue = idx :: rest) :
    RRInv c0 (CPUScheduler.rrBody time_quantum s) ∧
      (CPUScheduler.rrCond s = true →
        rrMeasure (CPUScheduler.rrBody time_quantum s) < rrMeasure s) := by
  obtain ⟨hnn, hmin, hthen, helse⟩ :=
    CPUScheduler.rr_slice_remaining s.remaining_time idx time_quantum hq hinv.nonneg
  have hlen : s.completed.length = c0.length := by
    have := congrArg List.length hinv.inputs
    simpa using this
  have hsub1 : ∀ j ∈ s.in_queue.erase idx, j ∈ rest := by
    intro j hj
    obtain ⟨hne, hmem⟩ := (hinv.inq_nodup.mem_erase_iff).mp hj
    have := hinv.inq_sub j hmem
    rw [hqueue] at this
    rcases List.mem_cons.mp this with h1 | h2
    · exact absurd h1 hne
    · exact h2
  have hnd1 : (s.in_queue.erase idx).Nodup := hinv.inq_nodup.erase idx
  obtain ⟨ha, hb, hn, hd⟩ := CPUScheduler.rrArrivals_spec
    (s.current_time + min time_quantum (s.remaining_time.getD idx 0)) s.completed
    (s.remaining_time.set idx
      (s.remaining_time.getD idx 0 - min time_quantum (s.remaining_time.getD idx 0)))
    0 (rest, s.in_queue.erase idx)
  have hflag : ∀ l : List Nat, (if l = [] then 1 else 0) ≤ 1 := by
    intro l; split_ifs <;> omega
  simp only [CPUScheduler.rrBody, hqueue]
  generalize hrem' : s.remaining_time.set idx
    (s.remaining_time.getD idx 0 - min time_quantum (s.remaining_time.getD idx 0)) = rem'
    at hnn hthen helse ha hb hn hd ⊢
  generalize hct' : s.current_time + min time_quantum (s.remaining_time.getD idx 0) = ct'
    at ha hb hn hd ⊢
  generalize hqa : CPUScheduler.rrArrivals ct' s.completed rem' 0
    (rest, s.in_queue.erase idx) = qa at ha hb hn hd ⊢
  have hlen' : rem'.length = c0.length := by
    rw [← hrem']
    simp [hinv.len]
  split_ifs with hpos
  · obtain ⟨hcount, hsum⟩ := hthen hpos
    refine ⟨⟨hinv.inputs, hlen', hnn, ?_, (hn hnd1).insert, ?_, ?_⟩, ?_⟩
    · intro j hj
      rcases List.mem_insert_iff.mp hj with h1 | h2
      · simp [h1]
      · simp [hb hsub1 j h2]
    · intro h
      simp at h
    · simp only
      rw [hcount]
      exact hinv.count
    · intro _
      simp only [rrMeasure, hqueue]
      simp
      omega
  · refine ⟨⟨?_, hlen', hnn, hb hsub1, hn hnd1, ?_, ?_⟩, ?_⟩
    · simp only
      rw [CPUScheduler.modifyAt_recordCompletion_inputs]
      exact hinv.inputs
    · intro hempty i p' r hp' hr hrpos
      simp only at hempty hp' hr ⊢
      obtain ⟨p, hp, -, hin⟩ := inputs_getElem?
        (CPUScheduler.modifyAt_recordCompletion_inputs s.completed idx ct') i p' hp'
      by_contra hnot
      have harr : p.arrival_time ≤ ct' := by
        rw [(Process.arrival_of_input hin).1]
        omega
      have := hd hsub1 i p r hp hr hrpos harr
      rw [hempty] at this
      simp at this
    · simp only
      have h1 := hinv.count
      have h2 := helse.1
      omega
    · intro hc
      have hp : s.processed < (s.completed.length : Int) := by
        simpa [CPUScheduler.rrCond] using hc
      simp only [rrMeasure, hqueue, CPUScheduler.modifyAt_length]
      have h1 := helse.2
      have h2 := hflag qa.1
      simp
      omega

theorem CPUScheduler.rrBody_step (time_quantum : Int) (hq : 1 ≤ time_quantum)
    (c0 : List Process) (s : CPUScheduler.RRState) (hinv : RRInv c0 s) :
    RRInv c0 (CPUScheduler.rrBody time_quantum s) ∧
      (CPUScheduler.rrCond s = true →
        rrMeasure (CPUScheduler.rrBody time_quantum s) < rrMeasure s) := by
  cases hqueue : s.ready_queue with
  | nil =>
    obtain ⟨h1, h2⟩ := CPUScheduler.rrBody_idle time_quantum c0 s hinv hqueue
    exact ⟨h1, fun hc => (h2 hc).1⟩
  | cons idx rest => exact CPUScheduler.rrBody_slice time_quantum hq c0 s hinv idx rest hqueue

theorem RRInv.rr_init (processes : List Process) (hb : ∀ p ∈ processes, 0 < p.burst_time) :
    RRInv (CPUScheduler.sortByArrival processes) (CPUScheduler.rrInit processes) := by
  have hperm : (CPUScheduler.sortByArrival processes).Perm processes :=
    List.perm_insertionSort _ _
  have hpos : ∀ r ∈ (CPUScheduler.sortByArrival processes).map (fun p => p.burst_time),
      0 < r := by
    intro r hr
    obtain ⟨p, hp, rfl⟩ := List.mem_map.mp hr
    exact hb p (hperm.subset hp)
  obtain ⟨-, hsub, hnd, harr⟩ :=
    CPUScheduler.rrSeed_spec 0 (CPUScheduler.sortByArrival processes) 0 ([], [])
  refine ⟨rfl, by simp [CPUScheduler.rrInit], ?_, ?_, ?_, ?_, ?_⟩
  · intro r hr
    exact le_of_lt (hpos r hr)
  · exact hsub (by simp)
  · exact hnd List.nodup_nil
  · intro hempty i p r hp _ _
    simp only [CPUScheduler.rrInit] at hempty hp ⊢
    by_contra hnot
    have := harr i p hp (by omega)
    rw [hempty] at this
    simp at this
  · have h0 : ((CPUScheduler.sortByArrival processes).map (fun p => p.burst_time)).count 0
        = 0 := by
      rw [List.count_eq_zero]
      intro hmem
      have := hpos 0 hmem
      omega
    simp [CPUScheduler.rrInit, h0]

theorem CPUScheduler.rrBody_iterate_inv (time_quantum : Int) (hq : 1 ≤ time_quantum)
    (processes : List Process) (hb : ∀ p ∈ processes, 0 < p.burst_time) :
    ∀ n : Nat, RRInv (CPUScheduler.sortByArrival processes)
      ((CPUScheduler.rrBody time_quantum)^[n] (CPUScheduler.rrInit processes)) := by
  intro n
  induction n with
  | zero => exact RRInv.rr_init processes hb
  | succ n ih =>
    rw [Function.iterate_succ_apply']
    exact (CPUScheduler.rrBody_step time_quantum hq _ _ ih).1

theorem CPUScheduler.rrRun_terminates (time_quantum : Int) (hq : 1 ≤ time_quantum)
    (processes : List Process) (hb : ∀ p ∈ processes, 0 < p.burst_time) (fuel : Nat)
    (hfuel : 2 * remainingTotal (processes.map (fun p => p.burst_time))
      + 2 * processes.length + 1 < fuel) :
    ∃ s, CPUScheduler.rrRun fuel time_quantum processes = some s ∧
      CPUScheduler.rrCond s = false := by
  have hperm : (CPUScheduler.sortByArrival processes).Perm processes :=
    List.perm_insertionSort _ _
  obtain ⟨s, hs, -, hc⟩ := whileLoop_terminates CPUScheduler.rrCond
    (CPUScheduler.rrBody time_quantum) (RRInv (CPUScheduler.sortByArrival processes)) rrMeasure
    (fun s hinv hc => ⟨(CPUScheduler.rrBody_step time_quantum hq _ s hinv).1,
      (CPUScheduler.rrBody_step time_quantum hq _ s hinv).2 hc⟩)
    fuel (CPUScheduler.rrInit processes) (RRInv.rr_init processes hb) (by
      have h1 : remainingTotal
          ((CPUScheduler.sortByArrival processes).map (fun p => p.burst_time))
            = remainingTotal (processes.map (fun p => p.burst_time)) :=
        remainingTotal_perm (hperm.map _)
      have h2 : (CPUScheduler.sortByArrival processes).length = processes.length :=
        hperm.length_eq
      have h3 : rrMeasure (CPUScheduler.rrInit processes)
          ≤ 2 * remainingTotal
              ((CPUScheduler.sortByArrival processes).map (fun p => p.burst_time))
            + 2 * (CPUScheduler.sortByArrival processes).length + 1 := by
        simp only [rrMeasure, CPUScheduler.rrInit]
        split_ifs <;> simp
      omega)
  exact ⟨s, hs, hc⟩

theorem TickInv.tickBody_preserves {G : Int → Prop}
    {select : CPUScheduler.SimState → Option Nat}
    (hsel : SelectOK G select) {c0 : List Process} {s : CPUScheduler.SimState}
    (hinv : TickInv c0 s) (hwf : ∀ p ∈ c0, p.arrival_time < INT_MAX ∧ G p.priority) :
    TickInv c0 (CPUScheduler.tickBody select s) := by
  by_cases hc : CPUScheduler.tickCond s = true
  · exact (CPUScheduler.tickBody_step G select hsel c0 hwf s hinv hc).1
  · cases hs : select s with
    | none =>
      obtain ⟨h1, h2, h3⟩ := CPUScheduler.tickBody_idle select s hs
      refine ⟨?_, ?_, ?_, ?_, ?_⟩
      · rw [h2]; exact hinv.inputs
      · rw [h1]; exact hinv.len
      · rw [h1]; exact hinv.range
      · rw [h1, h2]; exact hinv.done
      · rw [h1, h3]; exact hinv.count
    | some k =>
      exfalso
      obtain ⟨p, r, hp, hr, hpos, -⟩ := hsel.1 s k hs
      have hlen : s.completed.length = c0.length := by
        have := congrArg List.length hinv.inputs
        simpa using this
      have hge : s.remaining_time.length ≤ s.remaining_time.count 0 := by
        have h1 : ¬ (s.processed < (s.completed.length : Int)) := by
          simpa [CPUScheduler.tickCond] using hc
        rw [hinv.count, hlen, ← hinv.len] at h1
        have h2 : ((s.remaining_time.length : Nat) : Int)
            ≤ ((s.remaining_time.count 0 : Nat) : Int) := not_lt.mp h1
        exact_mod_cast h2
      have hall := (List.count_eq_length (a := (0 : Int)) (l := s.remaining_time)).mp
        (le_antisymm (List.count_le_length _ _) hge)
      have := hall r (List.mem_iff_getElem?.mpr ⟨k, hr⟩)
      omega

theorem CPUScheduler.tickBody_iterate_inv (G : Int → Prop)
    (select : CPUScheduler.SimState → Option Nat) (hsel : SelectOK G select)
    (c0 : List Process)
    (hwf : ∀ p ∈ c0, p.arrival_time < INT_MAX ∧ 0 < p.burst_time ∧ p.burst_time < INT_MAX ∧
      G p.priority) :
    ∀ n : Nat, TickInv c0 ((CPUScheduler.tickBody select)^[n] (CPUScheduler.tickInit c0)) := by
  intro n
  induction n with
  | zero => exact TickInv.init c0 (fun p hp => ⟨(hwf p hp).2.1, (hwf p hp).2.2.1⟩)
  | succ n ih =>
    rw [Function.iterate_succ_apply']
    exact TickInv.tickBody_preserves hsel ih (fun p hp => ⟨(hwf p hp).1, (hwf p hp).2.2.2⟩)

theorem CPUScheduler.tickBody_idle_progress (G : Int → Prop)
    (select : CPUScheduler.SimState → Option Nat) (hsel : SelectOK G select)
    (c0 : List Process) (hwf : ∀ p ∈ c0, p.arrival_time < INT_MAX ∧ G p.priority)
    (s : CPUScheduler.SimState) (hinv : TickInv c0 s) (hc : CPUScheduler.tickCond s = true)
    (hs : select s = none) :
    ∃ (i : Nat) (p : Process) (r : Int),
      s.completed[i]? = some p ∧ s.remaining_time[i]? = some r ∧ 0 < r ∧
        s.current_time < p.arrival_time ∧
        (CPUScheduler.tickBody select s).current_time = p.arrival_time := by
  obtain ⟨i, p, r, hp, hr, hpos⟩ := hinv.exists_unfinished hc
  obtain ⟨p0, -, hp0mem, hp0⟩ := inputs_getElem? hinv.inputs i p hp
  have harr : p.arrival_time < INT_MAX := by
    rw [← (Process.arrival_of_input hp0).1]
    exact (hwf p0 hp0mem).1
  obtain ⟨-, h2, h3⟩ := CPUScheduler.nextArrival_spec s.completed s.remaining_time INT_MAX
  have hle := h2 i p r hp hr hpos
  have hbody0 : (CPUScheduler.tickBody select s).current_time
      = if CPUScheduler.nextArrival s.completed s.remaining_time INT_MAX ≠ INT_MAX then
          CPUScheduler.nextArrival s.completed s.remaining_time INT_MAX
        else s.current_time := by
    simp only [CPUScheduler.tickBody, hs]
    split_ifs <;> rfl
  generalize CPUScheduler.nextArrival s.completed s.remaining_time INT_MAX = na
    at h3 hle hbody0
  have hne : na ≠ INT_MAX := by omega
  rcases h3 with h3 | ⟨j, pj, rj, hpj, hrj, hjpos, hjarr⟩
  · exact absurd h3 hne
  · obtain ⟨q0, -, hq0mem, hq0⟩ := inputs_getElem? hinv.inputs j pj hpj
    have hG : G pj.priority := by
      rw [← (Process.arrival_of_input hq0).2.2]
      exact (hwf q0 hq0mem).2
    refine ⟨j, pj, rj, hpj, hrj, hjpos, ?_, ?_⟩
    · by_contra hnot
      exact hsel.2 s j pj rj hpj hrj (by omega) hjpos (hinv.range j rj hrj).2 hG hs
    · rw [hbody0, if_pos hne]
      exact hjarr.symm

/-- Progress of the three simulation loops below the sentinel: for every task
list with `0 <= arrival_time < INT_MAX`, `0 < burst_time < INT_MAX` and
`1 <= priority` and every time quantum `>= 1`, the loops of `runSRJF`,
`runPreemptivePriority` and `runRoundRobin` end once the iteration budget
exceeds twice the total burst time plus twice the number of tasks plus one;
and at every iteration at which the loop condition holds the body changes the
state, and when nothing is eligible (no task selected, respectively the ready
queue empty) it moves the clock strictly forward to the arrival time of an
unfinished task that has not yet arrived. -/
theorem CPUScheduler.loops_progress_below_sentinel (processes : List Process) (time_quantum : Int)
    (fuel : Nat)
    (hwf : ∀ p ∈ processes, 0 ≤ p.arrival_time ∧ p.arrival_time < INT_MAX ∧
      0 < p.burst_time ∧ p.burst_time < INT_MAX ∧ 1 ≤ p.priority)
    (hq : 1 ≤ time_quantum)
    (hfuel : 2 * remainingTotal (processes.map (fun p => p.burst_time))
      + 2 * processes.length + 1 < fuel) :
    (∃ r, CPUScheduler.runSRJF fuel processes = some r) ∧
      (∃ r, CPUScheduler.runPreemptivePriority fuel processes = some r) ∧
      (∃ r, CPUScheduler.runRoundRobin fuel time_quantum processes = some r) ∧
      (∀ n : Nat, CPUScheduler.tickCond (CPUScheduler.srjfLoopState processes n) = true →
        CPUScheduler.srjfLoopState processes (n + 1) ≠ CPUScheduler.srjfLoopState processes n ∧
        (CPUScheduler.srjfSelect (CPUScheduler.srjfLoopState processes n) = none →
          ∃ (i : Nat) (p : Process) (r : Int),
            (CPUScheduler.srjfLoopState processes n).completed[i]? = some p ∧
            (CPUScheduler.srjfLoopState processes n).remaining_time[i]? = some r ∧ 0 < r ∧
            (CPUScheduler.srjfLoopState processes n).current_time < p.arrival_time ∧
            (CPUScheduler.srjfLoopState processes (n + 1)).current_time = p.arrival_time)) ∧
      (∀ n : Nat, CPUScheduler.tickCond (CPUScheduler.priorityLoopState processes n) = true →
        CPUScheduler.priorityLoopState processes (n + 1)
          ≠ CPUScheduler.priorityLoopState processes n ∧
        (CPUScheduler.prioritySelect (CPUScheduler.priorityLoopState processes n) = none →
          ∃ (i : Nat) (p : Process) (r : Int),
            (CPUScheduler.priorityLoopState processes n).completed[i]? = some p ∧
            (CPUScheduler.priorityLoopState processes n).remaining_time[i]? = some r ∧ 0 < r ∧
            (CPUScheduler.priorityLoopState processes n).current_time < p.arrival_time ∧
            (CPUScheduler.priorityLoopState processes (n + 1)).current_time
              = p.arrival_time)) ∧
      (∀ n : Nat,
        CPUScheduler.rrCond (CPUScheduler.rrLoopState time_quantum processes n) = true →
        CPUScheduler.rrLoopState time_quantum processes (n + 1)
          ≠ CPUScheduler.rrLoopState time_quantum processes n ∧
        ((CPUScheduler.rrLoopState time_quantum processes n).ready_queue = [] →
          ∃ (i : Nat) (p : Process) (r : Int),
            (CPUScheduler.rrLoopState time_quantum processes n).completed[i]? = some p ∧
            (CPUScheduler.rrLoopState time_quantum processes n).remaining_time[i]? = some r ∧
            0 < r ∧
            (CPUScheduler.rrLoopState time_quantum processes n).current_time
              < p.arrival_time ∧
            (CPUScheduler.rrLoopState time_quantum processes (n + 1)).current_time
              = p.arrival_time)) := by
  have hperm : (CPUScheduler.sortByArrival processes).Perm processes :=
    List.perm_insertionSort _ _
  have hb : ∀ p ∈ processes, 0 < p.burst_time := fun p hp => (hwf p hp).2.2.1
  have hwfS : ∀ p ∈ CPUScheduler.sortByArrival processes,
      p.arrival_time < INT_MAX ∧ 0 < p.burst_time ∧ p.burst_time < INT_MAX ∧
        (fun _ : Int => True) p.priority :=
    fun p hp => ⟨(hwf p (hperm.subset hp)).2.1, (hwf p (hperm.subset hp)).2.2.1,
      (hwf p (hperm.subset hp)).2.2.2.1, trivial⟩
  have hwfP : ∀ p ∈ processes,
      p.arrival_time < INT_MAX ∧ 0 < p.burst_time ∧ p.burst_time < INT_MAX ∧
        (fun priority : Int => -1 < priority) p.priority := by
    intro p hp
    refine ⟨(hwf p hp).2.1, (hwf p hp).2.2.1, (hwf p hp).2.2.2.1, ?_⟩
    have := (hwf p hp).2.2.2.2
    show -1 < p.priority
    omega
  refine ⟨?_, ?_, ?_, ?_, ?_, ?_⟩
  · have hfuel2 : 2 * remainingTotal
        ((CPUScheduler.sortByArrival processes).map (fun p => p.burst_time)) + 1 < fuel := by
      rw [remainingTotal_perm (hperm.map _)]
      omega
    obtain ⟨s, hs, -, -⟩ := CPUScheduler.tick_loop_terminates _ CPUScheduler.srjfSelect
      CPUScheduler.srjfSelect_ok _ hwfS fuel hfuel2
    exact ⟨_, by simp only [CPUScheduler.runSRJF, hs, Option.map_some']; rfl⟩
  · obtain ⟨s, hs, -, -⟩ := CPUScheduler.tick_loop_terminates _ CPUScheduler.prioritySelect
      CPUScheduler.prioritySelect_ok _ hwfP fuel (by omega)
    exact ⟨_, by simp only [CPUScheduler.runPreemptivePriority, hs, Option.map_some']; rfl⟩
  · obtain ⟨s, hs, -⟩ := CPUScheduler.rrRun_terminates time_quantum hq processes hb fuel hfuel
    exact ⟨_, by simp only [CPUScheduler.runRoundRobin, hs, Option.map_some']; rfl⟩
  · intro n hc
    have hinv : TickInv (CPUScheduler.sortByArrival processes)
        (CPUScheduler.srjfLoopState processes n) :=
      CPUScheduler.tickBody_iterate_inv _ _ CPUScheduler.srjfSelect_ok _ hwfS n
    have hwf2 : ∀ p ∈ CPUScheduler.sortByArrival processes,
        p.arrival_time < INT_MAX ∧ (fun _ : Int => True) p.priority :=
      fun p hp => ⟨(hwfS p hp).1, trivial⟩
    have hnext : CPUScheduler.srjfLoopState processes (n + 1)
        = CPUScheduler.tickBody CPUScheduler.srjfSelect
            (CPUScheduler.srjfLoopState processes n) := by
      simp only [CPUScheduler.srjfLoopState, Function.iterate_succ_apply']
    rw [hnext]
    constructor
    · intro heq
      have := (CPUScheduler.tickBody_step _ _ CPUScheduler.srjfSelect_ok _ hwf2 _ hinv hc).2
      rw [heq] at this
      omega
    · intro hs
      exact CPUScheduler.tickBody_idle_progress _ _ CPUScheduler.srjfSelect_ok _ hwf2 _ hinv hc hs
  · intro n hc
    have hinv : TickInv processes (CPUScheduler.priorityLoopState processes n) :=
      CPUScheduler.tickBody_iterate_inv _ _ CPUScheduler.prioritySelect_ok _ hwfP n
    have hwf2 : ∀ p ∈ processes,
        p.arrival_time < INT_MAX ∧ (fun priority : Int => -1 < priority) p.priority :=
      fun p hp => ⟨(hwfP p hp).1, (hwfP p hp).2.2.2⟩
    have hnext : CPUScheduler.priorityLoopState processes (n + 1)
        = CPUScheduler.tickBody CPUScheduler.prioritySelect
            (CPUScheduler.priorityLoopState processes n) := by
      simp only [CPUScheduler.priorityLoopState, Function.iterate_succ_apply']
    rw [hnext]
    constructor
    · intro heq
      have := (CPUScheduler.tickBody_step _ _ CPUScheduler.prioritySelect_ok _ hwf2 _ hinv hc).2
      rw [heq] at this
      omega
    · intro hs
      exact CPUScheduler.tickBody_idle_progress _ _ CPUScheduler.prioritySelect_ok _ hwf2 _
        hinv hc hs
  · intro n hc
    have hinv : RRInv (CPUScheduler.sortByArrival processes)
        (CPUScheduler.rrLoopState time_quantum processes n) :=
      CPUScheduler.rrBody_iterate_inv time_quantum hq processes hb n
    have hnext : CPUScheduler.rrLoopState time_quantum processes (n + 1)
        = CPUScheduler.rrBody time_quantum
            (CPUScheduler.rrLoopState time_quantum processes n) := by
      simp only [CPUScheduler.rrLoopState, Function.iterate_succ_apply']
    rw [hnext]
    constructor
    · intro heq
      have := (CPUScheduler.rrBody_step time_quantum hq _ _ hinv).2 hc
      rw [heq] at this
      omega
    · intro hempty
      exact ((CPUScheduler.rrBody_idle time_quantum _ _ hinv hempty).2 hc).2

/-! ### Choice of block by the four allocation strategies -/

theorem MemoryManager.firstFitScan_full (p : Process) (l : List MemoryBlock) :
    ∀ i : Nat,
      (MemoryManager.firstFitScan p l i = none ∧ ∀ b ∈ l, MemoryManager.fits b p = false) ∨
        ∃ (j : Nat) (b : MemoryBlock),
          MemoryManager.firstFitScan p l i = some (i + j) ∧ l[j]? = some b ∧
            MemoryManager.fits b p = true ∧
            ∀ (j' : Nat) (b' : MemoryBlock), j' < j → l[j']? = some b' →
              MemoryManager.fits b' p = false := by
  induction l with
  | nil => intro i; left; simp [MemoryManager.firstFitScan]
  | cons b0 bs ih =>
    intro i
    by_cases hb : MemoryManager.fits b0 p = true
    · right
      refine ⟨0, b0, by simp [MemoryManager.firstFitScan, hb], by simp, hb, ?_⟩
      intro j' b' hj'
      omega
    · have hb' : MemoryManager.fits b0 p = false := by simpa using hb
      have hscan : MemoryManager.firstFitScan p (b0 :: bs) i
          = MemoryManager.firstFitScan p bs (i + 1) := by
        simp [MemoryManager.firstFitScan, hb']
      rw [hscan]
      rcases ih (i + 1) with ⟨hnone, hall⟩ | ⟨j, b, hres, hj, hf, hbefore⟩
      · left
        refine ⟨hnone, ?_⟩
        intro x hx
        rcases List.mem_cons.mp hx with rfl | hmem
        · exact hb'
        · exact hall x hmem
      · right
        refine ⟨j + 1, b, by rw [hres]; congr 1; omega, by simpa using hj, hf, ?_⟩
        intro j' b' hj' hb''
        cases j' with
        | zero =>
          simp only [List.getElem?_cons_zero, Option.some.injEq] at hb''
          subst hb''
          exact hb'
        | succ j' =>
          simp only [List.getElem?_cons_succ] at hb''
          exact hbefore j' b' (by omega) hb''

theorem MemoryManager.bestFitScan_full (p : Process) (l : List MemoryBlock) :
    ∀ (i : Nat) (best : Option Nat) (m : Int),
      (MemoryManager.bestFitScan p l i best m = best ∧
          ∀ (j : Nat) (b : MemoryBlock), l[j]? = some b → MemoryManager.fits b p = true →
            m ≤ b.size - p.burst_time) ∨
        ∃ (k : Nat) (bk : MemoryBlock),
          MemoryManager.bestFitScan p l i best m = some (i + k) ∧ l[k]? = some bk ∧
            MemoryManager.fits bk p = true ∧ bk.size - p.burst_time < m ∧
            ∀ (j : Nat) (b : MemoryBlock), l[j]? = some b → MemoryManager.fits b p = true →
              bk.size - p.burst_time ≤ b.size - p.burst_time ∧
                (j < k → bk.size - p.burst_time < b.size - p.burst_time) := by
  induction l with
  | nil =>
    intro i best m
    left
    exact ⟨by simp [MemoryManager.bestFitScan], fun j b hb => by simp at hb⟩
  | cons b0 bs ih =>
    intro i best m
    by_cases hc : MemoryManager.fits b0 p = true ∧ b0.size - p.burst_time < m
    · have hscan : MemoryManager.bestFitScan p (b0 :: bs) i best m
          = MemoryManager.bestFitScan p bs (i + 1) (some i) (b0.size - p.burst_time) := by
        simp only [MemoryManager.bestFitScan, if_pos hc.1, if_pos hc.2]
      rw [hscan]
      right
      rcases ih (i + 1) (some i) (b0.size - p.burst_time) with
        ⟨hres, hall⟩ | ⟨k, bk, hres, hbk, hfk, hlt, hall⟩
      · refine ⟨0, b0, by simpa using hres, by simp, hc.1, hc.2, ?_⟩
        intro j b hb hf
        cases j with
        | zero =>
          simp only [List.getElem?_cons_zero, Option.some.injEq] at hb
          subst hb
          exact ⟨le_refl _, fun h => absurd h (by omega)⟩
        | succ j =>
          simp only [List.getElem?_cons_succ] at hb
          exact ⟨hall j b hb hf, fun h => absurd h (by omega)⟩
      · refine ⟨k + 1, bk, by rw [hres]; congr 1; omega, by simpa using hbk, hfk,
          by omega, ?_⟩
        intro j b hb hf
        cases j with
        | zero =>
          simp only [List.getElem?_cons_zero, Option.some.injEq] at hb
          subst hb
          exact ⟨by omega, fun _ => hlt⟩
        | succ j =>
          simp only [List.getElem?_cons_succ] at hb
          have := hall j b hb hf
          exact ⟨this.1, fun h => this.2 (by omega)⟩
    · have hscan : MemoryManager.bestFitScan p (b0 :: bs) i best m
          = MemoryManager.bestFitScan p bs (i + 1) best m := by
        simp only [MemoryManager.bestFitScan]
        split_ifs with h1 h2
        · exact absurd ⟨h1, h2⟩ hc
        · rfl
        · rfl
      rw [hscan]
      have h0 : MemoryManager.fits b0 p = true → m ≤ b0.size - p.burst_time := by
        intro h1
        by_contra h3
        exact hc ⟨h1, by omega⟩
      rcases ih (i + 1) best m with ⟨hres, hall⟩ | ⟨k, bk, hres, hbk, hfk, hlt, hall⟩
      · left
        refine ⟨hres, ?_⟩
        intro j b hb hf
        cases j with
        | zero =>
          simp only [List.getElem?_cons_zero, Option.some.injEq] at hb
          subst hb
          exact h0 hf
        | succ j =>
          simp only [List.getElem?_cons_succ] at hb
          exact hall j b hb hf
      · right
        refine ⟨k + 1, bk, by rw [hres]; congr 1; omega, by simpa using hbk, hfk, hlt, ?_⟩
        intro j b hb hf
        cases j with
        | zero =>
          simp only [List.getElem?_cons_zero, Option.some.injEq] at hb
          subst hb
          have := h0 hf
          exact ⟨by omega, fun _ => by omega⟩
        | succ j =>
          simp only [List.getElem?_cons_succ] at hb
          have := hall j b hb hf
          exact ⟨this.1, fun h => this.2 (by omega)⟩

theorem MemoryManager.worstFitScan_full (p : Process) (l : List MemoryBlock) :
    ∀ (i : Nat) (worst : Option Nat) (m : Int),
      (MemoryManager.worstFitScan p l i worst m = worst ∧
          ∀ (j : Nat) (b : MemoryBlock), l[j]? = some b → MemoryManager.fits b p = true →
            b.size ≤ m) ∨
        ∃ (k : Nat) (bk : MemoryBlock),
          MemoryManager.worstFitScan p l i worst m = some (i + k) ∧ l[k]? = some bk ∧
            MemoryManager.fits bk p = true ∧ m < bk.size ∧
            ∀ (j : Nat) (b : MemoryBlock), l[j]? = some b → MemoryManager.fits b p = true →
              b.size ≤ bk.size ∧ (j < k → b.size < bk.size) := by
  induction l with
  | nil =>
    intro i worst m
    left
    exact ⟨by simp [MemoryManager.worstFitScan], fun j b hb => by simp at hb⟩
  | cons b0 bs ih =>
    intro i worst m
    by_cases hc : MemoryManager.fits b0 p = true ∧ b0.size > m
    · have hscan : MemoryManager.worstFitScan p (b0 :: bs) i worst m
          = MemoryManager.worstFitScan p bs (i + 1) (some i) b0.size := by
        simp only [MemoryManager.worstFitScan, if_pos hc.1, if_pos hc.2]
      rw [hscan]
      right
      rcases ih (i + 1) (some i) b0.size with
        ⟨hres, hall⟩ | ⟨k, bk, hres, hbk, hfk, hlt, hall⟩
      · refine ⟨0, b0, by simpa using hres, by simp, hc.1, hc.2, ?_⟩
        intro j b hb hf
        cases j with
        | zero =>
          simp only [List.getElem?_cons_zero, Option.some.injEq] at hb
          subst hb
          exact ⟨le_refl _, fun h => absurd h (by omega)⟩
        | succ j =>
          simp only [List.getElem?_cons_succ] at hb
          exact ⟨hall j b hb hf, fun h => absurd h (by omega)⟩
      · refine ⟨k + 1, bk, by rw [hres]; congr 1; omega, by simpa using hbk, hfk,
          by omega, ?_⟩
        intro j b hb hf
        cases j with
        | zero =>
          simp only [List.getElem?_cons_zero, Option.some.injEq] at hb
          subst hb
          exact ⟨by omega, fun _ => hlt⟩
        | succ j =>
          simp only [List.getElem?_cons_succ] at hb
          have := hall j b hb hf
          exact ⟨this.1, fun h => this.2 (by omega)⟩
    · have hscan : MemoryManager.worstFitScan p (b0 :: bs) i worst m
          = MemoryManager.worstFitScan p bs (i + 1) worst m := by
        simp only [MemoryManager.worstFitScan]
        split_ifs with h1 h2
        · exact absurd ⟨h1, h2⟩ hc
        · rfl
        · rfl
      rw [hscan]
      have h0 : MemoryManager.fits b0 p = true → b0.size ≤ m := by
        intro h1
        by_contra h3
        exact hc ⟨h1, by omega⟩
      rcases ih (i + 1) worst m with ⟨hres, hall⟩ | ⟨k, bk, hres, hbk, hfk, hlt, hall⟩
      · left
        refine ⟨hres, ?_⟩
        intro j b hb hf
        cases j with
        | zero =>
          simp only [List.getElem?_cons_zero, Option.some.injEq] at hb
          subst hb
          exact h0 hf
        | succ j =>
          simp only [List.getElem?_cons_succ] at hb
          exact hall j b hb hf
      · right
        refine ⟨k + 1, bk, by rw [hres]; congr 1; omega, by simpa using hbk, hfk, hlt, ?_⟩
        intro j b hb hf
        cases j with
        | zero =>
          simp only [List.getElem?_cons_zero, Option.some.injEq] at hb
          subst hb
          have := h0 hf
          exact ⟨by omega, fun _ => by omega⟩
        | succ j =>
          simp only [List.getElem?_cons_succ] at hb
          have := hall j b hb hf
          exact ⟨this.1, fun h => this.2 (by omega)⟩

theorem MemoryManager.nextFitScan_full (p : Process) (blocks : List MemoryBlock)
    (next_fit_index : Nat) :
    ∀ (steps i : Nat),
      (MemoryManager.nextFitScan p blocks next_fit_index steps i = none ∧
          ∀ (t : Nat), t < steps → ∀ b : MemoryBlock,
            blocks[(next_fit_index + (i + t)) % blocks.length]? = some b →
              MemoryManager.fits b p = false) ∨
        ∃ (t : Nat) (b : MemoryBlock), t < steps ∧
          MemoryManager.nextFitScan p blocks next_fit_index steps i
            = some ((next_fit_index + (i + t)) % blocks.length) ∧
          blocks[(next_fit_index + (i + t)) % blocks.length]? = some b ∧
          MemoryManager.fits b p = true ∧
          ∀ (t' : Nat), t' < t → ∀ b' : MemoryBlock,
            blocks[(next_fit_index + (i + t')) % blocks.length]? = some b' →
              MemoryManager.fits b' p = false := by
  intro steps
  induction steps with
  | zero =>
    intro i
    left
    exact ⟨by simp [MemoryManager.nextFitScan], fun t ht => by omega⟩
  | succ n ih =>
    intro i
    have hshift : ∀ t : Nat, next_fit_index + (i + 1 + t) = next_fit_index + (i + (t + 1)) := by
      intro t; omega
    have hzero : next_fit_index + (i + 0) = next_fit_index + i := by omega
    by_cases hfit : ∃ b : MemoryBlock,
        blocks[(next_fit_index + i) % blocks.length]? = some b ∧ MemoryManager.fits b p = true
    · obtain ⟨b, hb, hf⟩ := hfit
      right
      refine ⟨0, b, by omega, ?_, by rw [hzero]; exact hb, hf, fun t' ht' => by omega⟩
      rw [hzero]
      simp only [MemoryManager.nextFitScan, hb, hf, if_true]
    · have hscan : MemoryManager.nextFitScan p blocks next_fit_index (n + 1) i
          = MemoryManager.nextFitScan p blocks next_fit_index n (i + 1) := by
        simp only [MemoryManager.nextFitScan]
        cases hb : blocks[(next_fit_index + i) % blocks.length]? with
        | none => rfl
        | some b =>
          have : ¬ (MemoryManager.fits b p = true) := fun hf => hfit ⟨b, hb, hf⟩
          show (if MemoryManager.fits b p = true then _ else _) = _
          rw [if_neg this]
      have hhere : ∀ b : MemoryBlock,
          blocks[(next_fit_index + i) % blocks.length]? = some b →
            MemoryManager.fits b p = false := by
        intro b hb
        by_contra hf
        exact hfit ⟨b, hb, by simpa using hf⟩
      rw [hscan]
      rcases ih (i + 1) with ⟨hnone, hall⟩ | ⟨t, b, ht, hres, hb, hf, hbefore⟩
      · left
        refine ⟨hnone, ?_⟩
        intro t ht b hb
        cases t with
        | zero =>
          rw [hzero] at hb
          exact hhere b hb
        | succ t =>
          rw [← hshift] at hb
          exact hall t (by omega) b hb
      · right
        refine ⟨t + 1, b, by omega, by rw [← hshift]; exact hres, by rw [← hshift]; exact hb,
          hf, ?_⟩
        intro t' ht' b' hb'
        cases t' with
        | zero =>
          rw [hzero] at hb'
          exact hhere b' hb'
        | succ t' =>
          rw [← hshift] at hb'
          exact hbefore t' (by omega) b' hb'

theorem MemoryManager.assign_eq (blocks : List MemoryBlock) (i : Nat) (b : MemoryBlock)
    (p : Process) (hb : blocks[i]? = some b) :
    MemoryManager.assign blocks i p
      = blocks.set i { b with is_allocated := true, process_id := p.id } := by
  simp only [MemoryManager.assign, hb]

/-- C21: for a task `p` and the block vector at that moment, the scan of
`allocateFirstFit` either finds no block with `!is_allocated && size >=
burst_time` and leaves the vector as it is, or assigns `p` to the block of
lowest index that is unallocated and has `size >= burst_time`; the tasks are
taken in order, each on the vector left by the tasks before it. -/
theorem MemoryManager.first_fit_choice (blocks : List MemoryBlock) (p : Process)
    (ps : List Process) :
    (((∀ b ∈ blocks, ¬ (b.is_allocated = false ∧ p.burst_time ≤ b.size)) ∧
          MemoryManager.firstFitSelect blocks p = none ∧
          MemoryManager.allocateWith MemoryManager.firstFitSelect blocks p = blocks) ∨
        ∃ (i : Nat) (b : MemoryBlock),
          blocks[i]? = some b ∧ b.is_allocated = false ∧ p.burst_time ≤ b.size ∧
          (∀ (j : Nat) (b' : MemoryBlock), j < i → blocks[j]? = some b' →
            ¬ (b'.is_allocated = false ∧ p.burst_time ≤ b'.size)) ∧
          MemoryManager.firstFitSelect blocks p = some i ∧
          MemoryManager.allocateWith MemoryManager.firstFitSelect blocks p
            = blocks.set i { b with is_allocated := true, process_id := p.id }) ∧
      MemoryManager.allocateFirstFit blocks (p :: ps)
        = MemoryManager.allocateFirstFit
            (MemoryManager.allocateWith MemoryManager.firstFitSelect blocks p) ps := by
  refine ⟨?_, rfl⟩
  have hnot : ∀ b : MemoryBlock, MemoryManager.fits b p = false →
      ¬ (b.is_allocated = false ∧ p.burst_time ≤ b.size) := by
    intro b hf hfit
    rw [(MemoryManager.fits_iff b p).mpr hfit] at hf
    exact absurd hf (by simp)
  rcases MemoryManager.firstFitScan_full p blocks 0 with
    ⟨hnone, hall⟩ | ⟨j, b, hres, hj, hf, hbefore⟩
  · left
    have hsel : MemoryManager.firstFitSelect blocks p = none := hnone
    refine ⟨fun b hb => hnot b (hall b hb), hsel, ?_⟩
    simp only [MemoryManager.allocateWith, hsel]
  · right
    rw [Nat.zero_add] at hres
    have hsel : MemoryManager.firstFitSelect blocks p = some j := hres
    obtain ⟨h1, h2⟩ := (MemoryManager.fits_iff b p).mp hf
    refine ⟨j, b, hj, h1, h2, fun j' b' hj' hb' => hnot b' (hbefore j' b' hj' hb'), hsel, ?_⟩
    simp only [MemoryManager.allocateWith, hsel, MemoryManager.assign_eq blocks j b p hj]

/-- C22: for a task `p` with `burst_time > 0` and the block vector at that
moment (sizes within the range of `int`), the scan of `allocateBestFit` either
finds no unallocated block with `size >= burst_time` and leaves the vector as
it is, or assigns `p` to an unallocated block with `size >= burst_time` whose
leftover `size - burst_time` is minimal among all such blocks and which has
the lowest index among the blocks of that leftover; the tasks are taken in
order, each on the vector left by the tasks before it. -/
theorem MemoryManager.best_fit_choice (blocks : List MemoryBlock) (p : Process)
    (ps : List Process) (hsize : ∀ b ∈ blocks, b.size ≤ INT_MAX) (hburst : 0 < p.burst_time) :
    (((∀ b ∈ blocks, ¬ (b.is_allocated = false ∧ p.burst_time ≤ b.size)) ∧
          MemoryManager.bestFitSelect blocks p = none ∧
          MemoryManager.allocateWith MemoryManager.bestFitSelect blocks p = blocks) ∨
        ∃ (i : Nat) (b : MemoryBlock),
          blocks[i]? = some b ∧ b.is_allocated = false ∧ p.burst_time ≤ b.size ∧
          (∀ (j : Nat) (b' : MemoryBlock), blocks[j]? = some b' →
            b'.is_allocated = false → p.burst_time ≤ b'.size →
              b.size - p.burst_time ≤ b'.size - p.burst_time ∧
                (j < i → b.size - p.burst_time < b'.size - p.burst_time)) ∧
          MemoryManager.bestFitSelect blocks p = some i ∧
          MemoryManager.allocateWith MemoryManager.bestFitSelect blocks p
            = blocks.set i { b with is_allocated := true, process_id := p.id }) ∧
      MemoryManager.allocateBestFit blocks (p :: ps)
        = MemoryManager.allocateBestFit
            (MemoryManager.allocateWith MemoryManager.bestFitSelect blocks p) ps := by
  refine ⟨?_, rfl⟩
  rcases MemoryManager.bestFitScan_full p blocks 0 none INT_MAX with
    ⟨hres, hall⟩ | ⟨k, bk, hres, hbk, hfk, -, hall⟩
  · left
    have hsel : MemoryManager.bestFitSelect blocks p = none := hres
    refine ⟨?_, hsel, ?_⟩
    · intro b hb hfit
      obtain ⟨j, hj⟩ := List.mem_iff_getElem?.mp hb
      have h1 := hall j b hj ((MemoryManager.fits_iff b p).mpr hfit)
      have h2 := hsize b hb
      omega
    · simp only [MemoryManager.allocateWith, hsel]
  · right
    rw [Nat.zero_add] at hres
    have hsel : MemoryManager.bestFitSelect blocks p = some k := hres
    obtain ⟨h1, h2⟩ := (MemoryManager.fits_iff bk p).mp hfk
    refine ⟨k, bk, hbk, h1, h2, ?_, hsel, ?_⟩
    · intro j b' hb' hu hs
      exact hall j b' hb' ((MemoryManager.fits_iff b' p).mpr ⟨hu, hs⟩)
    · simp only [MemoryManager.allocateWith, hsel, MemoryManager.assign_eq blocks k bk p hbk]

/-- Witness for C22: blocks of sizes 10, 6, 6 and a task of size 5: Best Fit
selects block 1. -/
theorem MemoryManager.best_fit_choice_witness :
    MemoryManager.bestFitSelect [mkBlock 1 10, mkBlock 2 6, mkBlock 3 6] (mkProcess 1 0 5 1)
        = some 1 ∧
      MemoryManager.allocateBestFit [mkBlock 1 10, mkBlock 2 6, mkBlock 3 6]
          [mkProcess 1 0 5 1]
        = MemoryManager.allocateBestFit
            (MemoryManager.allocateWith MemoryManager.bestFitSelect
              [mkBlock 1 10, mkBlock 2 6, mkBlock 3 6] (mkProcess 1 0 5 1)) [] :=
  ⟨by decide,
    (MemoryManager.best_fit_choice [mkBlock 1 10, mkBlock 2 6, mkBlock 3 6] (mkProcess 1 0 5 1)
      [] (by decide) (by decide)).2⟩

/-- C23: for a task `p` and the block vector at that moment (block sizes
`> 0`), the scan of `allocateWorstFit` either finds no unallocated block with
`size >= burst_time` and leaves the vector as it is, or assigns `p` to an
unallocated block with `size >= burst_time` whose size is maximal among all
such blocks and which has the lowest index among the blocks of that size; the
tasks are taken in order, each on the vector left by the tasks before it. -/
theorem MemoryManager.worst_fit_choice (blocks : List MemoryBlock) (p : Process)
    (ps : List Process) (hsize : ∀ b ∈ blocks, 0 < b.size) :
    (((∀ b ∈ blocks, ¬ (b.is_allocated = false ∧ p.burst_time ≤ b.size)) ∧
          MemoryManager.worstFitSelect blocks p = none ∧
          MemoryManager.allocateWith MemoryManager.worstFitSelect blocks p = blocks) ∨
        ∃ (i : Nat) (b : MemoryBlock),
          blocks[i]? = some b ∧ b.is_allocated = false ∧ p.burst_time ≤ b.size ∧
          (∀ (j : Nat) (b' : MemoryBlock), blocks[j]? = some b' →
            b'.is_allocated = false → p.burst_time ≤ b'.size →
              b'.size ≤ b.size ∧ (j < i → b'.size < b.size)) ∧
          MemoryManager.worstFitSelect blocks p = some i ∧
          MemoryManager.allocateWith MemoryManager.worstFitSelect blocks p
            = blocks.set i { b with is_allocated := true, process_id := p.id }) ∧
      MemoryManager.allocateWorstFit blocks (p :: ps)
        = MemoryManager.allocateWorstFit
            (MemoryManager.allocateWith MemoryManager.worstFitSelect blocks p) ps := by
  refine ⟨?_, rfl⟩
  rcases MemoryManager.worstFitScan_full p blocks 0 none (-1) with
    ⟨hres, hall⟩ | ⟨k, bk, hres, hbk, hfk, -, hall⟩
  · left
    have hsel : MemoryManager.worstFitSelect blocks p = none := hres
    refine ⟨?_, hsel, ?_⟩
    · intro b hb hfit
      obtain ⟨j, hj⟩ := List.mem_iff_getElem?.mp hb
      have h1 := hall j b hj ((MemoryManager.fits_iff b p).mpr hfit)
      have h2 := hsize b hb
      omega
    · simp only [MemoryManager.allocateWith, hsel]
  · right
    rw [Nat.zero_add] at hres
    have hsel : MemoryManager.worstFitSelect blocks p = some k := hres
    obtain ⟨h1, h2⟩ := (MemoryManager.fits_iff bk p).mp hfk
    refine ⟨k, bk, hbk, h1, h2, ?_, hsel, ?_⟩
    · intro j b' hb' hu hs
      exact hall j b' hb' ((MemoryManager.fits_iff b' p).mpr ⟨hu, hs⟩)
    · simp only [MemoryManager.allocateWith, hsel, MemoryManager.assign_eq blocks k bk p hbk]

/-- Witness for C23: blocks of sizes 6, 10, 10 and a task of size 5: Worst
Fit selects block 1. -/
theorem MemoryManager.worst_fit_choice_witness :
    MemoryManager.worstFitSelect [mkBlock 1 6, mkBlock 2 10, mkBlock 3 10] (mkProcess 1 0 5 1)
        = some 1 ∧
      MemoryManager.allocateWorstFit [mkBlock 1 6, mkBlock 2 10, mkBlock 3 10]
          [mkProcess 1 0 5 1]
        = MemoryManager.allocateWorstFit
            (MemoryManager.allocateWith MemoryManager.worstFitSelect
              [mkBlock 1 6, mkBlock 2 10, mkBlock 3 10] (mkProcess 1 0 5 1)) [] :=
  ⟨by decide,
    (MemoryManager.worst_fit_choice [mkBlock 1 6, mkBlock 2 10, mkBlock 3 10]
      (mkProcess 1 0 5 1) [] (by decide)).2⟩

/-- C24: for a task `p`, the block vector at that moment (length `n`) and the
cursor `next_fit_index`, the scan of `allocateNextFit` examines the indices
`(cursor + t) mod n` for `t = 0, 1, ..., n - 1` in this order; either none of
them holds an unallocated block with `size >= burst_time`, and blocks and
cursor stay as they are, or `p` is assigned to the first of them that does, at
index `k`, and the cursor becomes `(k + 1) mod n`; the tasks are taken in
order; and a second pass on the same allocator continues from the blocks and
the cursor left by the first pass. -/
theorem MemoryManager.next_fit_cursor (blocks : List MemoryBlock) (next_fit_index : Nat)
    (p : Process) (ps ps2 : List Process) :
    (((∀ t : Nat, t < blocks.length → ∀ b : MemoryBlock,
            blocks[(next_fit_index + t) % blocks.length]? = some b →
              ¬ (b.is_allocated = false ∧ p.burst_time ≤ b.size)) ∧
          MemoryManager.nextFitSelect blocks next_fit_index p = none ∧
          MemoryManager.nextFitStep (blocks, next_fit_index) p = (blocks, next_fit_index)) ∨
        ∃ (t k : Nat) (b : MemoryBlock),
          t < blocks.length ∧ k = (next_fit_index + t) % blocks.length ∧
          blocks[k]? = some b ∧ b.is_allocated = false ∧ p.burst_time ≤ b.size ∧
          (∀ t' : Nat, t' < t → ∀ b' : MemoryBlock,
            blocks[(next_fit_index + t') % blocks.length]? = some b' →
              ¬ (b'.is_allocated = false ∧ p.burst_time ≤ b'.size)) ∧
          MemoryManager.nextFitSelect blocks next_fit_index p = some k ∧
          MemoryManager.nextFitStep (blocks, next_fit_index) p
            = (blocks.set k { b with is_allocated := true, process_id := p.id },
                (k + 1) % blocks.length)) ∧
      MemoryManager.allocateNextFit blocks next_fit_index (p :: ps)
        = MemoryManager.allocateNextFit
            (MemoryManager.nextFitStep (blocks, next_fit_index) p).1
            (MemoryManager.nextFitStep (blocks, next_fit_index) p).2 ps ∧
      MemoryManager.allocateNextFit
          (MemoryManager.allocateNextFit blocks next_fit_index ps).1
          (MemoryManager.allocateNextFit blocks next_fit_index ps).2 ps2
        = MemoryManager.allocateNextFit blocks next_fit_index (ps ++ ps2) := by
  refine ⟨?_, rfl, ?_⟩
  · have hnot : ∀ b : MemoryBlock, MemoryManager.fits b p = false →
        ¬ (b.is_allocated = false ∧ p.burst_time ≤ b.size) := by
      intro b hf hfit
      rw [(MemoryManager.fits_iff b p).mpr hfit] at hf
      exact absurd hf (by simp)
    have hz : ∀ t : Nat, next_fit_index + (0 + t) = next_fit_index + t := by
      intro t; omega
    rcases MemoryManager.nextFitScan_full p blocks next_fit_index blocks.length 0 with
      ⟨hnone, hall⟩ | ⟨t, b, ht, hres, hb, hf, hbefore⟩
    · left
      have hsel : MemoryManager.nextFitSelect blocks next_fit_index p = none := hnone
      refine ⟨?_, hsel, ?_⟩
      · intro t ht b hb
        rw [← hz] at hb
        exact hnot b (hall t ht b hb)
      · simp only [MemoryManager.nextFitStep, hsel]
    · right
      rw [hz] at hres hb
      have hsel : MemoryManager.nextFitSelect blocks next_fit_index p
          = some ((next_fit_index + t) % blocks.length) := hres
      obtain ⟨h1, h2⟩ := (MemoryManager.fits_iff b p).mp hf
      refine ⟨t, _, b, ht, rfl, hb, h1, h2, ?_, hsel, ?_⟩
      · intro t' ht' b' hb'
        rw [← hz] at hb'
        exact hnot b' (hbefore t' ht' b' hb')
      · simp only [MemoryManager.nextFitStep, hsel, MemoryManager.assign_eq blocks _ b p hb]
  · simp only [MemoryManager.allocateNextFit, List.foldl_append]

/-! ### Blocks are kept; oversized tasks are skipped -/

theorem BlocksKept.kept_refl (b0 : List MemoryBlock) : BlocksKept b0 b0 := by
  refine ⟨rfl, ?_⟩
  intro k x0 x1 h0 h1
  rw [h0] at h1
  have := Option.some.inj h1
  subst this
  exact ⟨rfl, rfl, fun _ => rfl⟩

theorem BlocksKept.kept_assign (blocks : List MemoryBlock) (p : Process) (i : Nat)
    (b : MemoryBlock) (hb : blocks[i]? = some b) (hf : MemoryManager.fits b p = true) :
    BlocksKept blocks (MemoryManager.assign blocks i p) := by
  have hun : b.is_allocated = false := ((MemoryManager.fits_iff b p).mp hf).1
  rw [MemoryManager.assign_eq blocks i b p hb]
  refine ⟨by simp, ?_⟩
  intro k x0 x1 h0 h1
  rw [List.getElem?_set] at h1
  split_ifs at h1 with hik
  · subst hik
    rw [hb] at h0
    have h00 := Option.some.inj h0
    subst h00
    simp only [Option.some.injEq] at h1
    subst h1
    refine ⟨rfl, rfl, ?_⟩
    intro ha
    rw [hun] at ha
    exact absurd ha (by simp)
  · rw [h0] at h1
    have := Option.some.inj h1
    subst this
    exact ⟨rfl, rfl, fun _ => rfl⟩

theorem BlocksKept.kept_trans (b0 b1 b2 : List MemoryBlock) (h1 : BlocksKept b0 b1)
    (h2 : BlocksKept b1 b2) : BlocksKept b0 b2 := by
  refine ⟨h2.1.trans h1.1, ?_⟩
  intro k x0 x2 hx0 hx2
  have hk : k < b1.length := by
    rw [h1.1]
    exact (List.getElem?_eq_some.mp hx0).1
  obtain ⟨hid1, hs1, ha1⟩ := h1.2 k x0 b1[k] hx0 (List.getElem?_eq_getElem hk)
  obtain ⟨hid2, hs2, ha2⟩ := h2.2 k b1[k] x2 (List.getElem?_eq_getElem hk) hx2
  refine ⟨hid2.trans hid1, hs2.trans hs1, ?_⟩
  intro ha
  have e1 := ha1 ha
  rw [e1] at ha2
  exact ha2 ha

theorem BlocksKept.kept_foldl {σ : Type} (proj : σ → List MemoryBlock) (step : σ → Process → σ)
    (hstep : ∀ (s : σ) (p : Process), BlocksKept (proj s) (proj (step s p))) :
    ∀ (procs : List Process) (s : σ), BlocksKept (proj s) (proj (procs.foldl step s)) := by
  intro procs
  induction procs with
  | nil => intro s; exact BlocksKept.kept_refl _
  | cons p ps ih =>
    intro s
    exact BlocksKept.kept_trans _ _ _ (hstep s p) (ih (step s p))

theorem BlocksKept.kept_allocateWith (select : List MemoryBlock → Process → Option Nat)
    (hsel : ∀ (blocks : List MemoryBlock) (p : Process) (i : Nat), select blocks p = some i →
      ∃ b : MemoryBlock, blocks[i]? = some b ∧ MemoryManager.fits b p = true)
    (blocks : List MemoryBlock) (p : Process) :
    BlocksKept blocks (MemoryManager.allocateWith select blocks p) := by
  cases h : select blocks p with
  | none =>
    simp only [MemoryManager.allocateWith, h]
    exact BlocksKept.kept_refl _
  | some i =>
    obtain ⟨b, hb, hf⟩ := hsel blocks p i h
    simp only [MemoryManager.allocateWith, h]
    exact BlocksKept.kept_assign blocks p i b hb hf

theorem BlocksKept.kept_nextFitStep (s : List MemoryBlock × Nat) (p : Process) :
    BlocksKept s.1 (MemoryManager.nextFitStep s p).1 := by
  cases h : MemoryManager.nextFitSelect s.1 s.2 p with
  | none =>
    simp only [MemoryManager.nextFitStep, h]
    exact BlocksKept.kept_refl _
  | some i =>
    obtain ⟨b, hb, hf⟩ := MemoryManager.nextFitScan_spec p s.1 s.2 _ _ i h
    simp only [MemoryManager.nextFitStep, h]
    exact BlocksKept.kept_assign s.1 p i b hb hf

theorem MemoryManager.blocks_never_released_aux (blocks : List MemoryBlock)
    (next_fit_index : Nat) (processes : List Process) :
    BlocksKept blocks (MemoryManager.allocateFirstFit blocks processes) ∧
      BlocksKept blocks (MemoryManager.allocateBestFit blocks processes) ∧
      BlocksKept blocks (MemoryManager.allocateNextFit blocks next_fit_index processes).1 ∧
      BlocksKept blocks (MemoryManager.allocateWorstFit blocks processes) := by
  refine ⟨?_, ?_, ?_, ?_⟩
  · exact BlocksKept.kept_foldl id _
      (BlocksKept.kept_allocateWith _ MemoryManager.firstFitSelect_fits) processes blocks
  · exact BlocksKept.kept_foldl id _
      (BlocksKept.kept_allocateWith _ MemoryManager.bestFitSelect_fits) processes blocks
  · exact BlocksKept.kept_foldl (fun s : List MemoryBlock × Nat => s.1)
      MemoryManager.nextFitStep BlocksKept.kept_nextFitStep processes (blocks, next_fit_index)
  · exact BlocksKept.kept_foldl id _
      (BlocksKept.kept_allocateWith _ MemoryManager.worstFitSelect_fits) processes blocks

/-- C26: each of `allocateFirstFit`, `allocateBestFit`, `allocateNextFit` and
`allocateWorstFit` leaves the number of blocks and every block's `block_id`
and `size` unchanged, and a block that was allocated before the pass is
unchanged after it: still allocated, to the same `process_id`. -/
theorem MemoryManager.blocks_never_released (blocks : List MemoryBlock)
    (next_fit_index : Nat) (processes : List Process) :
    BlocksKept blocks (MemoryManager.allocateFirstFit blocks processes) ∧
      BlocksKept blocks (MemoryManager.allocateBestFit blocks processes) ∧
      BlocksKept blocks (MemoryManager.allocateNextFit blocks next_fit_index processes).1 ∧
      BlocksKept blocks (MemoryManager.allocateWorstFit blocks processes) :=
  MemoryManager.blocks_never_released_aux blocks next_fit_index processes

theorem BlocksKept.size_lt {b0 b1 : List MemoryBlock} (h : BlocksKept b0 b1) (x : Int)
    (hlt : ∀ b ∈ b0, b.size < x) : ∀ b ∈ b1, b.size < x := by
  intro b hb
  obtain ⟨k, hk⟩ := List.mem_iff_getElem?.mp hb
  have hk0 : k < b0.length := by
    rw [← h.1]
    exact (List.getElem?_eq_some.mp hk).1
  obtain ⟨-, hs, -⟩ := h.2 k b0[k] b (List.getElem?_eq_getElem hk0) hk
  rw [hs]
  exact hlt _ (List.getElem_mem hk0)

theorem MemoryManager.select_none_of_oversized (blocks : List MemoryBlock)
    (next_fit_index : Nat) (t : Process) (h : ∀ b ∈ blocks, b.size < t.burst_time) :
    MemoryManager.firstFitSelect blocks t = none ∧
      MemoryManager.bestFitSelect blocks t = none ∧
      MemoryManager.nextFitSelect blocks next_fit_index t = none ∧
      MemoryManager.worstFitSelect blocks t = none := by
  have hno : ∀ (i : Nat) (b : MemoryBlock), blocks[i]? = some b →
      ¬ (MemoryManager.fits b t = true) := by
    intro i b hb hf
    have h1 := ((MemoryManager.fits_iff b t).mp hf).2
    have h2 := h b (List.mem_iff_getElem?.mpr ⟨i, hb⟩)
    omega
  refine ⟨?_, ?_, ?_, ?_⟩
  · rcases MemoryManager.firstFitScan_full t blocks 0 with ⟨hnone, -⟩ | ⟨j, b, -, hj, hf, -⟩
    · exact hnone
    · exact absurd hf (hno j b hj)
  · rcases MemoryManager.bestFitScan_full t blocks 0 none INT_MAX with
      ⟨hres, -⟩ | ⟨k, bk, -, hbk, hfk, -, -⟩
    · exact hres
    · exact absurd hfk (hno k bk hbk)
  · rcases MemoryManager.nextFitScan_full t blocks next_fit_index blocks.length 0 with
      ⟨hnone, -⟩ | ⟨k, b, -, -, hb, hf, -⟩
    · exact hnone
    · exact absurd hf (hno _ b hb)
  · rcases MemoryManager.worstFitScan_full t blocks 0 none (-1) with
      ⟨hres, -⟩ | ⟨k, bk, -, hbk, hfk, -, -⟩
    · exact hres
    · exact absurd hfk (hno k bk hbk)

/-- C25: if the `burst_time` of a task `t` exceeds the size of every block,
then in each of the four strategies the scan for `t` selects no block, and the
pass over `pre ++ t :: post` ends in the same block vector (and, for Next Fit,
the same cursor) as the pass over `pre ++ post`. -/
theorem MemoryManager.oversized_task_skipped (blocks : List MemoryBlock)
    (next_fit_index : Nat) (pre post : List Process) (t : Process)
    (h : ∀ b ∈ blocks, b.size < t.burst_time) :
    (MemoryManager.firstFitSelect (MemoryManager.allocateFirstFit blocks pre) t = none ∧
        MemoryManager.allocateFirstFit blocks (pre ++ t :: post)
          = MemoryManager.allocateFirstFit blocks (pre ++ post)) ∧
      (MemoryManager.bestFitSelect (MemoryManager.allocateBestFit blocks pre) t = none ∧
        MemoryManager.allocateBestFit blocks (pre ++ t :: post)
          = MemoryManager.allocateBestFit blocks (pre ++ post)) ∧
      (MemoryManager.nextFitSelect (MemoryManager.allocateNextFit blocks next_fit_index pre).1
          (MemoryManager.allocateNextFit blocks next_fit_index pre).2 t = none ∧
        MemoryManager.allocateNextFit blocks next_fit_index (pre ++ t :: post)
          = MemoryManager.allocateNextFit blocks next_fit_index (pre ++ post)) ∧
      (MemoryManager.worstFitSelect (MemoryManager.allocateWorstFit blocks pre) t = none ∧
        MemoryManager.allocateWorstFit blocks (pre ++ t :: post)
          = MemoryManager.allocateWorstFit blocks (pre ++ post)) := by
  obtain ⟨k1, k2, k3, k4⟩ := MemoryManager.blocks_never_released_aux blocks next_fit_index pre
  have s1 := (MemoryManager.select_none_of_oversized _ 0 t (k1.size_lt _ h)).1
  have s2 := (MemoryManager.select_none_of_oversized _ 0 t (k2.size_lt _ h)).2.1
  have s3 := (MemoryManager.select_none_of_oversized _
    (MemoryManager.allocateNextFit blocks next_fit_index pre).2 t (k3.size_lt _ h)).2.2.1
  have s4 := (MemoryManager.select_none_of_oversized _ 0 t (k4.size_lt _ h)).2.2.2
  refine ⟨⟨s1, ?_⟩, ⟨s2, ?_⟩, ⟨s3, ?_⟩, ⟨s4, ?_⟩⟩
  · simp only [MemoryManager.allocateFirstFit, List.foldl_append, List.foldl_cons] at s1 ⊢
    simp only [MemoryManager.allocateWith, s1]
  · simp only [MemoryManager.allocateBestFit, List.foldl_append, List.foldl_cons] at s2 ⊢
    simp only [MemoryManager.allocateWith, s2]
  · simp only [MemoryManager.allocateNextFit, List.foldl_append, List.foldl_cons] at s3 ⊢
    simp only [MemoryManager.nextFitStep, s3]
  · simp only [MemoryManager.allocateWorstFit, List.foldl_append, List.foldl_cons] at s4 ⊢
    simp only [MemoryManager.allocateWith, s4]

/-- Witness for C25: blocks of sizes 10 and 5, tasks of sizes 4, 50, 3: the
task of size 50 is skipped by First Fit. -/
theorem MemoryManager.oversized_task_skipped_witness :
    (∀ b ∈ [mkBlock 1 10, mkBlock 2 5], b.size < (mkProcess 2 0 50 1).burst_time) ∧
      MemoryManager.allocateFirstFit [mkBlock 1 10, mkBlock 2 5]
          ([mkProcess 1 0 4 1] ++ mkProcess 2 0 50 1 :: [mkProcess 3 0 3 1])
        = MemoryManager.allocateFirstFit [mkBlock 1 10, mkBlock 2 5]
            ([mkProcess 1 0 4 1] ++ [mkProcess 3 0 3 1]) :=
  ⟨by decide,
    (MemoryManager.oversized_task_skipped [mkBlock 1 10, mkBlock 2 5] 0 [mkProcess 1 0 4 1]
      [mkProcess 3 0 3 1] (mkProcess 2 0 50 1) (by decide)).1.2⟩

/-! ### Disk: SSTF, seek totals, SCAN against C-SCAN -/

theorem DiskScheduler.sstf_example :
    (DiskScheduler.new [⟨1, 50, 0⟩, ⟨2, 20, 1⟩, ⟨3, 80, 2⟩, ⟨4, 30, 3⟩] 40 100).runSSTF.head_sequence
        = [40, 50, 30, 20, 80] ∧
      (DiskScheduler.new [⟨1, 50, 0⟩, ⟨2, 20, 1⟩, ⟨3, 80, 2⟩, ⟨4, 30, 3⟩] 40 100).runSSTF.total_seek_time
        = 100 := by
  decide

theorem DiskScheduler.sstfScan_full (h : Int) (rs : List DiskRequest) :
    ∀ (vs : List Bool) (i : Nat) (nearest : Option Nat) (m : Int),
      (DiskScheduler.sstfScan h rs vs i nearest m = (nearest, m) ∧
          ∀ (j : Nat) (r : DiskRequest), rs[j]? = some r → vs[j]? = some false →
            m ≤ |r.cylinder - h|) ∨
        ∃ (k : Nat) (rk : DiskRequest),
          DiskScheduler.sstfScan h rs vs i nearest m = (some (i + k), |rk.cylinder - h|) ∧
            rs[k]? = some rk ∧ vs[k]? = some false ∧ |rk.cylinder - h| < m ∧
            ∀ (j : Nat) (r : DiskRequest), rs[j]? = some r → vs[j]? = some false →
              |rk.cylinder - h| ≤ |r.cylinder - h| ∧
                (j < k → |rk.cylinder - h| < |r.cylinder - h|) := by
  induction rs with
  | nil =>
    intro vs i nearest m
    left
    exact ⟨by simp [DiskScheduler.sstfScan], fun j r hr => by simp at hr⟩
  | cons r0 rs ih =>
    intro vs i nearest m
    cases vs with
    | nil =>
      left
      exact ⟨by simp [DiskScheduler.sstfScan], fun j r _ hv => by simp at hv⟩
    | cons v0 vs =>
      by_cases hc : v0 = false ∧ |r0.cylinder - h| < m
      · have hscan : DiskScheduler.sstfScan h (r0 :: rs) (v0 :: vs) i nearest m
            = DiskScheduler.sstfScan h rs vs (i + 1) (some i) |r0.cylinder - h| := by
          simp only [DiskScheduler.sstfScan, hc.1, Bool.not_false, if_true, if_pos hc.2]
        rw [hscan]
        right
        rcases ih vs (i + 1) (some i) |r0.cylinder - h| with
          ⟨hres, hall⟩ | ⟨k, rk, hres, hrk, hvk, hlt, hall⟩
        · refine ⟨0, r0, by simpa using hres, by simp, by simp [hc.1], hc.2, ?_⟩
          intro j r hr hv
          cases j with
          | zero =>
            simp only [List.getElem?_cons_zero, Option.some.injEq] at hr
            subst hr
            exact ⟨le_refl _, fun hlt => absurd hlt (by omega)⟩
          | succ j =>
            simp only [List.getElem?_cons_succ] at hr hv
            exact ⟨hall j r hr hv, fun hlt => absurd hlt (by omega)⟩
        · refine ⟨k + 1, rk, by rw [hres]; congr 2; omega, by simpa using hrk,
            by simpa using hvk, lt_trans hlt hc.2, ?_⟩
          intro j r hr hv
          cases j with
          | zero =>
            simp only [List.getElem?_cons_zero, Option.some.injEq] at hr
            subst hr
            exact ⟨le_of_lt hlt, fun _ => hlt⟩
          | succ j =>
            simp only [List.getElem?_cons_succ] at hr hv
            have := hall j r hr hv
            exact ⟨this.1, fun hjk => this.2 (by omega)⟩
      · have hscan : DiskScheduler.sstfScan h (r0 :: rs) (v0 :: vs) i nearest m
            = DiskScheduler.sstfScan h rs vs (i + 1) nearest m := by
          simp only [DiskScheduler.sstfScan]
          split_ifs with h1 h2
          · exact absurd ⟨by simpa using h1, h2⟩ hc
          · rfl
          · rfl
        rw [hscan]
        have h0 : v0 = false → m ≤ |r0.cylinder - h| := by
          intro h1
          by_contra h3
          exact hc ⟨h1, lt_of_not_le h3⟩
        rcases ih vs (i + 1) nearest m with ⟨hres, hall⟩ | ⟨k, rk, hres, hrk, hvk, hlt, hall⟩
        · left
          refine ⟨hres, ?_⟩
          intro j r hr hv
          cases j with
          | zero =>
            simp only [List.getElem?_cons_zero, Option.some.injEq] at hr hv
            subst hr
            exact h0 hv
          | succ j =>
            simp only [List.getElem?_cons_succ] at hr hv
            exact hall j r hr hv
        · right
          refine ⟨k + 1, rk, by rw [hres]; congr 2; omega, by simpa using hrk,
            by simpa using hvk, hlt, ?_⟩
          intro j r hr hv
          cases j with
          | zero =>
            simp only [List.getElem?_cons_zero, Option.some.injEq] at hr hv
            subst hr
            have := h0 hv
            exact ⟨le_of_lt (lt_of_lt_of_le hlt this), fun _ => lt_of_lt_of_le hlt this⟩
          | succ j =>
            simp only [List.getElem?_cons_succ] at hr hv
            have := hall j r hr hv
            exact ⟨this.1, fun hjk => this.2 (by omega)⟩

/-- One iteration of the outer loop of `runSSTF`: either no unvisited request
is closer than `INT_MAX` and the state is unchanged, or the head moves to the
unvisited request at minimal distance (lowest index on ties), which becomes
visited. -/
theorem DiskScheduler.sstfBody_cases (s : DiskScheduler.SSTFState) :
    (DiskScheduler.sstfBody s = s ∧
        ∀ (j : Nat) (r : DiskRequest), s.d.requests[j]? = some r → s.visited[j]? = some false →
          INT_MAX ≤ |r.cylinder - s.d.head_position|) ∨
      ∃ (k : Nat) (rk : DiskRequest),
        s.d.requests[k]? = some rk ∧ s.visited[k]? = some false ∧
          (∀ (j : Nat) (r : DiskRequest), s.d.requests[j]? = some r →
            s.visited[j]? = some false →
              |rk.cylinder - s.d.head_position| ≤ |r.cylinder - s.d.head_position| ∧
                (j < k → |rk.cylinder - s.d.head_position| < |r.cylinder - s.d.head_position|)) ∧
          DiskScheduler.sstfBody s
            = { d := s.d.seekTo rk.cylinder, visited := s.visited.set k true } := by
  rcases DiskScheduler.sstfScan_full s.d.head_position s.d.requests s.visited 0 none INT_MAX with
    ⟨hres, hall⟩ | ⟨k, rk, hres, hrk, hvk, -, hall⟩
  · left
    refine ⟨?_, hall⟩
    simp only [DiskScheduler.sstfBody, hres]
  · right
    refine ⟨k, rk, hrk, hvk, hall, ?_⟩
    rw [Nat.zero_add] at hres
    simp only [DiskScheduler.sstfBody, hres, hrk, DiskScheduler.seekTo]

theorem seekSum_append_singleton (seq : List Int) (h cyl : Int)
    (hlast : seq.getLast? = some h) : seekSum (seq ++ [cyl]) = seekSum seq + |cyl - h| := by
  induction seq with
  | nil => simp at hlast
  | cons a rest ih =>
    cases rest with
    | nil =>
      simp only [List.getLast?_singleton, Option.some.injEq] at hlast
      subst hlast
      simp [seekSum]
    | cons b rest2 =>
      have hl : (b :: rest2).getLast? = some h := by
        rw [List.getLast?_cons_cons] at hlast
        exact hlast
      have e1 : seekSum ((a :: b :: rest2) ++ [cyl])
          = |b - a| + seekSum ((b :: rest2) ++ [cyl]) := rfl
      have e2 : seekSum (a :: b :: rest2) = |b - a| + seekSum (b :: rest2) := rfl
      rw [e1, e2, ih hl]
      ring

theorem SeekOK.seek_start (d : DiskScheduler) : SeekOK d.start := by
  simp [SeekOK, DiskScheduler.start, seekSum]

theorem SeekOK.seek_seekTo (d : DiskScheduler) (cyl : Int) (h : SeekOK d) :
    SeekOK (d.seekTo cyl) := by
  refine ⟨?_, by simp [DiskScheduler.seekTo]⟩
  simp only [DiskScheduler.seekTo]
  rw [seekSum_append_singleton _ _ _ h.2, h.1]

theorem SeekOK.seek_sweep (keep : Int → Int → Bool) (cyls : List Int) :
    ∀ (d : DiskScheduler), SeekOK d → SeekOK (DiskScheduler.sweep keep cyls d) := by
  induction cyls with
  | nil => intro d h; exact h
  | cons cyl rest ih =>
    intro d h
    simp only [DiskScheduler.sweep, List.foldl_cons]
    split_ifs
    · exact ih _ (SeekOK.seek_seekTo d cyl h)
    · exact ih _ h

theorem SeekOK.seek_sstfBody (s : DiskScheduler.SSTFState) (h : SeekOK s.d) :
    SeekOK (DiskScheduler.sstfBody s).d := by
  rcases DiskScheduler.sstfBody_cases s with ⟨hs, -⟩ | ⟨k, rk, -, -, -, hs⟩
  · rw [hs]; exact h
  · rw [hs]; exact SeekOK.seek_seekTo _ _ h

theorem SeekOK.seek_sstfState (d : DiskScheduler) (i : Nat) :
    SeekOK (DiskScheduler.sstfState d i).d := by
  induction i with
  | zero => exact SeekOK.seek_start d
  | succ i ih =>
    have : DiskScheduler.sstfState d (i + 1)
        = DiskScheduler.sstfBody (DiskScheduler.sstfState d i) := by
      simp only [DiskScheduler.sstfState, Function.iterate_succ_apply']
    rw [this]
    exact SeekOK.seek_sstfBody _ ih

theorem SeekOK.seek_foldl (rs : List DiskRequest) :
    ∀ (d : DiskScheduler), SeekOK d →
      SeekOK (rs.foldl (fun d req => d.seekTo req.cylinder) d) := by
  induction rs with
  | nil => intro d h; exact h
  | cons r rest ih =>
    intro d h
    exact ih _ (SeekOK.seek_seekTo d r.cylinder h)

theorem visitedCyls_sublist (rs : List DiskRequest) :
    ∀ (vs : List Bool), (visitedCyls rs vs).Sublist (rs.map (fun r => r.cylinder)) := by
  induction rs with
  | nil => intro vs; simp [visitedCyls]
  | cons r rest ih =>
    intro vs
    cases vs with
    | nil => simp [visitedCyls]
    | cons v vs =>
      simp only [visitedCyls, List.map_cons]
      split_ifs
      · exact (ih vs).cons₂ _
      · exact (ih vs).cons _

theorem visitedCyls_exists_unvisited (rs : List DiskRequest) :
    ∀ (vs : List Bool), vs.length = rs.length → (visitedCyls rs vs).length < rs.length →
      ∃ (k : Nat) (r : DiskRequest), rs[k]? = some r ∧ vs[k]? = some false := by
  induction rs with
  | nil => intro vs _ hlt; simp at hlt
  | cons r rest ih =>
    intro vs hlen hlt
    cases vs with
    | nil => simp at hlen
    | cons v vs =>
      cases v with
      | false => exact ⟨0, r, by simp, by simp⟩
      | true =>
        simp only [visitedCyls, if_true, List.length_cons, Nat.add_lt_add_iff_right] at hlt
        simp only [List.length_cons, Nat.add_right_cancel_iff] at hlen
        obtain ⟨k, r1, hr, hv⟩ := ih vs hlen hlt
        exact ⟨k + 1, r1, by simpa using hr, by simpa using hv⟩

theorem visitedCyls_set (rs : List DiskRequest) :
    ∀ (vs : List Bool) (k : Nat) (r : DiskRequest), rs[k]? = some r → vs[k]? = some false →
      (visitedCyls rs (vs.set k true)).Perm (visitedCyls rs vs ++ [r.cylinder]) := by
  induction rs with
  | nil => intro vs k r hr; simp at hr
  | cons r0 rest ih =>
    intro vs k r hr hv
    cases vs with
    | nil => simp at hv
    | cons v vs =>
      cases k with
      | zero =>
        simp only [List.getElem?_cons_zero, Option.some.injEq] at hr hv
        subst hr
        subst hv
        simp only [List.set_cons_zero, visitedCyls, if_true, Bool.false_eq_true, if_false]
        exact (List.perm_append_singleton _ _).symm
      | succ k =>
        simp only [List.getElem?_cons_succ] at hr hv
        have hp := ih vs k r hr hv
        simp only [List.set_cons_succ, visitedCyls]
        split_ifs
        · exact hp.cons _
        · exact hp

/-- Invariant of the outer loop of `runSSTF` after `i` iterations. -/
theorem DiskScheduler.sstfState_inv (d : DiskScheduler)
    (hrange : ∀ a ∈ d.head_position :: d.requests.map (fun r => r.cylinder),
      ∀ b ∈ d.requests.map (fun r => r.cylinder), |b - a| < INT_MAX) :
    ∀ (i : Nat), i ≤ d.requests.length →
      (DiskScheduler.sstfState d i).d.requests = d.requests ∧
        (DiskScheduler.sstfState d i).visited.length = d.requests.length ∧
        (DiskScheduler.sstfState d i).d.head_position
          ∈ d.head_position :: d.requests.map (fun r => r.cylinder) ∧
        ∃ visits : List Int,
          (DiskScheduler.sstfState d i).d.head_sequence = d.head_position :: visits ∧
            visits.length = i ∧
            visits.Perm (visitedCyls d.requests (DiskScheduler.sstfState d i).visited) := by
  intro i
  induction i with
  | zero =>
    intro _
    refine ⟨rfl, by simp [DiskScheduler.sstfState], by simp [DiskScheduler.sstfState, DiskScheduler.start],
      [], by simp [DiskScheduler.sstfState, DiskScheduler.start], rfl, ?_⟩
    have hnone : ∀ (rs : List DiskRequest) (n : Nat),
        visitedCyls rs (List.replicate n false) = [] := by
      intro rs
      induction rs with
      | nil => intro n; simp [visitedCyls]
      | cons r rest ihr =>
        intro n
        cases n with
        | zero => simp [visitedCyls]
        | succ n => simp [visitedCyls, List.replicate_succ, ihr n]
    simp [DiskScheduler.sstfState, hnone]
  | succ i ih =>
    intro hi
    obtain ⟨hreq, hlen, hhead, visits, hseq, hvl, hperm⟩ := ih (by omega)
    have hstep : DiskScheduler.sstfState d (i + 1)
        = DiskScheduler.sstfBody (DiskScheduler.sstfState d i) := by
      simp only [DiskScheduler.sstfState, Function.iterate_succ_apply']
    have hlt : (visitedCyls d.requests (DiskScheduler.sstfState d i).visited).length
        < d.requests.length := by
      rw [← hperm.length_eq, hvl]
      omega
    obtain ⟨k0, r0, hr0, hv0⟩ := visitedCyls_exists_unvisited d.requests _ hlen hlt
    rcases DiskScheduler.sstfBody_cases (DiskScheduler.sstfState d i) with
      ⟨-, hall⟩ | ⟨k, rk, hrk, hvk, -, hbody⟩
    · exfalso
      have h1 := hall k0 r0 (by rw [hreq]; exact hr0) hv0
      have h2 := hrange _ hhead r0.cylinder
        (List.mem_map.mpr ⟨r0, List.mem_iff_getElem?.mpr ⟨k0, hr0⟩, rfl⟩)
      omega
    · rw [hreq] at hrk
      rw [hstep, hbody]
      refine ⟨by simp only [DiskScheduler.seekTo]; exact hreq, by simp [hlen], ?_,
        visits ++ [rk.cylinder], ?_, by simp [hvl], ?_⟩
      · simp only [DiskScheduler.seekTo]
        exact List.mem_cons_of_mem _
          (List.mem_map.mpr ⟨rk, List.mem_iff_getElem?.mpr ⟨k, hrk⟩, rfl⟩)
      · simp only [DiskScheduler.seekTo, hseq, List.cons_append]
      · exact (hperm.append_right _).trans (visitedCyls_set d.requests _ k rk hrk hvk).symm

/-- The visits of `runSSTF` below its sentinel: when no distance between the
head and a request, or between two requests, reaches `INT_MAX`, the head
sequence of `runSSTF` is the initial head position followed by a permutation
of the request cylinders, and iteration `i` of its outer loop visits a request
that is unvisited, at minimal absolute distance from the current head among
the unvisited ones, and of lowest index among those at that distance; it marks
exactly that request visited and appends its cylinder to the sequence. -/
theorem DiskScheduler.sstf_nearest_below_sentinel (d : DiskScheduler)
    (hrange : ∀ a ∈ d.head_position :: d.requests.map (fun r => r.cylinder),
      ∀ b ∈ d.requests.map (fun r => r.cylinder), |b - a| < INT_MAX) :
    (∃ visits : List Int, d.runSSTF.head_sequence = d.head_position :: visits ∧
        visits.Perm (d.requests.map (fun r => r.cylinder))) ∧
      ∀ (i : Nat), i < d.requests.length →
        ∃ (k : Nat) (rk : DiskRequest),
          d.requests[k]? = some rk ∧
            (DiskScheduler.sstfState d i).visited[k]? = some false ∧
            (∀ (j : Nat) (r : DiskRequest), d.requests[j]? = some r →
              (DiskScheduler.sstfState d i).visited[j]? = some false →
                |rk.cylinder - (DiskScheduler.sstfState d i).d.head_position|
                    ≤ |r.cylinder - (DiskScheduler.sstfState d i).d.head_position| ∧
                  (j < k → |rk.cylinder - (DiskScheduler.sstfState d i).d.head_position|
                    < |r.cylinder - (DiskScheduler.sstfState d i).d.head_position|)) ∧
            (DiskScheduler.sstfState d (i + 1)).visited
              = (DiskScheduler.sstfState d i).visited.set k true ∧
            (DiskScheduler.sstfState d (i + 1)).d.head_position = rk.cylinder ∧
            (DiskScheduler.sstfState d (i + 1)).d.head_sequence
              = (DiskScheduler.sstfState d i).d.head_sequence ++ [rk.cylinder] := by
  constructor
  · obtain ⟨-, hlen, -, visits, hseq, hvl, hperm⟩ :=
      DiskScheduler.sstfState_inv d hrange d.requests.length (le_refl _)
    refine ⟨visits, hseq, ?_⟩
    have hsub := visitedCyls_sublist d.requests (DiskScheduler.sstfState d d.requests.length).visited
    have heq := hsub.eq_of_length (by rw [← hperm.length_eq, hvl]; simp)
    rw [heq] at hperm
    exact hperm
  · intro i hi
    obtain ⟨hreq, hlen, hhead, visits, hseq, hvl, hperm⟩ :=
      DiskScheduler.sstfState_inv d hrange i (le_of_lt hi)
    have hstep : DiskScheduler.sstfState d (i + 1)
        = DiskScheduler.sstfBody (DiskScheduler.sstfState d i) := by
      simp only [DiskScheduler.sstfState, Function.iterate_succ_apply']
    have hlt : (visitedCyls d.requests (DiskScheduler.sstfState d i).visited).length
        < d.requests.length := by
      rw [← hperm.length_eq, hvl]
      exact hi
    obtain ⟨k0, r0, hr0, hv0⟩ := visitedCyls_exists_unvisited d.requests _ hlen hlt
    rcases DiskScheduler.sstfBody_cases (DiskScheduler.sstfState d i) with
      ⟨-, hall⟩ | ⟨k, rk, hrk, hvk, hmin, hbody⟩
    · exfalso
      have h1 := hall k0 r0 (by rw [hreq]; exact hr0) hv0
      have h2 := hrange _ hhead r0.cylinder
        (List.mem_map.mpr ⟨r0, List.mem_iff_getElem?.mpr ⟨k0, hr0⟩, rfl⟩)
      omega
    · rw [hreq] at hrk hmin
      refine ⟨k, rk, hrk, hvk, hmin, ?_, ?_, ?_⟩
      · rw [hstep, hbody]
      · rw [hstep, hbody]; simp only [DiskScheduler.seekTo]
      · rw [hstep, hbody]; simp only [DiskScheduler.seekTo]

theorem DiskScheduler.sweep_cons (keep : Int → Int → Bool) (cyl : Int) (rest : List Int)
    (d : DiskScheduler) :
    DiskScheduler.sweep keep (cyl :: rest) d
      = DiskScheduler.sweep keep rest (if keep cyl d.head_position then d.seekTo cyl else d) :=
  rfl

theorem DiskScheduler.sweep_total_le (keep : Int → Int → Bool) (cyls : List Int) :
    ∀ (d : DiskScheduler),
      d.total_seek_time ≤ (DiskScheduler.sweep keep cyls d).total_seek_time := by
  induction cyls with
  | nil => intro d; exact le_refl _
  | cons cyl rest ih =>
    intro d
    rw [DiskScheduler.sweep_cons]
    split_ifs
    · refine le_trans ?_ (ih _)
      simp only [DiskScheduler.seekTo]
      have := abs_nonneg (cyl - d.head_position)
      omega
    · exact ih d

theorem DiskScheduler.sweep_up_bound (keep : Int → Int → Bool)
    (hkeep : ∀ (cyl head : Int), keep cyl head = true → head ≤ cyl) (hi : Int)
    (cyls : List Int) (hc : ∀ cyl ∈ cyls, cyl ≤ hi) :
    ∀ (d : DiskScheduler), d.head_position ≤ hi →
      (DiskScheduler.sweep keep cyls d).total_seek_time
          = d.total_seek_time + ((DiskScheduler.sweep keep cyls d).head_position - d.head_position) ∧
        d.head_position ≤ (DiskScheduler.sweep keep cyls d).head_position ∧
        (DiskScheduler.sweep keep cyls d).head_position ≤ hi ∧
        (DiskScheduler.sweep keep cyls d).disk_size = d.disk_size := by
  induction cyls with
  | nil =>
    intro d hd
    exact ⟨by simp [DiskScheduler.sweep], le_refl _, hd, rfl⟩
  | cons cyl rest ih =>
    intro d hd
    have ihr := ih (fun x hx => hc x (List.mem_cons_of_mem _ hx))
    rw [DiskScheduler.sweep_cons]
    by_cases hk : keep cyl d.head_position = true
    · rw [if_pos hk]
      have hle := hkeep _ _ hk
      obtain ⟨h1, h2, h3, h4⟩ := ihr (d.seekTo cyl) (hc cyl (List.mem_cons_self _ _))
      have e1 : (d.seekTo cyl).total_seek_time = d.total_seek_time + (cyl - d.head_position) := by
        simp only [DiskScheduler.seekTo]
        rw [abs_of_nonneg (by omega)]
      have e2 : (d.seekTo cyl).head_position = cyl := rfl
      have e3 : (d.seekTo cyl).disk_size = d.disk_size := rfl
      rw [e1, e2] at h1
      rw [e2] at h2
      rw [e3] at h4
      exact ⟨by rw [h1]; ring, le_trans hle h2, h3, h4⟩
    · rw [if_neg hk]
      exact ihr d hd

theorem DiskScheduler.sweep_down_bound (keep : Int → Int → Bool)
    (hkeep : ∀ (cyl head : Int), keep cyl head = true → cyl ≤ head) (lo : Int)
    (cyls : List Int) (hc : ∀ cyl ∈ cyls, lo ≤ cyl) :
    ∀ (d : DiskScheduler), lo ≤ d.head_position →
      (DiskScheduler.sweep keep cyls d).total_seek_time
          = d.total_seek_time + (d.head_position - (DiskScheduler.sweep keep cyls d).head_position) ∧
        (DiskScheduler.sweep keep cyls d).head_position ≤ d.head_position ∧
        lo ≤ (DiskScheduler.sweep keep cyls d).head_position ∧
        (DiskScheduler.sweep keep cyls d).disk_size = d.disk_size := by
  induction cyls with
  | nil =>
    intro d hd
    exact ⟨by simp [DiskScheduler.sweep], le_refl _, hd, rfl⟩
  | cons cyl rest ih =>
    intro d hd
    have ihr := ih (fun x hx => hc x (List.mem_cons_of_mem _ hx))
    rw [DiskScheduler.sweep_cons]
    by_cases hk : keep cyl d.head_position = true
    · rw [if_pos hk]
      have hle := hkeep _ _ hk
      obtain ⟨h1, h2, h3, h4⟩ := ihr (d.seekTo cyl) (hc cyl (List.mem_cons_self _ _))
      have e1 : (d.seekTo cyl).total_seek_time = d.total_seek_time + (d.head_position - cyl) := by
        simp only [DiskScheduler.seekTo]
        rw [abs_of_nonpos (by omega)]
        ring
      have e2 : (d.seekTo cyl).head_position = cyl := rfl
      have e3 : (d.seekTo cyl).disk_size = d.disk_size := rfl
      rw [e1, e2] at h1
      rw [e2] at h2
      rw [e3] at h4
      exact ⟨by rw [h1]; ring, le_trans h2 hle, h3, h4⟩
    · rw [if_neg hk]
      exact ihr d hd

theorem DiskScheduler.mem_sortedCylinders (d : DiskScheduler) (cyl : Int)
    (h : cyl ∈ d.start.sortedCylinders) : ∃ r ∈ d.requests, r.cylinder = cyl := by
  have h1 : cyl ∈ d.requests.map (fun req => req.cylinder) :=
    (List.perm_insertionSort _ _).mem_iff.mp h
  obtain ⟨r, hr, hrc⟩ := List.mem_map.mp h1
  exact ⟨r, hr, hrc⟩

/-- On unbounded integers: for every request list with cylinders in
`[0, disk_size]`, every head position in `[0, disk_size]` and either
direction, the total seek time of `runCSCAN` is at least the total seek time
of `runSCAN` from the same state. -/
theorem DiskScheduler.cscan_total_ge_scan_ideal (d : DiskScheduler) (move_up : Bool)
    (hhead : 0 ≤ d.head_position ∧ d.head_position ≤ d.disk_size)
    (hcyl : ∀ r ∈ d.requests, 0 ≤ r.cylinder ∧ r.cylinder ≤ d.disk_size) :
    (d.runSCAN move_up).total_seek_time ≤ (d.runCSCAN move_up).total_seek_time := by
  have hlo : ∀ cyl ∈ d.start.sortedCylinders, 0 ≤ cyl := by
    intro cyl h
    obtain ⟨r, hr, hrc⟩ := DiskScheduler.mem_sortedCylinders d cyl h
    rw [← hrc]
    exact (hcyl r hr).1
  have hhi : ∀ cyl ∈ d.start.sortedCylinders, cyl ≤ d.disk_size := by
    intro cyl h
    obtain ⟨r, hr, hrc⟩ := DiskScheduler.mem_sortedCylinders d cyl h
    rw [← hrc]
    exact (hcyl r hr).2
  have hlor : ∀ cyl ∈ d.start.sortedCylinders.reverse, 0 ≤ cyl :=
    fun cyl h => hlo cyl (List.mem_reverse.mp h)
  have hs1 : d.start.head_position = d.head_position := rfl
  have hs2 : d.start.total_seek_time = 0 := rfl
  have hs3 : d.start.disk_size = d.disk_size := rfl
  cases move_up with
  | true =>
    obtain ⟨u1, u2, u3, u4⟩ := DiskScheduler.sweep_up_bound (fun cyl head => decide (cyl ≥ head))
      (fun cyl head h => by simpa using h) d.disk_size d.start.sortedCylinders hhi d.start
      (by rw [hs1]; exact hhead.2)
    obtain ⟨v1, v2, v3, -⟩ := DiskScheduler.sweep_down_bound (fun cyl head => decide (cyl < head))
      (fun cyl head h => le_of_lt (by simpa using h)) 0 d.start.sortedCylinders.reverse hlor
      (DiskScheduler.sweep (fun cyl head => decide (cyl ≥ head)) d.start.sortedCylinders d.start)
      (by omega)
    simp only [DiskScheduler.runSCAN, DiskScheduler.runCSCAN, ↓reduceIte]
    refine le_trans ?_ (DiskScheduler.sweep_total_le _ _ _)
    simp only []
    rw [v1, u4, hs3]
    have := abs_nonneg (d.disk_size -
      (DiskScheduler.sweep (fun cyl head => decide (cyl ≥ head)) d.start.sortedCylinders
        d.start).head_position)
    omega
  | false =>
    obtain ⟨u1, u2, u3, u4⟩ := DiskScheduler.sweep_down_bound (fun cyl head => decide (cyl ≤ head))
      (fun cyl head h => by simpa using h) 0 d.start.sortedCylinders.reverse hlor d.start
      (by rw [hs1]; exact hhead.1)
    obtain ⟨v1, v2, v3, -⟩ := DiskScheduler.sweep_up_bound (fun cyl head => decide (cyl > head))
      (fun cyl head h => le_of_lt (by simpa using h)) d.disk_size d.start.sortedCylinders hhi
      (DiskScheduler.sweep (fun cyl head => decide (cyl ≤ head)) d.start.sortedCylinders.reverse
        d.start)
      (by omega)
    simp only [DiskScheduler.runSCAN, DiskScheduler.runCSCAN, Bool.false_eq_true, ↓reduceIte]
    refine le_trans ?_ (DiskScheduler.sweep_total_le _ _ _)
    simp only []
    rw [v1, u4, hs3]
    omega

/-! ### Disk: empty request list -/

/-- The four algorithms on an empty request list: `runFCFS`, `runSSTF` and
`runSCAN` report total seek time 0 and leave the head where it was; `runCSCAN`
reports its wrap cost, `|disk_size - head| + disk_size` moving up and
`head + disk_size` moving down; the average seek time printed after each of
the four is 0, the division being guarded by `requests.empty()`. -/
theorem DiskScheduler.empty_requests_runs (d : DiskScheduler) (move_up : Bool)
    (hempty : d.requests = []) :
    (d.runFCFS.total_seek_time = 0 ∧ d.runFCFS.head_sequence = [d.head_position]) ∧
      (d.runSSTF.total_seek_time = 0 ∧ d.runSSTF.head_sequence = [d.head_position]) ∧
      ((d.runSCAN move_up).total_seek_time = 0 ∧
        (d.runSCAN move_up).head_sequence = [d.head_position]) ∧
      (d.runCSCAN true).total_seek_time = |d.disk_size - d.head_position| + d.disk_size ∧
      (d.runCSCAN false).total_seek_time = d.head_position + d.disk_size ∧
      d.runFCFS.avgSeekTime = 0 ∧ d.runSSTF.avgSeekTime = 0 ∧
      (d.runSCAN move_up).avgSeekTime = 0 ∧ (d.runCSCAN move_up).avgSeekTime = 0 := by
  obtain ⟨requests, head_position, disk_size, head_sequence, total_seek_time⟩ := d
  simp only at hempty
  subst hempty
  cases move_up <;>
    simp [DiskScheduler.runFCFS, DiskScheduler.runSSTF, DiskScheduler.runSCAN,
      DiskScheduler.runCSCAN, DiskScheduler.start, DiskScheduler.sortByArrival,
      DiskScheduler.sortedCylinders, DiskScheduler.sweep, DiskScheduler.sstfState,
      DiskScheduler.avgSeekTime]

/-! ### The `INT_MAX` sentinels: the side conditions cannot be dropped -/

/-- The scan of `allocateBestFit` starts `min_wasted_space` at `INT_MAX` and
compares with a strict `<`: a free block whose leftover is exactly `INT_MAX`
is not selected. -/
theorem MemoryManager.bestFit_sentinel_leftover_unselected :
    MemoryManager.bestFitSelect [mkBlock 1 2147483647] (mkProcess 1 0 0 1) = none ∧
      MemoryManager.fits (mkBlock 1 2147483647) (mkProcess 1 0 0 1) = true := by
  decide

/-! ### Disk: the C-SCAN total and the carried head position -/

theorem DiskScheduler.sweep_none (keep : Int → Int → Bool) (cyls : List Int)
    (d : DiskScheduler) (h : ∀ cyl ∈ cyls, keep cyl d.head_position = false) :
    DiskScheduler.sweep keep cyls d = d := by
  induction cyls with
  | nil => rfl
  | cons cyl rest ih =>
    rw [DiskScheduler.sweep_cons, h cyl (List.mem_cons_self _ _)]
    exact ih (fun x hx => h x (List.mem_cons_of_mem _ hx))

/-- On unbounded integers: for every request list with cylinders in
`[0, disk_size]` and head position `h` in `[0, disk_size]`, the total seek
time of `runCSCAN` is `2 * disk_size - h` moving toward higher cylinders and
`h + disk_size` moving toward lower cylinders, whatever the requests are. -/
theorem DiskScheduler.cscan_total_closed_form_ideal (d : DiskScheduler)
    (hhead : 0 ≤ d.head_position ∧ d.head_position ≤ d.disk_size)
    (hcyl : ∀ r ∈ d.requests, 0 ≤ r.cylinder ∧ r.cylinder ≤ d.disk_size) :
    (d.runCSCAN true).total_seek_time = 2 * d.disk_size - d.head_position ∧
      (d.runCSCAN false).total_seek_time = d.head_position + d.disk_size := by
  have hlo : ∀ cyl ∈ d.start.sortedCylinders, 0 ≤ cyl := by
    intro cyl h
    obtain ⟨r, hr, hrc⟩ := DiskScheduler.mem_sortedCylinders d cyl h
    rw [← hrc]
    exact (hcyl r hr).1
  have hhi : ∀ cyl ∈ d.start.sortedCylinders, cyl ≤ d.disk_size := by
    intro cyl h
    obtain ⟨r, hr, hrc⟩ := DiskScheduler.mem_sortedCylinders d cyl h
    rw [← hrc]
    exact (hcyl r hr).2
  have hlor : ∀ cyl ∈ d.start.sortedCylinders.reverse, 0 ≤ cyl :=
    fun cyl h => hlo cyl (List.mem_reverse.mp h)
  have hhir : ∀ cyl ∈ d.start.sortedCylinders.reverse, cyl ≤ d.disk_size :=
    fun cyl h => hhi cyl (List.mem_reverse.mp h)
  have hs1 : d.start.head_position = d.head_position := rfl
  have hs2 : d.start.total_seek_time = 0 := rfl
  have hs3 : d.start.disk_size = d.disk_size := rfl
  constructor
  · obtain ⟨u1, u2, u3, u4⟩ := DiskScheduler.sweep_up_bound (fun cyl head => decide (cyl ≥ head))
      (fun cyl head h => by simpa using h) d.disk_size d.start.sortedCylinders hhi d.start
      (by rw [hs1]; exact hhead.2)
    simp only [DiskScheduler.runCSCAN, ↓reduceIte]
    rw [DiskScheduler.sweep_none (fun cyl head => decide (cyl < head)) d.start.sortedCylinders _
      (fun cyl hc => by
        have := hlo cyl hc
        simp only [decide_eq_false_iff_not, not_lt]
        exact this)]
    simp only []
    rw [u1, u4, hs1, hs2, hs3, abs_of_nonneg (by omega)]
    ring
  · obtain ⟨u1, u2, u3, u4⟩ := DiskScheduler.sweep_down_bound (fun cyl head => decide (cyl ≤ head))
      (fun cyl head h => by simpa using h) 0 d.start.sortedCylinders.reverse hlor d.start
      (by rw [hs1]; exact hhead.1)
    simp only [DiskScheduler.runCSCAN, Bool.false_eq_true, ↓reduceIte]
    rw [DiskScheduler.sweep_none (fun cyl head => decide (cyl > head))
      d.start.sortedCylinders.reverse _
      (fun cyl hc => by
        have := hhir cyl hc
        simp only [u4, hs3, gt_iff_lt, decide_eq_false_iff_not, not_lt]
        exact this)]
    simp only []
    rw [u1, u4, hs1, hs2, hs3]
    ring

theorem HeadCarried.carried_start (d : DiskScheduler) : HeadCarried d.head_position d.start := by
  simp [HeadCarried, DiskScheduler.start]

theorem HeadCarried.carried_push (h0 : Int) (d : DiskScheduler) (t x : Int)
    (h : HeadCarried h0 d) :
    HeadCarried h0 { requests := d.requests, head_position := x, disk_size := d.disk_size,
                     head_sequence := d.head_sequence ++ [x], total_seek_time := t } := by
  obtain ⟨h1, -⟩ := h
  refine ⟨?_, by simp⟩
  cases hs : d.head_sequence with
  | nil => rw [hs] at h1; simp at h1
  | cons a rest =>
    rw [hs] at h1
    simpa using h1

theorem HeadCarried.carried_seekTo (h0 : Int) (d : DiskScheduler) (cyl : Int)
    (h : HeadCarried h0 d) : HeadCarried h0 (d.seekTo cyl) :=
  HeadCarried.carried_push h0 d _ cyl h

theorem HeadCarried.carried_sweep (h0 : Int) (keep : Int → Int → Bool) (cyls : List Int) :
    ∀ (d : DiskScheduler), HeadCarried h0 d → HeadCarried h0 (DiskScheduler.sweep keep cyls d) := by
  induction cyls with
  | nil => intro d h; exact h
  | cons cyl rest ih =>
    intro d h
    rw [DiskScheduler.sweep_cons]
    split_ifs
    · exact ih _ (HeadCarried.carried_seekTo h0 d cyl h)
    · exact ih _ h

theorem HeadCarried.carried_foldl (h0 : Int) (rs : List DiskRequest) :
    ∀ (d : DiskScheduler), HeadCarried h0 d →
      HeadCarried h0 (rs.foldl (fun d req => d.seekTo req.cylinder) d) := by
  induction rs with
  | nil => intro d h; exact h
  | cons r rest ih =>
    intro d h
    exact ih _ (HeadCarried.carried_seekTo h0 d r.cylinder h)

theorem HeadCarried.carried_sstfState (d : DiskScheduler) (i : Nat) :
    HeadCarried d.head_position (DiskScheduler.sstfState d i).d := by
  induction i with
  | zero => exact HeadCarried.carried_start d
  | succ i ih =>
    have hstep : DiskScheduler.sstfState d (i + 1)
        = DiskScheduler.sstfBody (DiskScheduler.sstfState d i) := by
      simp only [DiskScheduler.sstfState, Function.iterate_succ_apply']
    rw [hstep]
    rcases DiskScheduler.sstfBody_cases (DiskScheduler.sstfState d i) with
      ⟨hs, -⟩ | ⟨k, rk, -, -, -, hs⟩
    · rw [hs]; exact ih
    · rw [hs]; exact HeadCarried.carried_seekTo _ _ _ ih

theorem HeadCarried.carried_runs (d : DiskScheduler) :
    ∀ run ∈ [DiskScheduler.runFCFS, DiskScheduler.runSSTF, DiskScheduler.runSCAN true,
        DiskScheduler.runSCAN false, DiskScheduler.runCSCAN true, DiskScheduler.runCSCAN false],
      HeadCarried d.head_position (run d) := by
  intro run hrun
  simp only [List.mem_cons, List.mem_singleton, List.not_mem_nil, or_false] at hrun
  rcases hrun with h | h | h | h | h | h <;> subst h
  · have h0 : HeadCarried d.head_position
        { d.start with requests := DiskScheduler.sortByArrival d.start.requests } := by
      simp [HeadCarried, DiskScheduler.start]
    exact HeadCarried.carried_foldl _ _ _ h0
  · exact HeadCarried.carried_sstfState d d.requests.length
  · simp only [DiskScheduler.runSCAN, ↓reduceIte]
    exact HeadCarried.carried_sweep _ _ _ _
      (HeadCarried.carried_sweep _ _ _ _ (HeadCarried.carried_start d))
  · simp only [DiskScheduler.runSCAN, Bool.false_eq_true, ↓reduceIte]
    exact HeadCarried.carried_sweep _ _ _ _
      (HeadCarried.carried_sweep _ _ _ _ (HeadCarried.carried_start d))
  · simp only [DiskScheduler.runCSCAN, ↓reduceIte]
    apply HeadCarried.carried_sweep
    exact HeadCarried.carried_push _ _ _ 0
      (HeadCarried.carried_sweep _ _ _ _ (HeadCarried.carried_start d))
  · simp only [DiskScheduler.runCSCAN, Bool.false_eq_true, ↓reduceIte]
    apply HeadCarried.carried_sweep
    exact HeadCarried.carried_push _ _ _ _
      (HeadCarried.carried_sweep _ _ _ _ (HeadCarried.carried_start d))

/-- C31: for each of `runFCFS`, `runSSTF`, `runSCAN` and `runCSCAN` (either
direction), the first element of the head sequence it produces is the head
position at entry, the head position it leaves equals the last element of
that sequence, and the head sequence of any of these algorithms called next on
the same scheduler starts with that last element. -/
theorem DiskScheduler.head_position_carried (d : DiskScheduler) :
    ∀ run ∈ [DiskScheduler.runFCFS, DiskScheduler.runSSTF, DiskScheduler.runSCAN true,
        DiskScheduler.runSCAN false, DiskScheduler.runCSCAN true, DiskScheduler.runCSCAN false],
      (run d).head_sequence.head? = some d.head_position ∧
        (run d).head_sequence.getLast? = some (run d).head_position ∧
        ∀ next ∈ [DiskScheduler.runFCFS, DiskScheduler.runSSTF, DiskScheduler.runSCAN true,
            DiskScheduler.runSCAN false, DiskScheduler.runCSCAN true,
            DiskScheduler.runCSCAN false],
          (next (run d)).head_sequence.head? = (run d).head_sequence.getLast? := by
  intro run hrun
  obtain ⟨h1, h2⟩ := HeadCarried.carried_runs d run hrun
  refine ⟨h1, h2, ?_⟩
  intro next hnext
  rw [h2]
  exact (HeadCarried.carried_runs (run d) next hnext).1

/-- Witness for C31: requests at cylinders 50, 20, 80 with the head at 40:
the sequence of `runSCAN` moving up starts at 40 and ends at the head position
it leaves, 20, and `runFCFS` called next starts its sequence at 20. -/
theorem DiskScheduler.head_position_carried_witness :
    (((DiskScheduler.new [⟨1, 50, 0⟩, ⟨2, 20, 1⟩, ⟨3, 80, 2⟩] 40 100).runSCAN true).head_sequence.head?
        = some 40 ∧
      ((DiskScheduler.new [⟨1, 50, 0⟩, ⟨2, 20, 1⟩, ⟨3, 80, 2⟩] 40 100).runSCAN
          true).head_sequence.getLast?
        = some ((DiskScheduler.new [⟨1, 50, 0⟩, ⟨2, 20, 1⟩, ⟨3, 80, 2⟩] 40 100).runSCAN
          true).head_position) ∧
      ((DiskScheduler.new [⟨1, 50, 0⟩, ⟨2, 20, 1⟩, ⟨3, 80, 2⟩] 40 100).runSCAN true).head_position
        = 20 ∧
      (((DiskScheduler.new [⟨1, 50, 0⟩, ⟨2, 20, 1⟩, ⟨3, 80, 2⟩] 40 100).runSCAN
          true).runFCFS).head_sequence = [20, 50, 20, 80] :=
  ⟨⟨(DiskScheduler.head_position_carried
        (DiskScheduler.new [⟨1, 50, 0⟩, ⟨2, 20, 1⟩, ⟨3, 80, 2⟩] 40 100)
        (DiskScheduler.runSCAN true)
        (List.mem_cons_of_mem _ (List.mem_cons_of_mem _ (List.mem_cons_self _ _)))).1,
      (DiskScheduler.head_position_carried
        (DiskScheduler.new [⟨1, 50, 0⟩, ⟨2, 20, 1⟩, ⟨3, 80, 2⟩] 40 100)
        (DiskScheduler.runSCAN true)
        (List.mem_cons_of_mem _ (List.mem_cons_of_mem _ (List.mem_cons_self _ _)))).2.1⟩,
    by decide, by decide⟩

/-! ### Generation of the storage blocks -/

theorem WarehouseDataGenerator.genBody_step (warehouse_size : Int) (block_size_dist : Nat → Int)
    (hdist : ∀ n : Nat, 1 ≤ block_size_dist n) (s : WarehouseDataGenerator.GenState)
    (hinv : WarehouseDataGenerator.GenInv warehouse_size s)
    (hc : WarehouseDataGenerator.genCond warehouse_size s = true) :
    WarehouseDataGenerator.GenInv warehouse_size
        (WarehouseDataGenerator.genBody warehouse_size block_size_dist s) ∧
      (warehouse_size - (WarehouseDataGenerator.genBody warehouse_size block_size_dist
        s).current_offset).toNat < (warehouse_size - s.current_offset).toNat := by
  obtain ⟨h1, h2, h3, h4, h5⟩ := hinv
  have hlt : s.current_offset < warehouse_size := by
    simpa [WarehouseDataGenerator.genCond] using hc
  have hd := hdist s.drawn
  have hmin1 : 1 ≤ min (block_size_dist s.drawn) (warehouse_size - s.current_offset) :=
    le_min hd (by omega)
  have hmin2 : min (block_size_dist s.drawn) (warehouse_size - s.current_offset)
      ≤ warehouse_size - s.current_offset := min_le_right _ _
  refine ⟨⟨?_, ?_, ?_, ?_, ?_⟩, ?_⟩
  · simp only [WarehouseDataGenerator.genBody]
    omega
  · simp only [WarehouseDataGenerator.genBody, List.map_append, List.sum_append, List.map_cons,
      List.map_nil, List.sum_cons, List.sum_nil, add_zero, h2]
  · simp only [WarehouseDataGenerator.genBody, List.length_append, List.length_singleton,
      Nat.cast_add, Nat.cast_one, h3]
  · intro i b hb
    simp only [WarehouseDataGenerator.genBody] at hb
    by_cases hi : i < s.memory_blocks.length
    · rw [List.getElem?_append_left hi] at hb
      exact h4 i b hb
    · rw [List.getElem?_append_right (by omega)] at hb
      have hi0 : i - s.memory_blocks.length = 0 := by
        by_contra hne
        have : (i - s.memory_blocks.length - 1) + 1 = i - s.memory_blocks.length := by omega
        rw [← this, List.getElem?_cons_succ] at hb
        simp at hb
      rw [hi0, List.getElem?_cons_zero, Option.some.injEq] at hb
      rw [← hb]
      simp only
      rw [h3]
      have : i = s.memory_blocks.length := by omega
      rw [this]
  · intro b hb
    simp only [WarehouseDataGenerator.genBody, List.mem_append, List.mem_singleton] at hb
    rcases hb with hb | hb
    · exact h5 b hb
    · rw [hb]
      exact ⟨by simp only; omega, rfl, rfl⟩
  · simp only [WarehouseDataGenerator.genBody]
    omega

/-- C32: for every `warehouse_size > 0` and every sequence of drawn block
sizes each `>= 1`, the loop of `generateMemoryBlocks` ends (within any
iteration budget above `warehouse_size`) and yields blocks whose ids are
1, 2, ..., k in order, each with a positive size, unallocated and with
`process_id = -1`, whose sizes sum exactly to `warehouse_size`. -/
theorem WarehouseDataGenerator.blocks_partition_capacity (warehouse_size : Int)
    (block_size_dist : Nat → Int) (fuel : Nat) (hsize : 0 < warehouse_size)
    (hdist : ∀ n : Nat, 1 ≤ block_size_dist n) (hfuel : warehouse_size.toNat < fuel) :
    ∃ blocks : List MemoryBlock,
      WarehouseDataGenerator.generateMemoryBlocks fuel warehouse_size block_size_dist
          = some blocks ∧
        (∀ (i : Nat) (b : MemoryBlock), blocks[i]? = some b → b.block_id = (i : Int) + 1) ∧
        (∀ b ∈ blocks, 0 < b.size ∧ b.is_allocated = false ∧ b.process_id = -1) ∧
        (blocks.map (fun b => b.size)).sum = warehouse_size := by
  obtain ⟨s, hs, hinv, hc⟩ := whileLoop_terminates
    (WarehouseDataGenerator.genCond warehouse_size)
    (WarehouseDataGenerator.genBody warehouse_size block_size_dist)
    (WarehouseDataGenerator.GenInv warehouse_size)
    (fun s => (warehouse_size - s.current_offset).toNat)
    (fun s hinv hc =>
      WarehouseDataGenerator.genBody_step warehouse_size block_size_dist hdist s hinv hc)
    fuel { memory_blocks := [], current_offset := 0, block_id := 1, drawn := 0 }
    ⟨le_of_lt hsize, by simp, by simp, fun i b hb => by simp at hb, fun b hb => by simp at hb⟩
    (by simpa using hfuel)
  obtain ⟨h1, h2, -, h4, h5⟩ := hinv
  have hge : warehouse_size ≤ s.current_offset := by
    simpa [WarehouseDataGenerator.genCond] using hc
  refine ⟨s.memory_blocks, ?_, h4, h5, ?_⟩
  · simp only [WarehouseDataGenerator.generateMemoryBlocks, hs, Option.map_some']
  · rw [h2]
    omega

/-- Witness for C32: capacity 250 with every drawn size 100 gives the blocks
(1, 100), (2, 100), (3, 50). -/
theorem WarehouseDataGenerator.blocks_partition_capacity_witness :
    WarehouseDataGenerator.generateMemoryBlocks 251 250 (fun _ => 100)
        = some [mkBlock 1 100, mkBlock 2 100, mkBlock 3 50] ∧
      ∃ blocks : List MemoryBlock,
        WarehouseDataGenerator.generateMemoryBlocks 251 250 (fun _ => 100) = some blocks ∧
          (∀ (i : Nat) (b : MemoryBlock), blocks[i]? = some b → b.block_id = (i : Int) + 1) ∧
          (∀ b ∈ blocks, 0 < b.size ∧ b.is_allocated = false ∧ b.process_id = -1) ∧
          (blocks.map (fun b => b.size)).sum = 250 :=
  ⟨by decide,
    WarehouseDataGenerator.blocks_partition_capacity 250 (fun _ => 100) 251 (by decide)
      (fun _ => (by decide : (1 : Int) ≤ 100)) (by decide)⟩

/-! ### Waiting times are never negative -/

theorem CPUScheduler.modifyAt_getElem?_ne {α : Type} (l : List α) (k i : Nat) (f : α → α)
    (h : k ≠ i) : (CPUScheduler.modifyAt l k f)[i]? = l[i]? := by
  simp only [CPUScheduler.modifyAt]
  cases l[k]? with
  | none => rfl
  | some x => exact List.getElem?_set_ne h

theorem CPUScheduler.modifyAt_getElem?_self {α : Type} (l : List α) (k : Nat) (f : α → α)
    (x : α) (h : l[k]? = some x) : (CPUScheduler.modifyAt l k f)[k]? = some (f x) := by
  have hk : k < l.length := (List.getElem?_eq_some.mp h).1
  simp only [CPUScheduler.modifyAt, h]
  rw [List.getElem?_set]
  simp [hk]

theorem CPUScheduler.tickBody_serve_completed (select : CPUScheduler.SimState → Option Nat)
    (s : CPUScheduler.SimState) (k : Nat) (rk : Int) (hs : select s = some k)
    (hr : s.remaining_time[k]? = some rk) :
    (CPUScheduler.tickBody select s).completed
      = if rk - 1 = 0 then
          CPUScheduler.modifyAt s.completed k (CPUScheduler.recordCompletion (s.current_time + 1))
        else s.completed := by
  have hgetD : s.remaining_time.getD k 0 = rk := by
    simp [List.getD_eq_getElem?_getD, hr]
  simp only [CPUScheduler.tickBody, hs, hgetD]
  split_ifs <;> rfl

theorem WaitInv.wait_init (c0 : List Process) (hb : ∀ p ∈ c0, 0 < p.burst_time) :
    WaitInv (CPUScheduler.tickInit c0) := by
  intro i p r hp hr
  simp only [CPUScheduler.tickInit] at hp hr
  simp only [List.getElem?_map, hp, Option.map_some', Option.some.injEq] at hr
  have := hb p (List.mem_iff_getElem?.mpr ⟨i, hp⟩)
  refine ⟨by omega, fun h => absurd h (by omega), fun h => absurd h (by omega)⟩

theorem WaitInv.wait_tickBody (G : Int → Prop) (select : CPUScheduler.SimState → Option Nat)
    (hsel : SelectOK G select) (c0 : List Process)
    (hwf : ∀ p ∈ c0, p.arrival_time < INT_MAX ∧ G p.priority)
    (s : CPUScheduler.SimState) (hinv : TickInv c0 s) (hc : CPUScheduler.tickCond s = true)
    (hw : WaitInv s) : WaitInv (CPUScheduler.tickBody select s) := by
  cases hs : select s with
  | none =>
    obtain ⟨h1, h2, -⟩ := CPUScheduler.tickBody_idle select s hs
    obtain ⟨i0, p0, r0, -, -, -, hlt, htime⟩ :=
      CPUScheduler.tickBody_idle_progress G select hsel c0 hwf s hinv hc hs
    intro i p r hp hr
    rw [h2] at hp
    rw [h1] at hr
    obtain ⟨w1, w2, w3⟩ := hw i p r hp hr
    refine ⟨w1, fun h => ?_, w3⟩
    have := w2 h
    rw [htime]
    omega
  | some k =>
    obtain ⟨pk, rk, hpk, hrk, hpos, harr⟩ := hsel.1 s k hs
    obtain ⟨h1, h2⟩ := CPUScheduler.tickBody_serve select s k rk hs hrk
    have h3 := CPUScheduler.tickBody_serve_completed select s k rk hs hrk
    have hk_lt : k < s.remaining_time.length := (List.getElem?_eq_some.mp hrk).1
    obtain ⟨wk1, wk2, -⟩ := hw k pk rk hpk hrk
    intro i p r hp hr
    rw [h1] at hr
    rw [h2]
    by_cases hik : k = i
    · subst hik
      rw [List.getElem?_set] at hr
      simp only [hk_lt, if_true, Option.some.injEq] at hr
      subst hr
      by_cases hz : rk - 1 = 0
      · rw [h3, if_pos hz, CPUScheduler.modifyAt_getElem?_self _ _ _ pk hpk,
          Option.some.injEq] at hp
        subst hp
        have hrk1 : rk = 1 := by omega
        simp only [CPUScheduler.recordCompletion]
        refine ⟨by omega, fun _ => ?_, fun _ => ?_⟩
        · by_cases hb : rk < pk.burst_time
          · have := wk2 hb
            omega
          · omega
        · by_cases hb : rk < pk.burst_time
          · have := wk2 hb
            omega
          · omega
      · rw [h3, if_neg hz, hpk, Option.some.injEq] at hp
        subst hp
        refine ⟨by omega, fun _ => ?_, fun h => absurd h hz⟩
        by_cases hb : rk < pk.burst_time
        · have := wk2 hb
          omega
        · omega
    · rw [List.getElem?_set_ne hik] at hr
      have hp2 : s.completed[i]? = some p := by
        rw [h3] at hp
        split_ifs at hp
        · rw [CPUScheduler.modifyAt_getElem?_ne _ _ _ _ hik] at hp
          exact hp
        · exact hp
      obtain ⟨w1, w2, w3⟩ := hw i p r hp2 hr
      refine ⟨w1, fun h => ?_, w3⟩
      have := w2 h
      omega

theorem TickInv.all_done {c0 : List Process} {s : CPUScheduler.SimState}
    (hinv : TickInv c0 s) (hc : CPUScheduler.tickCond s = false) :
    ∀ r ∈ s.remaining_time, r = 0 := by
  have hlen : s.completed.length = c0.length := by
    have := congrArg List.length hinv.inputs
    simpa using this
  have hge : s.remaining_time.length ≤ s.remaining_time.count 0 := by
    have h1 : ¬ (s.processed < (s.completed.length : Int)) := by
      simpa [CPUScheduler.tickCond] using hc
    rw [hinv.count, hlen, ← hinv.len] at h1
    have h2 : ((s.remaining_time.length : Nat) : Int)
        ≤ ((s.remaining_time.count 0 : Nat) : Int) := not_lt.mp h1
    exact_mod_cast h2
  have hall := (List.count_eq_length (a := (0 : Int)) (l := s.remaining_time)).mp
    (le_antisymm (List.count_le_length _ _) hge)
  intro r hr
  exact (hall r hr).symm

/-- The tick-by-tick loop ends, within the iteration budget, in a state in
which every task has a non-negative waiting time and its output fields in the
relations `MetricsOK`. -/
theorem CPUScheduler.tick_loop_waiting (G : Int → Prop)
    (select : CPUScheduler.SimState → Option Nat) (hsel : SelectOK G select)
    (c0 : List Process)
    (hwf : ∀ p ∈ c0, p.arrival_time < INT_MAX ∧ 0 < p.burst_time ∧ p.burst_time < INT_MAX ∧
      G p.priority)
    (fuel : Nat) (hfuel : 2 * remainingTotal (c0.map (fun p => p.burst_time)) + 1 < fuel) :
    ∃ s, whileLoop CPUScheduler.tickCond (CPUScheduler.tickBody select) fuel
          (CPUScheduler.tickInit c0) = some s ∧
      ∀ p ∈ s.completed, 0 ≤ p.waiting_time ∧ p.MetricsOK := by
  obtain ⟨s, hs, ⟨hinv, hw⟩, hc⟩ := whileLoop_terminates CPUScheduler.tickCond
    (CPUScheduler.tickBody select) (fun s => TickInv c0 s ∧ WaitInv s) (tickMeasure select)
    (fun s hi hc =>
      ⟨⟨(CPUScheduler.tickBody_step G select hsel c0
          (fun p hp => ⟨(hwf p hp).1, (hwf p hp).2.2.2⟩) s hi.1 hc).1,
        WaitInv.wait_tickBody G select hsel c0
          (fun p hp => ⟨(hwf p hp).1, (hwf p hp).2.2.2⟩) s hi.1 hc hi.2⟩,
        (CPUScheduler.tickBody_step G select hsel c0
          (fun p hp => ⟨(hwf p hp).1, (hwf p hp).2.2.2⟩) s hi.1 hc).2⟩)
    fuel (CPUScheduler.tickInit c0)
    ⟨TickInv.init c0 (fun p hp => ⟨(hwf p hp).2.1, (hwf p hp).2.2.1⟩),
      WaitInv.wait_init c0 (fun p hp => (hwf p hp).2.1)⟩
    (by
      have : tickMeasure select (CPUScheduler.tickInit c0)
          ≤ 2 * remainingTotal (c0.map (fun p => p.burst_time)) + 1 := by
        simp only [tickMeasure, CPUScheduler.tickInit]
        split_ifs <;> omega
      omega)
  refine ⟨s, hs, ?_⟩
  intro p hp
  refine ⟨?_, hinv.all_metricsOK hc p hp⟩
  obtain ⟨i, hi⟩ := List.mem_iff_getElem?.mp hp
  have hlen : s.completed.length = s.remaining_time.length := by
    have := congrArg List.length hinv.inputs
    simp only [List.length_map] at this
    rw [this, hinv.len]
  have hi_lt : i < s.remaining_time.length := by
    rw [← hlen]
    exact (List.getElem?_eq_some.mp hi).1
  have hz := hinv.all_done hc _ (List.getElem_mem hi_lt)
  exact (hw i p _ hi (List.getElem?_eq_getElem hi_lt)).2.2 hz

theorem CPUScheduler.npFirstUnexecuted_arrival (ps : List Process) :
    ∀ (es : List Bool) (j k : Nat) (a : Int),
      CPUScheduler.npFirstUnexecuted ps es j = some (k, a) →
        ∃ (i : Nat) (p : Process), k = j + i ∧ ps[i]? = some p ∧ a = p.arrival_time := by
  induction ps with
  | nil => intro es j k a hk; simp [CPUScheduler.npFirstUnexecuted] at hk
  | cons p ps ih =>
    intro es j k a hk
    cases es with
    | nil => simp [CPUScheduler.npFirstUnexecuted] at hk
    | cons e es =>
      simp only [CPUScheduler.npFirstUnexecuted] at hk
      split_ifs at hk with hc
      · simp only [Option.some.injEq, Prod.mk.injEq] at hk
        exact ⟨0, p, by omega, by simp, hk.2.symm⟩
      · obtain ⟨i, q, hki, hq, ha⟩ := ih es (j + 1) k a hk
        exact ⟨i + 1, q, by omega, by simpa using hq, ha⟩

theorem NPInv.exists_unexecuted {c0 : List Process} {k : Nat} {s : CPUScheduler.NPState}
    (hinv : NPInv c0 k s) (hk : k < c0.length) : ∃ i : Nat, s.executed[i]? = some false := by
  have hlt : s.executed.count true < s.executed.length := by
    rw [hinv.count, hinv.len]
    exact hk
  have hex2 : ∃ e ∈ s.executed, e ≠ true := by
    by_contra hall
    push_neg at hall
    have := (List.count_eq_length (a := true) (l := s.executed)).mpr
      (fun b hb => (hall b hb).symm)
    omega
  obtain ⟨e, he, hne⟩ := hex2
  obtain ⟨i, hi⟩ := List.mem_iff_getElem?.mp he
  have : e = false := by simpa using hne
  exact ⟨i, this ▸ hi⟩

/-- With a negative burst time the clock of `runSJF` runs backwards, and the
rule of C33 fails on sorted input: after the task with burst -100 the clock is
-97, no unscheduled task has arrived, and task 3 (arrival 1) is scheduled
before task 2 (arrival 0). -/
theorem CPUScheduler.runSJF_negative_burst_clock_runs_back :
    (CPUScheduler.runSJF [mkProcess 1 0 3 1, mkProcess 2 0 10 1, mkProcess 3 1 20 1,
        mkProcess 4 2 5 1, mkProcess 5 3 (-100) 1]).completed.map
      (fun p => (p.id, p.completion_time))
        = [(1, 3), (5, -97), (3, 21), (4, 26), (2, 36)] := by
  decide

/-! ### Round Robin with a quantum that covers every burst -/

theorem CPUScheduler.sortByArrival_sorted (processes : List Process) :
    (CPUScheduler.sortByArrival processes).Sorted
      (fun a b => a.arrival_time ≤ b.arrival_time) := by
  haveI : IsTotal Process (fun a b => a.arrival_time ≤ b.arrival_time) :=
    ⟨fun a b => le_total a.arrival_time b.arrival_time⟩
  haveI : IsTrans Process (fun a b => a.arrival_time ≤ b.arrival_time) :=
    ⟨fun a b c hab hbc => le_trans hab hbc⟩
  exact List.sorted_insertionSort _ _

theorem wrapInt_eq (x : Int) (h1 : -2147483648 ≤ x) (h2 : x ≤ INT_MAX) : wrapInt x = x := by
  unfold INT_MAX at h2
  unfold wrapInt
  omega

theorem wrapInt_range (x : Int) : -2147483648 ≤ wrapInt x ∧ wrapInt x ≤ INT_MAX := by
  unfold INT_MAX wrapInt
  omega

theorem wrapInt_add_left (a b : Int) : wrapInt (wrapInt a + b) = wrapInt (a + b) := by
  unfold wrapInt
  omega

theorem wrapInt_sub_left (a b : Int) : wrapInt (wrapInt a - b) = wrapInt (a - b) := by
  unfold wrapInt
  omega

theorem wrapInt_idem (a : Int) : wrapInt (wrapInt a) = wrapInt a := by
  unfold wrapInt
  omega

theorem CPUScheduler.fcfsLoop32_eq (l : List Process) :
    ∀ current_time : Int, 0 ≤ current_time →
      (∀ p ∈ l, 0 ≤ p.arrival_time ∧ 0 ≤ p.burst_time) →
      current_time + (l.map (fun p => p.burst_time)).sum ≤ INT_MAX →
      (∀ p ∈ l, p.arrival_time + (l.map (fun p => p.burst_time)).sum ≤ INT_MAX) →
      CPUScheduler.fcfsLoop32 current_time l = CPUScheduler.fcfsLoop current_time l := by
  induction l with
  | nil => intro ct _ _ _ _; rfl
  | cons p ps ih =>
    intro ct hct hwf hsum hfit
    have hp := hwf p (List.mem_cons_self _ _)
    have hpf := hfit p (List.mem_cons_self _ _)
    have hs0 : 0 ≤ (ps.map (fun p => p.burst_time)).sum :=
      List.sum_nonneg (fun x hx => by
        obtain ⟨q, hq, rfl⟩ := List.mem_map.mp hx
        exact (hwf q (List.mem_cons_of_mem _ hq)).2)
    simp only [List.map_cons, List.sum_cons] at hsum hpf
    have hstart : 0 ≤ (if ct < p.arrival_time then p.arrival_time else ct) ∧
        (if ct < p.arrival_time then p.arrival_time else ct) + p.burst_time
          + (ps.map (fun p => p.burst_time)).sum ≤ INT_MAX ∧
        p.arrival_time ≤ (if ct < p.arrival_time then p.arrival_time else ct) := by
      split_ifs <;> omega
    obtain ⟨h0, h1, h2⟩ := hstart
    have hrec := ih ((if ct < p.arrival_time then p.arrival_time else ct) + p.burst_time)
      (by omega) (fun q hq => hwf q (List.mem_cons_of_mem _ hq)) (by omega)
      (fun q hq => by
        have := hfit q (List.mem_cons_of_mem _ hq)
        simp only [List.map_cons, List.sum_cons] at this
        omega)
    have e1 : wrapInt ((if ct < p.arrival_time then p.arrival_time else ct) + p.burst_time)
        = (if ct < p.arrival_time then p.arrival_time else ct) + p.burst_time :=
      wrapInt_eq _ (by omega) (by omega)
    have e2 : wrapInt ((if ct < p.arrival_time then p.arrival_time else ct) - p.arrival_time)
        = (if ct < p.arrival_time then p.arrival_time else ct) - p.arrival_time :=
      wrapInt_eq _ (by omega) (by omega)
    have e3 : wrapInt ((if ct < p.arrival_time then p.arrival_time else ct) + p.burst_time
          - p.arrival_time)
        = (if ct < p.arrival_time then p.arrival_time else ct) + p.burst_time
          - p.arrival_time :=
      wrapInt_eq _ (by omega) (by omega)
    simp only [CPUScheduler.fcfsLoop32, CPUScheduler.fcfsLoop, e1, e2, e3, hrec]

theorem CPUScheduler.sjfLoop32_eq (n : Nat) :
    ∀ (l : List Process) (current_time : Int), 0 ≤ current_time →
      (∀ p ∈ l, 0 ≤ p.arrival_time ∧ 0 ≤ p.burst_time) →
      current_time + (l.map (fun p => p.burst_time)).sum ≤ INT_MAX →
      (∀ p ∈ l, p.arrival_time + (l.map (fun p => p.burst_time)).sum ≤ INT_MAX) →
      CPUScheduler.sjfLoop32 n current_time l = CPUScheduler.sjfLoop n current_time l := by
  induction n with
  | zero => intro l ct _ _ _ _; rfl
  | succ n ih =>
    intro l ct hct hwf hsum hfit
    cases l with
    | nil => rfl
    | cons r rest =>
      have hperm := CPUScheduler.sjfScan_perm ct rest r
      generalize hsc : CPUScheduler.sjfScan ct r rest = sc at hperm
      obtain ⟨p, ps⟩ := sc
      simp only at hperm
      have hwf2 : ∀ q ∈ p :: ps, 0 ≤ q.arrival_time ∧ 0 ≤ q.burst_time :=
        fun q hq => hwf q (hperm.subset hq)
      have hsumeq : ((p :: ps).map (fun p => p.burst_time)).sum
          = ((r :: rest).map (fun p => p.burst_time)).sum :=
        (hperm.map (fun p => p.burst_time)).sum_eq
      rw [← hsumeq] at hsum
      have hfit2 : ∀ q ∈ p :: ps,
          q.arrival_time + ((p :: ps).map (fun p => p.burst_time)).sum ≤ INT_MAX := by
        intro q hq
        rw [hsumeq]
        exact hfit q (hperm.subset hq)
      have hp := hwf2 p (List.mem_cons_self _ _)
      have hpf := hfit2 p (List.mem_cons_self _ _)
      have hs0 : 0 ≤ (ps.map (fun p => p.burst_time)).sum :=
        List.sum_nonneg (fun x hx => by
          obtain ⟨q, hq, rfl⟩ := List.mem_map.mp hx
          exact (hwf2 q (List.mem_cons_of_mem _ hq)).2)
      simp only [List.map_cons, List.sum_cons] at hsum hpf
      have hstart : 0 ≤ (if ct < p.arrival_time then p.arrival_time else ct) ∧
          (if ct < p.arrival_time then p.arrival_time else ct) + p.burst_time
            + (ps.map (fun p => p.burst_time)).sum ≤ INT_MAX ∧
          p.arrival_time ≤ (if ct < p.arrival_time then p.arrival_time else ct) := by
        split_ifs <;> omega
      obtain ⟨h0, h1, h2⟩ := hstart
      have hrec := ih ps ((if ct < p.arrival_time then p.arrival_time else ct) + p.burst_time)
        (by omega) (fun q hq => hwf2 q (List.mem_cons_of_mem _ hq)) (by omega)
        (fun q hq => by
          have := hfit2 q (List.mem_cons_of_mem _ hq)
          simp only [List.map_cons, List.sum_cons] at this
          omega)
      have e1 : wrapInt ((if ct < p.arrival_time then p.arrival_time else ct) + p.burst_time)
          = (if ct < p.arrival_time then p.arrival_time else ct) + p.burst_time :=
        wrapInt_eq _ (by omega) (by omega)
      have e2 : wrapInt ((if ct < p.arrival_time then p.arrival_time else ct) - p.arrival_time)
          = (if ct < p.arrival_time then p.arrival_time else ct) - p.arrival_time :=
        wrapInt_eq _ (by omega) (by omega)
      have e3 : wrapInt ((if ct < p.arrival_time then p.arrival_time else ct) + p.burst_time
            - p.arrival_time)
          = (if ct < p.arrival_time then p.arrival_time else ct) + p.burst_time
            - p.arrival_time :=
        wrapInt_eq _ (by omega) (by omega)
      simp only [CPUScheduler.sjfLoop32, CPUScheduler.sjfLoop, hsc, e1, e2, e3, hrec]

theorem CPUScheduler.fcfsLoop32_metricsOK32 (l : List Process) :
    ∀ current_time : Int, ∀ c ∈ (CPUScheduler.fcfsLoop32 current_time l).1, c.MetricsOK32 := by
  induction l with
  | nil => intro ct c hc; simp [CPUScheduler.fcfsLoop32] at hc
  | cons p ps ih =>
    intro ct c hc
    simp only [CPUScheduler.fcfsLoop32, List.mem_cons] at hc
    rcases hc with rfl | hc
    · constructor
      · rfl
      · simp only
        unfold wrapInt
        omega
    · exact ih _ c hc

theorem CPUScheduler.sjfLoop32_metricsOK32 (n : Nat) :
    ∀ (l : List Process) (current_time : Int), l.length ≤ n →
      ∀ c ∈ (CPUScheduler.sjfLoop32 n current_time l).1, c.MetricsOK32 := by
  induction n with
  | zero =>
    intro l ct hl c hc
    have : l = [] := List.length_eq_zero.mp (by omega)
    subst this
    simp [CPUScheduler.sjfLoop32] at hc
  | succ n ih =>
    intro l ct hl c hc
    cases l with
    | nil => simp [CPUScheduler.sjfLoop32] at hc
    | cons r rest =>
      have hperm := CPUScheduler.sjfScan_perm ct rest r
      have hlen := hperm.length_eq
      simp only [List.length_cons] at hlen hl
      simp only [CPUScheduler.sjfLoop32, List.mem_cons] at hc
      rcases hc with rfl | hc
      · constructor
        · rfl
        · simp only
          unfold wrapInt
          omega
      · exact ih _ _ (by omega) c hc

theorem whileLoop_congr {σ : Type} (cond cond2 : σ → Bool) (body body2 : σ → σ)
    (Inv : σ → Prop) (hcond : ∀ s, Inv s → cond2 s = cond s)
    (hbody : ∀ s, Inv s → cond s = true → body2 s = body s ∧ Inv (body s)) :
    ∀ (fuel : Nat) (s : σ), Inv s →
      whileLoop cond2 body2 fuel s = whileLoop cond body fuel s := by
  intro fuel
  induction fuel with
  | zero => intro s _; rfl
  | succ fuel ih =>
    intro s hs
    simp only [whileLoop, hcond s hs]
    by_cases hc : cond s = true
    · simp only [hc, if_true]
      rw [(hbody s hs hc).1]
      exact ih _ (hbody s hs hc).2
    · simp only [hc, if_false]
      simp

theorem remainingTotal_ge (rs : List Int) :
    ∀ (k : Nat) (r : Int), rs[k]? = some r → r.toNat ≤ remainingTotal rs := by
  induction rs with
  | nil => intro k r h; simp at h
  | cons x xs ih =>
    intro k r h
    cases k with
    | zero =>
      simp only [List.getElem?_cons_zero, Option.some.injEq] at h
      subst h
      simp [remainingTotal]
    | succ k =>
      simp only [List.getElem?_cons_succ] at h
      have := ih k r h
      simp only [remainingTotal, List.map_cons, List.sum_cons] at this ⊢
      omega

theorem ClockInv.clock_init (c0 : List Process)
    (hfit : ∀ p ∈ c0, 0 ≤ p.arrival_time ∧
      p.arrival_time + (remainingTotal (c0.map (fun p => p.burst_time)) : Int) ≤ INT_MAX) :
    ClockInv (remainingTotal (c0.map (fun p => p.burst_time))) (CPUScheduler.tickInit c0) := by
  refine ⟨le_refl _, ?_, le_refl _⟩
  cases c0 with
  | nil => simp [CPUScheduler.tickInit, remainingTotal, INT_MAX]
  | cons p ps =>
    have := hfit p (List.mem_cons_self _ _)
    simp only [CPUScheduler.tickInit]
    omega

theorem ClockInv.clock_tickBody (G : Int → Prop) (select : CPUScheduler.SimState → Option Nat)
    (hsel : SelectOK G select) (c0 : List Process)
    (hwf : ∀ p ∈ c0, p.arrival_time < INT_MAX ∧ G p.priority) (total : Nat)
    (hfit : ∀ p ∈ c0, 0 ≤ p.arrival_time ∧ p.arrival_time + (total : Int) ≤ INT_MAX)
    (s : CPUScheduler.SimState) (hinv : TickInv c0 s) (hc : CPUScheduler.tickCond s = true)
    (hcl : ClockInv total s) : ClockInv total (CPUScheduler.tickBody select s) := by
  obtain ⟨c1, c2, c3⟩ := hcl
  cases hs : select s with
  | none =>
    obtain ⟨h1, h2, -⟩ := CPUScheduler.tickBody_idle select s hs
    obtain ⟨i0, p0, r0, hp0, -, -, hlt, htime⟩ :=
      CPUScheduler.tickBody_idle_progress G select hsel c0 hwf s hinv hc hs
    obtain ⟨q, -, hq, hqi⟩ := inputs_getElem? hinv.inputs i0 p0 hp0
    have harr := (Process.arrival_of_input hqi).1
    have := hfit q hq
    refine ⟨?_, ?_, ?_⟩
    · rw [htime]; omega
    · rw [htime, h1]; omega
    · rw [h1]; exact c3
  | some k =>
    obtain ⟨pk, rk, hpk, hrk, hpos, harr⟩ := hsel.1 s k hs
    obtain ⟨h1, h2⟩ := CPUScheduler.tickBody_serve select s k rk hs hrk
    have hset := remainingTotal_set s.remaining_time k rk (rk - 1) hrk
    have hge := remainingTotal_ge s.remaining_time k rk hrk
    refine ⟨?_, ?_, ?_⟩
    · rw [h2]; omega
    · rw [h1, h2]; omega
    · rw [h1]; omega

theorem CPUScheduler.recordCompletion32_eq (t : Int) (p : Process)
    (ht : 0 ≤ t ∧ t ≤ INT_MAX) (hb : 0 ≤ p.burst_time ∧ p.burst_time ≤ INT_MAX)
    (ha : 0 ≤ p.arrival_time) (hw : p.arrival_time + p.burst_time ≤ t) :
    CPUScheduler.recordCompletion32 t p = CPUScheduler.recordCompletion t p := by
  have e1 : wrapInt (t - p.burst_time) = t - p.burst_time :=
    wrapInt_eq _ (by unfold INT_MAX at *; omega) (by omega)
  have e2 : wrapInt (t - p.burst_time - p.arrival_time) = t - p.burst_time - p.arrival_time :=
    wrapInt_eq _ (by omega) (by omega)
  have e3 : wrapInt (t - p.arrival_time) = t - p.arrival_time :=
    wrapInt_eq _ (by omega) (by omega)
  simp only [CPUScheduler.recordCompletion32, CPUScheduler.recordCompletion, e1, e2, e3]

theorem CPUScheduler.tickCond32_eq (c0 : List Process) (hlen : (c0.length : Int) ≤ INT_MAX)
    (s : CPUScheduler.SimState) (hinv : TickInv c0 s) :
    CPUScheduler.tickCond32 s = CPUScheduler.tickCond s := by
  have hl : s.completed.length = c0.length := by
    have := congrArg List.length hinv.inputs
    simpa using this
  have e : wrapInt (s.completed.length : Int) = (s.completed.length : Int) :=
    wrapInt_eq _ (by omega) (by rw [hl]; exact hlen)
  simp only [CPUScheduler.tickCond32, CPUScheduler.tickCond, e]

theorem CPUScheduler.tickBody32_eq (G : Int → Prop)
    (select : CPUScheduler.SimState → Option Nat) (hsel : SelectOK G select)
    (c0 : List Process)
    (hwf : ∀ p ∈ c0, 0 ≤ p.arrival_time ∧ 0 < p.burst_time ∧ p.burst_time < INT_MAX)
    (hlen : (c0.length : Int) ≤ INT_MAX) (total : Nat)
    (s : CPUScheduler.SimState) (hinv : TickInv c0 s) (hw : WaitInv s)
    (hcl : ClockInv total s) (hc : CPUScheduler.tickCond s = true) :
    CPUScheduler.tickBody32 select s = CPUScheduler.tickBody select s := by
  obtain ⟨c1, c2, c3⟩ := hcl
  cases hs : select s with
  | none => simp only [CPUScheduler.tickBody32, CPUScheduler.tickBody, hs]
  | some k =>
    obtain ⟨pk, rk, hpk, hrk, hpos, harr⟩ := hsel.1 s k hs
    obtain ⟨q, -, hq, hqi⟩ := inputs_getElem? hinv.inputs k pk hpk
    obtain ⟨ha, hb, -⟩ := Process.arrival_of_input hqi
    obtain ⟨hq1, hq2, hq3⟩ := hwf q hq
    have hrange := hinv.range k rk hrk
    have hge := remainingTotal_ge s.remaining_time k rk hrk
    obtain ⟨wk1, wk2, -⟩ := hw k pk rk hpk hrk
    have hget : s.remaining_time.getD k 0 = rk := by
      rw [List.getD_eq_getElem?_getD, hrk]
      rfl
    have e1 : wrapInt (rk - 1) = rk - 1 := wrapInt_eq _ (by omega) (by omega)
    have e2 : wrapInt (s.current_time + 1) = s.current_time + 1 :=
      wrapInt_eq _ (by omega) (by omega)
    have hl : s.completed.length = c0.length := by
      have := congrArg List.length hinv.inputs
      simpa using this
    have hproc : s.processed < (c0.length : Int) := by
      have := hc
      simp only [CPUScheduler.tickCond, decide_eq_true_eq, hl] at this
      exact this
    have hproc0 : 0 ≤ s.processed := by
      rw [hinv.count]
      omega
    have e3 : wrapInt (s.processed + 1) = s.processed + 1 :=
      wrapInt_eq _ (by omega) (by omega)
    simp only [CPUScheduler.tickBody32, CPUScheduler.tickBody, hs, hget, e1, e2, e3]
    by_cases hz : rk - 1 = 0
    · simp only [hz, if_true]
      have hrec : CPUScheduler.recordCompletion32 (s.current_time + 1) pk
          = CPUScheduler.recordCompletion (s.current_time + 1) pk := by
        apply CPUScheduler.recordCompletion32_eq
        · omega
        · unfold INT_MAX at *; omega
        · omega
        · by_cases hb2 : rk < pk.burst_time
          · have := wk2 hb2
            omega
          · omega
      simp only [CPUScheduler.modifyAt, hpk, hrec]
    · simp only [hz, if_false]

theorem remainingTotal_eq_sum (l : List Int) (h : ∀ x ∈ l, 0 ≤ x) :
    (remainingTotal l : Int) = l.sum := by
  induction l with
  | nil => rfl
  | cons x xs ih =>
    have hx := h x (List.mem_cons_self _ _)
    have := ih (fun y hy => h y (List.mem_cons_of_mem _ hy))
    simp only [remainingTotal, List.map_cons, List.sum_cons] at this ⊢
    rw [Nat.cast_add, this, Int.toNat_of_nonneg hx]

theorem length_le_sum (l : List Int) (h : ∀ x ∈ l, 1 ≤ x) : (l.length : Int) ≤ l.sum := by
  induction l with
  | nil => simp
  | cons x xs ih =>
    have hx := h x (List.mem_cons_self _ _)
    have := ih (fun y hy => h y (List.mem_cons_of_mem _ hy))
    simp only [List.length_cons, List.sum_cons]
    push_cast
    omega

theorem pendingBurst_set (ps : List Process) :
    ∀ (es : List Bool) (j : Nat) (p q : Process), ps[j]? = some p → es[j]? = some false →
      pendingBurst (ps.set j q) (es.set j true) + p.burst_time.toNat = pendingBurst ps es := by
  induction ps with
  | nil => intro es j p q hp _; simp at hp
  | cons x xs ih =>
    intro es j p q hp he
    cases es with
    | nil => simp at he
    | cons e es =>
      cases j with
      | zero =>
        simp only [List.getElem?_cons_zero, Option.some.injEq] at hp he
        subst hp
        subst he
        simp only [List.set_cons_zero, pendingBurst]
        simp
        omega
      | succ j =>
        simp only [List.getElem?_cons_succ] at hp he
        have := ih es j p q hp he
        simp only [List.set_cons_succ, pendingBurst]
        omega

theorem pendingBurst_init (c0 : List Process) :
    pendingBurst c0 (c0.map (fun _ => false))
      = remainingTotal (c0.map (fun p => p.burst_time)) := by
  induction c0 with
  | nil => rfl
  | cons x xs ih =>
    show (if false then 0 else x.burst_time.toNat) + pendingBurst xs (xs.map (fun _ => false))
      = remainingTotal (x.burst_time :: xs.map (fun p => p.burst_time))
    rw [ih]
    simp [remainingTotal]

theorem CPUScheduler.npBody_both (s : CPUScheduler.NPState)
    (hlen : s.executed.length = s.completed.length)
    (hex : ∃ i : Nat, s.executed[i]? = some false) :
    ∃ (j : Nat) (p : Process) (t0 : Int),
      s.completed[j]? = some p ∧ s.executed[j]? = some false ∧
        p.arrival_time ≤ t0 ∧ (t0 = s.current_time ∨ t0 = p.arrival_time) ∧
        CPUScheduler.npBody s
          = { completed := s.completed.set j
                (CPUScheduler.recordCompletion (t0 + p.burst_time) p),
              executed := s.executed.set j true,
              current_time := t0 + p.burst_time } ∧
        CPUScheduler.npBody32 s
          = { completed := s.completed.set j
                (CPUScheduler.recordCompletion32 (wrapInt (t0 + p.burst_time)) p),
              executed := s.executed.set j true,
              current_time := wrapInt (t0 + p.burst_time) } := by
  cases hscan : CPUScheduler.npScan s.current_time s.completed s.executed 0 none (-1) with
  | some j =>
    rcases CPUScheduler.npScan_spec s.current_time s.completed s.executed 0 none (-1) with
      ⟨hnone, -⟩ | ⟨k, pk, rk, hres, hpk, hrk, hrkf, harr, -, -⟩
    · rw [hscan] at hnone
      exact absurd hnone (by simp)
    · rw [hscan, Nat.zero_add, Option.some.injEq] at hres
      subst hres
      subst hrkf
      exact ⟨j, pk, s.current_time, hpk, hrk, harr, Or.inl rfl,
        by simp only [CPUScheduler.npBody, hscan, hpk],
        by simp only [CPUScheduler.npBody32, hscan, hpk]⟩
  | none =>
    obtain ⟨i, hi⟩ := hex
    have hi_lt : i < s.completed.length := by
      rw [← hlen]
      exact (List.getElem?_eq_some.mp hi).1
    cases hfu : CPUScheduler.npFirstUnexecuted s.completed s.executed 0 with
    | none =>
      exact absurd hfu (CPUScheduler.npFirstUnexecuted_ne_none _ _ 0 i _
        (List.getElem?_eq_getElem hi_lt) hi)
    | some ja =>
      obtain ⟨j, a⟩ := ja
      obtain ⟨i', p, hji, hp, he⟩ := CPUScheduler.npFirstUnexecuted_some _ _ _ _ _ hfu
      obtain ⟨i2, p2, hji2, hp2, ha⟩ := CPUScheduler.npFirstUnexecuted_arrival _ _ _ _ _ hfu
      have e1 : i' = j := by omega
      have e2 : i2 = j := by omega
      subst e1
      subst e2
      rw [hp] at hp2
      have e3 := Option.some.inj hp2
      subst e3
      exact ⟨_, p, a, hp, he, by omega, Or.inr ha,
        by simp only [CPUScheduler.npBody, hscan, hfu, hp],
        by simp only [CPUScheduler.npBody32, hscan, hfu, hp]⟩

theorem CPUScheduler.recordCompletion32_metricsOK32 (t : Int) (p : Process) :
    (CPUScheduler.recordCompletion32 t p).MetricsOK32 := by
  constructor
  · rfl
  · simp only [CPUScheduler.recordCompletion32]
    unfold wrapInt
    omega

theorem CPUScheduler.recordCompletion32_input (t : Int) (p : Process) :
    (CPUScheduler.recordCompletion32 t p).input = p.input := rfl

theorem CPUScheduler.npBody32_step (c0 : List Process) (k : Nat) (s : CPUScheduler.NPState)
    (hinv : s.completed.map Process.input = c0.map Process.input ∧
      s.executed.length = c0.length ∧
      (∀ (i : Nat) (p : Process),
        s.completed[i]? = some p → s.executed[i]? = some true → p.MetricsOK32) ∧
      s.executed.count true = k)
    (hk : k < c0.length) :
    (CPUScheduler.npBody32 s).completed.map Process.input = c0.map Process.input ∧
      (CPUScheduler.npBody32 s).executed.length = c0.length ∧
      (∀ (i : Nat) (p : Process), (CPUScheduler.npBody32 s).completed[i]? = some p →
        (CPUScheduler.npBody32 s).executed[i]? = some true → p.MetricsOK32) ∧
      (CPUScheduler.npBody32 s).executed.count true = k + 1 := by
  obtain ⟨hin, hel, hdone, hcount⟩ := hinv
  have hlen : s.completed.length = c0.length := by
    have := congrArg List.length hin
    simpa using this
  have hex : ∃ i : Nat, s.executed[i]? = some false := by
    have hlt : s.executed.count true < s.executed.length := by
      rw [hcount, hel]
      exact hk
    have hex2 : ∃ e ∈ s.executed, e ≠ true := by
      by_contra hall
      push_neg at hall
      have := (List.count_eq_length (a := true) (l := s.executed)).mpr
        (fun b hb => (hall b hb).symm)
      omega
    obtain ⟨e, he, hne⟩ := hex2
    obtain ⟨i, hi⟩ := List.mem_iff_getElem?.mp he
    have : e = false := by simpa using hne
    exact ⟨i, this ▸ hi⟩
  obtain ⟨j, p, t0, hp, he, -, -, -, hbody⟩ :=
    CPUScheduler.npBody_both s (by rw [hel, hlen]) hex
  have hj_lt : j < s.executed.length := (List.getElem?_eq_some.mp he).1
  rw [hbody]
  refine ⟨?_, ?_, ?_, ?_⟩
  · simp only [List.map_set, CPUScheduler.recordCompletion32_input]
    rw [← hin]
    have hpk : (s.completed.map Process.input)[j]? = some p.input := by
      simp [List.getElem?_map, hp]
    exact set_eq_self_of_getElem? _ j _ hpk
  · simp [hel]
  · intro i q hq hz
    simp only at hq hz
    rw [List.getElem?_set] at hq
    split_ifs at hq with h1
    · simp only [Option.some.injEq] at hq
      rw [← hq]
      exact CPUScheduler.recordCompletion32_metricsOK32 _ _
    · rw [List.getElem?_set_ne h1] at hz
      exact hdone i q hq hz
  · simp only
    rw [List.count_set true true s.executed j hj_lt, hcount]
    have hgj : s.executed[j] = false := (List.getElem?_eq_some.mp he).2
    simp [hgj]

theorem CPUScheduler.runNonPreemptivePriority32_metricsOK32 (c0 : List Process) :
    (∀ p ∈ CPUScheduler.runNonPreemptivePriority32 c0, p.MetricsOK32) ∧
      (CPUScheduler.runNonPreemptivePriority32 c0).map Process.input
        = c0.map Process.input := by
  have hloop : ∀ k : Nat, k ≤ c0.length →
      (CPUScheduler.npBody32^[k] (⟨c0, c0.map (fun _ => false), 0⟩ : CPUScheduler.NPState)).completed.map Process.input = c0.map Process.input ∧
        (CPUScheduler.npBody32^[k] (⟨c0, c0.map (fun _ => false), 0⟩ : CPUScheduler.NPState)).executed.length = c0.length ∧
        (∀ (i : Nat) (p : Process),
          (CPUScheduler.npBody32^[k] (⟨c0, c0.map (fun _ => false), 0⟩ : CPUScheduler.NPState)).completed[i]? = some p →
          (CPUScheduler.npBody32^[k] (⟨c0, c0.map (fun _ => false), 0⟩ : CPUScheduler.NPState)).executed[i]? = some true → p.MetricsOK32) ∧
        (CPUScheduler.npBody32^[k] (⟨c0, c0.map (fun _ => false), 0⟩ : CPUScheduler.NPState)).executed.count true = k := by
    intro k
    induction k with
    | zero =>
      intro _
      refine ⟨rfl, by simp, ?_, ?_⟩
      · intro i p _ he
        simp only [Function.iterate_zero, id_eq, List.getElem?_map] at he
        cases hc : c0[i]? <;> simp [hc] at he
      · simp only [Function.iterate_zero, id_eq]
        rw [List.count_eq_zero]
        simp
    | succ k ih =>
      intro hk
      rw [Function.iterate_succ_apply']
      exact CPUScheduler.npBody32_step c0 k _ (ih (by omega)) (by omega)
  obtain ⟨hin, hel, hdone, hcount⟩ := hloop c0.length (le_refl _)
  refine ⟨?_, hin⟩
  have hlen : (CPUScheduler.npBody32^[c0.length]
      (⟨c0, c0.map (fun _ => false), 0⟩ : CPUScheduler.NPState)).completed.length = c0.length := by
    have := congrArg List.length hin
    simpa using this
  have hall := (List.count_eq_length (a := true) (l := _)).mp (hcount.trans hel.symm)
  intro p hp
  obtain ⟨i, hi⟩ := List.mem_iff_getElem?.mp hp
  have hi_lt : i < (CPUScheduler.npBody32^[c0.length]
      (⟨c0, c0.map (fun _ => false), 0⟩ : CPUScheduler.NPState)).executed.length := by
    have := (List.getElem?_eq_some.mp hi).1
    rw [hel]
    simp only [CPUScheduler.runNonPreemptivePriority32] at this
    omega
  refine hdone i p hi ?_
  rw [List.getElem?_eq_getElem hi_lt]
  exact congrArg some (hall _ (List.getElem_mem hi_lt)).symm

theorem CPUScheduler.npLoop32_eq (c0 : List Process)
    (hwf : ∀ p ∈ c0, 0 ≤ p.arrival_time ∧ 0 ≤ p.burst_time)
    (hfit : ∀ p ∈ c0,
      p.arrival_time + (remainingTotal (c0.map (fun p => p.burst_time)) : Int) ≤ INT_MAX) :
    ∀ k : Nat, k ≤ c0.length →
      CPUScheduler.npBody32^[k] (⟨c0, c0.map (fun _ => false), 0⟩ : CPUScheduler.NPState)
        = CPUScheduler.npBody^[k] (⟨c0, c0.map (fun _ => false), 0⟩ : CPUScheduler.NPState) ∧
      0 ≤ (CPUScheduler.npBody^[k] (⟨c0, c0.map (fun _ => false), 0⟩ : CPUScheduler.NPState)).current_time ∧
      (CPUScheduler.npBody^[k] (⟨c0, c0.map (fun _ => false), 0⟩ : CPUScheduler.NPState)).current_time
        + (pendingBurst
            (CPUScheduler.npBody^[k] (⟨c0, c0.map (fun _ => false), 0⟩ : CPUScheduler.NPState)).completed
            (CPUScheduler.npBody^[k] (⟨c0, c0.map (fun _ => false), 0⟩ : CPUScheduler.NPState)).executed : Int) ≤ INT_MAX ∧
      pendingBurst
          (CPUScheduler.npBody^[k] (⟨c0, c0.map (fun _ => false), 0⟩ : CPUScheduler.NPState)).completed
          (CPUScheduler.npBody^[k] (⟨c0, c0.map (fun _ => false), 0⟩ : CPUScheduler.NPState)).executed
        ≤ remainingTotal (c0.map (fun p => p.burst_time)) := by
  have h0 : NPInv c0 0
      (⟨c0, c0.map (fun _ => false), 0⟩ : CPUScheduler.NPState) := by
    refine ⟨rfl, by simp, ?_, ?_⟩
    · intro i p _ he
      simp only [List.getElem?_map] at he
      cases hc : c0[i]? <;> simp [hc] at he
    · simp only
      rw [List.count_eq_zero]
      simp
  intro k
  induction k with
  | zero =>
    intro _
    simp only [Function.iterate_zero, id_eq]
    refine ⟨trivial, le_refl _, ?_, ?_⟩
    · rw [pendingBurst_init]
      cases c0 with
      | nil => simp [remainingTotal, INT_MAX]
      | cons x xs =>
        have := hfit x (List.mem_cons_self _ _)
        have := hwf x (List.mem_cons_self _ _)
        omega
    · rw [pendingBurst_init]
  | succ k ih =>
    intro hk
    obtain ⟨heq, hct, hclk, hpend⟩ := ih (by omega)
    have hinv := CPUScheduler.npLoop_inv c0 _ h0 k (by omega)
    rw [Function.iterate_succ_apply', Function.iterate_succ_apply', heq]
    generalize CPUScheduler.npBody^[k] (⟨c0, c0.map (fun _ => false), 0⟩ : CPUScheduler.NPState) = s at hinv hct hclk hpend ⊢
    have hlen : s.completed.length = c0.length := by
      have := congrArg List.length hinv.inputs
      simpa using this
    obtain ⟨j, p, t0, hp, he, harr, ht0, hb, hb32⟩ :=
      CPUScheduler.npBody_both s (by rw [hinv.len, hlen]) (hinv.exists_unexecuted (by omega))
    obtain ⟨q, -, hq, hqi⟩ := inputs_getElem? hinv.inputs j p hp
    obtain ⟨ha, hbu, -⟩ := Process.arrival_of_input hqi
    obtain ⟨hq1, hq2⟩ := hwf q hq
    have hqf := hfit q hq
    have hset := pendingBurst_set s.completed s.executed j p
      (CPUScheduler.recordCompletion (t0 + p.burst_time) p) hp he
    have hbn : (p.burst_time.toNat : Int) = p.burst_time := Int.toNat_of_nonneg (by omega)
    have ht0b : 0 ≤ t0 ∧ t0 + (pendingBurst s.completed s.executed : Int) ≤ INT_MAX := by
      rcases ht0 with h | h <;> omega
    have e1 : wrapInt (t0 + p.burst_time) = t0 + p.burst_time :=
      wrapInt_eq _ (by omega) (by omega)
    have e2 : CPUScheduler.recordCompletion32 (t0 + p.burst_time) p
        = CPUScheduler.recordCompletion (t0 + p.burst_time) p :=
      CPUScheduler.recordCompletion32_eq _ _ ⟨by omega, by omega⟩ ⟨by omega, by omega⟩
        (by omega) (by omega)
    rw [hb32, e1, e2, hb]
    refine ⟨rfl, ?_, ?_, ?_⟩
    · simp only; omega
    · simp only; omega
    · simp only; omega

theorem CPUScheduler.runNonPreemptivePriority32_eq (c0 : List Process)
    (hwf : ∀ p ∈ c0, 0 ≤ p.arrival_time ∧ 0 ≤ p.burst_time)
    (hfit : ∀ p ∈ c0,
      p.arrival_time + (remainingTotal (c0.map (fun p => p.burst_time)) : Int) ≤ INT_MAX) :
    CPUScheduler.runNonPreemptivePriority32 c0 = CPUScheduler.runNonPreemptivePriority c0 := by
  simp only [CPUScheduler.runNonPreemptivePriority32, CPUScheduler.runNonPreemptivePriority,
    (CPUScheduler.npLoop32_eq c0 hwf hfit c0.length (le_refl _)).1]

theorem CPUScheduler.tick_loop32 (G : Int → Prop)
    (select : CPUScheduler.SimState → Option Nat) (hsel : SelectOK G select)
    (c0 : List Process)
    (hwf : ∀ p ∈ c0, 0 ≤ p.arrival_time ∧ 0 < p.burst_time ∧ p.burst_time < INT_MAX ∧
      G p.priority)
    (hfit : ∀ p ∈ c0, p.arrival_time + (c0.map (fun p => p.burst_time)).sum ≤ INT_MAX)
    (fuel : Nat) (hfuel : 2 * remainingTotal (c0.map (fun p => p.burst_time)) + 1 < fuel) :
    ∃ s, whileLoop CPUScheduler.tickCond32 (CPUScheduler.tickBody32 select) fuel
          (CPUScheduler.tickInit c0) = some s ∧
      whileLoop CPUScheduler.tickCond (CPUScheduler.tickBody select) fuel
          (CPUScheduler.tickInit c0) = some s ∧
      s.completed.map Process.input = c0.map Process.input ∧
      ∀ p ∈ s.completed, 0 ≤ p.waiting_time ∧ p.MetricsOK := by
  have hsumeq : (remainingTotal (c0.map (fun p => p.burst_time)) : Int)
      = (c0.map (fun p => p.burst_time)).sum :=
    remainingTotal_eq_sum _ (fun x hx => by
      obtain ⟨q, hq, rfl⟩ := List.mem_map.mp hx
      exact le_of_lt (hwf q hq).2.1)
  have hls : ((c0.map (fun p => p.burst_time)).length : Int)
      ≤ (c0.map (fun p => p.burst_time)).sum :=
    length_le_sum _ (fun x hx => by
      obtain ⟨q, hq, rfl⟩ := List.mem_map.mp hx
      have := (hwf q hq).2.1
      omega)
  rw [List.length_map] at hls
  have harr : ∀ p ∈ c0, p.arrival_time < INT_MAX := by
    intro p hp
    have h1 := hfit p hp
    have h2 : 0 < c0.length := List.length_pos_of_mem hp
    omega
  have hlen : (c0.length : Int) ≤ INT_MAX := by
    cases c0 with
    | nil => simp [INT_MAX]
    | cons p ps =>
      have h1 := hfit p (List.mem_cons_self _ _)
      have h2 := (hwf p (List.mem_cons_self _ _)).1
      omega
  have hwf1 : ∀ p ∈ c0, p.arrival_time < INT_MAX ∧ G p.priority :=
    fun p hp => ⟨harr p hp, (hwf p hp).2.2.2⟩
  have hwf2 : ∀ p ∈ c0, p.arrival_time < INT_MAX ∧ 0 < p.burst_time ∧
      p.burst_time < INT_MAX ∧ G p.priority :=
    fun p hp => ⟨harr p hp, (hwf p hp).2.1, (hwf p hp).2.2.1, (hwf p hp).2.2.2⟩
  have hfit2 : ∀ p ∈ c0, 0 ≤ p.arrival_time ∧
      p.arrival_time + (remainingTotal (c0.map (fun p => p.burst_time)) : Int) ≤ INT_MAX :=
    fun p hp => ⟨(hwf p hp).1, by rw [hsumeq]; exact hfit p hp⟩
  have hcongr := whileLoop_congr CPUScheduler.tickCond CPUScheduler.tickCond32
    (CPUScheduler.tickBody select) (CPUScheduler.tickBody32 select)
    (fun s => TickInv c0 s ∧ WaitInv s ∧
      ClockInv (remainingTotal (c0.map (fun p => p.burst_time))) s)
    (fun s hi => CPUScheduler.tickCond32_eq c0 hlen s hi.1)
    (fun s hi hc =>
      ⟨CPUScheduler.tickBody32_eq G select hsel c0
          (fun p hp => ⟨(hwf p hp).1, (hwf p hp).2.1, (hwf p hp).2.2.1⟩) hlen _ s
          hi.1 hi.2.1 hi.2.2 hc,
        (CPUScheduler.tickBody_step G select hsel c0 hwf1 s hi.1 hc).1,
        WaitInv.wait_tickBody G select hsel c0 hwf1 s hi.1 hc hi.2.1,
        ClockInv.clock_tickBody G select hsel c0 hwf1 _ hfit2 s hi.1 hc hi.2.2⟩)
    fuel (CPUScheduler.tickInit c0)
    ⟨TickInv.init c0 (fun p hp => ⟨(hwf p hp).2.1, (hwf p hp).2.2.1⟩),
      WaitInv.wait_init c0 (fun p hp => (hwf p hp).2.1), ClockInv.clock_init c0 hfit2⟩
  obtain ⟨s, hs, hinv, -⟩ := CPUScheduler.tick_loop_terminates G select hsel c0 hwf2 fuel hfuel
  obtain ⟨s2, hs2, hall⟩ := CPUScheduler.tick_loop_waiting G select hsel c0 hwf2 fuel hfuel
  rw [hs] at hs2
  have := Option.some.inj hs2
  subst this
  exact ⟨s, hcongr.trans hs, hs, hinv.inputs, hall⟩

theorem CPUScheduler.priority_loop32_sentinel_burst (p : Process) (ha : p.arrival_time = 0)
    (hb : p.burst_time = INT_MAX) (hp : 1 ≤ p.priority) (fuel : Nat)
    (hfuel : 2147483647 < fuel) :
    whileLoop CPUScheduler.tickCond32 (CPUScheduler.tickBody32 CPUScheduler.prioritySelect) fuel
        (CPUScheduler.tickInit [p])
      = some { completed := [CPUScheduler.recordCompletion32 INT_MAX p], remaining_time := [0],
               current_time := INT_MAX, processed := 1 } := by
  have hstep : ∀ k : Int, 0 ≤ k → k < INT_MAX - 1 →
      CPUScheduler.tickBody32 CPUScheduler.prioritySelect
          { completed := [p], remaining_time := [INT_MAX - k], current_time := k,
            processed := 0 }
        = { completed := [p], remaining_time := [INT_MAX - (k + 1)], current_time := k + 1,
            processed := 0 } := by
    intro k hk0 hk1
    have hsel : CPUScheduler.prioritySelect
        { completed := [p], remaining_time := [INT_MAX - k], current_time := k,
          processed := 0 } = some 0 := by
      have h1 : p.arrival_time ≤ k ∧ INT_MAX - k > 0 ∧ p.priority > -1 := by
        unfold INT_MAX at *
        omega
      simp only [CPUScheduler.prioritySelect, CPUScheduler.priorityScan, h1, and_self, if_true]
    have e1 : wrapInt (INT_MAX - k - 1) = INT_MAX - (k + 1) := by
      rw [wrapInt_eq _ (by unfold INT_MAX at *; omega) (by omega)]
      omega
    have e2 : wrapInt (k + 1) = k + 1 := wrapInt_eq _ (by omega) (by omega)
    have hne : ¬ (INT_MAX - (k + 1) = 0) := by omega
    simp only [CPUScheduler.tickBody32, hsel, List.getD_cons_zero, List.set_cons_zero, e1, e2,
      hne, if_false]
  have hlast : CPUScheduler.tickBody32 CPUScheduler.prioritySelect
        { completed := [p], remaining_time := [1], current_time := INT_MAX - 1,
          processed := 0 }
      = { completed := [CPUScheduler.recordCompletion32 INT_MAX p], remaining_time := [0],
          current_time := INT_MAX, processed := 1 } := by
    have hsel : CPUScheduler.prioritySelect
        { completed := [p], remaining_time := [1], current_time := INT_MAX - 1,
          processed := 0 } = some 0 := by
      have h1 : p.arrival_time ≤ INT_MAX - 1 ∧ (1 : Int) > 0 ∧ p.priority > -1 := by
        unfold INT_MAX at *
        omega
      simp only [CPUScheduler.prioritySelect, CPUScheduler.priorityScan, h1, and_self, if_true]
    have e1 : wrapInt ((1 : Int) - 1) = 0 := by decide
    have e2 : wrapInt (INT_MAX - 1 + 1) = INT_MAX := by decide
    have e3 : wrapInt ((0 : Int) + 1) = 1 := by decide
    simp only [CPUScheduler.tickBody32, hsel, List.getD_cons_zero, List.set_cons_zero, e1, e2, e3,
      if_true, CPUScheduler.modifyAt, List.getElem?_cons_zero]
  have hcond : ∀ (r k : Int), CPUScheduler.tickCond32
      { completed := [p], remaining_time := [r], current_time := k, processed := 0 } = true := by
    intro r k
    have h1 : wrapInt ((1 : Nat) : Int) = 1 := by decide
    simp only [CPUScheduler.tickCond32, List.length_singleton, h1]
    rfl
  have hcond2 : CPUScheduler.tickCond32
      { completed := [CPUScheduler.recordCompletion32 INT_MAX p], remaining_time := [0],
        current_time := INT_MAX, processed := 1 } = false := by
    have h1 : wrapInt ((1 : Nat) : Int) = 1 := by decide
    simp only [CPUScheduler.tickCond32, List.length_singleton, h1]
    rfl
  have hrun : ∀ (m : Nat) (k : Int), 0 ≤ k → k + (m : Int) + 1 = INT_MAX →
      ∀ fuel : Nat, m + 1 < fuel →
        whileLoop CPUScheduler.tickCond32 (CPUScheduler.tickBody32 CPUScheduler.prioritySelect)
            fuel { completed := [p], remaining_time := [INT_MAX - k], current_time := k,
                   processed := 0 }
          = some { completed := [CPUScheduler.recordCompletion32 INT_MAX p],
                   remaining_time := [0], current_time := INT_MAX, processed := 1 } := by
    intro m
    induction m with
    | zero =>
      intro k hk0 hk fuel hf
      have hk1 : k = INT_MAX - 1 := by
        simp only [Nat.cast_zero] at hk
        omega
      subst hk1
      have e : INT_MAX - (INT_MAX - 1) = 1 := by omega
      rw [e]
      obtain ⟨f, rfl⟩ : ∃ f, fuel = f + 2 := ⟨fuel - 2, by omega⟩
      simp only [whileLoop, hcond, if_true, hlast, hcond2]
      simp
    | succ m ih =>
      intro k hk0 hk fuel hf
      obtain ⟨f, rfl⟩ : ∃ f, fuel = f + 1 := ⟨fuel - 1, by omega⟩
      have hk1 : k < INT_MAX - 1 := by
        push_cast at hk
        omega
      simp only [whileLoop, hcond, if_true, hstep k hk0 hk1]
      exact ih (k + 1) (by omega) (by push_cast at hk ⊢; omega) f (by omega)
  have h0 : CPUScheduler.tickInit [p]
      = { completed := [p], remaining_time := [INT_MAX - 0], current_time := 0,
          processed := 0 } := by
    simp only [CPUScheduler.tickInit, List.map_cons, List.map_nil, hb, sub_zero]
  rw [h0]
  exact hrun 2147483646 0 (le_refl _) (by decide) fuel (by omega)

theorem CPUScheduler.priority_loop32 (c0 : List Process)
    (hwf : ∀ p ∈ c0, 0 ≤ p.arrival_time ∧ 0 < p.burst_time ∧ 1 ≤ p.priority)
    (hfit : ∀ p ∈ c0, p.arrival_time + (c0.map (fun p => p.burst_time)).sum ≤ INT_MAX)
    (fuel : Nat) (hfuel : 2 * remainingTotal (c0.map (fun p => p.burst_time)) + 1 < fuel) :
    ∃ s, whileLoop CPUScheduler.tickCond32 (CPUScheduler.tickBody32 CPUScheduler.prioritySelect)
          fuel (CPUScheduler.tickInit c0) = some s ∧
      s.completed.map Process.input = c0.map Process.input ∧
      ∀ p ∈ s.completed, 0 ≤ p.waiting_time ∧ p.MetricsOK := by
  by_cases hb : ∀ p ∈ c0, p.burst_time < INT_MAX
  · obtain ⟨s, hs, -, hin, hall⟩ := CPUScheduler.tick_loop32 (fun priority => -1 < priority)
      CPUScheduler.prioritySelect CPUScheduler.prioritySelect_ok c0
      (fun p hp => ⟨(hwf p hp).1, (hwf p hp).2.1, hb p hp, by
        show -1 < p.priority
        have := (hwf p hp).2.2
        omega⟩)
      hfit fuel hfuel
    exact ⟨s, hs, hin, hall⟩
  · push_neg at hb
    obtain ⟨q, hq, hqb⟩ := hb
    obtain ⟨l1, l2, rfl⟩ := List.append_of_mem hq
    have hq1 := hfit q hq
    have hq2 := hwf q hq
    have hl1 : ((l1.map (fun p => p.burst_time)).length : Int)
        ≤ (l1.map (fun p => p.burst_time)).sum :=
      length_le_sum _ (fun x hx => by
        obtain ⟨r, hr, rfl⟩ := List.mem_map.mp hx
        have := (hwf r (List.mem_append_left _ hr)).2.1
        omega)
    have hl2 : ((l2.map (fun p => p.burst_time)).length : Int)
        ≤ (l2.map (fun p => p.burst_time)).sum :=
      length_le_sum _ (fun x hx => by
        obtain ⟨r, hr, rfl⟩ := List.mem_map.mp hx
        have := (hwf r (List.mem_append_right _ (List.mem_cons_of_mem _ hr))).2.1
        omega)
    simp only [List.map_append, List.map_cons, List.sum_append, List.sum_cons,
      List.length_map] at hq1 hl1 hl2
    have e1 : l1 = [] := List.length_eq_zero.mp (by omega)
    have e2 : l2 = [] := List.length_eq_zero.mp (by omega)
    subst e1
    subst e2
    simp only [List.map_nil, List.sum_nil, List.nil_append] at hq1 ⊢
    have ha : q.arrival_time = 0 := by omega
    have hbq : q.burst_time = INT_MAX := by omega
    have hf : 2147483647 < fuel := by
      have : remainingTotal ([q].map (fun p => p.burst_time)) = 2147483647 := by
        simp only [remainingTotal, List.map_cons, List.map_nil, List.sum_cons, List.sum_nil, hbq]
        decide
      simp only [List.nil_append] at hfuel
      omega
    refine ⟨_, CPUScheduler.priority_loop32_sentinel_burst q ha hbq hq2.2.2 fuel hf, rfl, ?_⟩
    intro c hc
    simp only [List.mem_singleton] at hc
    subst hc
    rw [CPUScheduler.recordCompletion32_eq INT_MAX q ⟨by decide, le_refl _⟩
      ⟨by omega, by omega⟩ (by omega) (by omega)]
    refine ⟨?_, recordCompletion_metricsOK _ _⟩
    simp only [CPUScheduler.recordCompletion]
    omega

/-! ### Outcomes of `std::sort` -/

theorem perm_sorted_eq_of_strict {α : Type} (f : α → Int) :
    ∀ (l s : List α), l.Pairwise (fun a b => f a < f b) → s.Perm l →
      s.Pairwise (fun a b => f a ≤ f b) → s = l := by
  intro l
  induction l with
  | nil => intro s _ hp _; exact hp.eq_nil
  | cons x l ih =>
    intro s hl hp hs
    cases s with
    | nil => exact absurd hp.symm.eq_nil (by simp)
    | cons y s =>
      have hy : y ∈ x :: l := hp.subset (List.mem_cons_self _ _)
      rcases List.mem_cons.mp hy with rfl | hyl
      · rw [ih s (List.Pairwise.of_cons hl) (List.Perm.cons_inv hp) (List.Pairwise.of_cons hs)]
      · have h1 : f x < f y := List.rel_of_pairwise_cons hl hyl
        have hx : x ∈ y :: s := hp.symm.subset (List.mem_cons_self _ _)
        rcases List.mem_cons.mp hx with rfl | hxs
        · exact absurd h1 (lt_irrefl _)
        · have h2 : f y ≤ f x := List.rel_of_pairwise_cons hs hxs
          omega

theorem CPUScheduler.sortedByArrival_unique (input completed : List Process)
    (hstrict : input.Pairwise (fun a b => a.arrival_time < b.arrival_time))
    (hsort : CPUScheduler.SortedByArrival input completed) : completed = input :=
  perm_sorted_eq_of_strict (fun p : Process => p.arrival_time) input completed hstrict hsort.1
    hsort.2

theorem CPUScheduler.fcfsLoop32_inputs (l : List Process) :
    ∀ current_time : Int,
      (CPUScheduler.fcfsLoop32 current_time l).1.map Process.input = l.map Process.input := by
  induction l with
  | nil => intro ct; rfl
  | cons p ps ih =>
    intro ct
    simp only [CPUScheduler.fcfsLoop32, List.map_cons, ih]
    rfl

theorem CPUScheduler.sjfLoop32_inputs_perm (n : Nat) :
    ∀ (l : List Process) (current_time : Int), l.length ≤ n →
      ((CPUScheduler.sjfLoop32 n current_time l).1.map Process.input).Perm
        (l.map Process.input) := by
  induction n with
  | zero =>
    intro l ct hl
    have : l = [] := List.length_eq_zero.mp (by omega)
    subst this
    exact List.Perm.refl _
  | succ n ih =>
    intro l ct hl
    cases l with
    | nil => exact List.Perm.refl _
    | cons r rest =>
      have hperm := CPUScheduler.sjfScan_perm ct rest r
      have hlen := hperm.length_eq
      simp only [List.length_cons] at hlen hl
      have hrec := ih (CPUScheduler.sjfScan ct r rest).2
        (wrapInt ((if ct < (CPUScheduler.sjfScan ct r rest).1.arrival_time then
          (CPUScheduler.sjfScan ct r rest).1.arrival_time else ct)
            + (CPUScheduler.sjfScan ct r rest).1.burst_time)) (by omega)
      simp only [CPUScheduler.sjfLoop32, List.map_cons]
      refine List.Perm.trans (List.Perm.cons _ hrec) ?_
      exact (hperm.map Process.input)

theorem sorted_of_inputs_eq (l1 l2 : List Process)
    (h : l1.map Process.input = l2.map Process.input)
    (hs : l2.Sorted (fun a b => a.arrival_time ≤ b.arrival_time)) :
    l1.Sorted (fun a b => a.arrival_time ≤ b.arrival_time) := by
  have h2 : (l2.map Process.input).Pairwise (fun x y => x.2.1 ≤ y.2.1) :=
    (List.pairwise_map (f := Process.input) (R := fun x y => x.2.1 ≤ y.2.1)).mpr hs
  rw [← h] at h2
  exact (List.pairwise_map (f := Process.input) (R := fun x y => x.2.1 ≤ y.2.1)).mp h2

theorem CPUScheduler.sortByArrival_is_outcome (processes : List Process) :
    CPUScheduler.SortedByArrival processes (CPUScheduler.sortByArrival processes) :=
  ⟨List.perm_insertionSort _ _, CPUScheduler.sortByArrival_sorted processes⟩

theorem DiskScheduler.requests_sortByArrival_is_outcome (requests : List DiskRequest) :
    DiskScheduler.SortedByArrival requests (DiskScheduler.sortByArrival requests) := by
  refine ⟨List.perm_insertionSort _ _, ?_⟩
  haveI : IsTotal DiskRequest (fun a b => a.arrival_time ≤ b.arrival_time) :=
    ⟨fun a b => le_total a.arrival_time b.arrival_time⟩
  haveI : IsTrans DiskRequest (fun a b => a.arrival_time ≤ b.arrival_time) :=
    ⟨fun a b c hab hbc => le_trans hab hbc⟩
  exact List.sorted_insertionSort _ _

theorem CPUScheduler.runFCFS32_eq_runFCFS (processes : List Process)
    (hwf : ∀ p ∈ processes, 0 ≤ p.arrival_time ∧ 0 ≤ p.burst_time)
    (hfit : ∀ p ∈ processes,
      p.arrival_time + (processes.map (fun p => p.burst_time)).sum ≤ INT_MAX) :
    CPUScheduler.runFCFS32 (CPUScheduler.sortByArrival processes)
      = CPUScheduler.runFCFS processes := by
  have hperm : (CPUScheduler.sortByArrival processes).Perm processes :=
    List.perm_insertionSort _ _
  have hsum : ((CPUScheduler.sortByArrival processes).map (fun p => p.burst_time)).sum
      = (processes.map (fun p => p.burst_time)).sum :=
    (hperm.map (fun p => p.burst_time)).sum_eq
  have heq : CPUScheduler.fcfsLoop32 0 (CPUScheduler.sortByArrival processes)
      = CPUScheduler.fcfsLoop 0 (CPUScheduler.sortByArrival processes) := by
    apply CPUScheduler.fcfsLoop32_eq _ 0 (le_refl _) (fun p hp => hwf p (hperm.subset hp))
    · rw [hsum]
      cases processes with
      | nil => simp [INT_MAX]
      | cons q qs =>
        have h1 := hfit q (List.mem_cons_self _ _)
        have h2 := (hwf q (List.mem_cons_self _ _)).1
        omega
    · intro p hp
      rw [hsum]
      exact hfit p (hperm.subset hp)
  simp only [CPUScheduler.runFCFS32, CPUScheduler.runFCFS, heq]

/-! ### CPU algorithms in 32-bit arithmetic -/

/-- Counterexample for C7: one task (id 1, arrival 2147483647, burst 1), the
only order `std::sort` can leave.  The task starts at
`max(0, 2147483647) = 2147483647` and `start + burst_time` is 2147483648, but
`runFCFS` stores `completion_time = -2147483648` (with waiting time 0 and
turnaround time 1) and reports `total_time = -2147483648`: the sum does not
fit a 32-bit `int`. -/
theorem CPUScheduler.runFCFS32_completion_wraps :
    CPUScheduler.SortedByArrival [mkProcess 1 2147483647 1 1] [mkProcess 1 2147483647 1 1] ∧
      (CPUScheduler.runFCFS32 [mkProcess 1 2147483647 1 1]).completed
        = [⟨1, 2147483647, 1, 1, -2147483648, 0, 1⟩] ∧
      (CPUScheduler.runFCFS32 [mkProcess 1 2147483647 1 1]).total_time = -2147483648 ∧
      max (fcfsCursor 0 (CPUScheduler.runFCFS32 [mkProcess 1 2147483647 1 1]).completed 0)
          (2147483647 : Int) + 1 = 2147483648 := by
  decide

/-- C7 (amended): let `completed` be the task vector of `runFCFS` as
`std::sort` leaves it, a permutation of the tasks in non-decreasing order of
arrival time (any order among tasks of equal arrival time).  If arrival and
burst times are not negative and every arrival time plus the sum of all burst
times is at most `INT_MAX`, then in 32-bit arithmetic `runFCFS` takes the
tasks in this order (the result holds the same tasks at the same positions,
sorted by arrival time); the task at index `i` starts at
`max(cursor, arrival_time)`, where the cursor is 0 for the first task and
becomes the completion time of each task served; the task gets
`completion_time = start + burst_time` and `waiting_time = start -
arrival_time`; and `total_time` is the completion time of the last task (0
for no tasks).  For the tasks (id 1, arrival 0, burst 5) and (id 2, arrival 1,
burst 3) the completion times are 5 and 8, the waiting times 0 and 4, and
`total_time` is 8. -/
theorem CPUScheduler.runFCFS32_timeline (processes completed : List Process)
    (hsort : CPUScheduler.SortedByArrival processes completed)
    (hwf : ∀ p ∈ processes, 0 ≤ p.arrival_time ∧ 0 ≤ p.burst_time)
    (hfit : ∀ p ∈ processes,
      p.arrival_time + (processes.map (fun p => p.burst_time)).sum ≤ INT_MAX) :
    (CPUScheduler.runFCFS32 completed).completed.map Process.input
        = completed.map Process.input ∧
      (CPUScheduler.runFCFS32 completed).completed.Sorted
        (fun a b => a.arrival_time ≤ b.arrival_time) ∧
      (∀ (i : Nat) (p : Process), completed[i]? = some p →
        ∃ c, (CPUScheduler.runFCFS32 completed).completed[i]? = some c ∧ c.input = p.input ∧
          c.completion_time
            = max (fcfsCursor 0 (CPUScheduler.runFCFS32 completed).completed i) p.arrival_time
                + p.burst_time ∧
          c.waiting_time
            = max (fcfsCursor 0 (CPUScheduler.runFCFS32 completed).completed i) p.arrival_time
                - p.arrival_time ∧
          fcfsCursor 0 (CPUScheduler.runFCFS32 completed).completed (i + 1)
            = c.completion_time) ∧
      (CPUScheduler.runFCFS32 completed).total_time
        = ((CPUScheduler.runFCFS32 completed).completed.getLast?.map
            (fun c => c.completion_time)).getD 0 ∧
      ∀ sorted : List Process,
        CPUScheduler.SortedByArrival [mkProcess 1 0 5 1, mkProcess 2 1 3 1] sorted →
          (CPUScheduler.runFCFS32 sorted).completed.map
              (fun c => (c.id, c.completion_time, c.waiting_time)) = [(1, 5, 0), (2, 8, 4)] ∧
            (CPUScheduler.runFCFS32 sorted).total_time = 8 := by
  have hsum : (completed.map (fun p => p.burst_time)).sum
      = (processes.map (fun p => p.burst_time)).sum :=
    (hsort.1.map (fun p => p.burst_time)).sum_eq
  have heq : CPUScheduler.fcfsLoop32 0 completed = CPUScheduler.fcfsLoop 0 completed := by
    apply CPUScheduler.fcfsLoop32_eq completed 0 (le_refl _)
      (fun p hp => hwf p (hsort.1.subset hp))
    · rw [hsum]
      cases processes with
      | nil => simp [INT_MAX]
      | cons q qs =>
        have h1 := hfit q (List.mem_cons_self _ _)
        have h2 := (hwf q (List.mem_cons_self _ _)).1
        omega
    · intro p hp
      rw [hsum]
      exact hfit p (hsort.1.subset hp)
  have hin := CPUScheduler.fcfsLoop32_inputs completed 0
  refine ⟨hin, sorted_of_inputs_eq _ _ hin hsort.2, ?_, ?_, ?_⟩
  · intro i p hp
    simp only [CPUScheduler.runFCFS32, heq]
    obtain ⟨c, hc, h1, h2, h3⟩ := CPUScheduler.fcfsLoop_getElem? completed 0 i p hp
    exact ⟨c, hc, h1, h2, h3, by simp [fcfsCursor, hc]⟩
  · simp only [CPUScheduler.runFCFS32, heq]
    rw [CPUScheduler.fcfsLoop_total]
  · intro sorted hs
    rw [CPUScheduler.sortedByArrival_unique _ sorted (by decide) hs]
    decide

/-- Witness for C7 (amended): the workload (id 1, arrival 0, burst 5),
(id 2, arrival 1, burst 3), already in arrival order; its second task. -/
theorem CPUScheduler.runFCFS32_timeline_witness :
    CPUScheduler.SortedByArrival [mkProcess 1 0 5 1, mkProcess 2 1 3 1]
        [mkProcess 1 0 5 1, mkProcess 2 1 3 1] ∧
      ∃ c, (CPUScheduler.runFCFS32 [mkProcess 1 0 5 1, mkProcess 2 1 3 1]).completed[1]?
          = some c ∧
        c.completion_time = max 5 1 + 3 ∧ c.waiting_time = max 5 1 - 1 := by
  refine ⟨by decide, ?_⟩
  obtain ⟨c, hc, -, h1, h2, -⟩ :=
    (CPUScheduler.runFCFS32_timeline [mkProcess 1 0 5 1, mkProcess 2 1 3 1]
      [mkProcess 1 0 5 1, mkProcess 2 1 3 1] (by decide) (by decide) (by decide)).2.2.1
      1 (mkProcess 2 1 3 1) (by decide)
  exact ⟨c, hc, h1, h2⟩

/-- Counterexample for C9: two tasks with burst 2147483646 each, arriving at
0 and at 1 (the only order `std::sort` can leave).  The burst times sum to
4294967292, but `runFCFS` and `runSJF` report `total_time = -4` (the second
completion time wraps), which is below the sum of the burst times and is not
the maximum completion time 2147483646. -/
theorem CPUScheduler.total_time_wraps_below_burst_sum :
    CPUScheduler.SortedByArrival [mkProcess 1 0 2147483646 1, mkProcess 2 1 2147483646 1]
        [mkProcess 1 0 2147483646 1, mkProcess 2 1 2147483646 1] ∧
      (CPUScheduler.runFCFS32
        [mkProcess 1 0 2147483646 1, mkProcess 2 1 2147483646 1]).total_time = -4 ∧
      (CPUScheduler.runSJF32
        [mkProcess 1 0 2147483646 1, mkProcess 2 1 2147483646 1]).total_time = -4 ∧
      (CPUScheduler.runFCFS32
        [mkProcess 1 0 2147483646 1, mkProcess 2 1 2147483646 1]).completed.map
          (fun c => c.completion_time) = [2147483646, -4] ∧
      (CPUScheduler.runSJF32
        [mkProcess 1 0 2147483646 1, mkProcess 2 1 2147483646 1]).completed.map
          (fun c => c.completion_time) = [2147483646, -4] ∧
      ([mkProcess 1 0 2147483646 1, mkProcess 2 1 2147483646 1].map
        (fun p => p.burst_time)).sum = 4294967292 := by
  decide

/-- C9 (amended): for every non-empty task list with `arrival_time >= 0` and
`burst_time > 0` in which every arrival time plus the sum of all burst times
is at most `INT_MAX`, after `runFCFS` (on the vector `completed` as
`std::sort` leaves it, in any order among equal arrival times) and after
`runSJF`, in 32-bit arithmetic, the sum of all burst times is at most
`total_time`, `total_time` is the maximum completion time over all tasks, and
the tasks of the result are the input tasks (same id, arrival, burst,
priority), reordered. -/
theorem CPUScheduler.fcfs_sjf_total_time32 (processes completed : List Process)
    (hsort : CPUScheduler.SortedByArrival processes completed) (hne : processes ≠ [])
    (hwf : ∀ p ∈ processes, 0 ≤ p.arrival_time ∧ 0 < p.burst_time)
    (hfit : ∀ p ∈ processes,
      p.arrival_time + (processes.map (fun p => p.burst_time)).sum ≤ INT_MAX) :
    ((processes.map (fun p => p.burst_time)).sum ≤ (CPUScheduler.runFCFS32 completed).total_time ∧
        IsMaxCompletion (CPUScheduler.runFCFS32 completed).completed
          (CPUScheduler.runFCFS32 completed).total_time ∧
        ((CPUScheduler.runFCFS32 completed).completed.map Process.input).Perm
          (processes.map Process.input)) ∧
      ((processes.map (fun p => p.burst_time)).sum ≤ (CPUScheduler.runSJF32 processes).total_time ∧
        IsMaxCompletion (CPUScheduler.runSJF32 processes).completed
          (CPUScheduler.runSJF32 processes).total_time ∧
        ((CPUScheduler.runSJF32 processes).completed.map Process.input).Perm
          (processes.map Process.input)) := by
  have hperm := hsort.1
  have hsum : (completed.map (fun p => p.burst_time)).sum
      = (processes.map (fun p => p.burst_time)).sum :=
    (hperm.map (fun p => p.burst_time)).sum_eq
  obtain ⟨q, hq⟩ := List.exists_mem_of_ne_nil processes hne
  have hq1 := hfit q hq
  have hq2 := (hwf q hq).1
  constructor
  · have heq : CPUScheduler.fcfsLoop32 0 completed = CPUScheduler.fcfsLoop 0 completed := by
      apply CPUScheduler.fcfsLoop32_eq completed 0 (le_refl _)
        (fun p hp => ⟨(hwf p (hperm.subset hp)).1, le_of_lt (hwf p (hperm.subset hp)).2⟩)
      · rw [hsum]; omega
      · intro p hp
        rw [hsum]
        exact hfit p (hperm.subset hp)
    have hne2 : completed ≠ [] := by
      intro h
      rw [h] at hperm
      exact hne hperm.symm.eq_nil
    obtain ⟨h1, -, h3, h4, h5⟩ :=
      CPUScheduler.fcfsLoop_bounds completed 0 (fun p hp => (hwf p (hperm.subset hp)).2)
    simp only [CPUScheduler.runFCFS32, heq]
    refine ⟨?_, ⟨h3, h4 hne2⟩, ?_⟩
    · omega
    · rw [h5]
      exact hperm.map _
  · have heq : CPUScheduler.sjfLoop32 processes.length 0 processes
        = CPUScheduler.sjfLoop processes.length 0 processes := by
      apply CPUScheduler.sjfLoop32_eq processes.length processes 0 (le_refl _)
        (fun p hp => ⟨(hwf p hp).1, le_of_lt (hwf p hp).2⟩)
      · omega
      · exact hfit
    obtain ⟨h1, -, h3, h4, h5⟩ :=
      CPUScheduler.sjfLoop_bounds processes.length processes 0 (le_refl _)
        (fun p hp => (hwf p hp).2)
    simp only [CPUScheduler.runSJF32, heq]
    refine ⟨?_, ⟨h3, h4 hne⟩, h5⟩
    omega

/-- Witness for C9 (amended): the tasks (arrival 0, burst 5), (arrival 1,
burst 3), (arrival 2, burst 1), already in arrival order. -/
theorem CPUScheduler.fcfs_sjf_total_time32_witness :
    (9 : Int) ≤ (CPUScheduler.runFCFS32
        [mkProcess 1 0 5 1, mkProcess 2 1 3 1, mkProcess 3 2 1 1]).total_time ∧
      IsMaxCompletion
        (CPUScheduler.runSJF32
          [mkProcess 1 0 5 1, mkProcess 2 1 3 1, mkProcess 3 2 1 1]).completed
        (CPUScheduler.runSJF32
          [mkProcess 1 0 5 1, mkProcess 2 1 3 1, mkProcess 3 2 1 1]).total_time := by
  have h := CPUScheduler.fcfs_sjf_total_time32
    [mkProcess 1 0 5 1, mkProcess 2 1 3 1, mkProcess 3 2 1 1]
    [mkProcess 1 0 5 1, mkProcess 2 1 3 1, mkProcess 3 2 1 1]
    (by decide) (by decide) (by decide) (by decide)
  exact ⟨h.1.1, h.2.2.1⟩

theorem CPUScheduler.backCompletion_isSome (completed : List Process) (h : completed ≠ []) :
    ∃ t, CPUScheduler.backCompletion completed = some t := by
  cases hl : completed.getLast? with
  | none => exact absurd (List.getLast?_eq_none_iff.mp hl) h
  | some p => exact ⟨p.completion_time, by simp [CPUScheduler.backCompletion, hl]⟩

theorem ne_nil_of_inputs_eq (l c0 : List Process)
    (h : l.map Process.input = c0.map Process.input) (hne : c0 ≠ []) : l ≠ [] := by
  intro hl
  rw [hl] at h
  exact hne (List.map_eq_nil_iff.mp h.symm)

/-- Counterexample for C10: one task (id 1, arrival 0, burst 2147483647,
priority 1).  The selection scan of `runSRJF` starts from
`min_remaining = INT_MAX` and never selects the task, and the idle branch finds
no later arrival: every iteration leaves the state as it was, `runSRJF`
returns within no iteration budget, and the task keeps its initial outputs
`completion_time = waiting_time = turnaround_time = 0`, for which
`waiting_time = turnaround_time - burst_time` is false.  And for one task
(id 1, arrival 2147483647, burst 1) `runFCFS` stores completion time
-2147483648 and turnaround time 1, which is not -2147483648 - 2147483647 as
integers. -/
theorem CPUScheduler.metrics_unset_at_sentinel_burst :
    (∀ fuel : Nat, CPUScheduler.runSRJF32 fuel [mkProcess 1 0 2147483647 1] = none) ∧
      (∀ n : Nat,
        ((CPUScheduler.tickBody32 CPUScheduler.srjfSelect)^[n]
          (CPUScheduler.tickInit [mkProcess 1 0 2147483647 1])).completed
            = [mkProcess 1 0 2147483647 1]) ∧
      ¬ (mkProcess 1 0 2147483647 1).MetricsOK ∧
      ¬ (mkProcess 1 0 2147483647 1).MetricsOK32 ∧
      (CPUScheduler.runFCFS32 [mkProcess 1 2147483647 1 1]).completed
        = [⟨1, 2147483647, 1, 1, -2147483648, 0, 1⟩] ∧
      ¬ (⟨1, 2147483647, 1, 1, -2147483648, 0, 1⟩ : Process).MetricsOK := by
  have hbody : CPUScheduler.tickBody32 CPUScheduler.srjfSelect
      (CPUScheduler.tickInit [mkProcess 1 0 2147483647 1])
        = CPUScheduler.tickInit [mkProcess 1 0 2147483647 1] := by decide
  have hcond : CPUScheduler.tickCond32 (CPUScheduler.tickInit [mkProcess 1 0 2147483647 1])
      = true := by decide
  have hloop : ∀ fuel : Nat, whileLoop CPUScheduler.tickCond32
      (CPUScheduler.tickBody32 CPUScheduler.srjfSelect) fuel
      (CPUScheduler.tickInit [mkProcess 1 0 2147483647 1]) = none := by
    intro fuel
    induction fuel with
    | zero => rfl
    | succ fuel ih => simp only [whileLoop, hcond, if_true, hbody, ih]
  refine ⟨?_, ?_, by decide, by decide, by decide, by decide⟩
  · intro fuel
    simp only [CPUScheduler.runSRJF32, hloop fuel, Option.map_none']
  · intro n
    have : (CPUScheduler.tickBody32 CPUScheduler.srjfSelect)^[n]
        (CPUScheduler.tickInit [mkProcess 1 0 2147483647 1])
          = CPUScheduler.tickInit [mkProcess 1 0 2147483647 1] :=
      Function.iterate_fixed hbody n
    rw [this]
    rfl

/-- C10 (amended): let `completed` be the task vector as `std::sort` leaves
it (any order among equal arrival times), and let every task have
`arrival_time >= 0`, `burst_time > 0` and `priority >= 1`.  In 32-bit
arithmetic, after `runFCFS`, `runSJF` and (for a non-empty list) non-preemptive
`runPriorityScheduling` every task satisfies
`turnaround_time == completion_time - arrival_time` and
`waiting_time == turnaround_time - burst_time` as `int` expressions, and the
tasks of the result are the input tasks.  If moreover every arrival time plus
the sum of all burst times is at most `INT_MAX`, the two relations hold as
equations between integers after these three algorithms, after `runSRJF` when
every burst time is below `INT_MAX`, and after preemptive
`runPriorityScheduling` for a non-empty list; these two return their result
once the iteration budget exceeds twice the total burst time plus one. -/
theorem CPUScheduler.metrics_invariant32 (processes completed : List Process) (fuel : Nat)
    (hsort : CPUScheduler.SortedByArrival processes completed)
    (hwf : ∀ p ∈ processes, 0 ≤ p.arrival_time ∧ 0 < p.burst_time ∧ 1 ≤ p.priority)
    (hfuel : 2 * remainingTotal (processes.map (fun p => p.burst_time)) + 1 < fuel) :
    ((∀ c ∈ (CPUScheduler.runFCFS32 completed).completed, c.MetricsOK32) ∧
        ((CPUScheduler.runFCFS32 completed).completed.map Process.input).Perm
          (processes.map Process.input)) ∧
      ((∀ c ∈ (CPUScheduler.runSJF32 processes).completed, c.MetricsOK32) ∧
        ((CPUScheduler.runSJF32 processes).completed.map Process.input).Perm
          (processes.map Process.input)) ∧
      (processes ≠ [] →
        ∃ r, CPUScheduler.runPriorityScheduling32 fuel false processes = some r ∧
          (∀ c ∈ r.completed, c.MetricsOK32) ∧
          (r.completed.map Process.input).Perm (processes.map Process.input)) ∧
      ((∀ p ∈ processes,
          p.arrival_time + (processes.map (fun p => p.burst_time)).sum ≤ INT_MAX) →
        (∀ c ∈ (CPUScheduler.runFCFS32 completed).completed, c.MetricsOK) ∧
        (∀ c ∈ (CPUScheduler.runSJF32 processes).completed, c.MetricsOK) ∧
        (processes ≠ [] →
          ∃ r, CPUScheduler.runPriorityScheduling32 fuel false processes = some r ∧
            ∀ c ∈ r.completed, c.MetricsOK) ∧
        ((∀ p ∈ processes, p.burst_time < INT_MAX) →
          ∃ r, CPUScheduler.runSRJF32 fuel completed = some r ∧
            (∀ c ∈ r.completed, c.MetricsOK) ∧
            (r.completed.map Process.input).Perm (processes.map Process.input)) ∧
        (processes ≠ [] →
          ∃ r, CPUScheduler.runPriorityScheduling32 fuel true processes = some r ∧
            (∀ c ∈ r.completed, c.MetricsOK) ∧
            (r.completed.map Process.input).Perm (processes.map Process.input))) := by
  have hperm := hsort.1
  have hnp := CPUScheduler.runNonPreemptivePriority32_metricsOK32 processes
  have hnpres : processes ≠ [] →
      ∃ t, CPUScheduler.runPriorityScheduling32 fuel false processes
        = some { completed := CPUScheduler.runNonPreemptivePriority32 processes,
                 total_time := t } := by
    intro hne
    obtain ⟨t, ht⟩ := CPUScheduler.backCompletion_isSome
      (CPUScheduler.runNonPreemptivePriority32 processes) (ne_nil_of_inputs_eq _ _ hnp.2 hne)
    exact ⟨t, by simp [CPUScheduler.runPriorityScheduling32, ht]⟩
  refine ⟨⟨?_, ?_⟩, ⟨?_, ?_⟩, ?_, ?_⟩
  · exact CPUScheduler.fcfsLoop32_metricsOK32 completed 0
  · simp only [CPUScheduler.runFCFS32]
    rw [CPUScheduler.fcfsLoop32_inputs]
    exact hperm.map _
  · exact CPUScheduler.sjfLoop32_metricsOK32 _ _ 0 (le_refl _)
  · exact CPUScheduler.sjfLoop32_inputs_perm _ _ 0 (le_refl _)
  · intro hne
    obtain ⟨t, ht⟩ := hnpres hne
    refine ⟨_, ht, hnp.1, ?_⟩
    simp only
    rw [hnp.2]
  · intro hfit
    have hsum : (completed.map (fun p => p.burst_time)).sum
        = (processes.map (fun p => p.burst_time)).sum :=
      (hperm.map (fun p => p.burst_time)).sum_eq
    have hsumeq : (remainingTotal (processes.map (fun p => p.burst_time)) : Int)
        = (processes.map (fun p => p.burst_time)).sum :=
      remainingTotal_eq_sum _ (fun x hx => by
        obtain ⟨q, hq, rfl⟩ := List.mem_map.mp hx
        exact le_of_lt (hwf q hq).2.1)
    have hct0 : (0 : Int) + (processes.map (fun p => p.burst_time)).sum ≤ INT_MAX := by
      cases processes with
      | nil => simp [INT_MAX]
      | cons q qs =>
        have h1 := hfit q (List.mem_cons_self _ _)
        have h2 := (hwf q (List.mem_cons_self _ _)).1
        omega
    refine ⟨?_, ?_, ?_, ?_, ?_⟩
    · have heq : CPUScheduler.fcfsLoop32 0 completed = CPUScheduler.fcfsLoop 0 completed := by
        apply CPUScheduler.fcfsLoop32_eq completed 0 (le_refl _)
          (fun p hp => ⟨(hwf p (hperm.subset hp)).1, le_of_lt (hwf p (hperm.subset hp)).2.1⟩)
        · rw [hsum]; exact hct0
        · intro p hp
          rw [hsum]
          exact hfit p (hperm.subset hp)
      intro c hc
      simp only [CPUScheduler.runFCFS32, heq] at hc
      exact CPUScheduler.fcfsLoop_metricsOK _ 0 c hc
    · have heq : CPUScheduler.sjfLoop32 processes.length 0 processes
          = CPUScheduler.sjfLoop processes.length 0 processes :=
        CPUScheduler.sjfLoop32_eq processes.length processes 0 (le_refl _)
          (fun p hp => ⟨(hwf p hp).1, le_of_lt (hwf p hp).2.1⟩) hct0 hfit
      intro c hc
      simp only [CPUScheduler.runSJF32, heq] at hc
      exact CPUScheduler.sjfLoop_metricsOK _ _ 0 (le_refl _) c hc
    · intro hne
      have heq := CPUScheduler.runNonPreemptivePriority32_eq processes
        (fun p hp => ⟨(hwf p hp).1, le_of_lt (hwf p hp).2.1⟩)
        (fun p hp => by rw [hsumeq]; exact hfit p hp)
      obtain ⟨t, ht⟩ := hnpres hne
      refine ⟨_, ht, ?_⟩
      simp only
      rw [heq]
      exact (CPUScheduler.runNonPreemptivePriority_metricsOK processes).1
    · intro hb
      have hfuel2 : 2 * remainingTotal (completed.map (fun p => p.burst_time)) + 1 < fuel := by
        rw [remainingTotal_perm (hperm.map (fun p => p.burst_time))]
        exact hfuel
      obtain ⟨s, hs, -, hin, hall⟩ := CPUScheduler.tick_loop32 (fun _ => True)
        CPUScheduler.srjfSelect CPUScheduler.srjfSelect_ok completed
        (fun p hp => ⟨(hwf p (hperm.subset hp)).1, (hwf p (hperm.subset hp)).2.1,
          hb p (hperm.subset hp), trivial⟩)
        (fun p hp => by rw [hsum]; exact hfit p (hperm.subset hp)) fuel hfuel2
      refine ⟨{ completed := s.completed, total_time := s.current_time }, ?_, ?_, ?_⟩
      · simp [CPUScheduler.runSRJF32, hs]
      · exact fun c hc => (hall c hc).2
      · simp only
        rw [hin]
        exact hperm.map _
    · intro hne
      obtain ⟨s, hs, hin, hall⟩ := CPUScheduler.priority_loop32 processes hwf hfit fuel hfuel
      obtain ⟨t, ht⟩ := CPUScheduler.backCompletion_isSome s.completed
        (ne_nil_of_inputs_eq _ _ hin hne)
      refine ⟨{ completed := s.completed, total_time := t }, ?_, ?_, ?_⟩
      · simp [CPUScheduler.runPriorityScheduling32, CPUScheduler.runPreemptivePriority32, hs,
          ht]
      · exact fun c hc => (hall c hc).2
      · simp only
        rw [hin]

/-- Witness for C10 (amended): the tasks (arrival 0, burst 5, priority 1),
(arrival 1, burst 3, priority 2), (arrival 9, burst 1, priority 1), already
in arrival order, with an iteration budget of 20. -/
theorem CPUScheduler.metrics_invariant32_witness :
    (∀ c ∈ (CPUScheduler.runFCFS32
        [mkProcess 1 0 5 1, mkProcess 2 1 3 2, mkProcess 3 9 1 1]).completed, c.MetricsOK32) ∧
      ∃ r, CPUScheduler.runSRJF32 20
          [mkProcess 1 0 5 1, mkProcess 2 1 3 2, mkProcess 3 9 1 1] = some r ∧
        (∀ c ∈ r.completed, c.MetricsOK) ∧
        (r.completed.map Process.input).Perm
          ([mkProcess 1 0 5 1, mkProcess 2 1 3 2, mkProcess 3 9 1 1].map Process.input) :=
  ⟨(CPUScheduler.metrics_invariant32 [mkProcess 1 0 5 1, mkProcess 2 1 3 2, mkProcess 3 9 1 1]
      [mkProcess 1 0 5 1, mkProcess 2 1 3 2, mkProcess 3 9 1 1] 20
      (by decide) (by decide) (by decide)).1.1,
    (CPUScheduler.metrics_invariant32 [mkProcess 1 0 5 1, mkProcess 2 1 3 2, mkProcess 3 9 1 1]
      [mkProcess 1 0 5 1, mkProcess 2 1 3 2, mkProcess 3 9 1 1] 20
      (by decide) (by decide) (by decide)).2.2.2 (by decide) |>.2.2.2.1 (by decide)⟩

/-! ### Disk algorithms in 32-bit arithmetic -/

theorem wrapInt_abs_sub (a b lo hi : Int) (hspan : hi - lo ≤ INT_MAX)
    (ha : lo ≤ a ∧ a ≤ hi) (hb : lo ≤ b ∧ b ≤ hi) :
    wrapInt |wrapInt (a - b)| = |a - b| := by
  have h1 : |a - b| ≤ INT_MAX := by
    rw [abs_le]
    constructor <;> omega
  have h2 := abs_le.mp h1
  rw [wrapInt_eq (a - b) (by unfold INT_MAX at *; omega) h2.2]
  exact wrapInt_eq _ (by have := abs_nonneg (a - b); omega) h1

theorem DiskScheduler.reduce32_start (d : DiskScheduler) :
    DiskScheduler.reduce32 d.start = d.start := by
  simp only [DiskScheduler.reduce32, DiskScheduler.start]
  rfl

theorem DiskScheduler.seekTo32_reduce (d : DiskScheduler) (cyl lo hi : Int)
    (hspan : hi - lo ≤ INT_MAX) (hh : lo ≤ d.head_position ∧ d.head_position ≤ hi)
    (hc : lo ≤ cyl ∧ cyl ≤ hi) :
    (DiskScheduler.reduce32 d).seekTo32 cyl = DiskScheduler.reduce32 (d.seekTo cyl) := by
  simp only [DiskScheduler.seekTo32, DiskScheduler.reduce32, DiskScheduler.seekTo,
    wrapInt_abs_sub cyl d.head_position lo hi hspan hc hh, wrapInt_add_left]

theorem DiskScheduler.foldl_seekTo32_reduce (lo hi : Int) (hspan : hi - lo ≤ INT_MAX)
    (rs : List DiskRequest) (hrs : ∀ r ∈ rs, lo ≤ r.cylinder ∧ r.cylinder ≤ hi) :
    ∀ d : DiskScheduler, lo ≤ d.head_position ∧ d.head_position ≤ hi →
      rs.foldl (fun d req => d.seekTo32 req.cylinder) (DiskScheduler.reduce32 d)
        = DiskScheduler.reduce32 (rs.foldl (fun d req => d.seekTo req.cylinder) d) := by
  induction rs with
  | nil => intro d _; rfl
  | cons r rs ih =>
    intro d hd
    have hr := hrs r (List.mem_cons_self _ _)
    simp only [List.foldl_cons]
    rw [DiskScheduler.seekTo32_reduce d r.cylinder lo hi hspan hd hr]
    exact ih (fun q hq => hrs q (List.mem_cons_of_mem _ hq)) _ hr

theorem DiskScheduler.sweep32_reduce (lo hi : Int) (hspan : hi - lo ≤ INT_MAX)
    (keep : Int → Int → Bool) (cyls : List Int) (hcyls : ∀ cyl ∈ cyls, lo ≤ cyl ∧ cyl ≤ hi) :
    ∀ d : DiskScheduler, lo ≤ d.head_position ∧ d.head_position ≤ hi →
      DiskScheduler.sweep32 keep cyls (DiskScheduler.reduce32 d)
          = DiskScheduler.reduce32 (DiskScheduler.sweep keep cyls d) ∧
        lo ≤ (DiskScheduler.sweep keep cyls d).head_position ∧
        (DiskScheduler.sweep keep cyls d).head_position ≤ hi := by
  induction cyls with
  | nil => intro d hd; exact ⟨rfl, hd⟩
  | cons cyl cyls ih =>
    intro d hd
    have hc := hcyls cyl (List.mem_cons_self _ _)
    have hrest : ∀ c ∈ cyls, lo ≤ c ∧ c ≤ hi := fun c h => hcyls c (List.mem_cons_of_mem _ h)
    simp only [DiskScheduler.sweep32, DiskScheduler.sweep, List.foldl_cons]
    have hhead : (DiskScheduler.reduce32 d).head_position = d.head_position := rfl
    rw [hhead]
    by_cases hk : keep cyl d.head_position = true
    · simp only [hk, if_true]
      rw [DiskScheduler.seekTo32_reduce d cyl lo hi hspan hd hc]
      exact ih hrest (d.seekTo cyl) hc
    · simp only [hk]
      exact ih hrest d hd

theorem DiskScheduler.runFCFS32_reduce (lo hi : Int) (hspan : hi - lo ≤ INT_MAX)
    (sorted : List DiskRequest) (d : DiskScheduler)
    (hhead : lo ≤ d.head_position ∧ d.head_position ≤ hi)
    (hcyl : ∀ r ∈ sorted, lo ≤ r.cylinder ∧ r.cylinder ≤ hi) :
    DiskScheduler.runFCFS32 sorted d
      = DiskScheduler.reduce32
          (sorted.foldl (fun d req => d.seekTo req.cylinder)
            { d.start with requests := sorted }) := by
  have h := DiskScheduler.foldl_seekTo32_reduce lo hi hspan sorted hcyl
    { d.start with requests := sorted } hhead
  rw [← h]
  rfl

theorem DiskScheduler.mem_sortedCylinders_range (d : DiskScheduler) (lo hi : Int)
    (hcyl : ∀ r ∈ d.requests, lo ≤ r.cylinder ∧ r.cylinder ≤ hi) :
    (∀ cyl ∈ d.start.sortedCylinders, lo ≤ cyl ∧ cyl ≤ hi) ∧
      ∀ cyl ∈ d.start.sortedCylinders.reverse, lo ≤ cyl ∧ cyl ≤ hi := by
  have h1 : ∀ cyl ∈ d.start.sortedCylinders, lo ≤ cyl ∧ cyl ≤ hi := by
    intro cyl h
    obtain ⟨r, hr, hrc⟩ := DiskScheduler.mem_sortedCylinders d cyl h
    rw [← hrc]
    exact hcyl r hr
  exact ⟨h1, fun cyl h => h1 cyl (List.mem_reverse.mp h)⟩

theorem DiskScheduler.runSCAN32_reduce (lo hi : Int) (hspan : hi - lo ≤ INT_MAX)
    (move_up : Bool) (d : DiskScheduler)
    (hhead : lo ≤ d.head_position ∧ d.head_position ≤ hi)
    (hcyl : ∀ r ∈ d.requests, lo ≤ r.cylinder ∧ r.cylinder ≤ hi) :
    DiskScheduler.runSCAN32 move_up d = DiskScheduler.reduce32 (DiskScheduler.runSCAN move_up d) := by
  obtain ⟨hc1, hc2⟩ := DiskScheduler.mem_sortedCylinders_range d lo hi hcyl
  have hs : lo ≤ d.start.head_position ∧ d.start.head_position ≤ hi := hhead
  cases move_up with
  | true =>
    simp only [DiskScheduler.runSCAN32, DiskScheduler.runSCAN, if_true]
    obtain ⟨e1, r1⟩ := DiskScheduler.sweep32_reduce lo hi hspan
      (fun cyl head => decide (cyl ≥ head)) _ hc1 d.start hs
    rw [DiskScheduler.reduce32_start] at e1
    rw [e1]
    exact (DiskScheduler.sweep32_reduce lo hi hspan _ _ hc2 _ r1).1
  | false =>
    simp only [DiskScheduler.runSCAN32, DiskScheduler.runSCAN, Bool.false_eq_true, if_false]
    obtain ⟨e1, r1⟩ := DiskScheduler.sweep32_reduce lo hi hspan
      (fun cyl head => decide (cyl ≤ head)) _ hc2 d.start hs
    rw [DiskScheduler.reduce32_start] at e1
    rw [e1]
    exact (DiskScheduler.sweep32_reduce lo hi hspan _ _ hc1 _ r1).1

theorem DiskScheduler.runCSCAN32_reduce (move_up : Bool) (d : DiskScheduler)
    (hsize : d.disk_size ≤ INT_MAX)
    (hhead : 0 ≤ d.head_position ∧ d.head_position ≤ d.disk_size)
    (hcyl : ∀ r ∈ d.requests, 0 ≤ r.cylinder ∧ r.cylinder ≤ d.disk_size) :
    DiskScheduler.runCSCAN32 move_up d
      = DiskScheduler.reduce32 (DiskScheduler.runCSCAN move_up d) := by
  obtain ⟨hc1, hc2⟩ := DiskScheduler.mem_sortedCylinders_range d 0 d.disk_size hcyl
  have hspan : d.disk_size - 0 ≤ INT_MAX := by omega
  have hs : 0 ≤ d.start.head_position ∧ d.start.head_position ≤ d.disk_size := hhead
  have hD : (0 : Int) ≤ d.disk_size ∧ d.disk_size ≤ d.disk_size := ⟨by omega, le_refl _⟩
  cases move_up with
  | true =>
    obtain ⟨e1, r1⟩ := DiskScheduler.sweep32_reduce 0 d.disk_size hspan
      (fun cyl head => decide (cyl ≥ head)) _ hc1 d.start hs
    rw [DiskScheduler.reduce32_start] at e1
    generalize hE : DiskScheduler.sweep (fun cyl head => decide (cyl ≥ head))
      d.start.sortedCylinders d.start = e at e1 r1
    have hsz : e.disk_size = d.disk_size := by
      rw [← hE]
      have : ∀ (cyls : List Int) (x : DiskScheduler),
          (DiskScheduler.sweep (fun cyl head => decide (cyl ≥ head)) cyls x).disk_size
            = x.disk_size := by
        intro cyls
        induction cyls with
        | nil => intro x; rfl
        | cons c cs ih =>
          intro x
          rw [DiskScheduler.sweep_cons, ih]
          split_ifs <;> rfl
      exact this _ _
    have hw := wrapInt_abs_sub e.disk_size e.head_position 0 d.disk_size hspan
      (by rw [hsz]; exact hD) r1
    have hmid : ({ e with
        total_seek_time := e.total_seek_time + |e.disk_size - e.head_position| + e.disk_size,
        head_position := 0, head_sequence := e.head_sequence ++ [0] } : DiskScheduler).head_position
        = 0 := rfl
    have e2 := (DiskScheduler.sweep32_reduce 0 d.disk_size hspan
      (fun cyl head => decide (cyl < head)) d.start.sortedCylinders hc1
      { e with
        total_seek_time := e.total_seek_time + |e.disk_size - e.head_position| + e.disk_size,
        head_position := 0, head_sequence := e.head_sequence ++ [0] }
      (by rw [hmid]; omega)).1
    simp only [DiskScheduler.runCSCAN32, DiskScheduler.runCSCAN, if_true, e1, hE]
    rw [← e2]
    congr 1
    simp only [DiskScheduler.reduce32, hw, wrapInt_add_left]
  | false =>
    obtain ⟨e1, r1⟩ := DiskScheduler.sweep32_reduce 0 d.disk_size hspan
      (fun cyl head => decide (cyl ≤ head)) _ hc2 d.start hs
    rw [DiskScheduler.reduce32_start] at e1
    generalize hE : DiskScheduler.sweep (fun cyl head => decide (cyl ≤ head))
      d.start.sortedCylinders.reverse d.start = e at e1 r1
    have hsz : e.disk_size = d.disk_size := by
      rw [← hE]
      have : ∀ (cyls : List Int) (x : DiskScheduler),
          (DiskScheduler.sweep (fun cyl head => decide (cyl ≤ head)) cyls x).disk_size
            = x.disk_size := by
        intro cyls
        induction cyls with
        | nil => intro x; rfl
        | cons c cs ih =>
          intro x
          rw [DiskScheduler.sweep_cons, ih]
          split_ifs <;> rfl
      exact this _ _
    have hmid : ({ e with
        total_seek_time := e.total_seek_time + e.head_position + e.disk_size,
        head_position := e.disk_size,
        head_sequence := e.head_sequence ++ [e.disk_size] } : DiskScheduler).head_position
        = e.disk_size := rfl
    have e2 := (DiskScheduler.sweep32_reduce 0 d.disk_size hspan
      (fun cyl head => decide (cyl > head)) d.start.sortedCylinders.reverse hc2
      { e with
        total_seek_time := e.total_seek_time + e.head_position + e.disk_size,
        head_position := e.disk_size, head_sequence := e.head_sequence ++ [e.disk_size] }
      (by rw [hmid, hsz]; exact hD)).1
    simp only [DiskScheduler.runCSCAN32, DiskScheduler.runCSCAN, Bool.false_eq_true, if_false,
      e1, hE]
    rw [← e2]
    congr 1
    simp only [DiskScheduler.reduce32, wrapInt_add_left]

theorem DiskScheduler.sstfScan32_eq (h lo hi : Int) (hspan : hi - lo ≤ INT_MAX)
    (hh : lo ≤ h ∧ h ≤ hi) (rs : List DiskRequest) :
    (∀ r ∈ rs, lo ≤ r.cylinder ∧ r.cylinder ≤ hi) →
      ∀ (vs : List Bool) (j : Nat) (nearest : Option Nat) (m : Int),
        DiskScheduler.sstfScan32 h rs vs j nearest m
          = DiskScheduler.sstfScan h rs vs j nearest m := by
  induction rs with
  | nil => intro _ vs j nearest m; simp [DiskScheduler.sstfScan32, DiskScheduler.sstfScan]
  | cons r rs ih =>
    intro hrs vs j nearest m
    have hr := hrs r (List.mem_cons_self _ _)
    have ih2 := ih (fun q hq => hrs q (List.mem_cons_of_mem _ hq))
    cases vs with
    | nil => simp [DiskScheduler.sstfScan32, DiskScheduler.sstfScan]
    | cons v vs =>
      simp only [DiskScheduler.sstfScan32, DiskScheduler.sstfScan,
        wrapInt_abs_sub r.cylinder h lo hi hspan hr hh, ih2]

theorem DiskScheduler.sstfBody32_reduce (lo hi : Int) (hspan : hi - lo ≤ INT_MAX)
    (s : DiskScheduler.SSTFState)
    (hhead : lo ≤ s.d.head_position ∧ s.d.head_position ≤ hi)
    (hcyl : ∀ r ∈ s.d.requests, lo ≤ r.cylinder ∧ r.cylinder ≤ hi) :
    DiskScheduler.sstfBody32 { d := DiskScheduler.reduce32 s.d, visited := s.visited }
        = { d := DiskScheduler.reduce32 (DiskScheduler.sstfBody s).d,
            visited := (DiskScheduler.sstfBody s).visited } ∧
      (DiskScheduler.sstfBody s).d.requests = s.d.requests ∧
      lo ≤ (DiskScheduler.sstfBody s).d.head_position ∧
      (DiskScheduler.sstfBody s).d.head_position ≤ hi := by
  have hscan := DiskScheduler.sstfScan32_eq s.d.head_position lo hi hspan hhead s.d.requests
    hcyl s.visited 0 none INT_MAX
  have hr1 : (DiskScheduler.reduce32 s.d).head_position = s.d.head_position := rfl
  have hr2 : (DiskScheduler.reduce32 s.d).requests = s.d.requests := rfl
  simp only [DiskScheduler.sstfBody32, DiskScheduler.sstfBody, hr1, hr2, hscan]
  generalize DiskScheduler.sstfScan s.d.head_position s.d.requests s.visited 0 none INT_MAX
    = res
  obtain ⟨nearest, m⟩ := res
  cases nearest with
  | none => exact ⟨rfl, rfl, hhead⟩
  | some k =>
    simp only
    cases hk : s.d.requests[k]? with
    | none => exact ⟨rfl, rfl, hhead⟩
    | some req =>
      simp only
      refine ⟨?_, ?_, ?_⟩
      · simp only [DiskScheduler.reduce32, wrapInt_add_left]
      · first | rfl | trivial
      · exact hcyl req (List.mem_iff_getElem?.mpr ⟨k, hk⟩)

theorem DiskScheduler.sstfState32_reduce (lo hi : Int) (hspan : hi - lo ≤ INT_MAX)
    (d : DiskScheduler) (hhead : lo ≤ d.head_position ∧ d.head_position ≤ hi)
    (hcyl : ∀ r ∈ d.requests, lo ≤ r.cylinder ∧ r.cylinder ≤ hi) :
    ∀ i : Nat,
      DiskScheduler.sstfState32 d i
          = { d := DiskScheduler.reduce32 (DiskScheduler.sstfState d i).d,
              visited := (DiskScheduler.sstfState d i).visited } ∧
        (DiskScheduler.sstfState d i).d.requests = d.requests ∧
        lo ≤ (DiskScheduler.sstfState d i).d.head_position ∧
        (DiskScheduler.sstfState d i).d.head_position ≤ hi := by
  intro i
  induction i with
  | zero =>
    refine ⟨?_, rfl, hhead⟩
    simp only [DiskScheduler.sstfState32, DiskScheduler.sstfState, Function.iterate_zero, id_eq,
      DiskScheduler.reduce32_start]
  | succ i ih =>
    obtain ⟨h1, h2, h3⟩ := ih
    have hstep := DiskScheduler.sstfBody32_reduce lo hi hspan (DiskScheduler.sstfState d i) h3
      (by rw [h2]; exact hcyl)
    have e32 : DiskScheduler.sstfState32 d (i + 1)
        = DiskScheduler.sstfBody32 (DiskScheduler.sstfState32 d i) := by
      simp only [DiskScheduler.sstfState32, Function.iterate_succ_apply']
    have e : DiskScheduler.sstfState d (i + 1)
        = DiskScheduler.sstfBody (DiskScheduler.sstfState d i) := by
      simp only [DiskScheduler.sstfState, Function.iterate_succ_apply']
    rw [e32, e, h1]
    exact ⟨hstep.1, hstep.2.1.trans h2, hstep.2.2⟩

theorem DiskScheduler.runSSTF32_reduce (lo hi : Int) (hspan : hi - lo ≤ INT_MAX)
    (d : DiskScheduler) (hhead : lo ≤ d.head_position ∧ d.head_position ≤ hi)
    (hcyl : ∀ r ∈ d.requests, lo ≤ r.cylinder ∧ r.cylinder ≤ hi) :
    DiskScheduler.runSSTF32 d = DiskScheduler.reduce32 d.runSSTF := by
  simp only [DiskScheduler.runSSTF32, DiskScheduler.runSSTF,
    (DiskScheduler.sstfState32_reduce lo hi hspan d hhead hcyl d.requests.length).1]

theorem seekSum_nonneg (l : List Int) : 0 ≤ seekSum l := by
  induction l with
  | nil => simp [seekSum]
  | cons a l ih =>
    cases l with
    | nil => simp [seekSum]
    | cons b l =>
      simp only [seekSum]
      have := abs_nonneg (b - a)
      omega

theorem SeekOK32.seek32_start (d : DiskScheduler) : SeekOK32 d.start := by
  refine ⟨rfl, fun _ => ?_⟩
  simp [DiskScheduler.start, seekSum]

theorem SeekOK32.seek32_seekTo32 (d : DiskScheduler) (cyl : Int) (h : SeekOK32 d) :
    SeekOK32 (d.seekTo32 cyl) := by
  refine ⟨by simp [DiskScheduler.seekTo32], ?_⟩
  simp only [DiskScheduler.seekTo32]
  rw [seekSum_append_singleton _ _ _ h.1]
  intro hle
  have h0 := seekSum_nonneg d.head_sequence
  have ha := abs_nonneg (cyl - d.head_position)
  have hab : |cyl - d.head_position| ≤ INT_MAX := by omega
  have hab2 := abs_le.mp hab
  rw [h.2 (by omega), wrapInt_eq (cyl - d.head_position) (by unfold INT_MAX at *; omega) hab2.2,
    wrapInt_eq _ (by omega) hab]
  exact wrapInt_eq _ (by omega) hle

theorem SeekOK32.seek32_sweep32 (keep : Int → Int → Bool) (cyls : List Int) :
    ∀ (d : DiskScheduler), SeekOK32 d → SeekOK32 (DiskScheduler.sweep32 keep cyls d) := by
  induction cyls with
  | nil => intro d h; exact h
  | cons cyl rest ih =>
    intro d h
    simp only [DiskScheduler.sweep32, List.foldl_cons]
    split_ifs
    · exact ih _ (SeekOK32.seek32_seekTo32 d cyl h)
    · exact ih _ h

theorem SeekOK32.seek32_foldl (rs : List DiskRequest) :
    ∀ (d : DiskScheduler), SeekOK32 d →
      SeekOK32 (rs.foldl (fun d req => d.seekTo32 req.cylinder) d) := by
  induction rs with
  | nil => intro d h; exact h
  | cons r rs ih =>
    intro d h
    simp only [List.foldl_cons]
    exact ih _ (SeekOK32.seek32_seekTo32 d r.cylinder h)

theorem DiskScheduler.sstfScan32_result (h : Int) (rs : List DiskRequest) :
    ∀ (vs : List Bool) (j : Nat) (nearest : Option Nat) (m : Int),
      DiskScheduler.sstfScan32 h rs vs j nearest m = (nearest, m) ∨
        ∃ (k : Nat) (rk : DiskRequest), rs[k]? = some rk ∧
          DiskScheduler.sstfScan32 h rs vs j nearest m
            = (some (j + k), wrapInt |wrapInt (rk.cylinder - h)|) := by
  induction rs with
  | nil => intro vs j nearest m; left; simp [DiskScheduler.sstfScan32]
  | cons r rs ih =>
    intro vs j nearest m
    cases vs with
    | nil => left; simp [DiskScheduler.sstfScan32]
    | cons v vs =>
      have hshift : ∀ (nearest2 : Option Nat) (m2 : Int),
          (DiskScheduler.sstfScan32 h rs vs (j + 1) nearest2 m2 = (nearest2, m2) ∨
            ∃ (k : Nat) (rk : DiskRequest), (r :: rs)[k]? = some rk ∧
              DiskScheduler.sstfScan32 h rs vs (j + 1) nearest2 m2
                = (some (j + k), wrapInt |wrapInt (rk.cylinder - h)|)) := by
        intro nearest2 m2
        rcases ih vs (j + 1) nearest2 m2 with h1 | ⟨k, rk, hk, h1⟩
        · exact Or.inl h1
        · refine Or.inr ⟨k + 1, rk, by simpa using hk, ?_⟩
          rw [h1]
          congr 2
          omega
      simp only [DiskScheduler.sstfScan32]
      by_cases hv : v = true
      · simp only [hv, Bool.not_true, Bool.false_eq_true, if_false]
        exact hshift nearest m
      · have hv2 : v = false := by simpa using hv
        simp only [hv2, Bool.not_false, if_true]
        by_cases hd : wrapInt |wrapInt (r.cylinder - h)| < m
        · simp only [hd, if_true]
          rcases hshift (some j) (wrapInt |wrapInt (r.cylinder - h)|) with h1 | h1
          · exact Or.inr ⟨0, r, by simp, by rw [h1]; rfl⟩
          · exact Or.inr h1
        · simp only [hd, if_false]
          exact hshift nearest m

theorem SeekOK32.seek32_sstfBody32 (s : DiskScheduler.SSTFState) (h : SeekOK32 s.d) :
    SeekOK32 (DiskScheduler.sstfBody32 s).d := by
  rcases DiskScheduler.sstfScan32_result s.d.head_position s.d.requests s.visited 0 none
      INT_MAX with hres | ⟨k, rk, hk, hres⟩
  · simp only [DiskScheduler.sstfBody32, hres]
    exact h
  · rw [Nat.zero_add] at hres
    have e : DiskScheduler.sstfBody32 s
        = { d := s.d.seekTo32 rk.cylinder, visited := s.visited.set k true } := by
      simp only [DiskScheduler.sstfBody32, hres, hk, DiskScheduler.seekTo32]
    rw [e]
    exact SeekOK32.seek32_seekTo32 _ _ h

theorem SeekOK32.seek32_sstfState32 (d : DiskScheduler) (i : Nat) :
    SeekOK32 (DiskScheduler.sstfState32 d i).d := by
  induction i with
  | zero => exact SeekOK32.seek32_start d
  | succ i ih =>
    have e : DiskScheduler.sstfState32 d (i + 1)
        = DiskScheduler.sstfBody32 (DiskScheduler.sstfState32 d i) := by
      simp only [DiskScheduler.sstfState32, Function.iterate_succ_apply']
    rw [e]
    exact SeekOK32.seek32_sstfBody32 _ ih

theorem SeekOK32.seek32_runFCFS32 (sorted : List DiskRequest) (d : DiskScheduler) :
    SeekOK32 (DiskScheduler.runFCFS32 sorted d) := by
  have h0 : SeekOK32 { d.start with requests := sorted } := SeekOK32.seek32_start d
  exact SeekOK32.seek32_foldl _ _ h0

theorem SeekOK32.seek32_runSCAN32 (move_up : Bool) (d : DiskScheduler) :
    SeekOK32 (DiskScheduler.runSCAN32 move_up d) := by
  cases move_up with
  | true =>
    simp only [DiskScheduler.runSCAN32, ↓reduceIte]
    exact SeekOK32.seek32_sweep32 _ _ _ (SeekOK32.seek32_sweep32 _ _ _ (SeekOK32.seek32_start d))
  | false =>
    simp only [DiskScheduler.runSCAN32, Bool.false_eq_true, ↓reduceIte]
    exact SeekOK32.seek32_sweep32 _ _ _ (SeekOK32.seek32_sweep32 _ _ _ (SeekOK32.seek32_start d))

theorem DiskScheduler.requests_sortedByArrival_unique (input requests : List DiskRequest)
    (hstrict : input.Pairwise (fun a b => a.arrival_time < b.arrival_time))
    (hsort : DiskScheduler.SortedByArrival input requests) : requests = input :=
  perm_sorted_eq_of_strict (fun r : DiskRequest => r.arrival_time) input requests hstrict
    hsort.1 hsort.2

theorem SeekOK.seek_runFCFS_on (sorted : List DiskRequest) (d : DiskScheduler) :
    SeekOK (sorted.foldl (fun d req => d.seekTo req.cylinder)
      { d.start with requests := sorted }) := by
  have h0 : SeekOK { d.start with requests := sorted } := by
    simp [SeekOK, DiskScheduler.start, seekSum]
  exact SeekOK.seek_foldl _ _ h0

theorem SeekOK.seek_runSCAN (move_up : Bool) (d : DiskScheduler) :
    SeekOK (DiskScheduler.runSCAN move_up d) := by
  cases move_up with
  | true =>
    simp only [DiskScheduler.runSCAN, ↓reduceIte]
    exact SeekOK.seek_sweep _ _ _ (SeekOK.seek_sweep _ _ _ (SeekOK.seek_start d))
  | false =>
    simp only [DiskScheduler.runSCAN, Bool.false_eq_true, ↓reduceIte]
    exact SeekOK.seek_sweep _ _ _ (SeekOK.seek_sweep _ _ _ (SeekOK.seek_start d))

theorem SeekOK.seek_reduce32 (d : DiskScheduler) (h : SeekOK d) :
    (DiskScheduler.reduce32 d).total_seek_time
        = wrapInt (seekSum (DiskScheduler.reduce32 d).head_sequence) ∧
      (seekSum (DiskScheduler.reduce32 d).head_sequence ≤ INT_MAX →
        (DiskScheduler.reduce32 d).total_seek_time
          = seekSum (DiskScheduler.reduce32 d).head_sequence) ∧
      (DiskScheduler.reduce32 d).head_sequence.getLast?
        = some (DiskScheduler.reduce32 d).head_position := by
  refine ⟨?_, ?_, h.2⟩
  · show wrapInt d.total_seek_time = wrapInt (seekSum d.head_sequence)
    rw [h.1]
  · intro hle
    show wrapInt d.total_seek_time = seekSum d.head_sequence
    rw [h.1]
    exact wrapInt_eq _ (by have := seekSum_nonneg d.head_sequence; omega) hle

/-- Counterexample for C8: head at 0 and two requests, at cylinder 2000000000
(arriving first) and at cylinder 0, the only order `std::sort` can leave.  The
head sequence is 0, 2000000000, 0 and the two moves are of 2000000000
cylinders each, but `runFCFS` reports the total seek time -294967296: the sum
4000000000 of the moves does not fit a 32-bit `int`. -/
theorem DiskScheduler.runFCFS32_total_wraps :
    DiskScheduler.SortedByArrival [⟨1, 2000000000, 0⟩, ⟨2, 0, 1⟩]
        [⟨1, 2000000000, 0⟩, ⟨2, 0, 1⟩] ∧
      (DiskScheduler.runFCFS32 [⟨1, 2000000000, 0⟩, ⟨2, 0, 1⟩]
        (DiskScheduler.new [⟨1, 2000000000, 0⟩, ⟨2, 0, 1⟩] 0 2000000000)).head_sequence
          = [0, 2000000000, 0] ∧
      (DiskScheduler.runFCFS32 [⟨1, 2000000000, 0⟩, ⟨2, 0, 1⟩]
        (DiskScheduler.new [⟨1, 2000000000, 0⟩, ⟨2, 0, 1⟩] 0 2000000000)).total_seek_time
          = -294967296 ∧
      |(2000000000 : Int) - 0| + |(0 : Int) - 2000000000| = 4000000000 := by
  decide

/-- C8 (amended): let `sorted` be the request vector of `runFCFS` as
`std::sort` leaves it, a permutation of the requests in non-decreasing order
of arrival time (any order among requests of equal arrival time).  In 32-bit
arithmetic the head sequence of `runFCFS` is the initial head position
followed by the cylinders of `sorted`, and the total seek time is the sum of
`|target - head|` over the moves whenever that sum is at most `INT_MAX`.
Within an interval `[lo, hi]` with `hi - lo <= INT_MAX` each move adds
`|target - head|` to the total modulo `2^32`, and if the head position and
all request cylinders lie in the interval, the total seek time is the sum over
the moves reduced to a 32-bit `int`.  For requests at cylinders 50, 20, 80
arriving in that order and head 40 the sequence is 40, 50, 20, 80 and the
total is 100. -/
theorem DiskScheduler.runFCFS32_sequence_and_total (d : DiskScheduler)
    (sorted : List DiskRequest) (hsort : DiskScheduler.SortedByArrival d.requests sorted) :
    (DiskScheduler.runFCFS32 sorted d).head_sequence
        = d.head_position :: sorted.map (fun r => r.cylinder) ∧
      (DiskScheduler.runFCFS32 sorted d).requests = sorted ∧
      (seekSum (DiskScheduler.runFCFS32 sorted d).head_sequence ≤ INT_MAX →
        (DiskScheduler.runFCFS32 sorted d).total_seek_time
          = seekSum (DiskScheduler.runFCFS32 sorted d).head_sequence) ∧
      (∀ lo hi : Int, hi - lo ≤ INT_MAX →
        (∀ (x : DiskScheduler) (cyl : Int), lo ≤ x.head_position ∧ x.head_position ≤ hi →
          lo ≤ cyl ∧ cyl ≤ hi →
            (x.seekTo32 cyl).total_seek_time
                = wrapInt (x.total_seek_time + |cyl - x.head_position|) ∧
              (x.seekTo32 cyl).head_position = cyl) ∧
        (lo ≤ d.head_position ∧ d.head_position ≤ hi →
          (∀ r ∈ d.requests, lo ≤ r.cylinder ∧ r.cylinder ≤ hi) →
            (DiskScheduler.runFCFS32 sorted d).total_seek_time
              = wrapInt (seekSum (DiskScheduler.runFCFS32 sorted d).head_sequence))) ∧
      ∀ s : List DiskRequest,
        DiskScheduler.SortedByArrival [⟨1, 50, 0⟩, ⟨2, 20, 1⟩, ⟨3, 80, 2⟩] s →
          (DiskScheduler.runFCFS32 s
            (DiskScheduler.new [⟨1, 50, 0⟩, ⟨2, 20, 1⟩, ⟨3, 80, 2⟩] 40 100)).head_sequence
              = [40, 50, 20, 80] ∧
          (DiskScheduler.runFCFS32 s
            (DiskScheduler.new [⟨1, 50, 0⟩, ⟨2, 20, 1⟩, ⟨3, 80, 2⟩] 40 100)).total_seek_time
              = 100 := by
  have hseq32 : ∀ (rs : List DiskRequest) (x : DiskScheduler),
      (rs.foldl (fun d req => d.seekTo32 req.cylinder) x).head_sequence
          = x.head_sequence ++ rs.map (fun r => r.cylinder) ∧
        (rs.foldl (fun d req => d.seekTo32 req.cylinder) x).requests = x.requests := by
    intro rs
    induction rs with
    | nil => intro x; simp
    | cons r rs ih =>
      intro x
      simp only [List.foldl_cons, List.map_cons]
      rw [(ih _).1, (ih _).2]
      simp [DiskScheduler.seekTo32]
  refine ⟨?_, ?_, (SeekOK32.seek32_runFCFS32 sorted d).2, ?_, ?_⟩
  · simp only [DiskScheduler.runFCFS32]
    rw [(hseq32 _ _).1]
    rfl
  · simp only [DiskScheduler.runFCFS32]
    rw [(hseq32 _ _).2]
  · intro lo hi hspan
    constructor
    · intro x cyl hx hc
      refine ⟨?_, rfl⟩
      simp only [DiskScheduler.seekTo32, wrapInt_abs_sub cyl _ lo hi hspan hc hx]
    · intro hhead hcyl
      have hcyl2 : ∀ r ∈ sorted, lo ≤ r.cylinder ∧ r.cylinder ≤ hi :=
        fun r hr => hcyl r (hsort.1.subset hr)
      have hred := DiskScheduler.runFCFS32_reduce lo hi hspan sorted d hhead hcyl2
      have hok := SeekOK.seek_reduce32 _ (SeekOK.seek_runFCFS_on sorted d)
      rw [← hred] at hok
      exact hok.1
  · intro s hs
    rw [DiskScheduler.requests_sortedByArrival_unique _ s (by decide) hs]
    decide

/-- Witness for C8 (amended): requests at cylinders 50, 20, 80 arriving in
that order, head 40, all within `[0, 100]`. -/
theorem DiskScheduler.runFCFS32_sequence_and_total_witness :
    DiskScheduler.SortedByArrival [⟨1, 50, 0⟩, ⟨2, 20, 1⟩, ⟨3, 80, 2⟩]
        [⟨1, 50, 0⟩, ⟨2, 20, 1⟩, ⟨3, 80, 2⟩] ∧
      (DiskScheduler.runFCFS32 [⟨1, 50, 0⟩, ⟨2, 20, 1⟩, ⟨3, 80, 2⟩]
        (DiskScheduler.new [⟨1, 50, 0⟩, ⟨2, 20, 1⟩, ⟨3, 80, 2⟩] 40 100)).head_sequence
          = (40 : Int) :: [50, 20, 80] :=
  ⟨by decide,
    (DiskScheduler.runFCFS32_sequence_and_total
      (DiskScheduler.new [⟨1, 50, 0⟩, ⟨2, 20, 1⟩, ⟨3, 80, 2⟩] 40 100)
      [⟨1, 50, 0⟩, ⟨2, 20, 1⟩, ⟨3, 80, 2⟩] (by decide)).1⟩

/-- Counterexample for C28: head at 1500000000 and requests at cylinders
2147483646 (arriving first) and 0.  `runFCFS`, `runSSTF` and `runSCAN` moving
up all produce the head sequence 1500000000, 2147483646, 0, whose absolute
differences sum to 2794967292, and all report the total seek time
-1500000004: the sum does not fit a 32-bit `int`. -/
theorem DiskScheduler.seek_total_wraps :
    DiskScheduler.SortedByArrival [⟨1, 2147483646, 0⟩, ⟨2, 0, 1⟩]
        [⟨1, 2147483646, 0⟩, ⟨2, 0, 1⟩] ∧
      (DiskScheduler.runFCFS32 [⟨1, 2147483646, 0⟩, ⟨2, 0, 1⟩]
        (DiskScheduler.new [⟨1, 2147483646, 0⟩, ⟨2, 0, 1⟩] 1500000000 2147483647)).head_sequence
          = [1500000000, 2147483646, 0] ∧
      (DiskScheduler.runFCFS32 [⟨1, 2147483646, 0⟩, ⟨2, 0, 1⟩]
        (DiskScheduler.new [⟨1, 2147483646, 0⟩, ⟨2, 0, 1⟩] 1500000000
          2147483647)).total_seek_time = -1500000004 ∧
      (DiskScheduler.new [⟨1, 2147483646, 0⟩, ⟨2, 0, 1⟩] 1500000000
        2147483647).runSSTF32.head_sequence = [1500000000, 2147483646, 0] ∧
      (DiskScheduler.new [⟨1, 2147483646, 0⟩, ⟨2, 0, 1⟩] 1500000000
        2147483647).runSSTF32.total_seek_time = -1500000004 ∧
      ((DiskScheduler.new [⟨1, 2147483646, 0⟩, ⟨2, 0, 1⟩] 1500000000
        2147483647).runSCAN32 true).head_sequence = [1500000000, 2147483646, 0] ∧
      ((DiskScheduler.new [⟨1, 2147483646, 0⟩, ⟨2, 0, 1⟩] 1500000000
        2147483647).runSCAN32 true).total_seek_time = -1500000004 ∧
      seekSum [1500000000, 2147483646, 0] = 2794967292 := by
  decide

/-- C28 (amended): let `sorted` be the request vector of `runFCFS` as
`std::sort` leaves it.  In 32-bit arithmetic, for every request list and head
position, `runFCFS`, `runSSTF` and `runSCAN` (either direction) end with a head
sequence that ends at the final head position, and with `total_seek_time`
equal to the sum of the absolute differences between consecutive elements of
that sequence whenever the sum is at most `INT_MAX`.  If the head position and
all request cylinders lie in an interval `[lo, hi]` with
`hi - lo <= INT_MAX`, the total is the sum reduced to a 32-bit `int`. -/
theorem DiskScheduler.seek_total_matches_sequence32 (d : DiskScheduler)
    (sorted : List DiskRequest) (move_up : Bool)
    (hsort : DiskScheduler.SortedByArrival d.requests sorted) :
    ((seekSum (DiskScheduler.runFCFS32 sorted d).head_sequence ≤ INT_MAX →
          (DiskScheduler.runFCFS32 sorted d).total_seek_time
            = seekSum (DiskScheduler.runFCFS32 sorted d).head_sequence) ∧
        (DiskScheduler.runFCFS32 sorted d).head_sequence.getLast?
          = some (DiskScheduler.runFCFS32 sorted d).head_position) ∧
      ((seekSum d.runSSTF32.head_sequence ≤ INT_MAX →
          d.runSSTF32.total_seek_time = seekSum d.runSSTF32.head_sequence) ∧
        d.runSSTF32.head_sequence.getLast? = some d.runSSTF32.head_position) ∧
      ((seekSum (d.runSCAN32 move_up).head_sequence ≤ INT_MAX →
          (d.runSCAN32 move_up).total_seek_time = seekSum (d.runSCAN32 move_up).head_sequence) ∧
        (d.runSCAN32 move_up).head_sequence.getLast?
          = some (d.runSCAN32 move_up).head_position) ∧
      (∀ lo hi : Int, hi - lo ≤ INT_MAX → lo ≤ d.head_position ∧ d.head_position ≤ hi →
        (∀ r ∈ d.requests, lo ≤ r.cylinder ∧ r.cylinder ≤ hi) →
          (DiskScheduler.runFCFS32 sorted d).total_seek_time
              = wrapInt (seekSum (DiskScheduler.runFCFS32 sorted d).head_sequence) ∧
            d.runSSTF32.total_seek_time = wrapInt (seekSum d.runSSTF32.head_sequence) ∧
            (d.runSCAN32 move_up).total_seek_time
              = wrapInt (seekSum (d.runSCAN32 move_up).head_sequence)) := by
  have h1 := SeekOK32.seek32_runFCFS32 sorted d
  have h2 : SeekOK32 d.runSSTF32 := SeekOK32.seek32_sstfState32 d d.requests.length
  have h3 := SeekOK32.seek32_runSCAN32 move_up d
  refine ⟨⟨h1.2, h1.1⟩, ⟨h2.2, h2.1⟩, ⟨h3.2, h3.1⟩, ?_⟩
  intro lo hi hspan hhead hcyl
  refine ⟨?_, ?_, ?_⟩
  · have hred := DiskScheduler.runFCFS32_reduce lo hi hspan sorted d hhead
      (fun r hr => hcyl r (hsort.1.subset hr))
    have hok := SeekOK.seek_reduce32 _ (SeekOK.seek_runFCFS_on sorted d)
    rw [← hred] at hok
    exact hok.1
  · have hred := DiskScheduler.runSSTF32_reduce lo hi hspan d hhead hcyl
    have hok := SeekOK.seek_reduce32 _ (SeekOK.seek_sstfState d d.requests.length)
    have e : (DiskScheduler.sstfState d d.requests.length).d = d.runSSTF := rfl
    rw [e, ← hred] at hok
    exact hok.1
  · have hred := DiskScheduler.runSCAN32_reduce lo hi hspan move_up d hhead hcyl
    have hok := SeekOK.seek_reduce32 _ (SeekOK.seek_runSCAN move_up d)
    rw [← hred] at hok
    exact hok.1

/-- Witness for C28 (amended): requests at cylinders 50, 20, 80 arriving in
that order, head 40, moving up; the sum over the sequence of `runSSTF` is
110. -/
theorem DiskScheduler.seek_total_matches_sequence32_witness :
    DiskScheduler.SortedByArrival [⟨1, 50, 0⟩, ⟨2, 20, 1⟩, ⟨3, 80, 2⟩]
        [⟨1, 50, 0⟩, ⟨2, 20, 1⟩, ⟨3, 80, 2⟩] ∧
      seekSum (DiskScheduler.new [⟨1, 50, 0⟩, ⟨2, 20, 1⟩, ⟨3, 80, 2⟩] 40
        100).runSSTF32.head_sequence ≤ INT_MAX ∧
      (DiskScheduler.new [⟨1, 50, 0⟩, ⟨2, 20, 1⟩, ⟨3, 80, 2⟩] 40 100).runSSTF32.total_seek_time
        = seekSum (DiskScheduler.new [⟨1, 50, 0⟩, ⟨2, 20, 1⟩, ⟨3, 80, 2⟩] 40
            100).runSSTF32.head_sequence :=
  ⟨by decide, by decide,
    (DiskScheduler.seek_total_matches_sequence32
      (DiskScheduler.new [⟨1, 50, 0⟩, ⟨2, 20, 1⟩, ⟨3, 80, 2⟩] 40 100)
      [⟨1, 50, 0⟩, ⟨2, 20, 1⟩, ⟨3, 80, 2⟩] true (by decide)).2.1.1 (by decide)⟩

/-- Counterexample for C29: a disk of size 2000000000, head at 1, one request
at cylinder 5, moving up (head and cylinder lie in `[0, disk_size]`).
`runSCAN` reports the total seek time 4 and `runCSCAN` reports -294967297,
which is less: its wrap cost `1999999995 + 2000000000` does not fit a 32-bit
`int`. -/
theorem DiskScheduler.runCSCAN32_total_below_scan :
    ((DiskScheduler.new [⟨1, 5, 0⟩] 1 2000000000).runSCAN32 true).total_seek_time = 4 ∧
      ((DiskScheduler.new [⟨1, 5, 0⟩] 1 2000000000).runCSCAN32 true).total_seek_time
        = -294967297 ∧
      ¬ (((DiskScheduler.new [⟨1, 5, 0⟩] 1 2000000000).runSCAN32 true).total_seek_time
        ≤ ((DiskScheduler.new [⟨1, 5, 0⟩] 1 2000000000).runCSCAN32 true).total_seek_time) := by
  decide

/-- C29 (amended): for every request list with cylinders in `[0, disk_size]`,
every head position `h` in `[0, disk_size]` and either direction, if the wrap
cost of C-SCAN fits a 32-bit `int` (`2 * disk_size - h <= INT_MAX` moving up,
`h + disk_size <= INT_MAX` moving down), then in 32-bit arithmetic the total
seek time of `runCSCAN` is at least the total seek time of `runSCAN` from the
same state. -/
theorem DiskScheduler.cscan_total_ge_scan32 (d : DiskScheduler) (move_up : Bool)
    (hhead : 0 ≤ d.head_position ∧ d.head_position ≤ d.disk_size)
    (hcyl : ∀ r ∈ d.requests, 0 ≤ r.cylinder ∧ r.cylinder ≤ d.disk_size)
    (hfit : (if move_up then 2 * d.disk_size - d.head_position
      else d.head_position + d.disk_size) ≤ INT_MAX) :
    (d.runSCAN32 move_up).total_seek_time ≤ (d.runCSCAN32 move_up).total_seek_time := by
  have hsize : d.disk_size ≤ INT_MAX := by
    split_ifs at hfit <;> omega
  have hspan : d.disk_size - 0 ≤ INT_MAX := by omega
  rw [DiskScheduler.runSCAN32_reduce 0 d.disk_size hspan move_up d hhead hcyl,
    DiskScheduler.runCSCAN32_reduce move_up d hsize hhead hcyl]
  have hle := DiskScheduler.cscan_total_ge_scan_ideal d move_up hhead hcyl
  have hform := DiskScheduler.cscan_total_closed_form_ideal d hhead hcyl
  have h0 : 0 ≤ (DiskScheduler.runSCAN move_up d).total_seek_time := by
    have hok := (SeekOK.seek_runSCAN move_up d).1
    rw [hok]
    exact seekSum_nonneg _
  have hc : (DiskScheduler.runCSCAN move_up d).total_seek_time ≤ INT_MAX := by
    cases move_up with
    | true => rw [hform.1]; simpa using hfit
    | false => rw [hform.2]; simpa using hfit
  show wrapInt (DiskScheduler.runSCAN move_up d).total_seek_time
    ≤ wrapInt (DiskScheduler.runCSCAN move_up d).total_seek_time
  rw [wrapInt_eq _ (by omega) (by omega), wrapInt_eq _ (by omega) hc]
  exact hle

/-- Witness for C29 (amended): requests at cylinders 50, 20, 80 with the head
at 40 on a disk of size 100, moving up: `runSCAN` totals 100 and `runCSCAN`
160. -/
theorem DiskScheduler.cscan_total_ge_scan32_witness :
    ((DiskScheduler.new [⟨1, 50, 0⟩, ⟨2, 20, 1⟩, ⟨3, 80, 2⟩] 40 100).runSCAN32
        true).total_seek_time = 100 ∧
      ((DiskScheduler.new [⟨1, 50, 0⟩, ⟨2, 20, 1⟩, ⟨3, 80, 2⟩] 40 100).runCSCAN32
        true).total_seek_time = 160 ∧
      ((DiskScheduler.new [⟨1, 50, 0⟩, ⟨2, 20, 1⟩, ⟨3, 80, 2⟩] 40 100).runSCAN32
          true).total_seek_time
        ≤ ((DiskScheduler.new [⟨1, 50, 0⟩, ⟨2, 20, 1⟩, ⟨3, 80, 2⟩] 40 100).runCSCAN32
            true).total_seek_time :=
  ⟨by decide, by decide,
    DiskScheduler.cscan_total_ge_scan32
      (DiskScheduler.new [⟨1, 50, 0⟩, ⟨2, 20, 1⟩, ⟨3, 80, 2⟩] 40 100) true
      (by decide) (by decide) (by decide)⟩

/-- Counterexample for C35: a disk of size 1500000000, head at 100, requests
at cylinders 200 and 50, moving up (head and cylinders lie in
`[0, disk_size]`).  `2 * disk_size - h` is 2999999900, but `runCSCAN` reports
the total seek time -1294967396: the value does not fit a 32-bit `int`. -/
theorem DiskScheduler.runCSCAN32_total_wraps :
    ((DiskScheduler.new [⟨1, 200, 0⟩, ⟨2, 50, 1⟩] 100 1500000000).runCSCAN32
        true).total_seek_time = -1294967396 ∧
      (2 * 1500000000 - 100 : Int) = 2999999900 := by
  decide

/-- C35 (amended): for every request list with cylinders in `[0, disk_size]`
and head position `h` in `[0, disk_size]`, in 32-bit arithmetic the total seek
time of `runCSCAN` is exactly `2 * disk_size - h` moving toward higher
cylinders when `2 * disk_size - h <= INT_MAX`, and exactly `h + disk_size`
moving toward lower cylinders when `h + disk_size <= INT_MAX`, whatever the
requests are; for every `disk_size <= INT_MAX` it is that value reduced to a
32-bit `int`. -/
theorem DiskScheduler.cscan_total_closed_form32 (d : DiskScheduler)
    (hhead : 0 ≤ d.head_position ∧ d.head_position ≤ d.disk_size)
    (hcyl : ∀ r ∈ d.requests, 0 ≤ r.cylinder ∧ r.cylinder ≤ d.disk_size) :
    (2 * d.disk_size - d.head_position ≤ INT_MAX →
        (d.runCSCAN32 true).total_seek_time = 2 * d.disk_size - d.head_position) ∧
      (d.head_position + d.disk_size ≤ INT_MAX →
        (d.runCSCAN32 false).total_seek_time = d.head_position + d.disk_size) ∧
      (d.disk_size ≤ INT_MAX →
        (d.runCSCAN32 true).total_seek_time = wrapInt (2 * d.disk_size - d.head_position) ∧
        (d.runCSCAN32 false).total_seek_time = wrapInt (d.head_position + d.disk_size)) := by
  have hform := DiskScheduler.cscan_total_closed_form_ideal d hhead hcyl
  have h1 : d.disk_size ≤ INT_MAX → (d.runCSCAN32 true).total_seek_time
      = wrapInt (2 * d.disk_size - d.head_position) := by
    intro hsize
    rw [DiskScheduler.runCSCAN32_reduce true d hsize hhead hcyl, ← hform.1]
    rfl
  have h2 : d.disk_size ≤ INT_MAX → (d.runCSCAN32 false).total_seek_time
      = wrapInt (d.head_position + d.disk_size) := by
    intro hsize
    rw [DiskScheduler.runCSCAN32_reduce false d hsize hhead hcyl, ← hform.2]
    rfl
  refine ⟨?_, ?_, fun hsize => ⟨h1 hsize, h2 hsize⟩⟩
  · intro h
    rw [h1 (by omega)]
    exact wrapInt_eq _ (by omega) h
  · intro h
    rw [h2 (by omega)]
    exact wrapInt_eq _ (by omega) h

/-- Witness for C35 (amended): requests at cylinders 50, 20, 80, head 40,
disk size 100: the totals are 160 and 140. -/
theorem DiskScheduler.cscan_total_closed_form32_witness :
    ((DiskScheduler.new [⟨1, 50, 0⟩, ⟨2, 20, 1⟩, ⟨3, 80, 2⟩] 40 100).runCSCAN32
        true).total_seek_time = 2 * 100 - 40 ∧
      ((DiskScheduler.new [⟨1, 50, 0⟩, ⟨2, 20, 1⟩, ⟨3, 80, 2⟩] 40 100).runCSCAN32
        false).total_seek_time = 40 + 100 :=
  ⟨(DiskScheduler.cscan_total_closed_form32
      (DiskScheduler.new [⟨1, 50, 0⟩, ⟨2, 20, 1⟩, ⟨3, 80, 2⟩] 40 100)
      (by decide) (by decide)).1 (by decide),
    (DiskScheduler.cscan_total_closed_form32
      (DiskScheduler.new [⟨1, 50, 0⟩, ⟨2, 20, 1⟩, ⟨3, 80, 2⟩] 40 100)
      (by decide) (by decide)).2.1 (by decide)⟩

/-! ### The `INT_MAX` sentinels and the empty request list, evaluated -/

/-- C15, evaluated on the code: one task (id 1, arrival 0, burst 2147483647,
priority 1).  At the first tick, clock 0, the task has arrived and has the
positive remaining time 2147483647, yet the selection scan of `runSRJF` selects
nothing: `min_remaining` starts at `INT_MAX` and the scan compares with a
strict `<`.  No task is served for this tick; the loop body leaves the
remaining time and the clock as they were (in unbounded and in 32-bit
arithmetic alike). -/
theorem CPUScheduler.srjfSelect_skips_sentinel_remaining :
    CPUScheduler.srjfLoopState [mkProcess 1 0 2147483647 1] 0
        = { completed := [mkProcess 1 0 2147483647 1], remaining_time := [2147483647],
            current_time := 0, processed := 0 } ∧
      CPUScheduler.srjfSelect (CPUScheduler.srjfLoopState [mkProcess 1 0 2147483647 1] 0)
        = none ∧
      CPUScheduler.srjfLoopState [mkProcess 1 0 2147483647 1] 1
        = CPUScheduler.srjfLoopState [mkProcess 1 0 2147483647 1] 0 ∧
      CPUScheduler.tickBody32 CPUScheduler.srjfSelect
          (CPUScheduler.srjfLoopState [mkProcess 1 0 2147483647 1] 0)
        = CPUScheduler.srjfLoopState [mkProcess 1 0 2147483647 1] 0 := by
  decide

/-- C17, evaluated on the code.  For one task (id 1, arrival 0,
burst 2147483647, priority 1) the loop of `runSRJF` holds its condition and its
body leaves the state unchanged, so `runSRJF` returns within no iteration
budget: the scan never selects a remaining time equal to its sentinel
`INT_MAX`, and the idle branch finds no later arrival.  For one task (id 1,
arrival 2147483647, burst 1, priority 1) the same happens in `runSRJF` and in
`runPreemptivePriority`: nothing has arrived at clock 0 and the idle branch
takes the arrival time 2147483647 for its sentinel "no arrival found", so the
clock is not moved. -/
theorem CPUScheduler.tick_loops_stall_at_sentinel :
    (CPUScheduler.tickCond (CPUScheduler.srjfLoopState [mkProcess 1 0 2147483647 1] 0) = true ∧
        CPUScheduler.srjfLoopState [mkProcess 1 0 2147483647 1] 1
          = CPUScheduler.srjfLoopState [mkProcess 1 0 2147483647 1] 0 ∧
        ∀ fuel : Nat, CPUScheduler.runSRJF fuel [mkProcess 1 0 2147483647 1] = none) ∧
      (CPUScheduler.tickCond (CPUScheduler.srjfLoopState [mkProcess 1 2147483647 1 1] 0)
          = true ∧
        CPUScheduler.srjfLoopState [mkProcess 1 2147483647 1 1] 1
          = CPUScheduler.srjfLoopState [mkProcess 1 2147483647 1 1] 0 ∧
        ∀ fuel : Nat, CPUScheduler.runSRJF fuel [mkProcess 1 2147483647 1 1] = none) ∧
      (CPUScheduler.tickCond (CPUScheduler.priorityLoopState [mkProcess 1 2147483647 1 1] 0)
          = true ∧
        CPUScheduler.priorityLoopState [mkProcess 1 2147483647 1 1] 1
          = CPUScheduler.priorityLoopState [mkProcess 1 2147483647 1 1] 0 ∧
        ∀ fuel : Nat,
          CPUScheduler.runPreemptivePriority fuel [mkProcess 1 2147483647 1 1] = none) := by
  have hstall : ∀ (select : CPUScheduler.SimState → Option Nat) (s : CPUScheduler.SimState),
      CPUScheduler.tickCond s = true → CPUScheduler.tickBody select s = s →
        ∀ fuel : Nat, whileLoop CPUScheduler.tickCond (CPUScheduler.tickBody select) fuel s
          = none := by
    intro select s hcond hbody fuel
    induction fuel with
    | zero => rfl
    | succ fuel ih => simp only [whileLoop, hcond, if_true, hbody, ih]
  refine ⟨⟨by decide, by decide, ?_⟩, ⟨by decide, by decide, ?_⟩, ⟨by decide, by decide, ?_⟩⟩
  · intro fuel
    have h := hstall CPUScheduler.srjfSelect
      (CPUScheduler.tickInit (CPUScheduler.sortByArrival [mkProcess 1 0 2147483647 1]))
      (by decide) (by decide) fuel
    simp only [CPUScheduler.runSRJF, h, Option.map_none']
  · intro fuel
    have h := hstall CPUScheduler.srjfSelect
      (CPUScheduler.tickInit (CPUScheduler.sortByArrival [mkProcess 1 2147483647 1 1]))
      (by decide) (by decide) fuel
    simp only [CPUScheduler.runSRJF, h, Option.map_none']
  · intro fuel
    have h := hstall CPUScheduler.prioritySelect
      (CPUScheduler.tickInit [mkProcess 1 2147483647 1 1]) (by decide) (by decide) fuel
    simp only [CPUScheduler.runPreemptivePriority, h, Option.map_none']

/-- C27, evaluated on the code: head at 1, requests at cylinders 0 and
2147483647.  `runSSTF` visits cylinder 0 and then stops: from head 0 the
request at cylinder 2147483647 is at distance 2147483647, and the scan, which
starts `min_distance` at `INT_MAX` and compares with a strict `<`, never
selects it.  The head sequence is 1, 0, the request at cylinder 2147483647
stays unvisited, and the total seek time is 1 (in unbounded and in 32-bit
arithmetic alike). -/
theorem DiskScheduler.runSSTF_leaves_sentinel_distance_unvisited :
    (DiskScheduler.new [⟨1, 0, 0⟩, ⟨2, 2147483647, 1⟩] 1 2147483647).runSSTF.head_sequence
        = [1, 0] ∧
      (DiskScheduler.new [⟨1, 0, 0⟩, ⟨2, 2147483647, 1⟩] 1 2147483647).runSSTF.total_seek_time
        = 1 ∧
      (DiskScheduler.sstfState
        (DiskScheduler.new [⟨1, 0, 0⟩, ⟨2, 2147483647, 1⟩] 1 2147483647) 2).visited
          = [true, false] ∧
      (DiskScheduler.new [⟨1, 0, 0⟩, ⟨2, 2147483647, 1⟩] 1 2147483647).runSSTF32.head_sequence
        = [1, 0] ∧
      (DiskScheduler.new [⟨1, 0, 0⟩, ⟨2, 2147483647, 1⟩] 1
        2147483647).runSSTF32.total_seek_time = 1 ∧
      (DiskScheduler.sstfState32
        (DiskScheduler.new [⟨1, 0, 0⟩, ⟨2, 2147483647, 1⟩] 1 2147483647) 2).visited
          = [true, false] := by
  decide

/-- C30, evaluated on the code: no requests, head at 40, disk size 100.
`runFCFS`, `runSSTF` and `runSCAN` report the total seek time 0 and the head
sequence 40; `runCSCAN` reports 160 moving up (its wrap cost
`|100 - 40| + 100`, head sequence 40, 0) and 140 moving down (`40 + 100`, head
sequence 40, 100), and leaves the head at 0, respectively 100.  The average
seek time printed after each of the four is 0. -/
theorem DiskScheduler.runCSCAN_empty_total_nonzero :
    ((DiskScheduler.new [] 40 100).runFCFS.total_seek_time = 0 ∧
        (DiskScheduler.new [] 40 100).runSSTF.total_seek_time = 0 ∧
        ((DiskScheduler.new [] 40 100).runSCAN true).total_seek_time = 0 ∧
        ((DiskScheduler.new [] 40 100).runSCAN false).total_seek_time = 0) ∧
      (((DiskScheduler.new [] 40 100).runCSCAN true).total_seek_time = 160 ∧
        ((DiskScheduler.new [] 40 100).runCSCAN true).head_sequence = [40, 0] ∧
        ((DiskScheduler.new [] 40 100).runCSCAN true).head_position = 0 ∧
        ((DiskScheduler.new [] 40 100).runCSCAN false).total_seek_time = 140 ∧
        ((DiskScheduler.new [] 40 100).runCSCAN false).head_sequence = [40, 100] ∧
        ((DiskScheduler.new [] 40 100).runCSCAN false).head_position = 100) ∧
      (((DiskScheduler.new [] 40 100).runCSCAN32 true).total_seek_time = 160 ∧
        ((DiskScheduler.new [] 40 100).runCSCAN32 false).total_seek_time = 140) ∧
      ((DiskScheduler.new [] 40 100).runFCFS.avgSeekTime = 0 ∧
        ((DiskScheduler.new [] 40 100).runCSCAN true).avgSeekTime = 0 ∧
        ((DiskScheduler.new [] 40 100).runCSCAN false).avgSeekTime = 0) := by
  refine ⟨by decide, by decide, by decide, ?_, ?_, ?_⟩
  · exact (DiskScheduler.empty_requests_runs (DiskScheduler.new [] 40 100) true rfl).2.2.2.2.2.1
  · exact (DiskScheduler.empty_requests_runs (DiskScheduler.new [] 40 100) true
      rfl).2.2.2.2.2.2.2.2
  · exact (DiskScheduler.empty_requests_runs (DiskScheduler.new [] 40 100) false
      rfl).2.2.2.2.2.2.2.2
